import Mathlib

/-!
# Dense product kernels and Householder reflectors

A shallow embedding of the blocked matrix product drivers
(`GeneralMatrixMatrix.h`, `TriangularMatrixMatrix.h`) and of the Householder
primitives (`Householder.h`), over exact arithmetic.

* Scalars are the elements of a commutative ring `K` with a star operation
  (`star` is `ei_conj`); rounding is not modelled.
* A pointer is a function `Nat → K` from offsets to values; `ptrAdd` is pointer
  arithmetic.  Destination memory is updated functionally.
* Packed buffers are indexed by (row, depth) for the lhs and (depth, column)
  for the rhs: their physical layout is private to the packer / kernel pair.
* Loops whose step is a block size are run with explicit fuel and return
  `none` when the fuel runs out (a zero block size never terminates).
-/

namespace Eigen

/-! ## Storage and scalar helpers -/

/-- Storage order of a dense operand. -/
inductive StorageOrder where
  | ColMajor : StorageOrder
  | RowMajor : StorageOrder
  deriving DecidableEq, Repr

/-- The template expression `Order==RowMajor ? ColMajor : RowMajor`. -/
def StorageOrder.flip : StorageOrder → StorageOrder
  | StorageOrder.RowMajor => StorageOrder.ColMajor
  | StorageOrder.ColMajor => StorageOrder.RowMajor

/-- Modelled from the spec: `ei_const_blas_data_mapper` (declared outside the
given sources).  A tile with outer stride `stride` has coefficient `(i, j)` at
offset `i + j*stride` when column-major and `j + i*stride` when row-major. -/
def blasIndex (order : StorageOrder) (stride i j : Nat) : Nat :=
  match order with
  | StorageOrder.ColMajor => i + j * stride
  | StorageOrder.RowMajor => j + i * stride

/-- Pointer arithmetic `p + off`. -/
def ptrAdd {K : Type} (p : Nat → K) (off : Nat) : Nat → K :=
  fun n => p (off + n)

/-- Modelled from the spec: the functor `ei_conj_if<Conjugate>` (declared
outside the given sources), "conjugate on read": the conjugate when the flag
is set, the value itself otherwise. -/
def ei_conj_if {K : Type} [Star K] (c : Bool) (x : K) : K :=
  if c then star x else x

/-- The matrix read through a data mapper: `readMat order stride p i j` is
`mapper(i, j)` for the mapper built on pointer `p`. -/
def readMat {K : Type} (order : StorageOrder) (stride : Nat) (p : Nat → K) (i j : Nat) : K :=
  p (blasIndex order stride i j)

/-- Modelled from the spec: the memory image of a dense matrix `M` stored with
outer stride `stride` (what `data()` and `outerStride()` of a plain matrix
give; the class is outside the given sources): the value at offset `off` is
the coefficient that the data mapper of that order places there. -/
def encode {K : Type} (order : StorageOrder) (stride : Nat) (M : Nat → Nat → K) : Nat → K :=
  fun off =>
    match order with
    | StorageOrder.ColMajor => M (off % stride) (off / stride)
    | StorageOrder.RowMajor => M (off / stride) (off % stride)

/-- The transpose of a matrix given by its coefficients. -/
def transposeMat {K : Type} (M : Nat → Nat → K) : Nat → Nat → K :=
  fun i j => M j i

/-- The loop `acc = 0; for (p = 0; p < n; ++p) acc += f p`. -/
def accumulate {K : Type} [Zero K] [Add K] (f : Nat → K) : Nat → K
  | 0 => 0
  | n + 1 => accumulate f n + f n

/-! ## Packers and micro-kernel -/

/-- Modelled from the spec: `ei_gemm_pack_lhs` (its definition is outside the
given sources).  Copies the `rows × depth` block that starts at pointer `lhs`
into the packed buffer, conjugating on read when asked and multiplying by the
scalar factor; coefficients outside the block keep the previous content
`old`. -/
def ei_gemm_pack_lhs {K : Type} [Mul K] [Star K] (order : StorageOrder) (conj : Bool)
    (old : Nat → Nat → K) (lhs : Nat → K) (lhsStride depth rows : Nat) (alpha : K) :
    Nat → Nat → K :=
  fun i p =>
    if i < rows ∧ p < depth then alpha * ei_conj_if conj (lhs (blasIndex order lhsStride i p))
    else old i p

/-- Modelled from the spec: `ei_gemm_pack_rhs` (its definition is outside the
given sources), in panel mode when `stride`/`offset` are used: the
`depth × cols` block that starts at pointer `rhs` is written to the rows
`offset .. offset + depth` of the packed panel, each coefficient conjugated on
read when asked and multiplied by `alpha`.  The plain call is `offset = 0`. -/
def ei_gemm_pack_rhs {K : Type} [Mul K] [Star K] (order : StorageOrder) (conj : Bool)
    (old : Nat → Nat → K) (rhs : Nat → K) (rhsStride : Nat) (alpha : K) (depth cols : Nat)
    (offset : Nat) : Nat → Nat → K :=
  fun p j =>
    if offset ≤ p ∧ p < offset + depth ∧ j < cols then
      alpha * ei_conj_if conj (rhs (blasIndex order rhsStride (p - offset) j))
    else old p j

/-- One destination column of `ei_gebp_kernel`: rows `0 .. rows` of column `j`
of the tile at offset `off` each receive their accumulated product. -/
def gebpColumn {K : Type} [Zero K] [Add K] [Mul K] [Star K] (conjA conjB : Bool)
    (off resStride : Nat) (blockA blockB : Nat → Nat → K) (depth offsetA offsetB j : Nat) :
    Nat → (Nat → K) → (Nat → K)
  | 0, res => res
  | i + 1, res =>
    let r := gebpColumn conjA conjB off resStride blockA blockB depth offsetA offsetB j i res
    Function.update r (off + i + j * resStride)
      (r (off + i + j * resStride) +
        accumulate (fun p => ei_conj_if conjA (blockA i (offsetA + p)) *
          ei_conj_if conjB (blockB (offsetB + p) j)) depth)

/-- Modelled from the spec: `ei_gebp_kernel` (its definition is outside the
given sources).  For every column `j < cols` and row `i < rows` of the
destination tile at `res + off`, the products of packed lhs row `i` and packed
rhs column `j` over `depth` are accumulated from zero and added to the stored
coefficient.  `offsetA`/`offsetB` are the depth offsets into the packed
panels.  The register tiling `mr × nr` only groups independent accumulators and
is not represented. -/
def ei_gebp_kernel {K : Type} [Zero K] [Add K] [Mul K] [Star K] (conjA conjB : Bool)
    (off resStride : Nat) (blockA blockB : Nat → Nat → K) (rows depth : Nat)
    (offsetA offsetB : Nat) : Nat → (Nat → K) → (Nat → K)
  | 0, res => res
  | j + 1, res =>
    gebpColumn conjA conjB off resStride blockA blockB depth offsetA offsetB j rows
      (ei_gebp_kernel conjA conjB off resStride blockA blockB rows depth offsetA offsetB j res)

/-! ## General matrix-matrix product (sequential driver) -/

/-- The values that the blocking handle `ei_level3_blocking` hands to the
driver: the block sizes and the initial content of its packed buffers. -/
structure ei_level3_blocking (K : Type) where
  kc : Nat
  mc : Nat
  blockA : Nat → Nat → K
  blockB : Nat → Nat → K

/-- The inner loop `for (i2 = 0; i2 < rows; i2 += mc)` of the sequential
driver: pack one lhs block, call the kernel on it.  Returns the destination and
the lhs buffer. -/
def gemmRowLoop {K : Type} [Zero K] [Add K] [Mul K] [Star K]
    (lhsOrder : StorageOrder) (conjLhs : Bool) (rows cols mc k2 actual_kc : Nat)
    (lhs : Nat → K) (lhsStride resStride : Nat) (lhsAlpha : K) (blockB : Nat → Nat → K) :
    Nat → Nat → (Nat → Nat → K) → (Nat → K) → Option ((Nat → Nat → K) × (Nat → K))
  | 0, i2, blockA, res => if i2 < rows then none else some (blockA, res)
  | fuel + 1, i2, blockA, res =>
    if i2 < rows then
      let actual_mc := min (i2 + mc) rows - i2
      let blockA1 := ei_gemm_pack_lhs lhsOrder conjLhs blockA
        (ptrAdd lhs (blasIndex lhsOrder lhsStride i2 k2)) lhsStride actual_kc actual_mc lhsAlpha
      let res1 := ei_gebp_kernel false false i2 resStride blockA1 blockB actual_mc actual_kc
        0 0 cols res
      gemmRowLoop lhsOrder conjLhs rows cols mc k2 actual_kc lhs lhsStride resStride lhsAlpha
        blockB fuel (i2 + mc) blockA1 res1
    else some (blockA, res)

/-- The outer loop `for (k2 = 0; k2 < depth; k2 += kc)` of the sequential
driver: pack one horizontal rhs panel, then run the inner loop on it. -/
def gemmDepthLoop {K : Type} [Zero K] [Add K] [Mul K] [Star K]
    (lhsOrder : StorageOrder) (conjLhs : Bool) (rhsOrder : StorageOrder) (conjRhs : Bool)
    (rows cols depth kc mc : Nat) (lhs : Nat → K) (lhsStride : Nat) (rhs : Nat → K)
    (rhsStride resStride : Nat) (lhsAlpha rhsAlpha : K) :
    Nat → Nat → (Nat → Nat → K) → (Nat → Nat → K) → (Nat → K) → Option (Nat → K)
  | 0, k2, _, _, res => if k2 < depth then none else some res
  | fuel + 1, k2, blockA, blockB, res =>
    if k2 < depth then
      let actual_kc := min (k2 + kc) depth - k2
      let blockB1 := ei_gemm_pack_rhs rhsOrder conjRhs blockB
        (ptrAdd rhs (blasIndex rhsOrder rhsStride k2 0)) rhsStride rhsAlpha actual_kc cols 0
      match gemmRowLoop lhsOrder conjLhs rows cols mc k2 actual_kc lhs lhsStride resStride
          lhsAlpha blockB1 rows 0 blockA res with
      | none => none
      | some (blockA1, res1) =>
        gemmDepthLoop lhsOrder conjLhs rhsOrder conjRhs rows cols depth kc mc lhs lhsStride rhs
          rhsStride resStride lhsAlpha rhsAlpha fuel (k2 + kc) blockA1 blockB1 res1
    else some res

/-- The sequential branch of
`ei_general_matrix_matrix_product<..., ColMajor>::run` (the branch taken
without a `GemmParallelInfo`).  `alphaOnLhs` is the trait predicate
`NumTraits<LhsScalar>::IsComplex && !NumTraits<RhsScalar>::IsComplex`;
`ei_get_factor` is the identity on a common scalar type.  The loops get
`depth` and `rows` units of fuel, which is enough for any positive step. -/
def runColMajor {K : Type} [Zero K] [One K] [Add K] [Mul K] [Star K]
    (lhsOrder : StorageOrder) (conjLhs : Bool) (rhsOrder : StorageOrder) (conjRhs : Bool)
    (alphaOnLhs : Bool) (rows cols depth : Nat) (lhs : Nat → K) (lhsStride : Nat)
    (rhs : Nat → K) (rhsStride : Nat) (res : Nat → K) (resStride : Nat) (alpha : K)
    (blocking : ei_level3_blocking K) : Option (Nat → K) :=
  let kc := blocking.kc
  let mc := min rows blocking.mc
  let lhsAlpha : K := if alphaOnLhs then alpha else 1
  let rhsAlpha : K := if alphaOnLhs then 1 else alpha
  gemmDepthLoop lhsOrder conjLhs rhsOrder conjRhs rows cols depth kc mc lhs lhsStride rhs
    rhsStride resStride lhsAlpha rhsAlpha depth 0 blocking.blockA blocking.blockB res

/-- The two specialisations of `ei_general_matrix_matrix_product::run` on the
storage order of the destination.  A row-major destination transposes the
product: sizes, operands and conjugation flags are swapped, both operand
orders are flipped, and the column-major code runs.  `alphaOnLhs` is the trait
predicate as the column-major code that runs evaluates it. -/
def ei_general_matrix_matrix_product_run {K : Type} [Zero K] [One K] [Add K] [Mul K] [Star K]
    (lhsOrder : StorageOrder) (conjLhs : Bool) (rhsOrder : StorageOrder) (conjRhs : Bool)
    (resOrder : StorageOrder) (alphaOnLhs : Bool) (rows cols depth : Nat)
    (lhs : Nat → K) (lhsStride : Nat) (rhs : Nat → K) (rhsStride : Nat)
    (res : Nat → K) (resStride : Nat) (alpha : K) (blocking : ei_level3_blocking K) :
    Option (Nat → K) :=
  match resOrder with
  | StorageOrder.RowMajor =>
    runColMajor rhsOrder.flip conjRhs lhsOrder.flip conjLhs alphaOnLhs cols rows depth
      rhs rhsStride lhs lhsStride res resStride alpha blocking
  | StorageOrder.ColMajor =>
    runColMajor lhsOrder conjLhs rhsOrder conjRhs alphaOnLhs rows cols depth
      lhs lhsStride rhs rhsStride res resStride alpha blocking

/-! ## Triangular matrix-matrix product -/

/-- The template parameter `Mode` of the triangular product, by the two tests
the drivers make on it: `IsLower = (Mode&Lower) == Lower` and `Mode&UnitDiag`. -/
structure TriangularMode where
  isLower : Bool
  unitDiag : Bool
  deriving DecidableEq, Repr

/-- The assignment `m.coeffRef(i, j) = v` on a dense matrix. -/
def setCoeff {K : Type} (M : Nat → Nat → K) (i j : Nat) (v : K) : Nat → Nat → K :=
  fun a b => if a = i ∧ b = j then v else M a b

/-- The scratch matrix after `triangularBuffer.setZero()` and
`triangularBuffer.diagonal().setOnes()`. -/
def triangularBufferInit {K : Type} [Zero K] [One K] : Nat → Nat → K :=
  fun i k => if i = k then 1 else 0

/-- The loop `for (i = first; i < first + count; ++i)
triangularBuffer.coeffRef(i,k) = tri(startBlock+i, startBlock+k)` over one
column of the scratch matrix; `tri` is the mapper of the triangular operand. -/
def copyTriangularColumn {K : Type} (tri : Nat → Nat → K) (startBlock k first : Nat) :
    Nat → (Nat → Nat → K) → (Nat → Nat → K)
  | 0, buf => buf
  | c + 1, buf =>
    setCoeff (copyTriangularColumn tri startBlock k first c buf) (first + c) k
      (tri (startBlock + (first + c)) (startBlock + k))

/-- The triangular copy of a diagonal micro block into the scratch matrix:
`for (k = 0; k < actualPanelWidth; ++k)`, the diagonal coefficient is copied
unless `Mode&UnitDiag`, then the rows `k+1 .. actualPanelWidth` (lower) or
`0 .. k` (upper) of column `k` are copied.  The counter of the outer loop is
the recursion argument. -/
def copyTriangularBlock {K : Type} (mode : TriangularMode) (tri : Nat → Nat → K)
    (startBlock actualPanelWidth : Nat) : Nat → (Nat → Nat → K) → (Nat → Nat → K)
  | 0, buf => buf
  | k + 1, buf =>
    let b := copyTriangularBlock mode tri startBlock actualPanelWidth k buf
    let b1 := if mode.unitDiag then b else setCoeff b k k (tri (startBlock + k) (startBlock + k))
    copyTriangularColumn tri startBlock k (if mode.isLower then k + 1 else 0)
      (if mode.isLower then actualPanelWidth - (k + 1) else k) b1

/-- The body of the loop over the small vertical panels of one depth strip of
a triangular lhs, at panel offset `k1`: the diagonal micro block goes through
the scratch matrix ("GEBP with the micro triangular block"), the remaining
micro panel is packed from the operand ("GEBP with remaining micro panel").
Returns the lhs buffer, the scratch matrix and the destination. -/
def trmmLhsPanelBody {K : Type} [Zero K] [One K] [Add K] [Mul K] [Star K]
    (mode : TriangularMode) (lhsOrder : StorageOrder) (conjLhs conjRhs : Bool) (cols : Nat)
    (lhs : Nat → K) (lhsStride resStride smallPanelWidth actual_k2 actual_kc : Nat)
    (blockB : Nat → Nat → K) (k1 : Nat) (blockA triangularBuffer : Nat → Nat → K)
    (res : Nat → K) : (Nat → Nat → K) × (Nat → Nat → K) × (Nat → K) :=
  let actualPanelWidth := min (actual_kc - k1) smallPanelWidth
  let lengthTarget := if mode.isLower then actual_kc - k1 - actualPanelWidth else k1
  let startBlock := actual_k2 + k1
  let blockBOffset := k1
  let buf1 := copyTriangularBlock mode (readMat lhsOrder lhsStride lhs) startBlock
    actualPanelWidth actualPanelWidth triangularBuffer
  let blockA1 := ei_gemm_pack_lhs lhsOrder false blockA (encode lhsOrder smallPanelWidth buf1)
    smallPanelWidth actualPanelWidth actualPanelWidth 1
  let res1 := ei_gebp_kernel conjLhs conjRhs startBlock resStride blockA1 blockB
    actualPanelWidth actualPanelWidth 0 blockBOffset cols res
  if 0 < lengthTarget then
    let startTarget := if mode.isLower then actual_k2 + k1 + actualPanelWidth else actual_k2
    let blockA2 := ei_gemm_pack_lhs lhsOrder false blockA1
      (ptrAdd lhs (blasIndex lhsOrder lhsStride startTarget startBlock)) lhsStride
      actualPanelWidth lengthTarget 1
    let res2 := ei_gebp_kernel conjLhs conjRhs startTarget resStride blockA2 blockB
      lengthTarget actualPanelWidth 0 blockBOffset cols res1
    (blockA2, buf1, res2)
  else (blockA1, buf1, res1)

/-- The loop `for (k1 = 0; k1 < actual_kc; k1 += SmallPanelWidth)` over the
small vertical panels of one depth strip of a triangular lhs. -/
def trmmLhsPanelLoop {K : Type} [Zero K] [One K] [Add K] [Mul K] [Star K]
    (mode : TriangularMode) (lhsOrder : StorageOrder) (conjLhs conjRhs : Bool) (cols : Nat)
    (lhs : Nat → K) (lhsStride resStride smallPanelWidth actual_k2 actual_kc : Nat)
    (blockB : Nat → Nat → K) :
    Nat → Nat → (Nat → Nat → K) → (Nat → Nat → K) → (Nat → K) →
      Option ((Nat → Nat → K) × (Nat → Nat → K) × (Nat → K))
  | 0, k1, blockA, triangularBuffer, res =>
    if k1 < actual_kc then none else some (blockA, triangularBuffer, res)
  | fuel + 1, k1, blockA, triangularBuffer, res =>
    if k1 < actual_kc then
      trmmLhsPanelLoop mode lhsOrder conjLhs conjRhs cols lhs lhsStride resStride
        smallPanelWidth actual_k2 actual_kc blockB fuel (k1 + smallPanelWidth)
        (trmmLhsPanelBody mode lhsOrder conjLhs conjRhs cols lhs lhsStride resStride
          smallPanelWidth actual_k2 actual_kc blockB k1 blockA triangularBuffer res).1
        (trmmLhsPanelBody mode lhsOrder conjLhs conjRhs cols lhs lhsStride resStride
          smallPanelWidth actual_k2 actual_kc blockB k1 blockA triangularBuffer res).2.1
        (trmmLhsPanelBody mode lhsOrder conjLhs conjRhs cols lhs lhsStride resStride
          smallPanelWidth actual_k2 actual_kc blockB k1 blockA triangularBuffer res).2.2
    else some (blockA, triangularBuffer, res)

/-- The loop `for (i2 = start; i2 < end; i2 += mc)` over the dense part of one
depth strip of a triangular lhs (the part "below the diagonal => GEPP"). -/
def trmmLhsGeppLoop {K : Type} [Zero K] [One K] [Add K] [Mul K] [Star K]
    (lhsOrder : StorageOrder) (conjLhs conjRhs : Bool) (cols : Nat)
    (lhs : Nat → K) (lhsStride resStride mc actual_k2 actual_kc : Nat)
    (blockB : Nat → Nat → K) (endRow : Nat) :
    Nat → Nat → (Nat → Nat → K) → (Nat → K) → Option ((Nat → Nat → K) × (Nat → K))
  | 0, i2, blockA, res => if i2 < endRow then none else some (blockA, res)
  | fuel + 1, i2, blockA, res =>
    if i2 < endRow then
      let actual_mc := min (i2 + mc) endRow - i2
      let blockA1 := ei_gemm_pack_lhs lhsOrder false blockA
        (ptrAdd lhs (blasIndex lhsOrder lhsStride i2 actual_k2)) lhsStride actual_kc actual_mc 1
      let res1 := ei_gebp_kernel conjLhs conjRhs i2 resStride blockA1 blockB actual_mc actual_kc
        0 0 cols res
      trmmLhsGeppLoop lhsOrder conjLhs conjRhs cols lhs lhsStride resStride mc actual_k2
        actual_kc blockB endRow fuel (i2 + mc) blockA1 res1
    else some (blockA, res)

/-- The body of the loop over the depth strips of a triangular lhs, for the
strip selected by `k2`: pack the rhs panel, run the diagonal block through the
small panels, then the dense part through GEPP.  Returns the value of `k2`
after the loop step together with the buffers and the destination.
`Index` is signed: the realigned `k2` of the trapezoidal case may be negative
before the loop step, and a step below zero ends the descending loop. -/
def trmmLhsDepthBody {K : Type} [Zero K] [One K] [Add K] [Mul K] [Star K]
    (mode : TriangularMode) (lhsOrder : StorageOrder) (conjLhs : Bool)
    (rhsOrder : StorageOrder) (conjRhs : Bool) (rows cols depth : Nat)
    (lhs : Nat → K) (lhsStride : Nat) (rhs : Nat → K) (rhsStride resStride : Nat) (alpha : K)
    (kc mc smallPanelWidth : Nat) (k2 : Nat) (blockA blockB triangularBuffer : Nat → Nat → K)
    (res : Nat → K) :
    Option (Nat × (Nat → Nat → K) × (Nat → Nat → K) × (Nat → Nat → K) × (Nat → K)) :=
  let actual_kc0 := min (if mode.isLower then k2 else depth - k2) kc
  let actual_k2 := if mode.isLower then k2 - actual_kc0 else k2
  let realign : Bool := !mode.isLower && decide (k2 < rows) && decide (rows < k2 + actual_kc0)
  let actual_kc := if realign then rows - k2 else actual_kc0
  let k2r : Int := if realign then (k2 : Int) + actual_kc - kc else k2
  let blockB1 := ei_gemm_pack_rhs rhsOrder false blockB
    (ptrAdd rhs (blasIndex rhsOrder rhsStride actual_k2 0)) rhsStride alpha actual_kc cols 0
  match (if mode.isLower || decide (actual_k2 < rows) then
      trmmLhsPanelLoop mode lhsOrder conjLhs conjRhs cols lhs lhsStride resStride
        smallPanelWidth actual_k2 actual_kc blockB1 actual_kc 0 blockA triangularBuffer res
    else some (blockA, triangularBuffer, res)) with
  | none => none
  | some (blockA1, buf1, res1) =>
    let start := if mode.isLower then k2 else 0
    let endRow := if mode.isLower then rows else min actual_k2 rows
    match trmmLhsGeppLoop lhsOrder conjLhs conjRhs cols lhs lhsStride resStride mc
        actual_k2 actual_kc blockB1 endRow rows start blockA1 res1 with
    | none => none
    | some (blockA2, res2) =>
      some (if mode.isLower then (k2r - kc).toNat else (k2r + kc).toNat,
        blockA2, blockB1, buf1, res2)

/-- The loop over the depth strips of a triangular lhs,
`for (k2 = IsLower ? depth : 0; IsLower ? k2 > 0 : k2 < depth; IsLower ? k2 -= kc : k2 += kc)`. -/
def trmmLhsDepthLoop {K : Type} [Zero K] [One K] [Add K] [Mul K] [Star K]
    (mode : TriangularMode) (lhsOrder : StorageOrder) (conjLhs : Bool)
    (rhsOrder : StorageOrder) (conjRhs : Bool) (rows cols depth : Nat)
    (lhs : Nat → K) (lhsStride : Nat) (rhs : Nat → K) (rhsStride resStride : Nat) (alpha : K)
    (kc mc smallPanelWidth : Nat) :
    Nat → Nat → (Nat → Nat → K) → (Nat → Nat → K) → (Nat → Nat → K) → (Nat → K) →
      Option (Nat → K)
  | 0, k2, _, _, _, res =>
    if (if mode.isLower then 0 < k2 else k2 < depth) then none else some res
  | fuel + 1, k2, blockA, blockB, triangularBuffer, res =>
    if (if mode.isLower then 0 < k2 else k2 < depth) then
      match trmmLhsDepthBody mode lhsOrder conjLhs rhsOrder conjRhs rows cols depth lhs
          lhsStride rhs rhsStride resStride alpha kc mc smallPanelWidth k2 blockA blockB
          triangularBuffer res with
      | none => none
      | some (k2next, blockA1, blockB1, buf1, res1) =>
        trmmLhsDepthLoop mode lhsOrder conjLhs rhsOrder conjRhs rows cols depth lhs lhsStride
          rhs rhsStride resStride alpha kc mc smallPanelWidth fuel k2next blockA1 blockB1 buf1
          res1
    else some res

/-- The function `ei_product_triangular_matrix_matrix<..., LhsIsTriangular = true, ...,
ColMajor>::run`.  The block sizes `kc`, `mc` come from
`computeProductBlockingSizes` and `smallPanelWidth` is
`max(Blocking::mr, Blocking::nr)`, both declared outside the given sources;
`blockA`, `blockB` are the initial contents of the two stack buffers. -/
def trmmLhsRun {K : Type} [Zero K] [One K] [Add K] [Mul K] [Star K]
    (mode : TriangularMode) (lhsOrder : StorageOrder) (conjLhs : Bool)
    (rhsOrder : StorageOrder) (conjRhs : Bool) (rows cols depth : Nat)
    (lhs : Nat → K) (lhsStride : Nat) (rhs : Nat → K) (rhsStride : Nat)
    (res : Nat → K) (resStride : Nat) (alpha : K) (kc mc smallPanelWidth : Nat)
    (blockA blockB : Nat → Nat → K) : Option (Nat → K) :=
  let alpha1 := if conjRhs then star alpha else alpha
  trmmLhsDepthLoop mode lhsOrder conjLhs rhsOrder conjRhs rows cols depth lhs lhsStride rhs
    rhsStride resStride alpha1 kc mc smallPanelWidth depth (if mode.isLower then depth else 0)
    blockA blockB triangularBufferInit res

/-- The dense matrix that a triangular operand stands for: the operand on the
declared triangle, zero on the opposite triangle, and one on the diagonal in
unit-diagonal mode. -/
def triangularView {K : Type} [Zero K] [One K] (mode : TriangularMode) (A : Nat → Nat → K) :
    Nat → Nat → K :=
  fun i p =>
    if i = p then (if mode.unitDiag then 1 else A i p)
    else if (if mode.isLower then p < i else i < p) then A i p
    else 0

/-- The invariant of the scratch matrix `triangularBuffer`: the triangle
opposite to the declared one is zero and, in unit-diagonal mode, the diagonal
is one. -/
def triangularBufferInvariant {K : Type} [Zero K] [One K] (mode : TriangularMode)
    (buf : Nat → Nat → K) : Prop :=
  ∀ i k, (i = k → mode.unitDiag = true → buf i k = 1) ∧
    (i ≠ k → ¬ (if mode.isLower then k < i else i < k) → buf i k = 0)

/-- The sub-panel `blockB + j2*stride` of a packed rhs: the micro panels of the
columns from `j2` on. -/
def panelAt {K : Type} (blockB : Nat → Nat → K) (j2 : Nat) : Nat → Nat → K :=
  fun p j => blockB p (j2 + j)

/-- The call `pack_rhs_panel(blockB + j2*stride, rhs, rhsStride, alpha, depth,
cols, stride, offset)`: the packer in panel mode writing through the sub-panel
of the columns from `j2` on. -/
def packRhsPanelAt {K : Type} [Mul K] [Star K] (order : StorageOrder) (conj : Bool)
    (old : Nat → Nat → K) (j2 : Nat) (rhs : Nat → K) (rhsStride : Nat) (alpha : K)
    (depth cols offset : Nat) : Nat → Nat → K :=
  fun p j =>
    if j2 ≤ j then
      ei_gemm_pack_rhs order conj (panelAt old j2) rhs rhsStride alpha depth cols offset p (j - j2)
    else old p j

/-- The body of the loop that packs the triangular part of one depth strip of
a triangular rhs, at panel offset `j2`: the general part of the panel is
packed from the operand, the diagonal micro block through the scratch matrix.
Returns the packed triangular part and the scratch matrix. -/
def trmmRhsPackBody {K : Type} [Zero K] [One K] [Mul K] [Star K]
    (mode : TriangularMode) (rhsOrder : StorageOrder) (rhs : Nat → K) (rhsStride : Nat)
    (alpha : K) (smallPanelWidth actual_k2 actual_kc : Nat) (j2 : Nat)
    (blockB triangularBuffer : Nat → Nat → K) : (Nat → Nat → K) × (Nat → Nat → K) :=
  let actualPanelWidth := min (actual_kc - j2) smallPanelWidth
  let actual_j2 := actual_k2 + j2
  let panelOffset := if mode.isLower then j2 + actualPanelWidth else 0
  let panelLength := if mode.isLower then actual_kc - j2 - actualPanelWidth else j2
  let blockB1 := packRhsPanelAt rhsOrder false blockB j2
    (ptrAdd rhs (blasIndex rhsOrder rhsStride (actual_k2 + panelOffset) actual_j2)) rhsStride
    alpha panelLength actualPanelWidth panelOffset
  let buf1 := copyTriangularBlock mode (readMat rhsOrder rhsStride rhs) actual_j2
    actualPanelWidth actualPanelWidth triangularBuffer
  let blockB2 := packRhsPanelAt rhsOrder false blockB1 j2
    (encode rhsOrder smallPanelWidth buf1) smallPanelWidth alpha actualPanelWidth
    actualPanelWidth j2
  (blockB2, buf1)

/-- The loop `for (j2 = 0; j2 < actual_kc; j2 += SmallPanelWidth)` that packs
the triangular part of one depth strip of a triangular rhs. -/
def trmmRhsPackLoop {K : Type} [Zero K] [One K] [Mul K] [Star K]
    (mode : TriangularMode) (rhsOrder : StorageOrder) (rhs : Nat → K) (rhsStride : Nat)
    (alpha : K) (smallPanelWidth actual_k2 actual_kc : Nat) :
    Nat → Nat → (Nat → Nat → K) → (Nat → Nat → K) →
      Option ((Nat → Nat → K) × (Nat → Nat → K))
  | 0, j2, blockB, triangularBuffer =>
    if j2 < actual_kc then none else some (blockB, triangularBuffer)
  | fuel + 1, j2, blockB, triangularBuffer =>
    if j2 < actual_kc then
      trmmRhsPackLoop mode rhsOrder rhs rhsStride alpha smallPanelWidth actual_k2 actual_kc
        fuel (j2 + smallPanelWidth)
        (trmmRhsPackBody mode rhsOrder rhs rhsStride alpha smallPanelWidth actual_k2 actual_kc
          j2 blockB triangularBuffer).1
        (trmmRhsPackBody mode rhsOrder rhs rhsStride alpha smallPanelWidth actual_k2 actual_kc
          j2 blockB triangularBuffer).2
    else some (blockB, triangularBuffer)

/-- The loop `for (j2 = 0; j2 < actual_kc; j2 += SmallPanelWidth)` of the
"triangular kernel": one kernel call per small panel of the packed triangular
part, on the columns of the destination that face the panel. -/
def trmmRhsKernelLoop {K : Type} [Zero K] [Add K] [Mul K] [Star K]
    (mode : TriangularMode) (conjLhs conjRhs : Bool) (resStride smallPanelWidth : Nat)
    (i2 actual_k2 actual_kc actual_mc : Nat) (blockA blockB : Nat → Nat → K) :
    Nat → Nat → (Nat → K) → Option (Nat → K)
  | 0, j2, res => if j2 < actual_kc then none else some res
  | fuel + 1, j2, res =>
    if j2 < actual_kc then
      let actualPanelWidth := min (actual_kc - j2) smallPanelWidth
      let panelLength := if mode.isLower then actual_kc - j2 else j2 + actualPanelWidth
      let blockOffset := if mode.isLower then j2 else 0
      trmmRhsKernelLoop mode conjLhs conjRhs resStride smallPanelWidth i2 actual_k2 actual_kc
        actual_mc blockA blockB fuel (j2 + smallPanelWidth)
        (ei_gebp_kernel conjLhs conjRhs (i2 + (actual_k2 + j2) * resStride) resStride blockA
          (panelAt blockB j2) actual_mc panelLength blockOffset blockOffset actualPanelWidth res)
    else some res

/-- The loop `for (i2 = 0; i2 < rows; i2 += mc)` of one depth strip of a
triangular rhs: pack a block of the lhs, run the triangular kernel if the
strip has a triangular part, then the kernel on the general part `geb`.
`colStart` is `IsLower ? 0 : k2`. -/
def trmmRhsRowLoop {K : Type} [Zero K] [One K] [Add K] [Mul K] [Star K]
    (mode : TriangularMode) (lhsOrder : StorageOrder) (conjLhs conjRhs : Bool) (rows : Nat)
    (lhs : Nat → K) (lhsStride resStride mc smallPanelWidth actual_k2 actual_kc : Nat)
    (rs ts colStart : Nat) (blockB geb : Nat → Nat → K) :
    Nat → Nat → (Nat → Nat → K) → (Nat → K) → Option ((Nat → Nat → K) × (Nat → K))
  | 0, i2, blockA, res => if i2 < rows then none else some (blockA, res)
  | fuel + 1, i2, blockA, res =>
    if i2 < rows then
      let actual_mc := min mc (rows - i2)
      let blockA1 := ei_gemm_pack_lhs lhsOrder false blockA
        (ptrAdd lhs (blasIndex lhsOrder lhsStride i2 actual_k2)) lhsStride actual_kc actual_mc 1
      match (if 0 < ts then
          trmmRhsKernelLoop mode conjLhs conjRhs resStride smallPanelWidth i2 actual_k2
            actual_kc actual_mc blockA1 blockB actual_kc 0 res
        else some res) with
      | none => none
      | some res1 =>
        trmmRhsRowLoop mode lhsOrder conjLhs conjRhs rows lhs lhsStride resStride mc
          smallPanelWidth actual_k2 actual_kc rs ts colStart blockB geb fuel (i2 + mc) blockA1
          (ei_gebp_kernel conjLhs conjRhs (i2 + colStart * resStride) resStride blockA1 geb
            actual_mc actual_kc 0 0 rs res1)
    else some (blockA, res)

/-- The body of the loop over the depth strips of a triangular rhs, for the
strip selected by `k2`.  The packed rhs is kept as two buffers, the triangular
part `blockB` (of `ts*ts` coefficients) and the general part `geb = blockB +
ts*ts`.  Returns the value of `k2` after the loop step, the buffers and the
destination.  `Index` is signed: the realigned `k2` of the trapezoidal case may
be negative before the loop step, a step below zero ends the descending loop,
and a negative `rs` packs and multiplies nothing. -/
def trmmRhsDepthBody {K : Type} [Zero K] [One K] [Add K] [Mul K] [Star K]
    (mode : TriangularMode) (lhsOrder : StorageOrder) (conjLhs : Bool)
    (rhsOrder : StorageOrder) (conjRhs : Bool) (rows cols depth : Nat)
    (lhs : Nat → K) (lhsStride : Nat) (rhs : Nat → K) (rhsStride resStride : Nat) (alpha : K)
    (kc mc smallPanelWidth : Nat) (k2 : Nat)
    (blockA blockB geb triangularBuffer : Nat → Nat → K) (res : Nat → K) :
    Option (Nat × (Nat → Nat → K) × (Nat → Nat → K) × (Nat → Nat → K) × (Nat → Nat → K) ×
      (Nat → K)) :=
  let actual_kc0 := min (if mode.isLower then depth - k2 else k2) kc
  let actual_k2 := if mode.isLower then k2 else k2 - actual_kc0
  let realign : Bool :=
    mode.isLower && decide (k2 < cols) && decide (cols < actual_k2 + actual_kc0)
  let actual_kc := if realign then cols - k2 else actual_kc0
  let k2r : Int := if realign then (actual_k2 : Int) + actual_kc - kc else k2
  let rs := if mode.isLower then min cols actual_k2 else cols - k2
  let ts := if mode.isLower && decide (cols ≤ actual_k2) then 0 else actual_kc
  let colStart := if mode.isLower then 0 else k2
  let geb1 := ei_gemm_pack_rhs rhsOrder false geb
    (ptrAdd rhs (blasIndex rhsOrder rhsStride actual_k2 colStart)) rhsStride alpha actual_kc rs 0
  match (if 0 < ts then
      trmmRhsPackLoop mode rhsOrder rhs rhsStride alpha smallPanelWidth actual_k2 actual_kc
        actual_kc 0 blockB triangularBuffer
    else some (blockB, triangularBuffer)) with
  | none => none
  | some (blockB1, buf1) =>
    match trmmRhsRowLoop mode lhsOrder conjLhs conjRhs rows lhs lhsStride resStride mc
        smallPanelWidth actual_k2 actual_kc rs ts colStart blockB1 geb1 rows 0 blockA res with
    | none => none
    | some (blockA1, res1) =>
      some (if mode.isLower then (k2r + kc).toNat else (k2r - kc).toNat,
        blockA1, blockB1, geb1, buf1, res1)

/-- The loop over the depth strips of a triangular rhs,
`for (k2 = IsLower ? 0 : depth; IsLower ? k2 < depth : k2 > 0; IsLower ? k2 += kc : k2 -= kc)`. -/
def trmmRhsDepthLoop {K : Type} [Zero K] [One K] [Add K] [Mul K] [Star K]
    (mode : TriangularMode) (lhsOrder : StorageOrder) (conjLhs : Bool)
    (rhsOrder : StorageOrder) (conjRhs : Bool) (rows cols depth : Nat)
    (lhs : Nat → K) (lhsStride : Nat) (rhs : Nat → K) (rhsStride resStride : Nat) (alpha : K)
    (kc mc smallPanelWidth : Nat) :
    Nat → Nat → (Nat → Nat → K) → (Nat → Nat → K) → (Nat → Nat → K) → (Nat → Nat → K) →
      (Nat → K) → Option (Nat → K)
  | 0, k2, _, _, _, _, res =>
    if (if mode.isLower then k2 < depth else 0 < k2) then none else some res
  | fuel + 1, k2, blockA, blockB, geb, triangularBuffer, res =>
    if (if mode.isLower then k2 < depth else 0 < k2) then
      match trmmRhsDepthBody mode lhsOrder conjLhs rhsOrder conjRhs rows cols depth lhs
          lhsStride rhs rhsStride resStride alpha kc mc smallPanelWidth k2 blockA blockB geb
          triangularBuffer res with
      | none => none
      | some (k2next, blockA1, blockB1, geb1, buf1, res1) =>
        trmmRhsDepthLoop mode lhsOrder conjLhs rhsOrder conjRhs rows cols depth lhs lhsStride
          rhs rhsStride resStride alpha kc mc smallPanelWidth fuel k2next blockA1 blockB1 geb1
          buf1 res1
    else some res

/-- The function `ei_product_triangular_matrix_matrix<..., LhsIsTriangular = false, ...,
ColMajor>::run`.  The block sizes `kc`, `mc` come from
`computeProductBlockingSizes` and `smallPanelWidth` is
`max(Blocking::mr, Blocking::nr)`, both declared outside the given sources;
`blockA`, `blockB`, `geb` are the initial contents of the stack buffers. -/
def trmmRhsRun {K : Type} [Zero K] [One K] [Add K] [Mul K] [Star K]
    (mode : TriangularMode) (lhsOrder : StorageOrder) (conjLhs : Bool)
    (rhsOrder : StorageOrder) (conjRhs : Bool) (rows cols depth : Nat)
    (lhs : Nat → K) (lhsStride : Nat) (rhs : Nat → K) (rhsStride : Nat)
    (res : Nat → K) (resStride : Nat) (alpha : K) (kc mc smallPanelWidth : Nat)
    (blockA blockB geb : Nat → Nat → K) : Option (Nat → K) :=
  let alpha1 := if conjRhs then star alpha else alpha
  trmmRhsDepthLoop mode lhsOrder conjLhs rhsOrder conjRhs rows cols depth lhs lhsStride rhs
    rhsStride resStride alpha1 kc mc smallPanelWidth depth (if mode.isLower then 0 else depth)
    blockA blockB geb triangularBufferInit res

/-- The two specialisations of `ei_product_triangular_matrix_matrix::run` for a
column-major destination, on the template parameter `LhsIsTriangular`. -/
def ei_product_triangular_matrix_matrix_run {K : Type} [Zero K] [One K] [Add K] [Mul K]
    [Star K] (mode : TriangularMode) (lhsIsTriangular : Bool) (lhsOrder : StorageOrder)
    (conjLhs : Bool) (rhsOrder : StorageOrder) (conjRhs : Bool) (rows cols depth : Nat)
    (lhs : Nat → K) (lhsStride : Nat) (rhs : Nat → K) (rhsStride : Nat)
    (res : Nat → K) (resStride : Nat) (alpha : K) (kc mc smallPanelWidth : Nat)
    (blockA blockB geb : Nat → Nat → K) : Option (Nat → K) :=
  if lhsIsTriangular then
    trmmLhsRun mode lhsOrder conjLhs rhsOrder conjRhs rows cols depth lhs lhsStride rhs
      rhsStride res resStride alpha kc mc smallPanelWidth blockA blockB
  else
    trmmRhsRun mode lhsOrder conjLhs rhsOrder conjRhs rows cols depth lhs lhsStride rhs
      rhsStride res resStride alpha kc mc smallPanelWidth blockA blockB geb

/-- The packed small panel at offset `j2` of a triangular rhs strip holds
`val`: on every depth row that the triangular kernel reads for this panel,
column `c` of the panel is column `actual_k2 + j2 + c` of `val`. -/
def rhsPanelGood {K : Type} (mode : TriangularMode) (actual_k2 actual_kc : Nat)
    (blockB val : Nat → Nat → K) (j2 actualPanelWidth : Nat) : Prop :=
  ∀ c p, c < actualPanelWidth →
    (if mode.isLower then j2 ≤ p ∧ p < actual_kc else p < j2 + actualPanelWidth) →
    blockB p (j2 + c) = val (actual_k2 + p) (actual_k2 + j2 + c)

/-- All the small panels that the loop `for (j2 = ...; j2 < actual_kc; j2 +=
SmallPanelWidth)` visits from `j2` on hold `val`. -/
def rhsPanelsPacked {K : Type} (mode : TriangularMode) (smallPanelWidth actual_k2 actual_kc : Nat)
    (blockB val : Nat → Nat → K) : Nat → Nat → Prop
  | 0, _ => True
  | fuel + 1, j2 =>
    j2 < actual_kc →
      (rhsPanelGood mode actual_k2 actual_kc blockB val j2
          (min (actual_kc - j2) smallPanelWidth) ∧
        rhsPanelsPacked mode smallPanelWidth actual_k2 actual_kc blockB val fuel
          (j2 + smallPanelWidth))

/-- Two square operands of size `n` agree on the declared strict triangle and,
in non-unit mode, on the diagonal. -/
def agreeOnTriangle {K : Type} (mode : TriangularMode) (n : Nat) (A B : Nat → Nat → K) : Prop :=
  ∀ i p, i < n → p < n →
    ((if mode.isLower then p < i else i < p) ∨ (i = p ∧ mode.unitDiag = false)) →
    A i p = B i p

/-! ## Householder reflectors

`makeHouseholder` is modelled for real scalars (`Scalar = RealScalar`, an
ordered field): `ei_abs2 x = x * x`, `ei_abs x = |x|`, and `ei_sqrt` is a
parameter.  A vector is its size together with its coefficient function, a
block its row and column counts together with its coefficient function. -/

/-- Modelled from the spec: the scalar function `ei_abs2` (declared outside the
given sources), the squared modulus `|x|²`, on a real scalar. -/
def ei_abs2 {K : Type} [Mul K] (x : K) : K := x * x

/-- The reduction `squaredNorm()` of a vector of size `n`. -/
def squaredNorm {K : Type} [Zero K] [Add K] [Mul K] (n : Nat) (x : Nat → K) : K :=
  accumulate (fun i => ei_abs2 (x i)) n

/-- The divisor `c0` that `makeHouseholder` computes.  `precision` is the
value of `precision<Scalar>()` and `sqrt` is `ei_sqrt`. -/
def makeHouseholder_c0 {K : Type} [LinearOrderedField K] (precision : K) (sqrt : K → K)
    (n : Nat) (x : Nat → K) : K :=
  let _squaredNorm := squaredNorm n x
  if ei_abs2 (x 0) ≤ ei_abs2 precision * _squaredNorm then
    sqrt _squaredNorm
  else
    let sign := x 0 / |x 0|
    x 0 + sign * sqrt _squaredNorm

/-- The method `MatrixBase::makeHouseholder` on a vector `x` of size `n`: it
returns the essential part (of size `n - 1`) and `beta`; the method is `const`
and `x` is not modified. -/
def makeHouseholder {K : Type} [LinearOrderedField K] (precision : K) (sqrt : K → K)
    (n : Nat) (x : Nat → K) : (Nat → K) × K :=
  let _squaredNorm := squaredNorm n x
  let c0 := makeHouseholder_c0 precision sqrt n x
  let essential : Nat → K := fun i => x (1 + i) / c0
  let c0abs2 := ei_abs2 c0
  let beta := 2 * c0abs2 / (c0abs2 + _squaredNorm - ei_abs2 (x 0))
  (essential, beta)

/-- The row vector `tmp = row(0) + essential.adjoint() * bottom` of
`applyHouseholderOnTheLeft`. -/
def applyHouseholderOnTheLeft_tmp {K : Type} [Zero K] [Add K] [Mul K] [Star K] (rows : Nat)
    (M : Nat → Nat → K) (essential : Nat → K) (j : Nat) : K :=
  M 0 j + accumulate (fun i => star (essential i) * M (1 + i) j) (rows - 1)

/-- The method `MatrixBase::applyHouseholderOnTheLeft` on a `rows × cols`
block: `row(0) -= beta * tmp` and `bottom -= beta * essential * tmp`, where
`bottom` is the block of the rows from 1 on. -/
def applyHouseholderOnTheLeft {K : Type} [Zero K] [Add K] [Mul K] [Sub K] [Star K]
    (rows cols : Nat) (M : Nat → Nat → K) (essential : Nat → K) (beta : K) : Nat → Nat → K :=
  fun i j =>
    if j < cols then
      if i = 0 then M 0 j - beta * applyHouseholderOnTheLeft_tmp rows M essential j
      else if i < rows then
        M i j - beta * essential (i - 1) * applyHouseholderOnTheLeft_tmp rows M essential j
      else M i j
    else M i j

/-- A vector taken as a one-column block. -/
def asColumn {K : Type} (x : Nat → K) : Nat → Nat → K :=
  fun i _ => x i

/-- The squared norm `σ²` of the tail `x[1..]` of a vector of size `n`. -/
def tailSquaredNorm {K : Type} [Zero K] [Add K] [Mul K] (n : Nat) (x : Nat → K) : K :=
  accumulate (fun i => ei_abs2 (x (1 + i))) (n - 1)

/-- The result of applying to the vector `x` (of size `n`), taken as a
one-column block, the reflector that `makeHouseholder` builds from `x`. -/
def reflectOwnVector {K : Type} [LinearOrderedField K] [Star K] (precision : K)
    (sqrt : K → K) (n : Nat) (x : Nat → K) : Nat → K :=
  fun i => applyHouseholderOnTheLeft n 1 (asColumn x)
    (makeHouseholder precision sqrt n x).1 (makeHouseholder precision sqrt n x).2 i 0

/-- The value `mu = sign(x[0]) * sqrt(|x[0]|² + σ²)` as the specification
words it, with `sign(x[0]) = x[0] / |x[0]|`. -/
def claimedMu {K : Type} [LinearOrderedField K] (sqrt : K → K) (n : Nat) (x : Nat → K) : K :=
  x 0 / |x 0| * sqrt (ei_abs2 (x 0) + tailSquaredNorm n x)

/-- The value `-sign(x[0]) * sqrt(|x[0]|² + σ²)`: the first entry of the
reflected vector when the first entry of `x` is not negligible. -/
def reflectedHead {K : Type} [LinearOrderedField K] (sqrt : K → K) (n : Nat) (x : Nat → K) : K :=
  -(x 0 / |x 0|) * sqrt (ei_abs2 (x 0) + tailSquaredNorm n x)

/-! ## Concrete operands used by the worked examples -/

/-- Seed scenario 1: the column-major image of `A = [[1,2],[3,4]]`. -/
def seedA : Nat → ℤ := fun n => [1, 3, 2, 4].getD n 0

/-- Seed scenario 1: the column-major image of `B = [[5,6],[7,8]]`. -/
def seedB : Nat → ℤ := fun n => [5, 7, 6, 8].getD n 0

/-- A blocking handle with unit block sizes and arbitrary buffer content. -/
def unitBlocking : ei_level3_blocking ℤ :=
  { kc := 1, mc := 1, blockA := fun _ _ => 7, blockB := fun _ _ => 9 }

/-- A 2 x 2 complex operand over the Gaussian integers, column-major. -/
def seedZ : Nat → GaussianInt := fun n => [⟨1, 2⟩, ⟨0, -1⟩, ⟨3, 1⟩, ⟨-2, 5⟩].getD n 0

/-- A second 2 x 2 complex operand over the Gaussian integers, column-major. -/
def seedW : Nat → GaussianInt := fun n => [⟨2, -1⟩, ⟨1, 1⟩, ⟨0, 4⟩, ⟨-3, 0⟩].getD n 0

/-- A blocking handle over the Gaussian integers with unit block sizes. -/
def unitBlockingZ : ei_level3_blocking GaussianInt :=
  { kc := 1, mc := 1, blockA := fun _ _ => ⟨7, 1⟩, blockB := fun _ _ => ⟨9, 2⟩ }

/-- Seed scenario 3: the column-major image of the upper triangular
`A = [[2,3],[0,5]]`, with `77` stored in the opposite triangle. -/
def seedTriA : Nat → ℤ := fun n => [2, 77, 3, 5].getD n 0

/-- Seed scenario 3 again, with `0` stored in the opposite triangle. -/
def seedTriA2 : Nat → ℤ := fun n => [2, 0, 3, 5].getD n 0

/-- Seed scenario 3: the column-major image of `B = [[1,0],[1,1]]`. -/
def seedTriB : Nat → ℤ := fun n => [1, 1, 0, 1].getD n 0

/-- The mode `Upper`. -/
def modeUpper : TriangularMode := { isLower := false, unitDiag := false }

/-- The mode `Upper | UnitDiag`. -/
def modeUnitUpper : TriangularMode := { isLower := false, unitDiag := true }

/-- Modelled from the spec: the constant `precision<float>()` (declared outside
the given sources), the `ε` of the Householder construction, taken at `1e-5`. -/
def precisionFloat : ℚ := 1 / 100000

/-- The vector `[3, 4]`. -/
def vec34 : Nat → ℚ := fun i => [3, 4].getD i 0

/-- A vector of norm `40000400002` whose first entry is negligible at `1e-5`
without being zero. -/
def vecSmallHead : Nat → ℚ := fun i => [400002, 40000400000].getD i 0

/-- A vector of norm `1000001` whose tail is negligible at `1e-5` without
being zero. -/
def vecSmallTail : Nat → ℚ := fun i => [999999, 2000].getD i 0

/-- The vector `[3, 0]`, whose tail is zero. -/
def vec30 : Nat → ℚ := fun i => [3, 0].getD i 0

/-! ## Householder reflectors applied on the right, and the reflector as a matrix -/

/-- The column vector `tmp = col(0) + right * essential.conjugate()` of
`applyHouseholderOnTheRight`, where `right` is the block of the columns from 1
on. -/
def applyHouseholderOnTheRight_tmp {K : Type} [Zero K] [Add K] [Mul K] [Star K] (cols : Nat)
    (M : Nat → Nat → K) (essential : Nat → K) (i : Nat) : K :=
  M i 0 + accumulate (fun k => M i (1 + k) * star (essential k)) (cols - 1)

/-- The method `MatrixBase::applyHouseholderOnTheRight` on a `rows × cols`
block: `col(0) -= beta * tmp` and `right -= beta * tmp * essential.transpose()`. -/
def applyHouseholderOnTheRight {K : Type} [Zero K] [Add K] [Mul K] [Sub K] [Star K]
    (rows cols : Nat) (M : Nat → Nat → K) (essential : Nat → K) (beta : K) : Nat → Nat → K :=
  fun i j =>
    if i < rows then
      if j = 0 then M i 0 - beta * applyHouseholderOnTheRight_tmp cols M essential i
      else if j < cols then
        M i j - beta * applyHouseholderOnTheRight_tmp cols M essential i * essential (j - 1)
      else M i j
    else M i j

/-- The Householder vector `v = (1, essential)`. -/
def householderVector {K : Type} [One K] (essential : Nat → K) : Nat → K :=
  fun k => if k = 0 then 1 else essential (k - 1)

/-- The entrywise conjugate of a vector. -/
def conjugateVector {K : Type} [Star K] (v : Nat → K) : Nat → K :=
  fun k => star (v k)

/-- The adjoint `Bᴴ` of a block. -/
def adjointBlock {K : Type} [Star K] (M : Nat → Nat → K) : Nat → Nat → K :=
  fun i j => star (M j i)

/-- The product `(I - beta * v * vᴴ) * B` for a block `B` with `rows` rows, as
the specification writes the reflector. -/
def reflectorTimesBlock {K : Type} [Zero K] [Add K] [Mul K] [Sub K] [Star K] (rows : Nat)
    (v : Nat → K) (beta : K) (B : Nat → Nat → K) : Nat → Nat → K :=
  fun i j => B i j - beta * v i * accumulate (fun k => star (v k) * B k j) rows

/-- The product `B * (I - beta * v * vᴴ)` for a block `B` with `cols` columns,
as the specification writes the reflector. -/
def blockTimesReflector {K : Type} [Zero K] [Add K] [Mul K] [Sub K] [Star K] (cols : Nat)
    (v : Nat → K) (beta : K) (B : Nat → Nat → K) : Nat → Nat → K :=
  fun i j => B i j - beta * accumulate (fun k => B i k * v k) cols * star (v j)

/-- The one-row complex block `[1, 0]`. -/
def rowOneZero : Nat → Nat → GaussianInt := fun _ j => if j = 0 then 1 else 0

/-- The essential part `[i]`, the imaginary unit. -/
def essentialImaginary : Nat → GaussianInt := fun _ => ⟨0, 1⟩

/-! ## Tridiagonalization

The class is modelled for a real scalar type (`NumTraits<Scalar>::IsComplex`
is false): `ei_real` and `ei_conj` are the identity and `adjoint()` is
`transpose()`.  A square matrix is its size `n` together with its coefficient
function; the right-hand side of every assignment is evaluated on the state
before the assignment.  `ei_isMuchSmallerThan` and `ei_sqrt` are parameters. -/

/-- The `n × n` matrix `MatrixType::identity(n, n)`. -/
def identity {K : Type} [Zero K] [One K] : Nat → Nat → K :=
  fun r c => if r = c then 1 else 0

/-- The view `extract<Lower|SelfAdjoint>()`: the coefficient `(r, c)` is read
from the lower triangle. -/
def selfAdjointLower {K : Type} (M : Nat → Nat → K) : Nat → Nat → K :=
  fun r c => if c ≤ r then M r c else M c r

/-- The value `matA.col(i).end(n-(i+2)).norm2()`: the squared norm of the
entries of column `i` in the rows from `i + 2` on. -/
def Tridiagonalization.v1norm2 {K : Type} [Zero K] [Add K] [Mul K] (n i : Nat)
    (matA : Nat → Nat → K) : K :=
  accumulate (fun k => ei_abs2 (matA (i + 2 + k) i)) (n - (i + 2))

/-- The value `beta` of iteration `i` of `_compute`:
`ei_sqrt(ei_abs2(v0) + v1norm2)`, negated when `ei_real(v0) >= 0`. -/
def Tridiagonalization.stepBeta {K : Type} [LinearOrderedField K] (sqrt : K → K) (n i : Nat)
    (matA : Nat → Nat → K) : K :=
  let v0 := matA (i + 1) i
  let beta := sqrt (ei_abs2 v0 + Tridiagonalization.v1norm2 n i matA)
  if 0 ≤ v0 then -beta else beta

/-- The Householder coefficient `h = (beta - v0) / beta` of iteration `i` of
`_compute`. -/
def Tridiagonalization.stepH {K : Type} [LinearOrderedField K] (sqrt : K → K) (n i : Nat)
    (matA : Nat → Nat → K) : K :=
  (Tridiagonalization.stepBeta sqrt n i matA - matA (i + 1) i) /
    Tridiagonalization.stepBeta sqrt n i matA

/-- The matrix in iteration `i` of `_compute` after the statements
`matA.col(i).end(n-(i+2)) *= (Scalar(1)/(v0-beta))`,
`matA.col(i).coeffRef(i+1) = beta` and `matA.col(i).coeffRef(i+1) = 1`. -/
def Tridiagonalization.stepScaled {K : Type} [LinearOrderedField K] (sqrt : K → K) (n i : Nat)
    (matA : Nat → Nat → K) : Nat → Nat → K :=
  let v0 := matA (i + 1) i
  let beta := Tridiagonalization.stepBeta sqrt n i matA
  let matA1 : Nat → Nat → K := fun r c =>
    if c = i ∧ i + 2 ≤ r ∧ r < n then matA r c * (1 / (v0 - beta)) else matA r c
  let matA2 := setCoeff matA1 (i + 1) i beta
  setCoeff matA2 (i + 1) i 1

/-- The temporary vector after the first assignment to `hCoeffs.end(n-i-1)`:
`h * (corner.extract<Lower|SelfAdjoint>() * matA.col(i).end(n-i-1))`, where
`corner` is the bottom-right corner of size `n - i - 1`. -/
def Tridiagonalization.stepProduct {K : Type} [LinearOrderedField K] (sqrt : K → K) (n i : Nat)
    (matA : Nat → Nat → K) : Nat → K :=
  let matA3 := Tridiagonalization.stepScaled sqrt n i matA
  let v : Nat → K := fun k => matA3 (i + 1 + k) i
  let corner : Nat → Nat → K := fun r c => matA3 (i + 1 + r) (i + 1 + c)
  fun k => Tridiagonalization.stepH sqrt n i matA *
    accumulate (fun l => selfAdjointLower corner k l * v l) (n - i - 1)

/-- The temporary vector after the second assignment
`hCoeffs.end(n-i-1) += (h * Scalar(-0.5) * v.dot(hCoeffs.end(n-i-1))) * v`. -/
def Tridiagonalization.stepCorrection {K : Type} [LinearOrderedField K] (sqrt : K → K)
    (n i : Nat) (matA : Nat → Nat → K) : Nat → K :=
  let matA3 := Tridiagonalization.stepScaled sqrt n i matA
  let v : Nat → K := fun k => matA3 (i + 1 + k) i
  let hc1 := Tridiagonalization.stepProduct sqrt n i matA
  fun k => hc1 k +
    (Tridiagonalization.stepH sqrt n i matA * (-(1 / 2)) *
      accumulate (fun l => v l * hc1 l) (n - i - 1)) * v k

/-- The `else` branch of iteration `i` of `Tridiagonalization::_compute`: the
Householder transformation of column `i` and the similarity transformation of
the bottom-right corner, written in its lower triangle only.  The end of
`hCoeffs` (indices `i` to `n - 2`) holds the temporary vector. -/
def Tridiagonalization.householderStep {K : Type} [LinearOrderedField K] (sqrt : K → K)
    (n i : Nat) (st : (Nat → Nat → K) × (Nat → K)) : (Nat → Nat → K) × (Nat → K) :=
  let matA3 := Tridiagonalization.stepScaled sqrt n i st.1
  let v : Nat → K := fun k => matA3 (i + 1 + k) i
  let hc2 := Tridiagonalization.stepCorrection sqrt n i st.1
  let matA4 : Nat → Nat → K := fun r c =>
    if i + 1 ≤ c ∧ c ≤ r ∧ r < n then
      matA3 r c - (v (r - (i + 1)) * hc2 (c - (i + 1)) + hc2 (r - (i + 1)) * v (c - (i + 1)))
    else matA3 r c
  let matA5 := setCoeff matA4 (i + 1) i (Tridiagonalization.stepBeta sqrt n i st.1)
  let hCoeffs1 : Nat → K := fun k => if i ≤ k ∧ k < n - 1 then hc2 (k - i) else st.2 k
  (matA5, fun k => if k = i then Tridiagonalization.stepH sqrt n i st.1 else hCoeffs1 k)

/-- Iteration `i` of the loop of `Tridiagonalization::_compute`. -/
def Tridiagonalization.computeStep {K : Type} [LinearOrderedField K]
    (isMuchSmallerThan : K → K → Bool) (sqrt : K → K) (n i : Nat)
    (st : (Nat → Nat → K) × (Nat → K)) : (Nat → Nat → K) × (Nat → K) :=
  if isMuchSmallerThan (Tridiagonalization.v1norm2 n i st.1) 1 then
    (st.1, fun k => if k = i then 0 else st.2 k)
  else Tridiagonalization.householderStep sqrt n i st

/-- The first `count` iterations `i = 0, …, count - 1` of the loop of
`Tridiagonalization::_compute`. -/
def Tridiagonalization.computeLoop {K : Type} [LinearOrderedField K]
    (isMuchSmallerThan : K → K → Bool) (sqrt : K → K) (n : Nat) :
    Nat → (Nat → Nat → K) × (Nat → K) → (Nat → Nat → K) × (Nat → K)
  | 0, st => st
  | i + 1, st =>
    Tridiagonalization.computeStep isMuchSmallerThan sqrt n i
      (Tridiagonalization.computeLoop isMuchSmallerThan sqrt n i st)

/-- The method `Tridiagonalization::_compute` for a real scalar type
(`NumTraits<Scalar>::IsComplex` false), on an `n × n` matrix and a vector of
`n - 1` coefficients: the loop over `i < n - 2`, then the branch
`hCoeffs.coeffRef(n-2) = 0` of the trailing statements; the branch taken for a
complex scalar is in `Tridiagonalization._compute_trailing`.  For `n < 2` that
last write is outside the vector and there is no result. -/
def Tridiagonalization._compute {K : Type} [LinearOrderedField K]
    (isMuchSmallerThan : K → K → Bool) (sqrt : K → K) (n : Nat) (matA : Nat → Nat → K)
    (hCoeffs : Nat → K) : Option ((Nat → Nat → K) × (Nat → K)) :=
  if 2 ≤ n then
    let st := Tridiagonalization.computeLoop isMuchSmallerThan sqrt n (n - 2) (matA, hCoeffs)
    some (st.1, fun k => if k = n - 2 then 0 else st.2 k)
  else none

/-- Iteration `i` of the loop of `Tridiagonalization::matrixQ`: with the
coefficient `(i+1, i)` of `m_matrix` set to 1 for the time of the update (and
restored after it), the bottom-right corner of `matQ` loses
`(h_i * v) * (v.adjoint() * corner)`. -/
def Tridiagonalization.matrixQStep {K : Type} [Zero K] [One K] [Add K] [Mul K] [Sub K]
    (n : Nat) (m_matrix : Nat → Nat → K) (m_hCoeffs : Nat → K) (i : Nat)
    (matQ : Nat → Nat → K) : Nat → Nat → K :=
  let m1 := setCoeff m_matrix (i + 1) i 1
  let m := n - i - 1
  let v : Nat → K := fun k => m1 (i + 1 + k) i
  let t : Nat → K := fun c => accumulate (fun k => v k * matQ (i + 1 + k) (i + 1 + c)) m
  fun r c =>
    if i + 1 ≤ r ∧ r < n ∧ i + 1 ≤ c ∧ c < n then
      matQ r c - m_hCoeffs i * v (r - (i + 1)) * t (c - (i + 1))
    else matQ r c

/-- The iterations `i = count - 1, …, 0` of the loop of
`Tridiagonalization::matrixQ`. -/
def Tridiagonalization.matrixQLoop {K : Type} [Zero K] [One K] [Add K] [Mul K] [Sub K]
    (n : Nat) (m_matrix : Nat → Nat → K) (m_hCoeffs : Nat → K) :
    Nat → (Nat → Nat → K) → Nat → Nat → K
  | 0, matQ => matQ
  | i + 1, matQ =>
    Tridiagonalization.matrixQLoop n m_matrix m_hCoeffs i
      (Tridiagonalization.matrixQStep n m_matrix m_hCoeffs i matQ)

/-- The method `Tridiagonalization::matrixQ`: from the identity, the loop
`for (i = n-2; i >= 0; i--)`. -/
def Tridiagonalization.matrixQ {K : Type} [Zero K] [One K] [Add K] [Mul K] [Sub K] (n : Nat)
    (m_matrix : Nat → Nat → K) (m_hCoeffs : Nat → K) : Nat → Nat → K :=
  Tridiagonalization.matrixQLoop n m_matrix m_hCoeffs (n - 1) identity

/-- The method `Tridiagonalization::diagonal`. -/
def Tridiagonalization.diagonal {K : Type} (m_matrix : Nat → Nat → K) : Nat → K :=
  fun k => m_matrix k k

/-- The method `Tridiagonalization::subDiagonal`: the diagonal of the block of
`m_matrix` that starts at `(1, 0)`. -/
def Tridiagonalization.subDiagonal {K : Type} (m_matrix : Nat → Nat → K) : Nat → K :=
  fun k => m_matrix (1 + k) k

/-! ## The factors of a tridiagonalization as matrices -/

/-- The `n × n` matrix of the coefficients `M r c` with `r, c < n`. -/
def toMatrix {K : Type} (n : Nat) (M : Nat → Nat → K) : Matrix (Fin n) (Fin n) K :=
  Matrix.of fun r c => M r.val c.val

/-- The symmetric tridiagonal matrix `T` with diagonal `diag` and sub-diagonal
`subdiag`. -/
def tridiagonalMatrix {K : Type} [Zero K] (diag subdiag : Nat → K) : Nat → Nat → K :=
  fun r c =>
    if r = c then diag r
    else if r = c + 1 then subdiag c
    else if c = r + 1 then subdiag r
    else 0

/-- The Householder vector `v_i = [0, …, 0, 1, M(i+2,i), …, M(N-1,i)]` read
from the packed matrix, as the documentation of `packedMatrix` gives it. -/
def Tridiagonalization.packedVector {K : Type} [Zero K] [One K] (M : Nat → Nat → K) (i : Nat) :
    Nat → K :=
  fun r => if r ≤ i then 0 else if r = i + 1 then 1 else M r i

/-- The Householder transformation `H_i = I - h_i * v_i * v_i'`. -/
def Tridiagonalization.packedReflector {K : Type} [Zero K] [One K] [Mul K] [Sub K]
    (M : Nat → Nat → K) (h : Nat → K) (i : Nat) : Nat → Nat → K :=
  fun r c =>
    identity r c - h i * Tridiagonalization.packedVector M i r *
      Tridiagonalization.packedVector M i c

/-- The product `H_0 * H_1 * … * H_(k-1)` of the first `k` Householder
transformations. -/
def Tridiagonalization.reflectorProduct {K : Type} [CommRing K] (n : Nat) (M : Nat → Nat → K)
    (h : Nat → K) : Nat → Matrix (Fin n) (Fin n) K
  | 0 => 1
  | k + 1 =>
    Tridiagonalization.reflectorProduct n M h k *
      toMatrix n (Tridiagonalization.packedReflector M h k)

/-- The product `H_(k-1) * … * H_1 * H_0`, the order in which the
documentation of `packedMatrix` writes `Q`. -/
def Tridiagonalization.reflectorProductReversed {K : Type} [CommRing K] (n : Nat)
    (M : Nat → Nat → K) (h : Nat → K) : Nat → Matrix (Fin n) (Fin n) K
  | 0 => 1
  | k + 1 =>
    toMatrix n (Tridiagonalization.packedReflector M h k) *
      Tridiagonalization.reflectorProductReversed n M h k

/-- The symmetric matrix that the state of `_compute` stands for before
iteration `i`: the columns before `i` are reduced (nothing below the
sub-diagonal), the others are read from the lower triangle. -/
def Tridiagonalization.current {K : Type} [Zero K] (i : Nat) (M : Nat → Nat → K) :
    Nat → Nat → K :=
  fun r c =>
    if c ≤ r then (if c < i ∧ c + 1 < r then 0 else M r c)
    else (if r < i ∧ r + 1 < c then 0 else M c r)

/-- The test of iteration `i` of `_compute` sends a column tail to the branch
without transformation only when that tail is exactly zero. -/
def Tridiagonalization.skipsOnlyZero {K : Type} [LinearOrderedField K]
    (isMuchSmallerThan : K → K → Bool) (n i : Nat) (matA : Nat → Nat → K) : Prop :=
  isMuchSmallerThan (Tridiagonalization.v1norm2 n i matA) 1 = true →
    Tridiagonalization.v1norm2 n i matA = 0

/-- The square root taken in iteration `i` of `_compute`, when the iteration
transforms the column, is exact and not negative. -/
def Tridiagonalization.sqrtExactAt {K : Type} [LinearOrderedField K]
    (isMuchSmallerThan : K → K → Bool) (sqrt : K → K) (n i : Nat) (matA : Nat → Nat → K) :
    Prop :=
  isMuchSmallerThan (Tridiagonalization.v1norm2 n i matA) 1 = false →
    0 ≤ sqrt (ei_abs2 (matA (i + 1) i) + Tridiagonalization.v1norm2 n i matA) ∧
      sqrt (ei_abs2 (matA (i + 1) i) + Tridiagonalization.v1norm2 n i matA) *
        sqrt (ei_abs2 (matA (i + 1) i) + Tridiagonalization.v1norm2 n i matA) =
      ei_abs2 (matA (i + 1) i) + Tridiagonalization.v1norm2 n i matA

/-- The Householder vector of iteration `i` of `_compute` as a vector of size
`n`: zero up to row `i`, then the scaled column with its leading 1. -/
def Tridiagonalization.stepVector {K : Type} [LinearOrderedField K] (sqrt : K → K) (n i : Nat)
    (matA : Nat → Nat → K) : Nat → K :=
  fun k => if k ≤ i then 0 else Tridiagonalization.stepScaled sqrt n i matA k i

/-- The product of the symmetric matrix that the state stands for before
iteration `i` by the Householder vector of that iteration. -/
def Tridiagonalization.stepImage {K : Type} [LinearOrderedField K] (sqrt : K → K) (n i : Nat)
    (matA : Nat → Nat → K) : Nat → K :=
  fun k => accumulate (fun l => Tridiagonalization.current i matA k l *
    Tridiagonalization.stepVector sqrt n i matA l) n

/-- Modelled from the spec: the helper `ei_isMuchSmallerThan` (declared outside
the given sources) at the precision `ε`: `|a| ≤ |b| * ε`. -/
def isMuchSmallerThanAt {K : Type} [LinearOrderedField K] (precision : K) (a b : K) : Bool :=
  decide (|a| ≤ |b| * precision)

/-- The symmetric matrix `[[4,1,-2,2],[1,2,0,1],[-2,0,3,-2],[2,1,-2,-1]]`. -/
def seedTridiagA : Nat → Nat → ℚ :=
  fun r c => ([[4, 1, -2, 2], [1, 2, 0, 1], [-2, 0, 3, -2], [2, 1, -2, -1]].getD r []).getD c 0

/-- The lower triangle of `seedTridiagA` under a strict upper triangle filled
with the value 77. -/
def seedTridiagLower : Nat → Nat → ℚ :=
  fun r c => if c ≤ r then seedTridiagA r c else 77

/-- The symmetric matrix `[[0,1,δ],[1,0,0],[δ,0,0]]` with `δ = 1/1000`, whose
entry `(2, 0)` is negligible at `1e-5` (its square is `1e-6`) without being
zero. -/
def nearlyTridiagonal : Nat → Nat → ℚ :=
  fun r c => ([[0, 1, 1 / 1000], [1, 0, 0], [1 / 1000, 0, 0]].getD r []).getD c 0

/-! ## The full decomposition in place -/

/-- The method `Tridiagonalization::_decomposeInPlace3x3` on a 3 × 3 matrix:
it returns `mat`, `diag` and `subdiag` as they are after the call. -/
def Tridiagonalization._decomposeInPlace3x3 {K : Type} [LinearOrderedField K]
    (isMuchSmallerThan : K → K → Bool) (sqrt : K → K) (mat : Nat → Nat → K)
    (diag subdiag : Nat → K) (extractQ : Bool) : (Nat → Nat → K) × (Nat → K) × (Nat → K) :=
  let diag0 := Function.update diag 0 (mat 0 0)
  let v1norm2 := ei_abs2 (mat 0 2)
  if isMuchSmallerThan v1norm2 1 then
    let diag1 := Function.update diag0 1 (mat 1 1)
    let diag2 := Function.update diag1 2 (mat 2 2)
    let subdiag0 := Function.update subdiag 0 (mat 0 1)
    let subdiag1 := Function.update subdiag0 1 (mat 1 2)
    (if extractQ then (fun r c => if r < 3 ∧ c < 3 then identity r c else mat r c) else mat,
      diag2, subdiag1)
  else
    let beta := sqrt (ei_abs2 (mat 0 1) + v1norm2)
    let invBeta := 1 / beta
    let m01 := mat 0 1 * invBeta
    let m02 := mat 0 2 * invBeta
    let q := 2 * m01 * mat 1 2 + m02 * (mat 2 2 - mat 1 1)
    let diag1 := Function.update diag0 1 (mat 1 1 + m02 * q)
    let diag2 := Function.update diag1 2 (mat 2 2 - m02 * q)
    let subdiag0 := Function.update subdiag 0 beta
    let subdiag1 := Function.update subdiag0 1 (mat 1 2 - m01 * q)
    (if extractQ then
        (fun r c =>
          if r < 3 ∧ c < 3 then
            (if r = 0 ∧ c = 0 then 1
            else if r = 0 ∨ c = 0 then 0
            else if r = 1 ∧ c = 1 then m01
            else if r = 2 ∧ c = 2 then -m01
            else m02)
          else mat r c)
      else mat,
      diag2, subdiag1)

/-- The method `Tridiagonalization::decomposeInPlace` on an `n × n` matrix
with `diag` of size `n` and `subdiag` of size `n - 1`.  For a real scalar the
test `n==3 && (!NumTraits<Scalar>::IsComplex)` is `n = 3`; the object
`tridiag` that the 3 × 3 branch constructs from a copy of `mat` is not used.
`hCoeffs` is the content of the coefficient vector of `tridiag` before
`_compute` runs. -/
def Tridiagonalization.decomposeInPlace {K : Type} [LinearOrderedField K]
    (isMuchSmallerThan : K → K → Bool) (sqrt : K → K) (n : Nat) (mat : Nat → Nat → K)
    (diag subdiag hCoeffs : Nat → K) (extractQ : Bool) :
    Option ((Nat → Nat → K) × (Nat → K) × (Nat → K)) :=
  if n = 3 then
    some (Tridiagonalization._decomposeInPlace3x3 isMuchSmallerThan sqrt mat diag subdiag
      extractQ)
  else
    match Tridiagonalization._compute isMuchSmallerThan sqrt n mat hCoeffs with
    | none => none
    | some (M, h) =>
      some (if extractQ then
          (fun r c => if r < n ∧ c < n then Tridiagonalization.matrixQ n M h r c else mat r c)
        else mat,
        fun k => if k < n then Tridiagonalization.diagonal M k else diag k,
        fun k => if k < n - 1 then Tridiagonalization.subDiagonal M k else subdiag k)

/-- The symmetric matrix `[[1,3,4],[3,2,1],[4,1,0]]`, whose first row has the
off-diagonal norm `5`. -/
def seedSymmetric3 : Nat → Nat → ℚ :=
  fun r c => ([[1, 3, 4], [3, 2, 1], [4, 1, 0]].getD r []).getD c 0

/-! ## Upper bidiagonalization (`SVD/UpperBidiagonalization.h`) -/

/-- The band matrix type `BidiagonalType` of `UpperBidiagonalization`: a
square band matrix with one super-diagonal and no sub-diagonal, given by its
size, its main diagonal (`diagonal<0>()`) and its super-diagonal
(`diagonal<1>()`). -/
structure BandMatrix (K : Type) where
  size : Nat
  diagonal0 : Nat → K
  diagonal1 : Nat → K

/-- The data members of the class `UpperBidiagonalization`: the matrix
`m_householder` with its dimensions, the band matrix `m_bidiagonal` and the
flag `m_isInitialized`. -/
structure UpperBidiagonalization (K : Type) where
  rows : Nat
  cols : Nat
  m_householder : Nat → Nat → K
  m_bidiagonal : BandMatrix K
  m_isInitialized : Bool

/-- The Householder kernels that `UpperBidiagonalization::compute` calls and
that `Householder.h` does not define.

* `makeHouseholderInPlace size v` stands for
  `v.makeHouseholderInPlace(tau, beta)` on a vector of `size` coefficients.
  `compute` passes as `tau` a reference to the first coefficient of the vector
  itself, so the effect of the call is the vector after the call and the value
  written to `beta`.
* `applyHouseholderOnTheLeft rows cols block essential tau` and
  `applyHouseholderOnTheRight rows cols block essential tau` stand for the
  three-argument `block.applyHouseholderOnTheLeft(essential, tau, workspace)`
  and `block.applyHouseholderOnTheRight(essential, tau, workspace)` on a block
  of `rows × cols` coefficients: the block after the call. -/
structure HouseholderKernels (K : Type) where
  makeHouseholderInPlace : Nat → (Nat → K) → (Nat → K) × K
  applyHouseholderOnTheLeft : Nat → Nat → (Nat → Nat → K) → (Nat → K) → K → Nat → Nat → K
  applyHouseholderOnTheRight : Nat → Nat → (Nat → Nat → K) → (Nat → K) → K → Nat → Nat → K

/-- A use that `UpperBidiagonalization::compute` makes of `m_householder`,
with the indices and sizes as the source computes them, in `int`. -/
inductive MatrixAccess where
  /-- The call `coeff(row, col)` or `coeffRef(row, col)`. -/
  | coeff (row col : Int)
  /-- The expression `col(col).tail(size)`. -/
  | colTail (col size : Int)
  /-- The expression `row(row).tail(size)`. -/
  | rowTail (row size : Int)
  /-- The expression `bottomRightCorner(blockRows, blockCols)`. -/
  | bottomRightCorner (blockRows blockCols : Int)
  deriving DecidableEq

/-- One Householder reflector that `compute` constructs and applies: its side,
the loop index `k`, and the uses of `m_householder` made for it, in the order
of the source. -/
structure ReflectorStep where
  onTheLeft : Bool
  k : Nat
  accesses : List MatrixAccess
  deriving DecidableEq

/-- The coefficients `(startRow + i, startCol + j)` of a matrix: what a block
expression with that top-left corner reads. -/
def blockAt {K : Type} (M : Nat → Nat → K) (startRow startCol : Nat) : Nat → Nat → K :=
  fun i j => M (startRow + i) (startCol + j)

/-- A matrix after the block of `blockRows × blockCols` coefficients that
starts at `(startRow, startCol)` is overwritten with `B`. -/
def writeBlock {K : Type} (M : Nat → Nat → K) (startRow startCol blockRows blockCols : Nat)
    (B : Nat → Nat → K) : Nat → Nat → K :=
  fun i j =>
    if startRow ≤ i ∧ i < startRow + blockRows ∧ startCol ≤ j ∧ j < startCol + blockCols then
      B (i - startRow) (j - startCol)
    else M i j

/-- The uses of `m_householder` in the first half of iteration `k` of the loop
of `compute` (left reflector), with `remainingRows = rows - k` and
`remainingCols = cols - k - 1`. -/
def UpperBidiagonalization.leftAccesses (rows cols : Nat) (k : Nat) : List MatrixAccess :=
  let remainingRows : Int := (rows : Int) - k
  let remainingCols : Int := (cols : Int) - k - 1
  [MatrixAccess.colTail k remainingRows, MatrixAccess.coeff k k,
   MatrixAccess.bottomRightCorner remainingRows remainingCols,
   MatrixAccess.colTail k (remainingRows - 1), MatrixAccess.coeff k k]

/-- The uses of `m_householder` in the second half of iteration `k` of the
loop of `compute` (right reflector). -/
def UpperBidiagonalization.rightAccesses (rows cols : Nat) (k : Nat) : List MatrixAccess :=
  let remainingRows : Int := (rows : Int) - k
  let remainingCols : Int := (cols : Int) - k - 1
  [MatrixAccess.rowTail k remainingCols, MatrixAccess.coeff k (k + 1),
   MatrixAccess.bottomRightCorner (remainingRows - 1) remainingCols,
   MatrixAccess.rowTail k (remainingCols - 1), MatrixAccess.coeff k (k + 1)]

/-- The first half of iteration `k` of the loop of `compute`: the left
reflector is constructed in place in the tail of column `k` (its `beta` goes to
`m_bidiagonal.diagonal<0>()(k)`) and applied on the left to the bottom-right
corner of `remainingRows × remainingCols` coefficients. -/
def UpperBidiagonalization.leftStep {K : Type} (kern : HouseholderKernels K) (rows cols : Nat)
    (k : Nat) (st : (Nat → Nat → K) × BandMatrix K) : (Nat → Nat → K) × BandMatrix K :=
  let remainingRows : Int := (rows : Int) - k
  let remainingCols : Int := (cols : Int) - k - 1
  let made := kern.makeHouseholderInPlace remainingRows.toNat (fun i => st.1 (k + i) k)
  let h1 := writeBlock st.1 k k remainingRows.toNat 1 (fun i _ => made.1 i)
  let b1 : BandMatrix K :=
    { st.2 with diagonal0 := fun i => if i = k then made.2 else st.2.diagonal0 i }
  let corner := kern.applyHouseholderOnTheLeft remainingRows.toNat remainingCols.toNat
    (blockAt h1 k (k + 1)) (fun i => h1 (k + 1 + i) k) (h1 k k)
  (writeBlock h1 k (k + 1) remainingRows.toNat remainingCols.toNat corner, b1)

/-- The second half of iteration `k` of the loop of `compute`: the right
reflector is constructed in place in the tail of row `k` (its `beta` goes to
`m_bidiagonal.diagonal<1>()(k)`) and applied on the right to the bottom-right
corner of `(remainingRows - 1) × remainingCols` coefficients. -/
def UpperBidiagonalization.rightStep {K : Type} (kern : HouseholderKernels K) (rows cols : Nat)
    (k : Nat) (st : (Nat → Nat → K) × BandMatrix K) : (Nat → Nat → K) × BandMatrix K :=
  let remainingRows : Int := (rows : Int) - k
  let remainingCols : Int := (cols : Int) - k - 1
  let made := kern.makeHouseholderInPlace remainingCols.toNat (fun j => st.1 k (k + 1 + j))
  let h1 := writeBlock st.1 k (k + 1) 1 remainingCols.toNat (fun _ j => made.1 j)
  let b1 : BandMatrix K :=
    { st.2 with diagonal1 := fun i => if i = k then made.2 else st.2.diagonal1 i }
  let corner := kern.applyHouseholderOnTheRight (remainingRows - 1).toNat remainingCols.toNat
    (blockAt h1 (k + 1) (k + 1)) (fun j => h1 k (k + 2 + j)) (h1 k (k + 1))
  (writeBlock h1 (k + 1) (k + 1) (remainingRows - 1).toNat remainingCols.toNat corner, b1)

/-- The loop `for (int k = 0; ; ++k)` of `compute`, from the index `k`, for at
most `fuel` iterations: the left reflector, the exit test `k == cols-1`
(evaluated in `int`), the right reflector.  The reflectors are appended to the
log in the order in which they are made.  The result is `none` when the exit
test has not held within `fuel` iterations. -/
def UpperBidiagonalization.computeLoop {K : Type} (kern : HouseholderKernels K)
    (rows cols : Nat) :
    Nat → Nat → ((Nat → Nat → K) × BandMatrix K) × List ReflectorStep →
      Option (((Nat → Nat → K) × BandMatrix K) × List ReflectorStep)
  | 0, _, _ => none
  | fuel + 1, k, (st, log) =>
    let st1 := UpperBidiagonalization.leftStep kern rows cols k st
    let log1 := log ++ [ReflectorStep.mk true k (UpperBidiagonalization.leftAccesses rows cols k)]
    if (k : Int) = (cols : Int) - 1 then some (st1, log1)
    else
      UpperBidiagonalization.computeLoop kern rows cols fuel (k + 1)
        (UpperBidiagonalization.rightStep kern rows cols k st1,
          log1 ++ [ReflectorStep.mk false k (UpperBidiagonalization.rightAccesses rows cols k)])

/-- What a call of `UpperBidiagonalization::compute` comes to: the assertion
`rows >= cols` raises, on the object as it then is; or the loop has not left
within the iterations allowed; or the call returns the object, with the
reflectors it has made. -/
inductive ComputeOutcome (K : Type) where
  | assertionFailed (self : UpperBidiagonalization K)
  | notTerminated
  | finished (self : UpperBidiagonalization K) (log : List ReflectorStep)

/-- The method `UpperBidiagonalization::compute` on a `rows × cols` matrix,
with at most `fuel` iterations of its loop: `ei_assert(rows >= cols)`, then
`m_householder = matrix`, the loop, and `m_isInitialized = true`. -/
def UpperBidiagonalization.compute {K : Type} (kern : HouseholderKernels K) (fuel : Nat)
    (self : UpperBidiagonalization K) (rows cols : Nat) (matrix : Nat → Nat → K) :
    ComputeOutcome K :=
  if rows < cols then ComputeOutcome.assertionFailed self
  else
    match UpperBidiagonalization.computeLoop kern rows cols fuel 0
        ((matrix, self.m_bidiagonal), []) with
    | none => ComputeOutcome.notTerminated
    | some (st, log) =>
      ComputeOutcome.finished
        { rows := rows, cols := cols, m_householder := st.1, m_bidiagonal := st.2,
          m_isInitialized := true } log

/-- The use lies inside a `rows × cols` matrix: a coefficient has its row in
`[0, rows)` and its column in `[0, cols)`; a tail of a column or of a row is
taken of an existing column or row and has a length between 0 and the length
of that column or row; a corner has between 0 and `rows` rows and between 0
and `cols` columns. -/
def MatrixAccess.inside (rows cols : Nat) : MatrixAccess → Prop
  | MatrixAccess.coeff r c => 0 ≤ r ∧ r < rows ∧ 0 ≤ c ∧ c < cols
  | MatrixAccess.colTail c size => 0 ≤ c ∧ c < cols ∧ 0 ≤ size ∧ size ≤ rows
  | MatrixAccess.rowTail r size => 0 ≤ r ∧ r < rows ∧ 0 ≤ size ∧ size ≤ cols
  | MatrixAccess.bottomRightCorner blockRows blockCols =>
    0 ≤ blockRows ∧ blockRows ≤ rows ∧ 0 ≤ blockCols ∧ blockCols ≤ cols

/-- The loop indices of the left reflectors (`side = true`) or of the right
reflectors (`side = false`) of a log, in the order in which they were made. -/
def reflectorIndices (side : Bool) (log : List ReflectorStep) : List Nat :=
  (log.filter fun s => s.onTheLeft == side).map fun s => s.k

/-- The default constructor `UpperBidiagonalization()`: empty members,
`m_isInitialized(false)`. -/
def UpperBidiagonalization.defaultConstructed {K : Type} [Zero K] : UpperBidiagonalization K :=
  { rows := 0, cols := 0, m_householder := fun _ _ => 0,
    m_bidiagonal := { size := 0, diagonal0 := fun _ => 0, diagonal1 := fun _ => 0 },
    m_isInitialized := false }

/-- The arguments from which `householderU()` and `householderV()` construct
the `HouseholderSequence` that they return: the matrix of the vectors, the
coefficients, and for `householderV()` also `(trans, actualVectors, shift)`. -/
structure HouseholderSequenceArgs (K : Type) where
  vectors : Nat → Nat → K
  coeffs : Nat → K
  extra : Option (Bool × Int × Int)

/-- The method `UpperBidiagonalization::householder()`: returns the member. -/
def UpperBidiagonalization.householder {K : Type} (self : UpperBidiagonalization K) :
    Except String (Nat → Nat → K) :=
  Except.ok self.m_householder

/-- The method `UpperBidiagonalization::bidiagonal()`: returns the member. -/
def UpperBidiagonalization.bidiagonal {K : Type} (self : UpperBidiagonalization K) :
    Except String (BandMatrix K) :=
  Except.ok self.m_bidiagonal

/-- The method `UpperBidiagonalization::householderU()`:
`ei_assert(m_isInitialized && ...)`, then the sequence made of `m_householder`
and of the conjugate of its diagonal. -/
def UpperBidiagonalization.householderU {K : Type} [Star K] (self : UpperBidiagonalization K) :
    Except String (HouseholderSequenceArgs K) :=
  if self.m_isInitialized then
    Except.ok { vectors := self.m_householder, coeffs := fun i => star (self.m_householder i i),
                extra := none }
  else Except.error "UpperBidiagonalization is not initialized."

/-- The method `UpperBidiagonalization::householderV()`:
`ei_assert(m_isInitialized && ...)`, then the sequence made of `m_householder`
and of its first super-diagonal, with `(false, cols - 1, 1)`. -/
def UpperBidiagonalization.householderV {K : Type} (self : UpperBidiagonalization K) :
    Except String (HouseholderSequenceArgs K) :=
  if self.m_isInitialized then
    Except.ok { vectors := self.m_householder, coeffs := fun i => self.m_householder i (i + 1),
                extra := some (false, (self.cols : Int) - 1, 1) }
  else Except.error "UpperBidiagonalization is not initialized."

/-- The data members of the class `Tridiagonalization`: the matrix `m_matrix`
with its dimensions and the vector `m_hCoeffs` with its size.  The class has
no other member. -/
structure Tridiagonalization.Object (K : Type) where
  rows : Nat
  cols : Nat
  m_matrix : Nat → Nat → K
  hSize : Nat
  m_hCoeffs : Nat → K

/-- The default constructor `Tridiagonalization()`: empty members. -/
def Tridiagonalization.Object.defaultConstructed {K : Type} [Zero K] :
    Tridiagonalization.Object K :=
  { rows := 0, cols := 0, m_matrix := fun _ _ => 0, hSize := 0, m_hCoeffs := fun _ => 0 }

/-- The method `householderCoefficients()`: returns the member. -/
def Tridiagonalization.Object.householderCoefficients {K : Type}
    (self : Tridiagonalization.Object K) : Except String (Nat × (Nat → K)) :=
  Except.ok (self.hSize, self.m_hCoeffs)

/-- The method `packedMatrix()`: returns the member. -/
def Tridiagonalization.Object.packedMatrix {K : Type} (self : Tridiagonalization.Object K) :
    Except String (Nat × Nat × (Nat → Nat → K)) :=
  Except.ok (self.rows, self.cols, self.m_matrix)



/-! ## The wrappers `scaleAndAddTo` of the general and of the triangular product -/

/-- What a call of `scaleAndAddTo` comes to: its assertion raises, on the
destination as it then is; or the product driver is called with the sizes
`(rows, cols, depth)`, and gives its result on the destination. -/
inductive ProductOutcome (K : Type) where
  | assertionFailed (dst : Nat → K)
  | driverCalled (rows cols depth : Nat) (result : Option (Nat → K))

/-- The method `GeneralProduct<Lhs, Rhs, GemmProduct>::scaleAndAddTo(dst, alpha)`
on operands of the given shapes: `ei_assert(dst.rows()==m_lhs.rows() &&
dst.cols()==m_rhs.cols())`, then `actualAlpha = alpha * lhsFactor * rhsFactor`
(the scalar factors that the `BlasTraits`, declared outside the given sources,
extract from the operands) and the functor `ei_gemm_functor` on all the rows
and columns of the product, which calls the driver with the sizes
`(m_lhs.rows(), m_rhs.cols(), m_lhs.cols())`.  The number of rows of the right
operand is an argument of the model only to show that the code does not use
it. -/
def GeneralProduct.scaleAndAddTo {K : Type} [Zero K] [One K] [Add K] [Mul K] [Star K]
    (lhsOrder : StorageOrder) (conjLhs : Bool) (rhsOrder : StorageOrder) (conjRhs : Bool)
    (resOrder : StorageOrder) (alphaOnLhs : Bool)
    (dstRows dstCols lhsRows lhsCols _rhsRows rhsCols : Nat)
    (lhs : Nat → K) (lhsStride : Nat) (rhs : Nat → K) (rhsStride : Nat)
    (dst : Nat → K) (dstStride : Nat) (alpha lhsFactor rhsFactor : K)
    (blocking : ei_level3_blocking K) : ProductOutcome K :=
  if dstRows = lhsRows ∧ dstCols = rhsCols then
    let actualAlpha := alpha * lhsFactor * rhsFactor
    ProductOutcome.driverCalled lhsRows rhsCols lhsCols
      (ei_general_matrix_matrix_product_run lhsOrder conjLhs rhsOrder conjRhs resOrder
        alphaOnLhs lhsRows rhsCols lhsCols lhs lhsStride rhs rhsStride dst dstStride
        actualAlpha blocking)
  else ProductOutcome.assertionFailed dst

/-- The method `TriangularProduct<Mode, LhsIsTriangular, ...>::scaleAndAddTo(dst,
alpha)` on operands of the given shapes: `actualAlpha = alpha * lhsFactor *
rhsFactor`, then the driver `ei_product_triangular_matrix_matrix::run` with
the sizes `(lhs.rows(), rhs.cols(), lhs.cols())`.  The method has no
assertion.  The shapes of the destination and the number of rows of the right
operand are arguments of the model only to show that the code does not use
them. -/
def TriangularProduct.scaleAndAddTo {K : Type} [Zero K] [One K] [Add K] [Mul K] [Star K]
    (mode : TriangularMode) (lhsIsTriangular : Bool) (lhsOrder : StorageOrder)
    (conjLhs : Bool) (rhsOrder : StorageOrder) (conjRhs : Bool)
    (_dstRows _dstCols lhsRows lhsCols _rhsRows rhsCols : Nat)
    (lhs : Nat → K) (lhsStride : Nat) (rhs : Nat → K) (rhsStride : Nat)
    (dst : Nat → K) (dstStride : Nat) (alpha lhsFactor rhsFactor : K)
    (kc mc smallPanelWidth : Nat) (blockA blockB geb : Nat → Nat → K) : ProductOutcome K :=
  let actualAlpha := alpha * lhsFactor * rhsFactor
  ProductOutcome.driverCalled lhsRows rhsCols lhsCols
    (ei_product_triangular_matrix_matrix_run mode lhsIsTriangular lhsOrder conjLhs rhsOrder
      conjRhs lhsRows rhsCols lhsCols lhs lhsStride rhs rhsStride dst dstStride actualAlpha
      kc mc smallPanelWidth blockA blockB geb)

/-- An upper-triangular left operand that is not square, `[[2, 3]]` (one row,
two columns), stored column-major with stride 1. -/
def seedTrapezoid : Nat → ℤ := fun n => [2, 3].getD n 0

/-- The column `[1, 1]`, stored column-major with stride 2. -/
def seedOnes : Nat → ℤ := fun n => [1, 1].getD n 0

/-- A right operand of three rows and two columns, `[[5,8],[7,1],[6,2]]`,
stored column-major with stride 3. -/
def seedTall : Nat → ℤ := fun n => [5, 7, 6, 8, 1, 2].getD n 0


/-! ## The sequential general driver: packing factors and kernel calls -/

/-- The flag `alphaOnLhs` of the general driver,
`NumTraits<LhsScalar>::IsComplex && !NumTraits<RhsScalar>::IsComplex`, from the
two trait values. -/
def alphaOnLhs (lhsIsComplex rhsIsComplex : Bool) : Bool :=
  lhsIsComplex && !rhsIsComplex

/-- The factor `lhsAlpha = alphaOnLhs ? ei_get_factor(alpha) : LhsScalar(1)`
that the sequential driver hands to the lhs packer; `ei_get_factor` is the
identity on a common scalar type. -/
def lhsAlpha {K : Type} [One K] (onLhs : Bool) (alpha : K) : K :=
  if onLhs then alpha else 1

/-- The factor `rhsAlpha = alphaOnLhs ? RhsScalar(1) : ei_get_factor(alpha)`
that the sequential driver hands to the rhs packer. -/
def rhsAlpha {K : Type} [One K] (onLhs : Bool) (alpha : K) : K :=
  if onLhs then 1 else alpha

/-- One call `gebp(res+i2, resStride, blockA, blockB, actual_mc, actual_kc,
cols, ...)` of the sequential driver, by the tile of the lhs that it
multiplies: rows `i2 .. i2 + actual_mc`, depth `k2 .. k2 + actual_kc`. -/
structure GebpCall where
  i2 : Nat
  k2 : Nat
  actual_mc : Nat
  actual_kc : Nat
  deriving DecidableEq

/-- The tile of the call holds the coefficient `(i, k)` of the lhs. -/
def GebpCall.covers (t : GebpCall) (i k : Nat) : Bool :=
  decide (t.i2 ≤ i ∧ i < t.i2 + t.actual_mc ∧ t.k2 ≤ k ∧ k < t.k2 + t.actual_kc)

/-- The lexicographic order of the calls on `(k2, i2)`. -/
def GebpCall.before (a b : GebpCall) : Prop :=
  a.k2 < b.k2 ∨ (a.k2 = b.k2 ∧ a.i2 < b.i2)

/-- The loop `gemmRowLoop` with the history of its kernel calls: each call is
appended to `calls` when it is made. -/
def gemmRowLoopCalls {K : Type} [Zero K] [Add K] [Mul K] [Star K]
    (lhsOrder : StorageOrder) (conjLhs : Bool) (rows cols mc k2 actual_kc : Nat)
    (lhs : Nat → K) (lhsStride resStride : Nat) (lhsAlpha : K) (blockB : Nat → Nat → K) :
    Nat → Nat → (Nat → Nat → K) → (Nat → K) → List GebpCall →
      Option ((Nat → Nat → K) × (Nat → K) × List GebpCall)
  | 0, i2, blockA, res, calls => if i2 < rows then none else some (blockA, res, calls)
  | fuel + 1, i2, blockA, res, calls =>
    if i2 < rows then
      let actual_mc := min (i2 + mc) rows - i2
      let blockA1 := ei_gemm_pack_lhs lhsOrder conjLhs blockA
        (ptrAdd lhs (blasIndex lhsOrder lhsStride i2 k2)) lhsStride actual_kc actual_mc lhsAlpha
      let res1 := ei_gebp_kernel false false i2 resStride blockA1 blockB actual_mc actual_kc
        0 0 cols res
      gemmRowLoopCalls lhsOrder conjLhs rows cols mc k2 actual_kc lhs lhsStride resStride
        lhsAlpha blockB fuel (i2 + mc) blockA1 res1
        (calls ++ [GebpCall.mk i2 k2 actual_mc actual_kc])
    else some (blockA, res, calls)

/-- The loop `gemmDepthLoop` with the history of its kernel calls. -/
def gemmDepthLoopCalls {K : Type} [Zero K] [Add K] [Mul K] [Star K]
    (lhsOrder : StorageOrder) (conjLhs : Bool) (rhsOrder : StorageOrder) (conjRhs : Bool)
    (rows cols depth kc mc : Nat) (lhs : Nat → K) (lhsStride : Nat) (rhs : Nat → K)
    (rhsStride resStride : Nat) (lhsAlpha rhsAlpha : K) :
    Nat → Nat → (Nat → Nat → K) → (Nat → Nat → K) → (Nat → K) → List GebpCall →
      Option ((Nat → K) × List GebpCall)
  | 0, k2, _, _, res, calls => if k2 < depth then none else some (res, calls)
  | fuel + 1, k2, blockA, blockB, res, calls =>
    if k2 < depth then
      let actual_kc := min (k2 + kc) depth - k2
      let blockB1 := ei_gemm_pack_rhs rhsOrder conjRhs blockB
        (ptrAdd rhs (blasIndex rhsOrder rhsStride k2 0)) rhsStride rhsAlpha actual_kc cols 0
      match gemmRowLoopCalls lhsOrder conjLhs rows cols mc k2 actual_kc lhs lhsStride resStride
          lhsAlpha blockB1 rows 0 blockA res calls with
      | none => none
      | some (blockA1, res1, calls1) =>
        gemmDepthLoopCalls lhsOrder conjLhs rhsOrder conjRhs rows cols depth kc mc lhs lhsStride
          rhs rhsStride resStride lhsAlpha rhsAlpha fuel (k2 + kc) blockA1 blockB1 res1 calls1
    else some (res, calls)

/-- The sequential branch `runColMajor` with the history of its kernel calls,
in the order in which they are made. -/
def runColMajorCalls {K : Type} [Zero K] [One K] [Add K] [Mul K] [Star K]
    (lhsOrder : StorageOrder) (conjLhs : Bool) (rhsOrder : StorageOrder) (conjRhs : Bool)
    (alphaOnLhs : Bool) (rows cols depth : Nat) (lhs : Nat → K) (lhsStride : Nat)
    (rhs : Nat → K) (rhsStride : Nat) (res : Nat → K) (resStride : Nat) (alpha : K)
    (blocking : ei_level3_blocking K) : Option ((Nat → K) × List GebpCall) :=
  let kc := blocking.kc
  let mc := min rows blocking.mc
  let lhsAlpha : K := if alphaOnLhs then alpha else 1
  let rhsAlpha : K := if alphaOnLhs then 1 else alpha
  gemmDepthLoopCalls lhsOrder conjLhs rhsOrder conjRhs rows cols depth kc mc lhs lhsStride rhs
    rhsStride resStride lhsAlpha rhsAlpha depth 0 blocking.blockA blocking.blockB res []

/-- A blocking handle with blocks of two rows and two depth steps. -/
def blocking22 : ei_level3_blocking ℤ :=
  { kc := 2, mc := 2, blockA := fun _ _ => 0, blockB := fun _ _ => 0 }


/-! ## Self-adjoint view to dense matrix (`Core/SelfAdjointView.h`) -/

/-- Modelled from the spec: the method `copyCoeff(row, col, other)` of a dense
destination (declared outside the given sources), which reads the coefficient
`(row, col)` of `other` and stores it at `(row, col)` of the destination. -/
def copyCoeff {K : Type} (dst : Nat → Nat → K) (row col : Nat) (other : Nat → Nat → K) :
    Nat → Nat → K :=
  setCoeff dst row col (other row col)

/-- The compile-time-unrolled assignment
`triangular_assignment_selector<Derived1, Derived2, (SelfAdjoint|Upper), UnrollCount,
ClearOpposite>::run` and its twin for `(SelfAdjoint|Lower)`, selected by
`upper`: the instance for `UnrollCount - 1` runs first, then the coefficient
`row = (UnrollCount-1) % RowsAtCompileTime`,
`col = (UnrollCount-1) / RowsAtCompileTime` is treated; `UnrollCount = 0` does
nothing.  `real` is `numext::real` and `star` is `numext::conj`. -/
def triangular_assignment_selector_unrolled {K : Type} [Star K] (real : K → K) (upper : Bool)
    (rowsAtCompileTime : Nat) (src : Nat → Nat → K) :
    Nat → (Nat → Nat → K) → (Nat → Nat → K)
  | 0, dst => dst
  | unrollCount + 1, dst =>
    let dst1 := triangular_assignment_selector_unrolled real upper rowsAtCompileTime src
      unrollCount dst
    let col := unrollCount / rowsAtCompileTime
    let row := unrollCount % rowsAtCompileTime
    if row = col then setCoeff dst1 row col (real (src row col))
    else if (if upper then row < col else col < row) then
      let dst2 := setCoeff dst1 row col (src row col)
      setCoeff dst2 col row (star (dst2 row col))
    else dst1

/-- The inner loop of the dynamic-size assignment, for the outer index
`outer`: `for (i = 0; i < j; ++i)` with `j = outer` for `Upper`,
`for (j = 0; j < i; ++j)` with `i = outer` for `Lower`; each step does
`dst.copyCoeff(i, j, src)` and `dst.coeffRef(j,i) = numext::conj(dst.coeff(i,j))`.
The counter of the loop is the recursion argument. -/
def triangular_assignment_selector_dynamic_inner {K : Type} [Star K] (upper : Bool)
    (src : Nat → Nat → K) (outer : Nat) : Nat → (Nat → Nat → K) → (Nat → Nat → K)
  | 0, dst => dst
  | inner + 1, dst =>
    let dst1 := triangular_assignment_selector_dynamic_inner upper src outer inner dst
    let i := if upper then inner else outer
    let j := if upper then outer else inner
    let dst2 := copyCoeff dst1 i j src
    setCoeff dst2 j i (star (dst2 i j))

/-- The dynamic-size assignment
`triangular_assignment_selector<Derived1, Derived2, SelfAdjoint|Upper, Dynamic,
ClearOpposite>::run` and its twin for `SelfAdjoint|Lower`, selected by `upper`:
the outer loop over the columns (`Upper`) or the rows (`Lower`) of the
destination, each step running the inner loop and then copying the diagonal
coefficient with `copyCoeff`.  The counter of the outer loop is the recursion
argument. -/
def triangular_assignment_selector_dynamic {K : Type} [Star K] (upper : Bool)
    (src : Nat → Nat → K) : Nat → (Nat → Nat → K) → (Nat → Nat → K)
  | 0, dst => dst
  | outer + 1, dst =>
    let dst1 := triangular_assignment_selector_dynamic upper src outer dst
    copyCoeff (triangular_assignment_selector_dynamic_inner upper src outer outer dst1)
      outer outer src

/-- Modelled from the spec: the method `assignCoeff(row, col)` of
`generic_dense_assignment_kernel` (declared outside the given sources), which
hands the coefficient `(row, col)` of the destination and that of the source
to the functor; `functor old value` is the coefficient that
`m_functor.assignCoeff` leaves in the destination. -/
def generic_dense_assignment_kernel_assignCoeff {K : Type} (functor : K → K → K)
    (src : Nat → Nat → K) (row col : Nat) (dst : Nat → Nat → K) : Nat → Nat → K :=
  setCoeff dst row col (functor (dst row col) (src row col))

/-- The method `assignCoeff(row, col)` of
`triangular_dense_assignment_kernel<UpLo, SelfAdjoint, ...>`:
`tmp = m_src.coeff(row,col)` goes to `(row, col)` and `numext::conj(tmp)` to
`(col, row)`, both through the functor. -/
def triangular_dense_assignment_kernel_assignCoeff {K : Type} [Star K] (functor : K → K → K)
    (src : Nat → Nat → K) (row col : Nat) (dst : Nat → Nat → K) : Nat → Nat → K :=
  let tmp := src row col
  let dst1 := setCoeff dst row col (functor (dst row col) tmp)
  setCoeff dst1 col row (functor (dst1 col row) (star tmp))

/-- The method `assignDiagonalCoeff(id)` of
`triangular_dense_assignment_kernel<UpLo, SelfAdjoint, ...>`:
`Base::assignCoeff(id, id)`. -/
def triangular_dense_assignment_kernel_assignDiagonalCoeff {K : Type} (functor : K → K → K)
    (src : Nat → Nat → K) (id : Nat) (dst : Nat → Nat → K) : Nat → Nat → K :=
  generic_dense_assignment_kernel_assignCoeff functor src id id dst

/-- The dense matrix that a self-adjoint view of `src` stands for, the
diagonal as stored: the declared triangle of `src` and, across the diagonal,
its conjugate. -/
def selfAdjointDense {K : Type} [Star K] (upper : Bool) (src : Nat → Nat → K) :
    Nat → Nat → K :=
  fun r c => if (if upper then r ≤ c else c ≤ r) then src r c else star (src c r)

/-- The position of the coefficient `(r, c)` in the order in which the
unrolled assignment treats the declared triangle and the diagonal of a matrix
with `n` rows: the index `col * n + row` of the declared coefficient that
writes `(r, c)`. -/
def unrolledIndex (upper : Bool) (n r c : Nat) : Nat :=
  if upper then max r c * n + min r c else min r c * n + max r c

/-- The function `numext::real` on the Gaussian integers. -/
def gaussianReal : GaussianInt → GaussianInt := fun z => ⟨z.re, 0⟩

/-- The functor `assign_op`, which stores the value. -/
def assign_op {K : Type} : K → K → K := fun _ value => value

/-- A complex matrix whose stored diagonal is not real,
`[[1+2i, 3+i], [0, 5-i]]`: the upper triangle of a 2 × 2 self-adjoint view. -/
def seedComplexUpper : Nat → Nat → GaussianInt := fun r c =>
  if r = 0 ∧ c = 0 then ⟨1, 2⟩
  else if r = 0 ∧ c = 1 then ⟨3, 1⟩
  else if r = 1 ∧ c = 1 then ⟨5, -1⟩
  else 0

/-- The upper triangle `[[4,1,2],[_,5,3],[_,_,6]]` of a symmetric matrix, the
strictly lower coefficients holding the value `below`. -/
def seedSymmetricUpper (below : ℤ) : Nat → Nat → ℤ := fun r c =>
  if c < r then below else ([[4, 1, 2], [0, 5, 3], [0, 0, 6]].getD r []).getD c 0


/-! ## The triangular drivers with the history of the scratch matrix -/

/-- One pack of the scratch matrix `triangularBuffer`: the diagonal micro
block of `actualPanelWidth` rows and columns that starts at `startBlock` of
the triangular operand, and the scratch matrix as it is handed to the
packer. -/
structure TriangularPack (K : Type) where
  startBlock : Nat
  actualPanelWidth : Nat
  buffer : Nat → Nat → K

/-- The scratch matrix of the pack satisfies the invariant, and the block of
`actualPanelWidth × actualPanelWidth` coefficients that is packed is the
diagonal micro block of the dense matrix that the triangular operand `tri`
stands for: nothing in it comes from an earlier pack. -/
def TriangularPack.clean {K : Type} [Zero K] [One K] (mode : TriangularMode)
    (tri : Nat → Nat → K) (p : TriangularPack K) : Prop :=
  triangularBufferInvariant mode p.buffer ∧
    ∀ i k, i < p.actualPanelWidth → k < p.actualPanelWidth →
      p.buffer i k = triangularView mode tri (p.startBlock + i) (p.startBlock + k)

/-- The loop `trmmLhsPanelLoop` with the history of the scratch matrix: each
pack of a diagonal micro block is appended to `packs` when it is made. -/
def trmmLhsPanelLoopPacks {K : Type} [Zero K] [One K] [Add K] [Mul K] [Star K]
    (mode : TriangularMode) (lhsOrder : StorageOrder) (conjLhs conjRhs : Bool) (cols : Nat)
    (lhs : Nat → K) (lhsStride resStride smallPanelWidth actual_k2 actual_kc : Nat)
    (blockB : Nat → Nat → K) :
    Nat → Nat → (Nat → Nat → K) → (Nat → Nat → K) → (Nat → K) → List (TriangularPack K) →
      Option ((Nat → Nat → K) × (Nat → Nat → K) × (Nat → K) × List (TriangularPack K))
  | 0, k1, blockA, triangularBuffer, res, packs =>
    if k1 < actual_kc then none else some (blockA, triangularBuffer, res, packs)
  | fuel + 1, k1, blockA, triangularBuffer, res, packs =>
    if k1 < actual_kc then
      trmmLhsPanelLoopPacks mode lhsOrder conjLhs conjRhs cols lhs lhsStride resStride
        smallPanelWidth actual_k2 actual_kc blockB fuel (k1 + smallPanelWidth)
        (trmmLhsPanelBody mode lhsOrder conjLhs conjRhs cols lhs lhsStride resStride
          smallPanelWidth actual_k2 actual_kc blockB k1 blockA triangularBuffer res).1
        (trmmLhsPanelBody mode lhsOrder conjLhs conjRhs cols lhs lhsStride resStride
          smallPanelWidth actual_k2 actual_kc blockB k1 blockA triangularBuffer res).2.1
        (trmmLhsPanelBody mode lhsOrder conjLhs conjRhs cols lhs lhsStride resStride
          smallPanelWidth actual_k2 actual_kc blockB k1 blockA triangularBuffer res).2.2
        (packs ++ [TriangularPack.mk (actual_k2 + k1) (min (actual_kc - k1) smallPanelWidth)
          (trmmLhsPanelBody mode lhsOrder conjLhs conjRhs cols lhs lhsStride resStride
            smallPanelWidth actual_k2 actual_kc blockB k1 blockA triangularBuffer res).2.1])
    else some (blockA, triangularBuffer, res, packs)

/-- The body `trmmLhsDepthBody` with the history of the scratch matrix. -/
def trmmLhsDepthBodyPacks {K : Type} [Zero K] [One K] [Add K] [Mul K] [Star K]
    (mode : TriangularMode) (lhsOrder : StorageOrder) (conjLhs : Bool)
    (rhsOrder : StorageOrder) (conjRhs : Bool) (rows cols depth : Nat)
    (lhs : Nat → K) (lhsStride : Nat) (rhs : Nat → K) (rhsStride resStride : Nat) (alpha : K)
    (kc mc smallPanelWidth : Nat) (k2 : Nat) (blockA blockB triangularBuffer : Nat → Nat → K)
    (res : Nat → K) (packs : List (TriangularPack K)) :
    Option (Nat × (Nat → Nat → K) × (Nat → Nat → K) × (Nat → Nat → K) × (Nat → K) ×
      List (TriangularPack K)) :=
  let actual_kc0 := min (if mode.isLower then k2 else depth - k2) kc
  let actual_k2 := if mode.isLower then k2 - actual_kc0 else k2
  let realign : Bool := !mode.isLower && decide (k2 < rows) && decide (rows < k2 + actual_kc0)
  let actual_kc := if realign then rows - k2 else actual_kc0
  let k2r : Int := if realign then (k2 : Int) + actual_kc - kc else k2
  let blockB1 := ei_gemm_pack_rhs rhsOrder false blockB
    (ptrAdd rhs (blasIndex rhsOrder rhsStride actual_k2 0)) rhsStride alpha actual_kc cols 0
  match (if mode.isLower || decide (actual_k2 < rows) then
      trmmLhsPanelLoopPacks mode lhsOrder conjLhs conjRhs cols lhs lhsStride resStride
        smallPanelWidth actual_k2 actual_kc blockB1 actual_kc 0 blockA triangularBuffer res
        packs
    else some (blockA, triangularBuffer, res, packs)) with
  | none => none
  | some (blockA1, buf1, res1, packs1) =>
    let start := if mode.isLower then k2 else 0
    let endRow := if mode.isLower then rows else min actual_k2 rows
    match trmmLhsGeppLoop lhsOrder conjLhs conjRhs cols lhs lhsStride resStride mc
        actual_k2 actual_kc blockB1 endRow rows start blockA1 res1 with
    | none => none
    | some (blockA2, res2) =>
      some (if mode.isLower then (k2r - kc).toNat else (k2r + kc).toNat,
        blockA2, blockB1, buf1, res2, packs1)

/-- The loop `trmmLhsDepthLoop` with the history of the scratch matrix. -/
def trmmLhsDepthLoopPacks {K : Type} [Zero K] [One K] [Add K] [Mul K] [Star K]
    (mode : TriangularMode) (lhsOrder : StorageOrder) (conjLhs : Bool)
    (rhsOrder : StorageOrder) (conjRhs : Bool) (rows cols depth : Nat)
    (lhs : Nat → K) (lhsStride : Nat) (rhs : Nat → K) (rhsStride resStride : Nat) (alpha : K)
    (kc mc smallPanelWidth : Nat) :
    Nat → Nat → (Nat → Nat → K) → (Nat → Nat → K) → (Nat → Nat → K) → (Nat → K) →
      List (TriangularPack K) → Option ((Nat → K) × List (TriangularPack K))
  | 0, k2, _, _, _, res, packs =>
    if (if mode.isLower then 0 < k2 else k2 < depth) then none else some (res, packs)
  | fuel + 1, k2, blockA, blockB, triangularBuffer, res, packs =>
    if (if mode.isLower then 0 < k2 else k2 < depth) then
      match trmmLhsDepthBodyPacks mode lhsOrder conjLhs rhsOrder conjRhs rows cols depth lhs
          lhsStride rhs rhsStride resStride alpha kc mc smallPanelWidth k2 blockA blockB
          triangularBuffer res packs with
      | none => none
      | some (k2next, blockA1, blockB1, buf1, res1, packs1) =>
        trmmLhsDepthLoopPacks mode lhsOrder conjLhs rhsOrder conjRhs rows cols depth lhs
          lhsStride rhs rhsStride resStride alpha kc mc smallPanelWidth fuel k2next blockA1
          blockB1 buf1 res1 packs1
    else some (res, packs)

/-- The driver `trmmLhsRun` with the history of the scratch matrix, from
`triangularBuffer.setZero(); triangularBuffer.diagonal().setOnes()` on. -/
def trmmLhsRunPacks {K : Type} [Zero K] [One K] [Add K] [Mul K] [Star K]
    (mode : TriangularMode) (lhsOrder : StorageOrder) (conjLhs : Bool)
    (rhsOrder : StorageOrder) (conjRhs : Bool) (rows cols depth : Nat)
    (lhs : Nat → K) (lhsStride : Nat) (rhs : Nat → K) (rhsStride : Nat)
    (res : Nat → K) (resStride : Nat) (alpha : K) (kc mc smallPanelWidth : Nat)
    (blockA blockB : Nat → Nat → K) : Option ((Nat → K) × List (TriangularPack K)) :=
  let alpha1 := if conjRhs then star alpha else alpha
  trmmLhsDepthLoopPacks mode lhsOrder conjLhs rhsOrder conjRhs rows cols depth lhs lhsStride
    rhs rhsStride resStride alpha1 kc mc smallPanelWidth depth
    (if mode.isLower then depth else 0) blockA blockB triangularBufferInit res []

/-- The loop `trmmRhsPackLoop` with the history of the scratch matrix. -/
def trmmRhsPackLoopPacks {K : Type} [Zero K] [One K] [Mul K] [Star K]
    (mode : TriangularMode) (rhsOrder : StorageOrder) (rhs : Nat → K) (rhsStride : Nat)
    (alpha : K) (smallPanelWidth actual_k2 actual_kc : Nat) :
    Nat → Nat → (Nat → Nat → K) → (Nat → Nat → K) → List (TriangularPack K) →
      Option ((Nat → Nat → K) × (Nat → Nat → K) × List (TriangularPack K))
  | 0, j2, blockB, triangularBuffer, packs =>
    if j2 < actual_kc then none else some (blockB, triangularBuffer, packs)
  | fuel + 1, j2, blockB, triangularBuffer, packs =>
    if j2 < actual_kc then
      trmmRhsPackLoopPacks mode rhsOrder rhs rhsStride alpha smallPanelWidth actual_k2 actual_kc
        fuel (j2 + smallPanelWidth)
        (trmmRhsPackBody mode rhsOrder rhs rhsStride alpha smallPanelWidth actual_k2 actual_kc
          j2 blockB triangularBuffer).1
        (trmmRhsPackBody mode rhsOrder rhs rhsStride alpha smallPanelWidth actual_k2 actual_kc
          j2 blockB triangularBuffer).2
        (packs ++ [TriangularPack.mk (actual_k2 + j2) (min (actual_kc - j2) smallPanelWidth)
          (trmmRhsPackBody mode rhsOrder rhs rhsStride alpha smallPanelWidth actual_k2
            actual_kc j2 blockB triangularBuffer).2])
    else some (blockB, triangularBuffer, packs)

/-- The body `trmmRhsDepthBody` with the history of the scratch matrix. -/
def trmmRhsDepthBodyPacks {K : Type} [Zero K] [One K] [Add K] [Mul K] [Star K]
    (mode : TriangularMode) (lhsOrder : StorageOrder) (conjLhs : Bool)
    (rhsOrder : StorageOrder) (conjRhs : Bool) (rows cols depth : Nat)
    (lhs : Nat → K) (lhsStride : Nat) (rhs : Nat → K) (rhsStride resStride : Nat) (alpha : K)
    (kc mc smallPanelWidth : Nat) (k2 : Nat)
    (blockA blockB geb triangularBuffer : Nat → Nat → K) (res : Nat → K)
    (packs : List (TriangularPack K)) :
    Option (Nat × (Nat → Nat → K) × (Nat → Nat → K) × (Nat → Nat → K) × (Nat → Nat → K) ×
      (Nat → K) × List (TriangularPack K)) :=
  let actual_kc0 := min (if mode.isLower then depth - k2 else k2) kc
  let actual_k2 := if mode.isLower then k2 else k2 - actual_kc0
  let realign : Bool :=
    mode.isLower && decide (k2 < cols) && decide (cols < actual_k2 + actual_kc0)
  let actual_kc := if realign then cols - k2 else actual_kc0
  let k2r : Int := if realign then (actual_k2 : Int) + actual_kc - kc else k2
  let rs := if mode.isLower then min cols actual_k2 else cols - k2
  let ts := if mode.isLower && decide (cols ≤ actual_k2) then 0 else actual_kc
  let colStart := if mode.isLower then 0 else k2
  let geb1 := ei_gemm_pack_rhs rhsOrder false geb
    (ptrAdd rhs (blasIndex rhsOrder rhsStride actual_k2 colStart)) rhsStride alpha actual_kc rs 0
  match (if 0 < ts then
      trmmRhsPackLoopPacks mode rhsOrder rhs rhsStride alpha smallPanelWidth actual_k2 actual_kc
        actual_kc 0 blockB triangularBuffer packs
    else some (blockB, triangularBuffer, packs)) with
  | none => none
  | some (blockB1, buf1, packs1) =>
    match trmmRhsRowLoop mode lhsOrder conjLhs conjRhs rows lhs lhsStride resStride mc
        smallPanelWidth actual_k2 actual_kc rs ts colStart blockB1 geb1 rows 0 blockA res with
    | none => none
    | some (blockA1, res1) =>
      some (if mode.isLower then (k2r + kc).toNat else (k2r - kc).toNat,
        blockA1, blockB1, geb1, buf1, res1, packs1)

/-- The loop `trmmRhsDepthLoop` with the history of the scratch matrix. -/
def trmmRhsDepthLoopPacks {K : Type} [Zero K] [One K] [Add K] [Mul K] [Star K]
    (mode : TriangularMode) (lhsOrder : StorageOrder) (conjLhs : Bool)
    (rhsOrder : StorageOrder) (conjRhs : Bool) (rows cols depth : Nat)
    (lhs : Nat → K) (lhsStride : Nat) (rhs : Nat → K) (rhsStride resStride : Nat) (alpha : K)
    (kc mc smallPanelWidth : Nat) :
    Nat → Nat → (Nat → Nat → K) → (Nat → Nat → K) → (Nat → Nat → K) → (Nat → Nat → K) →
      (Nat → K) → List (TriangularPack K) → Option ((Nat → K) × List (TriangularPack K))
  | 0, k2, _, _, _, _, res, packs =>
    if (if mode.isLower then k2 < depth else 0 < k2) then none else some (res, packs)
  | fuel + 1, k2, blockA, blockB, geb, triangularBuffer, res, packs =>
    if (if mode.isLower then k2 < depth else 0 < k2) then
      match trmmRhsDepthBodyPacks mode lhsOrder conjLhs rhsOrder conjRhs rows cols depth lhs
          lhsStride rhs rhsStride resStride alpha kc mc smallPanelWidth k2 blockA blockB geb
          triangularBuffer res packs with
      | none => none
      | some (k2next, blockA1, blockB1, geb1, buf1, res1, packs1) =>
        trmmRhsDepthLoopPacks mode lhsOrder conjLhs rhsOrder conjRhs rows cols depth lhs
          lhsStride rhs rhsStride resStride alpha kc mc smallPanelWidth fuel k2next blockA1
          blockB1 geb1 buf1 res1 packs1
    else some (res, packs)

/-- The driver `trmmRhsRun` with the history of the scratch matrix, from
`triangularBuffer.setZero(); triangularBuffer.diagonal().setOnes()` on. -/
def trmmRhsRunPacks {K : Type} [Zero K] [One K] [Add K] [Mul K] [Star K]
    (mode : TriangularMode) (lhsOrder : StorageOrder) (conjLhs : Bool)
    (rhsOrder : StorageOrder) (conjRhs : Bool) (rows cols depth : Nat)
    (lhs : Nat → K) (lhsStride : Nat) (rhs : Nat → K) (rhsStride : Nat)
    (res : Nat → K) (resStride : Nat) (alpha : K) (kc mc smallPanelWidth : Nat)
    (blockA blockB geb : Nat → Nat → K) : Option ((Nat → K) × List (TriangularPack K)) :=
  let alpha1 := if conjRhs then star alpha else alpha
  trmmRhsDepthLoopPacks mode lhsOrder conjLhs rhsOrder conjRhs rows cols depth lhs lhsStride
    rhs rhsStride resStride alpha1 kc mc smallPanelWidth depth
    (if mode.isLower then 0 else depth) blockA blockB geb triangularBufferInit res []

/-- A lower-triangular operand of size 3, `[[2,0,0],[3,5,0],[7,1,4]]`, stored
column-major with stride 3, with `88` in its strictly upper part. -/
def seedTriLower3 : Nat → ℤ := fun n => [2, 3, 7, 88, 5, 1, 88, 88, 4].getD n 0

/-- The operand `[[1,0],[1,1],[2,1]]` of three rows and two columns, stored
column-major with stride 3. -/
def seedThreeByTwo : Nat → ℤ := fun n => [1, 1, 2, 0, 1, 1].getD n 0

/-- The leading `2 × 2` block of a scratch matrix, by rows. -/
def leadingBlock2 {K : Type} (buffer : Nat → Nat → K) : List (List K) :=
  [[buffer 0 0, buffer 0 1], [buffer 1 0, buffer 1 1]]

/-- The mode `Lower`: lower triangular, stored diagonal. -/
def modeLower : TriangularMode := { isLower := true, unitDiag := false }

/-- What is kept of a pack for display: where its block starts, its width, and
the leading `2 × 2` block of the scratch matrix. -/
def TriangularPack.summary {K : Type} (p : TriangularPack K) : Nat × Nat × List (List K) :=
  (p.startBlock, p.actualPanelWidth, leadingBlock2 p.buffer)


/-! ## Product evaluators (`Core/ProductEvaluators.h`)

A destination and the operands of a product are values: the destination is
not one of the operands. -/

/-- Modelled from the spec: the method `setZero()` of a dense destination
(declared outside the given sources), which sets every coefficient to zero. -/
def setZero {K : Type} [Zero K] (_dst : Nat → Nat → K) : Nat → Nat → K :=
  fun _ _ => 0

/-- The method `generic_product_impl_base::scaleAndAddTo`: the call goes to
`Derived::scaleAndAddTo`, which is the parameter `derived`. -/
def generic_product_impl_base.scaleAndAddTo {K L R : Type}
    (derived : (Nat → Nat → K) → L → R → K → (Nat → Nat → K))
    (dst : Nat → Nat → K) (lhs : L) (rhs : R) (alpha : K) : Nat → Nat → K :=
  derived dst lhs rhs alpha

/-- The method `generic_product_impl_base::evalTo`:
`dst.setZero(); scaleAndAddTo(dst, lhs, rhs, Scalar(1));`. -/
def generic_product_impl_base.evalTo {K L R : Type} [Zero K] [One K]
    (derived : (Nat → Nat → K) → L → R → K → (Nat → Nat → K))
    (dst : Nat → Nat → K) (lhs : L) (rhs : R) : Nat → Nat → K :=
  generic_product_impl_base.scaleAndAddTo derived (setZero dst) lhs rhs 1

/-- The method `generic_product_impl_base::addTo`:
`scaleAndAddTo(dst, lhs, rhs, Scalar(1));`. -/
def generic_product_impl_base.addTo {K L R : Type} [One K]
    (derived : (Nat → Nat → K) → L → R → K → (Nat → Nat → K))
    (dst : Nat → Nat → K) (lhs : L) (rhs : R) : Nat → Nat → K :=
  generic_product_impl_base.scaleAndAddTo derived dst lhs rhs 1

/-- The method `generic_product_impl_base::subTo`:
`scaleAndAddTo(dst, lhs, rhs, Scalar(-1));`. -/
def generic_product_impl_base.subTo {K L R : Type} [One K] [Neg K]
    (derived : (Nat → Nat → K) → L → R → K → (Nat → Nat → K))
    (dst : Nat → Nat → K) (lhs : L) (rhs : R) : Nat → Nat → K :=
  generic_product_impl_base.scaleAndAddTo derived dst lhs rhs (-1)

/-- A `Derived::scaleAndAddTo` that adds `alpha` times the product of two
matrices with `depth` inner indices, coefficient by coefficient. -/
def scaleAndAddToDense (depth : Nat) (dst : Nat → Nat → ℤ) (lhs rhs : Nat → Nat → ℤ)
    (alpha : ℤ) : Nat → Nat → ℤ :=
  fun i j => dst i j + alpha * accumulate (fun k => lhs i k * rhs k j) depth

/-- The compile-time-unrolled
`etor_product_coeff_impl<DefaultTraversal, UnrollingIndex, ...>::run`: the
instance for `UnrollingIndex - 1` runs first, then
`res += lhs.coeff(row, UnrollingIndex) * rhs.coeff(UnrollingIndex, col)`; the
instance for 0 is `res = lhs.coeff(row, 0) * rhs.coeff(0, col)`.  The second
argument is the content of `res` before the call, the value is its content
after it. -/
def etor_product_coeff_impl_unrolled {K : Type} [Add K] [Mul K] (lhs rhs : Nat → Nat → K)
    (row col : Nat) : Nat → K → K
  | 0, _ => lhs row 0 * rhs 0 col
  | unrollingIndex + 1, res =>
    etor_product_coeff_impl_unrolled lhs rhs row col unrollingIndex res +
      lhs row (unrollingIndex + 1) * rhs (unrollingIndex + 1) col

/-- What a call of a dynamic product evaluator comes to: the assertion failed,
the loop did not end within the steps allowed, or the call returned with
`res` as its result after reading the inner indices `reads`, in this order. -/
inductive EvaluatorOutcome (P : Type) where
  | assertionFailed (message : String) : EvaluatorOutcome P
  | notTerminated : EvaluatorOutcome P
  | returned (res : P) (reads : List Nat) : EvaluatorOutcome P
  deriving DecidableEq

/-- The loop `for(Index i = 1; i < innerDim; ++i) res = step(i, res)` of the
dynamic evaluators, `step i res` being the value that the body assigns to
`res`.  The counter only grows from 1, so it is a natural number; `innerDim`
is a signed `Index`.  Every inner index that the body reads is appended to
`reads`. -/
def etor_product_dynamic_loop {P : Type} (step : Nat → P → P) (innerDim : Int) :
    Nat → Nat → P → List Nat → Option (P × List Nat)
  | 0, i, res, reads => if (i : Int) < innerDim then none else some (res, reads)
  | fuel + 1, i, res, reads =>
    if (i : Int) < innerDim then
      etor_product_dynamic_loop step innerDim fuel (i + 1) (step i res) (reads ++ [i])
    else some (res, reads)

/-- The body shared by the dynamic evaluators: `eigen_assert(innerDim>0 &&
"you are using a non initialized matrix")`, then `res = first` (which reads
the inner index 0), then the loop, which gets `innerDim` units of fuel. -/
def etor_product_dynamic_run {P : Type} (first : P) (step : Nat → P → P) (innerDim : Int) :
    EvaluatorOutcome P :=
  if innerDim > 0 then
    match etor_product_dynamic_loop step innerDim innerDim.toNat 1 first [0] with
    | none => EvaluatorOutcome.notTerminated
    | some (res, reads) => EvaluatorOutcome.returned res reads
  else EvaluatorOutcome.assertionFailed "you are using a non initialized matrix"

/-- The function `etor_product_coeff_impl<DefaultTraversal, Dynamic, ...>::run`:
`res = lhs.coeff(row, 0) * rhs.coeff(0, col)` and, in the loop,
`res += lhs.coeff(row, i) * rhs.coeff(i, col)`.  `_res` is the content of `res`
before the call. -/
def etor_product_coeff_impl_Dynamic {K : Type} [Add K] [Mul K] (lhs rhs : Nat → Nat → K)
    (row col : Nat) (innerDim : Int) (_res : K) : EvaluatorOutcome K :=
  etor_product_dynamic_run (lhs row 0 * rhs 0 col)
    (fun i res => res + lhs row i * rhs i col) innerDim

/-- The function `etor_product_packet_impl<RowMajor, Dynamic, ...>::run`:
`res = pmul(pset1(lhs.coeff(row, 0)), rhs.packet(0, col))` and, in the loop,
`res = pmadd(pset1(lhs.coeff(row, i)), rhs.packet(i, col), res)`.  The packet
primitives `pmul`, `pmadd`, `pset1` and the packet load of the right-hand
side are declared outside the given sources and are parameters. -/
def etor_product_packet_impl_RowMajor_Dynamic {K P : Type} (pmul : P → P → P)
    (pmadd : P → P → P → P) (pset1 : K → P) (lhs : Nat → Nat → K) (rhsPacket : Nat → Nat → P)
    (row col : Nat) (innerDim : Int) (_res : P) : EvaluatorOutcome P :=
  etor_product_dynamic_run (pmul (pset1 (lhs row 0)) (rhsPacket 0 col))
    (fun i res => pmadd (pset1 (lhs row i)) (rhsPacket i col) res) innerDim

/-- The function `etor_product_packet_impl<ColMajor, Dynamic, ...>::run`:
`res = pmul(lhs.packet(row, 0), pset1(rhs.coeff(0, col)))` and, in the loop,
`res = pmadd(lhs.packet(row, i), pset1(rhs.coeff(i, col)), res)`. -/
def etor_product_packet_impl_ColMajor_Dynamic {K P : Type} (pmul : P → P → P)
    (pmadd : P → P → P → P) (pset1 : K → P) (lhsPacket : Nat → Nat → P) (rhs : Nat → Nat → K)
    (row col : Nat) (innerDim : Int) (_res : P) : EvaluatorOutcome P :=
  etor_product_dynamic_run (pmul (lhsPacket row 0) (pset1 (rhs 0 col)))
    (fun i res => pmadd (lhsPacket row i) (pset1 (rhs i col)) res) innerDim

/-- The sum over `i = 0, …, N - 1`, in increasing `i`, of
`lhs(row, i) * rhs(i, col)`: the terms for `i = 1, …, N - 1` are added one
after the other to the term for `i = 0`. -/
def sumInIncreasingOrder {K : Type} [Add K] [Mul K] (lhs rhs : Nat → Nat → K) (row col : Nat)
    (N : Nat) : K :=
  (List.range' 1 (N - 1)).foldl (fun acc i => acc + lhs row i * rhs i col)
    (lhs row 0 * rhs 0 col)

/-- The matrix `[[1,2,3],[4,5,6]]`. -/
def seedTwoByThree : Nat → Nat → ℤ := fun r c =>
  ([[1, 2, 3], [4, 5, 6]].getD r []).getD c 0

/-- The matrix `[[7,8],[9,10],[11,12]]`. -/
def seedThreeByTwoRhs : Nat → Nat → ℤ := fun r c =>
  ([[7, 8], [9, 10], [11, 12]].getD r []).getD c 0

/-- A destination with the content `[[10,20],[30,40]]`. -/
def seedDestination : Nat → Nat → ℤ := fun r c =>
  ([[10, 20], [30, 40]].getD r []).getD c 0


/-! ## Blocking handles and the calls of the sequential driver -/

/-- The address in a buffer pointer of a blocking handle: the null pointer, or
one of the arrays `m_staticA`, `m_staticB`, `m_staticW` of a fixed-size
blocking space. -/
inductive BlockPointer where
  | null : BlockPointer
  | m_staticA : BlockPointer
  | m_staticB : BlockPointer
  | m_staticW : BlockPointer
  deriving DecidableEq

/-- The members that `ei_gemm_blocking_space` inherits from
`ei_level3_blocking`: the three buffer pointers and the three block sizes. -/
structure ei_gemm_blocking_space where
  m_blockA : BlockPointer
  m_blockB : BlockPointer
  m_blockW : BlockPointer
  m_mc : Nat
  m_nc : Nat
  m_kc : Nat
  deriving DecidableEq

/-- The constructor `ei_level3_blocking()`: null pointers and zero sizes. -/
def ei_level3_blocking.construct : ei_gemm_blocking_space :=
  { m_blockA := BlockPointer.null, m_blockB := BlockPointer.null,
    m_blockW := BlockPointer.null, m_mc := 0, m_nc := 0, m_kc := 0 }

/-- The constructor of the fixed-size
`ei_gemm_blocking_space<StorageOrder, ..., MaxRows, MaxCols, MaxDepth, true>`:
after the base constructor, `m_mc = ActualRows`, `m_nc = ActualCols`,
`m_kc = MaxDepth` and the pointers take the addresses of the static arrays,
where `Transpose = StorageOrder==RowMajor`,
`ActualRows = Transpose ? MaxCols : MaxRows` and
`ActualCols = Transpose ? MaxRows : MaxCols`.  The run-time sizes handed to
the constructor are not used. -/
def ei_gemm_blocking_space.fixedSize (storageOrder : StorageOrder)
    (maxRows maxCols maxDepth : Nat) (_rows _cols _depth : Nat) : ei_gemm_blocking_space :=
  let transpose : Bool := decide (storageOrder = StorageOrder.RowMajor)
  let actualRows := if transpose then maxCols else maxRows
  let actualCols := if transpose then maxRows else maxCols
  let base := ei_level3_blocking.construct
  { base with
    m_mc := actualRows, m_nc := actualCols, m_kc := maxDepth,
    m_blockA := BlockPointer.m_staticA, m_blockB := BlockPointer.m_staticB,
    m_blockW := BlockPointer.m_staticW }

/-- What the sequential driver does, in the order in which it does it: a
buffer taken with `ei_aligned_stack_new`, a call of `pack_rhs`, of `pack_lhs`
or of `gebp`. -/
inductive DriverEvent where
  | ei_aligned_stack_new (size : Nat) : DriverEvent
  | pack_rhs (k2 actual_kc cols : Nat) : DriverEvent
  | pack_lhs (i2 k2 actual_kc actual_mc : Nat) : DriverEvent
  | gebp (i2 actual_mc actual_kc cols : Nat) : DriverEvent
  deriving DecidableEq

/-- The statement
`blockX = blocking.blockX()==0 ? ei_aligned_stack_new(Scalar, size) : blocking.blockX()`
of the sequential driver: a buffer is taken exactly when the handle holds the
null pointer. -/
def driverBuffer (p : BlockPointer) (size : Nat) : List DriverEvent :=
  if p = BlockPointer.null then [DriverEvent.ei_aligned_stack_new size] else []

/-- The loop `gemmRowLoop` with the history of what the driver does. -/
def gemmRowLoopEvents {K : Type} [Zero K] [Add K] [Mul K] [Star K]
    (lhsOrder : StorageOrder) (conjLhs : Bool) (rows cols mc k2 actual_kc : Nat)
    (lhs : Nat → K) (lhsStride resStride : Nat) (lhsAlpha : K) (blockB : Nat → Nat → K) :
    Nat → Nat → (Nat → Nat → K) → (Nat → K) → List DriverEvent →
      Option ((Nat → Nat → K) × (Nat → K) × List DriverEvent)
  | 0, i2, blockA, res, events => if i2 < rows then none else some (blockA, res, events)
  | fuel + 1, i2, blockA, res, events =>
    if i2 < rows then
      let actual_mc := min (i2 + mc) rows - i2
      let blockA1 := ei_gemm_pack_lhs lhsOrder conjLhs blockA
        (ptrAdd lhs (blasIndex lhsOrder lhsStride i2 k2)) lhsStride actual_kc actual_mc lhsAlpha
      let res1 := ei_gebp_kernel false false i2 resStride blockA1 blockB actual_mc actual_kc
        0 0 cols res
      gemmRowLoopEvents lhsOrder conjLhs rows cols mc k2 actual_kc lhs lhsStride resStride
        lhsAlpha blockB fuel (i2 + mc) blockA1 res1
        (events ++ [DriverEvent.pack_lhs i2 k2 actual_kc actual_mc,
          DriverEvent.gebp i2 actual_mc actual_kc cols])
    else some (blockA, res, events)

/-- The loop `gemmDepthLoop` with the history of what the driver does. -/
def gemmDepthLoopEvents {K : Type} [Zero K] [Add K] [Mul K] [Star K]
    (lhsOrder : StorageOrder) (conjLhs : Bool) (rhsOrder : StorageOrder) (conjRhs : Bool)
    (rows cols depth kc mc : Nat) (lhs : Nat → K) (lhsStride : Nat) (rhs : Nat → K)
    (rhsStride resStride : Nat) (lhsAlpha rhsAlpha : K) :
    Nat → Nat → (Nat → Nat → K) → (Nat → Nat → K) → (Nat → K) → List DriverEvent →
      Option ((Nat → K) × List DriverEvent)
  | 0, k2, _, _, res, events => if k2 < depth then none else some (res, events)
  | fuel + 1, k2, blockA, blockB, res, events =>
    if k2 < depth then
      let actual_kc := min (k2 + kc) depth - k2
      let blockB1 := ei_gemm_pack_rhs rhsOrder conjRhs blockB
        (ptrAdd rhs (blasIndex rhsOrder rhsStride k2 0)) rhsStride rhsAlpha actual_kc cols 0
      match gemmRowLoopEvents lhsOrder conjLhs rows cols mc k2 actual_kc lhs lhsStride resStride
          lhsAlpha blockB1 rows 0 blockA res
          (events ++ [DriverEvent.pack_rhs k2 actual_kc cols]) with
      | none => none
      | some (blockA1, res1, events1) =>
        gemmDepthLoopEvents lhsOrder conjLhs rhsOrder conjRhs rows cols depth kc mc lhs
          lhsStride rhs rhsStride resStride lhsAlpha rhsAlpha fuel (k2 + kc) blockA1 blockB1
          res1 events1
    else some (res, events)

/-- The sequential branch `runColMajor`, run on a blocking handle, with the
history of what the driver does: the three buffer statements (sizes `kc*mc`,
`kc*cols` and `kc*wUnit`, where `wUnit` is
`ei_packet_traits<RhsScalar>::size*Blocking::nr`), then the loops.  `blockA`
and `blockB` are the contents, before the call, of the buffers that the driver
works on. -/
def runColMajorEvents {K : Type} [Zero K] [One K] [Add K] [Mul K] [Star K]
    (lhsOrder : StorageOrder) (conjLhs : Bool) (rhsOrder : StorageOrder) (conjRhs : Bool)
    (alphaOnLhs : Bool) (rows cols depth : Nat) (lhs : Nat → K) (lhsStride : Nat)
    (rhs : Nat → K) (rhsStride : Nat) (res : Nat → K) (resStride : Nat) (alpha : K)
    (blocking : ei_gemm_blocking_space) (wUnit : Nat) (blockA blockB : Nat → Nat → K) :
    Option ((Nat → K) × List DriverEvent) :=
  let kc := blocking.m_kc
  let mc := min rows blocking.m_mc
  let buffers := driverBuffer blocking.m_blockA (kc * mc) ++
    driverBuffer blocking.m_blockB (kc * cols) ++ driverBuffer blocking.m_blockW (kc * wUnit)
  let lhsAlpha : K := if alphaOnLhs then alpha else 1
  let rhsAlpha : K := if alphaOnLhs then 1 else alpha
  gemmDepthLoopEvents lhsOrder conjLhs rhsOrder conjRhs rows cols depth kc mc lhs lhsStride rhs
    rhsStride resStride lhsAlpha rhsAlpha depth 0 blockA blockB res buffers

/-- The values that a blocking handle hands to the driver, given the contents
of the buffers that the driver works on. -/
def ei_gemm_blocking_space.toBlocking {K : Type} (blocking : ei_gemm_blocking_space)
    (blockA blockB : Nat → Nat → K) : ei_level3_blocking K :=
  { kc := blocking.m_kc, mc := blocking.m_mc, blockA := blockA, blockB := blockB }


/-! ## The index-based inner iterator of a sparse view (`SparseCore/SparseView.h`)

`m_inner` starts at 0 and is only incremented, so it is a natural number and
the test `m_inner>=0` of `operator bool` holds.  The function
`internal::isMuchSmallerThan` is declared outside the given sources and is a
parameter, and so are the reference value and the epsilon of the view. -/

/-- The members `m_inner`, `m_outer` and `m_end` of
`unary_evaluator<SparseView<ArgType>, IndexBased>::InnerIterator`. -/
structure SparseView.InnerIterator where
  m_inner : Nat
  m_outer : Nat
  m_end : Nat
  deriving DecidableEq

/-- The method `value()`: `m_argImpl.coeff(m_outer, m_inner)` for a row-major
view, `m_argImpl.coeff(m_inner, m_outer)` otherwise. -/
def SparseView.InnerIterator.value {K : Type} (isRowMajor : Bool) (m_argImpl : Nat → Nat → K)
    (it : SparseView.InnerIterator) : K :=
  if isRowMajor then m_argImpl it.m_outer it.m_inner else m_argImpl it.m_inner it.m_outer

/-- The method `index()`. -/
def SparseView.InnerIterator.index (it : SparseView.InnerIterator) : Nat :=
  it.m_inner

/-- The conversion `operator bool()`: `m_inner < m_end && m_inner>=0`. -/
def SparseView.InnerIterator.toBool (it : SparseView.InnerIterator) : Bool :=
  decide (it.m_inner < it.m_end)

/-- The method `incrementToNonZero()`:
`while(bool(*this) && isMuchSmallerThan(value(), reference, epsilon)) m_inner++;`,
run with explicit fuel. -/
def SparseView.InnerIterator.incrementToNonZero {K E : Type}
    (isMuchSmallerThan : K → K → E → Bool) (reference : K) (epsilon : E) (isRowMajor : Bool)
    (m_argImpl : Nat → Nat → K) : Nat → SparseView.InnerIterator → Option SparseView.InnerIterator
  | 0, it =>
    if (it.toBool && isMuchSmallerThan (it.value isRowMajor m_argImpl) reference epsilon) = true
    then none else some it
  | fuel + 1, it =>
    if (it.toBool && isMuchSmallerThan (it.value isRowMajor m_argImpl) reference epsilon) = true
    then
      SparseView.InnerIterator.incrementToNonZero isMuchSmallerThan reference epsilon isRowMajor
        m_argImpl fuel { it with m_inner := it.m_inner + 1 }
    else some it

/-- The constructor `InnerIterator(sve, outer)`: `m_inner(0)`, `m_outer(outer)`,
`m_end(sve.m_view.innerSize())`, then `incrementToNonZero()`, which gets
`innerSize` units of fuel. -/
def SparseView.InnerIterator.construct {K E : Type} (isMuchSmallerThan : K → K → E → Bool)
    (reference : K) (epsilon : E) (isRowMajor : Bool) (m_argImpl : Nat → Nat → K)
    (innerSize outer : Nat) : Option SparseView.InnerIterator :=
  SparseView.InnerIterator.incrementToNonZero isMuchSmallerThan reference epsilon isRowMajor
    m_argImpl innerSize { m_inner := 0, m_outer := outer, m_end := innerSize }

/-- The operator `operator++()`: `m_inner++; incrementToNonZero();`, the loop
getting `m_end - m_inner` units of fuel. -/
def SparseView.InnerIterator.increment {K E : Type} (isMuchSmallerThan : K → K → E → Bool)
    (reference : K) (epsilon : E) (isRowMajor : Bool) (m_argImpl : Nat → Nat → K)
    (it : SparseView.InnerIterator) : Option SparseView.InnerIterator :=
  SparseView.InnerIterator.incrementToNonZero isMuchSmallerThan reference epsilon isRowMajor
    m_argImpl (it.m_end - it.m_inner) { it with m_inner := it.m_inner + 1 }

/-- The iteration `for (; it; ++it)` from the iterator `it`, with the history
of its states: `states` ends with `it`, and every state that `operator++`
leaves is appended to it. -/
def SparseView.InnerIterator.iterateFrom {K E : Type} (isMuchSmallerThan : K → K → E → Bool)
    (reference : K) (epsilon : E) (isRowMajor : Bool) (m_argImpl : Nat → Nat → K) :
    Nat → SparseView.InnerIterator → List SparseView.InnerIterator →
      Option (List SparseView.InnerIterator)
  | 0, it, states => if it.toBool = true then none else some states
  | fuel + 1, it, states =>
    if it.toBool = true then
      match SparseView.InnerIterator.increment isMuchSmallerThan reference epsilon isRowMajor
          m_argImpl it with
      | none => none
      | some it1 =>
        SparseView.InnerIterator.iterateFrom isMuchSmallerThan reference epsilon isRowMajor
          m_argImpl fuel it1 (states ++ [it1])
    else some states

/-- The iteration `for (InnerIterator it(sve, outer); it; ++it)` over one inner
vector: the state after the construction and the state after every
`operator++`, in this order.  The loop gets `innerSize` units of fuel. -/
def SparseView.InnerIterator.iterate {K E : Type} (isMuchSmallerThan : K → K → E → Bool)
    (reference : K) (epsilon : E) (isRowMajor : Bool) (m_argImpl : Nat → Nat → K)
    (innerSize outer : Nat) : Option (List SparseView.InnerIterator) :=
  match SparseView.InnerIterator.construct isMuchSmallerThan reference epsilon isRowMajor
      m_argImpl innerSize outer with
  | none => none
  | some it =>
    SparseView.InnerIterator.iterateFrom isMuchSmallerThan reference epsilon isRowMajor
      m_argImpl innerSize it [it]

/-- The indices that the body of the iteration sees: `index()` of every state
in which the iterator is not exhausted. -/
def SparseView.visitedIndices (states : List SparseView.InnerIterator) : List Nat :=
  (states.filter (fun it => it.toBool)).map (fun it => it.index)

/-- The coefficient of the inner vector `outer` at the inner index `i`. -/
def SparseView.innerCoeff {K : Type} (isRowMajor : Bool) (m_argImpl : Nat → Nat → K)
    (outer i : Nat) : K :=
  if isRowMajor then m_argImpl outer i else m_argImpl i outer

/-- The test `|value| <= |reference| * epsilon` on the integers, for the role
of `isMuchSmallerThan`. -/
def isMuchSmallerThanInt (value reference : ℤ) (epsilon : Nat) : Bool :=
  decide (value.natAbs ≤ reference.natAbs * epsilon)

/-- The one-column matrix with the column `[0, 7, 1, -9, 0]`. -/
def seedSparseColumn : Nat → Nat → ℤ := fun r c =>
  if c = 0 then [0, 7, 1, -9, 0].getD r 0 else 0


/-! ## The accesses of `Tridiagonalization::_compute` -/

/-- An access of `_compute` to the matrix `matA` or to the vector `hCoeffs`,
with the signed indices and sizes that the code hands over:
`matA.col(col).end(size)`, `matA.col(col).coeff(index)` (or `coeffRef`),
`matA.corner(BottomRight, rows, cols)`, `hCoeffs.coeffRef(index)` and
`hCoeffs.end(size)`. -/
inductive TridiagonalizationAccess where
  | colEnd (col size : Int) : TridiagonalizationAccess
  | colCoeff (col index : Int) : TridiagonalizationAccess
  | corner (rows cols : Int) : TridiagonalizationAccess
  | hCoeff (index : Int) : TridiagonalizationAccess
  | hEnd (size : Int) : TridiagonalizationAccess
  deriving DecidableEq

/-- An access is in range for an `n × n` matrix and a coefficient vector of
`hSize` entries: a column or a coefficient index lies in `[0, n)` resp.
`[0, hSize)`, the size of an end segment or of a corner lies between 0 and the
size of what it is taken from. -/
def TridiagonalizationAccess.inside (n hSize : Int) : TridiagonalizationAccess → Bool
  | TridiagonalizationAccess.colEnd col size =>
    decide (0 ≤ col ∧ col < n ∧ 0 ≤ size ∧ size ≤ n)
  | TridiagonalizationAccess.colCoeff col index =>
    decide (0 ≤ col ∧ col < n ∧ 0 ≤ index ∧ index < n)
  | TridiagonalizationAccess.corner rows cols =>
    decide (0 ≤ rows ∧ rows ≤ n ∧ 0 ≤ cols ∧ cols ≤ n)
  | TridiagonalizationAccess.hCoeff index => decide (0 ≤ index ∧ index < hSize)
  | TridiagonalizationAccess.hEnd size => decide (0 ≤ size ∧ size ≤ hSize)

/-- The size that the constructors and `compute` give to the coefficient
vector of an `n × n` matrix: `m_hCoeffs(matrix.cols()-1)`,
`m_hCoeffs.resize(matrix.rows()-1)`. -/
def Tridiagonalization.hCoeffsSize (n : Nat) : Int :=
  (n : Int) - 1

/-- The accesses of iteration `i` of the loop of `_compute`, statement by
statement; `skip` tells whether the test
`ei_isMuchSmallerThan(v1norm2, 1)` of this iteration holds. -/
def Tridiagonalization.stepAccesses (n : Int) (i : Int) (skip : Bool) :
    List TridiagonalizationAccess :=
  [TridiagonalizationAccess.colEnd i (n - (i + 2))] ++
  (if skip then [TridiagonalizationAccess.hCoeff i]
  else
    [TridiagonalizationAccess.colCoeff i (i + 1),
      TridiagonalizationAccess.colEnd i (n - (i + 2)),
      TridiagonalizationAccess.colCoeff i (i + 1),
      TridiagonalizationAccess.colCoeff i (i + 1),
      TridiagonalizationAccess.hEnd (n - i - 1),
      TridiagonalizationAccess.corner (n - i - 1) (n - i - 1),
      TridiagonalizationAccess.colEnd i (n - i - 1),
      TridiagonalizationAccess.hEnd (n - i - 1),
      TridiagonalizationAccess.colEnd i (n - i - 1),
      TridiagonalizationAccess.corner (n - i - 1) (n - i - 1),
      TridiagonalizationAccess.colCoeff i (i + 1),
      TridiagonalizationAccess.hCoeff i])

/-- The accesses of the first `count` iterations of the loop of `_compute`. -/
def Tridiagonalization.loopAccesses (n : Int) (skip : Nat → Bool) :
    Nat → List TridiagonalizationAccess
  | 0 => []
  | i + 1 =>
    Tridiagonalization.loopAccesses n skip i ++
      Tridiagonalization.stepAccesses n (i : Int) (skip i)

/-- The accesses of the statements of `_compute` after the loop: for a
complex scalar `matA.col(n-2).coeff(n-1)`, `matA.col(n-2).coeffRef(n-1)` and
`hCoeffs.coeffRef(n-2)`, for a real one `hCoeffs.coeffRef(n-2)`. -/
def Tridiagonalization.trailingAccesses (isComplex : Bool) (n : Int) :
    List TridiagonalizationAccess :=
  if isComplex then
    [TridiagonalizationAccess.colCoeff (n - 2) (n - 2 + 1),
      TridiagonalizationAccess.colCoeff (n - 2) (n - 2 + 1),
      TridiagonalizationAccess.hCoeff (n - 2)]
  else [TridiagonalizationAccess.hCoeff (n - 2)]

/-- The accesses of `Tridiagonalization::_compute` on an `n × n` matrix, in the
order of the code: the loop `for (int i = 0; i<n-2; ++i)`, which makes
`n - 2` iterations (none when `n < 2`), then the trailing statements.
`isComplex` is `NumTraits<Scalar>::IsComplex` and `skip i` the outcome of the
test of iteration `i`. -/
def Tridiagonalization.computeAccesses (isComplex : Bool) (skip : Nat → Bool) (n : Nat) :
    List TridiagonalizationAccess :=
  Tridiagonalization.loopAccesses (n : Int) skip (n - 2) ++
    Tridiagonalization.trailingAccesses isComplex (n : Int)


/-! ## The statements of `_compute` after the loop, for both kinds of scalar -/

/-- The statements of `Tridiagonalization::_compute` after the loop.  When
`NumTraits<Scalar>::IsComplex` holds: `i = n-2`,
`v0 = matA.col(i).coeff(i+1)`, `beta = ei_abs(v0)`, negated when
`ei_real(v0) >= 0.`, then `matA.col(i).coeffRef(i+1) = beta` and
`hCoeffs.coeffRef(i) = (beta - v0) / beta`.  Otherwise
`hCoeffs.coeffRef(n-2) = 0`.  `R` is `RealScalar`, `ei_real` and `ei_abs` are
the scalar functions of these names and `ofReal` is the conversion of a real
scalar to `Scalar`. -/
def Tridiagonalization._compute_trailing {K R : Type} [Zero K] [Sub K] [Div K]
    [LinearOrderedRing R] (isComplex : Bool) (ei_real : K → R) (ei_abs : K → R)
    (ofReal : R → K) (n : Nat) (st : (Nat → Nat → K) × (Nat → K)) :
    (Nat → Nat → K) × (Nat → K) :=
  if isComplex then
    let i := n - 2
    let v0 := st.1 (i + 1) i
    let beta0 := ei_abs v0
    let beta := if 0 ≤ ei_real v0 then -beta0 else beta0
    (setCoeff st.1 (i + 1) i (ofReal beta),
      fun k => if k = i then (ofReal beta - v0) / ofReal beta else st.2 k)
  else (st.1, fun k => if k = n - 2 then 0 else st.2 k)


/-! ## Index arithmetic -/

theorem accumulate_eq_sum {K : Type} [AddCommMonoid K] (f : Nat → K) (n : Nat) :
    accumulate f n = Finset.sum (Finset.range n) f := by
  induction n with
  | zero => simp [accumulate]
  | succ n ih => simp [accumulate, ih, Finset.sum_range_succ]

theorem accumulate_add {K : Type} [AddCommMonoid K] (f : Nat → K) (a b : Nat) :
    accumulate f (a + b) = accumulate f a + accumulate (fun p => f (a + p)) b := by
  induction b with
  | zero => simp [accumulate]
  | succ b ih => rw [← Nat.add_assoc]; simp [accumulate, ih, add_assoc]

theorem accumulate_congr {K : Type} [Zero K] [Add K] (f g : Nat → K) (n : Nat)
    (h : ∀ p, p < n → f p = g p) : accumulate f n = accumulate g n := by
  induction n with
  | zero => rfl
  | succ n ih =>
    simp only [accumulate]
    rw [ih (fun p hp => h p (Nat.lt_succ_of_lt hp)), h n (Nat.lt_succ_self n)]

theorem accumulate_mul_left {K : Type} [CommRing K] (c : K) (f : Nat → K) (n : Nat) :
    accumulate (fun p => c * f p) n = c * accumulate f n := by
  induction n with
  | zero => simp [accumulate]
  | succ n ih => simp [accumulate, ih, mul_add]

/-- A column-major offset `i + j*s` with `i < s` lies in the row window of
column `m` exactly when `j = m` and `i` is in the window. -/
theorem colMajor_window (s r0 rows i j m : Nat) (hr : r0 + rows ≤ s) (hi : i < s) :
    (r0 + m * s ≤ i + j * s ∧ i + j * s < r0 + m * s + rows) ↔
      (j = m ∧ r0 ≤ i ∧ i < r0 + rows) := by
  constructor
  · rintro ⟨h1, h2⟩
    have hjm : j = m := by
      rcases Nat.lt_trichotomy j m with h | h | h
      · have := Nat.mul_le_mul_right s (Nat.succ_le_of_lt h)
        rw [Nat.succ_mul] at this
        omega
      · exact h
      · have := Nat.mul_le_mul_right s (Nat.succ_le_of_lt h)
        rw [Nat.succ_mul] at this
        omega
    subst hjm
    omega
  · rintro ⟨rfl, h1, h2⟩
    omega

/-! ## The micro-kernel on column-major memory -/

theorem gebpColumn_apply {K : Type} [CommRing K] [StarRing K] (conjA conjB : Bool)
    (off resStride : Nat) (blockA blockB : Nat → Nat → K) (depth offsetA offsetB j : Nat)
    (n : Nat) (res : Nat → K) (a : Nat) :
    gebpColumn conjA conjB off resStride blockA blockB depth offsetA offsetB j n res a =
      res a + (if off + j * resStride ≤ a ∧ a < off + j * resStride + n then
        accumulate (fun p => ei_conj_if conjA (blockA (a - (off + j * resStride)) (offsetA + p)) *
          ei_conj_if conjB (blockB (offsetB + p) j)) depth else 0) := by
  induction n generalizing a with
  | zero =>
    have : ¬ (off + j * resStride ≤ a ∧ a < off + j * resStride + 0) := by omega
    simp [gebpColumn, this]
  | succ n ih =>
    simp only [gebpColumn, Function.update_apply]
    by_cases ha : a = off + n + j * resStride
    · have h1 : off + j * resStride ≤ a ∧ a < off + j * resStride + (n + 1) := by omega
      have h2 : ¬ (off + j * resStride ≤ off + n + j * resStride ∧
          off + n + j * resStride < off + j * resStride + n) := by omega
      have h3 : a - (off + j * resStride) = n := by omega
      rw [if_pos ha, if_pos h1, ih, h3, ha, if_neg h2, add_zero]
    · rw [if_neg ha, ih]
      by_cases h1 : off + j * resStride ≤ a ∧ a < off + j * resStride + n
      · have h2 : off + j * resStride ≤ a ∧ a < off + j * resStride + (n + 1) := by omega
        rw [if_pos h1, if_pos h2]
      · have h2 : ¬ (off + j * resStride ≤ a ∧ a < off + j * resStride + (n + 1)) := by omega
        rw [if_neg h1, if_neg h2]

/-- The kernel seen through the column-major view of the destination: entry
`(i, j)` receives the packed product exactly when it lies in the tile whose
top-left corner is `(r0, c0)`. -/
theorem ei_gebp_kernel_apply {K : Type} [CommRing K] [StarRing K] (conjA conjB : Bool)
    (off resStride r0 c0 : Nat) (blockA blockB : Nat → Nat → K) (rows depth : Nat)
    (offsetA offsetB : Nat) (cols : Nat) (res : Nat → K) (i j : Nat)
    (hoff : off = r0 + c0 * resStride) (hr : r0 + rows ≤ resStride) (hi : i < resStride) :
    ei_gebp_kernel conjA conjB off resStride blockA blockB rows depth offsetA offsetB cols res
        (i + j * resStride) =
      res (i + j * resStride) +
        (if r0 ≤ i ∧ i < r0 + rows ∧ c0 ≤ j ∧ j < c0 + cols then
          accumulate (fun p => ei_conj_if conjA (blockA (i - r0) (offsetA + p)) *
            ei_conj_if conjB (blockB (offsetB + p) (j - c0))) depth else 0) := by
  subst hoff
  induction cols with
  | zero =>
    have : ¬ (r0 ≤ i ∧ i < r0 + rows ∧ c0 ≤ j ∧ j < c0 + 0) := by omega
    simp [ei_gebp_kernel, this]
  | succ n ih =>
    simp only [ei_gebp_kernel]
    rw [gebpColumn_apply, ih]
    have hw := colMajor_window resStride r0 rows i j (c0 + n) hr hi
    have he : r0 + c0 * resStride + n * resStride = r0 + (c0 + n) * resStride := by
      rw [Nat.add_mul]; omega
    rw [he]
    by_cases hc : j = c0 + n ∧ r0 ≤ i ∧ i < r0 + rows
    · have h1 := hw.mpr hc
      have h2 : ¬ (r0 ≤ i ∧ i < r0 + rows ∧ c0 ≤ j ∧ j < c0 + n) := by omega
      have h3 : r0 ≤ i ∧ i < r0 + rows ∧ c0 ≤ j ∧ j < c0 + (n + 1) := by omega
      have h4 : i + j * resStride - (r0 + (c0 + n) * resStride) = i - r0 := by
        rw [hc.1]; omega
      have h5 : j - c0 = n := by omega
      rw [if_pos h1, if_neg h2, if_pos h3, h4, h5, add_zero]
    · have h1 : ¬ (r0 + (c0 + n) * resStride ≤ i + j * resStride ∧
          i + j * resStride < r0 + (c0 + n) * resStride + rows) := fun h => hc (hw.mp h)
      rw [if_neg h1, add_zero]
      by_cases h2 : r0 ≤ i ∧ i < r0 + rows ∧ c0 ≤ j ∧ j < c0 + n
      · have h3 : r0 ≤ i ∧ i < r0 + rows ∧ c0 ≤ j ∧ j < c0 + (n + 1) := by omega
        rw [if_pos h2, if_pos h3]
      · have h3 : ¬ (r0 ≤ i ∧ i < r0 + rows ∧ c0 ≤ j ∧ j < c0 + (n + 1)) := by omega
        rw [if_neg h2, if_neg h3]

/-! ## The sequential product driver -/

theorem blasIndex_add (order : StorageOrder) (s i0 j0 i j : Nat) :
    blasIndex order s i0 j0 + blasIndex order s i j = blasIndex order s (i0 + i) (j0 + j) := by
  cases order <;> simp only [blasIndex, Nat.add_mul] <;> omega

theorem ei_conj_if_false {K : Type} [Star K] (x : K) : ei_conj_if false x = x := by
  simp [ei_conj_if]

/-- The inner loop adds, to every row from `i2` on, the product of the current
depth strip of the lhs with the packed rhs panel. -/
theorem gemmRowLoop_spec {K : Type} [CommRing K] [StarRing K]
    (lhsOrder : StorageOrder) (conjLhs : Bool) (rows cols mc k2 actual_kc : Nat)
    (lhs : Nat → K) (lhsStride resStride : Nat) (lhsAlpha : K) (blockB : Nat → Nat → K)
    (hmc : 0 < rows → 0 < mc) (hs : rows ≤ resStride) (fuel : Nat) :
    ∀ (i2 : Nat) (blockA : Nat → Nat → K) (res : Nat → K), rows - i2 ≤ fuel →
      ∃ bA out, gemmRowLoop lhsOrder conjLhs rows cols mc k2 actual_kc lhs lhsStride resStride
          lhsAlpha blockB fuel i2 blockA res = some (bA, out) ∧
        ∀ i j, i < resStride → out (i + j * resStride) = res (i + j * resStride) +
          (if i2 ≤ i ∧ i < rows ∧ j < cols then
            accumulate (fun p => lhsAlpha *
              ei_conj_if conjLhs (readMat lhsOrder lhsStride lhs i (k2 + p)) * blockB p j)
              actual_kc else 0) := by
  induction fuel with
  | zero =>
    intro i2 blockA res hf
    have h : ¬ i2 < rows := by omega
    refine ⟨blockA, res, by simp [gemmRowLoop, h], ?_⟩
    intro i j _
    have : ¬ (i2 ≤ i ∧ i < rows ∧ j < cols) := by omega
    simp [this]
  | succ fuel ih =>
    intro i2 blockA res hf
    by_cases h : i2 < rows
    · simp only [gemmRowLoop, if_pos h]
      obtain ⟨bA, out, hrun, hout⟩ := ih (i2 + mc)
        (ei_gemm_pack_lhs lhsOrder conjLhs blockA
          (ptrAdd lhs (blasIndex lhsOrder lhsStride i2 k2)) lhsStride actual_kc
          (min (i2 + mc) rows - i2) lhsAlpha)
        (ei_gebp_kernel false false i2 resStride
          (ei_gemm_pack_lhs lhsOrder conjLhs blockA
            (ptrAdd lhs (blasIndex lhsOrder lhsStride i2 k2)) lhsStride actual_kc
            (min (i2 + mc) rows - i2) lhsAlpha)
          blockB (min (i2 + mc) rows - i2) actual_kc 0 0 cols res) (by omega)
      refine ⟨bA, out, hrun, ?_⟩
      intro i j hi
      rw [hout i j hi, ei_gebp_kernel_apply false false i2 resStride i2 0 _ _ _ _ _ _ _ _ i j
        (by simp) (by omega) hi]
      by_cases hin : i2 ≤ i ∧ i < i2 + (min (i2 + mc) rows - i2) ∧ 0 ≤ j ∧ j < 0 + cols
      · have h1 : ¬ (i2 + mc ≤ i ∧ i < rows ∧ j < cols) := by omega
        have h2 : i2 ≤ i ∧ i < rows ∧ j < cols := by omega
        rw [if_pos hin, if_neg h1, if_pos h2, add_zero]
        congr 1
        apply accumulate_congr
        intro p hp
        have h3 : i - i2 < min (i2 + mc) rows - i2 ∧ p < actual_kc := by omega
        have h4 : i2 + (i - i2) = i := by omega
        simp only [ei_conj_if_false, ei_gemm_pack_lhs, ptrAdd, blasIndex_add, readMat,
          Nat.sub_zero, Nat.zero_add, h4]
        rw [if_pos h3]
      · rw [if_neg hin, add_zero]
        by_cases h1 : i2 + mc ≤ i ∧ i < rows ∧ j < cols
        · have h2 : i2 ≤ i ∧ i < rows ∧ j < cols := by omega
          rw [if_pos h1, if_pos h2]
        · have h2 : ¬ (i2 ≤ i ∧ i < rows ∧ j < cols) := by omega
          rw [if_neg h1, if_neg h2]
    · refine ⟨blockA, res, by simp [gemmRowLoop, h], ?_⟩
      intro i j _
      have : ¬ (i2 ≤ i ∧ i < rows ∧ j < cols) := by omega
      simp [this]

/-- The outer loop adds, to every entry of the destination, the product over
the depth range from `k2` on. -/
theorem gemmDepthLoop_spec {K : Type} [CommRing K] [StarRing K]
    (lhsOrder : StorageOrder) (conjLhs : Bool) (rhsOrder : StorageOrder) (conjRhs : Bool)
    (rows cols depth kc mc : Nat) (lhs : Nat → K) (lhsStride : Nat) (rhs : Nat → K)
    (rhsStride resStride : Nat) (lhsAlpha rhsAlpha : K)
    (hkc : 0 < kc) (hmc : 0 < rows → 0 < mc) (hs : rows ≤ resStride) (fuel : Nat) :
    ∀ (k2 : Nat) (blockA blockB : Nat → Nat → K) (res : Nat → K), depth - k2 ≤ fuel →
      ∃ out, gemmDepthLoop lhsOrder conjLhs rhsOrder conjRhs rows cols depth kc mc lhs lhsStride
          rhs rhsStride resStride lhsAlpha rhsAlpha fuel k2 blockA blockB res = some out ∧
        ∀ i j, i < resStride → out (i + j * resStride) = res (i + j * resStride) +
          (if i < rows ∧ j < cols then
            accumulate (fun p => lhsAlpha *
              ei_conj_if conjLhs (readMat lhsOrder lhsStride lhs i (k2 + p)) *
              (rhsAlpha * ei_conj_if conjRhs (readMat rhsOrder rhsStride rhs (k2 + p) j)))
              (depth - k2) else 0) := by
  induction fuel with
  | zero =>
    intro k2 blockA blockB res hf
    have h : ¬ k2 < depth := by omega
    have h0 : depth - k2 = 0 := by omega
    refine ⟨res, by simp [gemmDepthLoop, h], ?_⟩
    intro i j _
    simp [h0, accumulate]
  | succ fuel ih =>
    intro k2 blockA blockB res hf
    by_cases h : k2 < depth
    · simp only [gemmDepthLoop, if_pos h]
      obtain ⟨bA, res1, hrow, hres1⟩ := gemmRowLoop_spec lhsOrder conjLhs rows cols mc k2
        (min (k2 + kc) depth - k2) lhs lhsStride resStride lhsAlpha
        (ei_gemm_pack_rhs rhsOrder conjRhs blockB
          (ptrAdd rhs (blasIndex rhsOrder rhsStride k2 0)) rhsStride rhsAlpha
          (min (k2 + kc) depth - k2) cols 0) hmc hs rows 0 blockA res (by omega)
      rw [hrow]
      simp only
      obtain ⟨out, hrun, hout⟩ := ih (k2 + kc) bA
        (ei_gemm_pack_rhs rhsOrder conjRhs blockB
          (ptrAdd rhs (blasIndex rhsOrder rhsStride k2 0)) rhsStride rhsAlpha
          (min (k2 + kc) depth - k2) cols 0) res1 (by omega)
      refine ⟨out, hrun, ?_⟩
      intro i j hi
      rw [hout i j hi, hres1 i j hi]
      by_cases hin : i < rows ∧ j < cols
      · have h1 : 0 ≤ i ∧ i < rows ∧ j < cols := by omega
        rw [if_pos hin, if_pos hin, if_pos h1, add_assoc]
        congr 1
        have hsplit : depth - k2 = (min (k2 + kc) depth - k2) + (depth - (k2 + kc)) := by omega
        rw [hsplit, accumulate_add]
        congr 1
        · apply accumulate_congr
          intro p hp
          have h3 : 0 ≤ p ∧ p < min (k2 + kc) depth - k2 ∧ j < cols := by omega
          simp only [ei_gemm_pack_rhs, ptrAdd, blasIndex_add, readMat, Nat.sub_zero,
            Nat.zero_add]
          rw [if_pos h3]
        · by_cases hlast : k2 + kc ≤ depth
          · have h4 : min (k2 + kc) depth - k2 = kc := by omega
            rw [h4]
            apply accumulate_congr
            intro p _
            rw [Nat.add_assoc]
          · have h4 : depth - (k2 + kc) = 0 := by omega
            rw [h4]
            rfl
      · have h1 : ¬ (0 ≤ i ∧ i < rows ∧ j < cols) := by omega
        rw [if_neg hin, if_neg hin, if_neg h1, add_zero]
    · have h0 : depth - k2 = 0 := by omega
      refine ⟨res, by simp [gemmDepthLoop, h], ?_⟩
      intro i j _
      simp [h0, accumulate]

/-- What the sequential column-major driver computes: it returns, and every
entry of the destination has received `alpha` times the product of the two
operands as read through their mappers and conjugation flags. -/
theorem runColMajor_spec {K : Type} [CommRing K] [StarRing K]
    (lhsOrder : StorageOrder) (conjLhs : Bool) (rhsOrder : StorageOrder) (conjRhs : Bool)
    (alphaOnLhs : Bool) (rows cols depth : Nat) (lhs : Nat → K) (lhsStride : Nat)
    (rhs : Nat → K) (rhsStride : Nat) (res : Nat → K) (resStride : Nat) (alpha : K)
    (blocking : ei_level3_blocking K)
    (hkc : 0 < blocking.kc) (hmc : 0 < blocking.mc) (hs : rows ≤ resStride) :
    ∃ out, runColMajor lhsOrder conjLhs rhsOrder conjRhs alphaOnLhs rows cols depth lhs lhsStride
        rhs rhsStride res resStride alpha blocking = some out ∧
      ∀ i j, i < resStride → out (i + j * resStride) = res (i + j * resStride) +
        (if i < rows ∧ j < cols then
          alpha * Finset.sum (Finset.range depth) (fun p =>
            ei_conj_if conjLhs (readMat lhsOrder lhsStride lhs i p) *
            ei_conj_if conjRhs (readMat rhsOrder rhsStride rhs p j)) else 0) := by
  obtain ⟨out, hrun, hout⟩ := gemmDepthLoop_spec lhsOrder conjLhs rhsOrder conjRhs rows cols
    depth blocking.kc (min rows blocking.mc) lhs lhsStride rhs rhsStride resStride
    (if alphaOnLhs then alpha else 1) (if alphaOnLhs then 1 else alpha) hkc (by omega) hs
    depth 0 blocking.blockA blocking.blockB res (by omega)
  refine ⟨out, hrun, ?_⟩
  intro i j hi
  rw [hout i j hi]
  congr 1
  by_cases hin : i < rows ∧ j < cols
  · rw [if_pos hin, if_pos hin, ← accumulate_eq_sum, ← accumulate_mul_left, Nat.sub_zero]
    apply accumulate_congr
    intro p _
    rw [Nat.zero_add]
    cases alphaOnLhs <;> simp <;> ring
  · rw [if_neg hin, if_neg hin]

/-! ## The triangular product with a triangular lhs -/

theorem copyTriangularColumn_apply {K : Type} (tri : Nat → Nat → K)
    (startBlock k first c : Nat) (buf : Nat → Nat → K) (i k1 : Nat) :
    copyTriangularColumn tri startBlock k first c buf i k1 =
      if k1 = k ∧ first ≤ i ∧ i < first + c then tri (startBlock + i) (startBlock + k)
      else buf i k1 := by
  induction c with
  | zero =>
    have : ¬ (k1 = k ∧ first ≤ i ∧ i < first + 0) := by omega
    rw [if_neg this]
    rfl
  | succ c ih =>
    simp only [copyTriangularColumn, setCoeff, ih]
    by_cases h1 : i = first + c ∧ k1 = k
    · have h2 : k1 = k ∧ first ≤ i ∧ i < first + (c + 1) := by omega
      rw [if_pos h1, if_pos h2, h1.1]
    · rw [if_neg h1]
      by_cases h2 : k1 = k ∧ first ≤ i ∧ i < first + c
      · have h3 : k1 = k ∧ first ≤ i ∧ i < first + (c + 1) := by omega
        rw [if_pos h2, if_pos h3]
      · have h3 : ¬ (k1 = k ∧ first ≤ i ∧ i < first + (c + 1)) := by omega
        rw [if_neg h2, if_neg h3]

/-- The content of the scratch matrix after the triangular copy of the first
`n` columns of a diagonal micro block. -/
theorem copyTriangularBlock_apply {K : Type} (mode : TriangularMode) (tri : Nat → Nat → K)
    (startBlock actualPanelWidth n : Nat) (buf : Nat → Nat → K) (i k : Nat) :
    copyTriangularBlock mode tri startBlock actualPanelWidth n buf i k =
      if k < n then
        (if i = k then
          (if mode.unitDiag then buf i k else tri (startBlock + i) (startBlock + k))
        else if (if mode.isLower then k < i ∧ i < actualPanelWidth else i < k) then
          tri (startBlock + i) (startBlock + k)
        else buf i k)
      else buf i k := by
  induction n with
  | zero => simp [copyTriangularBlock]
  | succ n ih =>
    simp only [copyTriangularBlock, copyTriangularColumn_apply]
    rcases mode with ⟨isLower, unitDiag⟩
    cases isLower <;> cases unitDiag <;>
      simp only [ih, setCoeff, Bool.false_eq_true, if_false, if_true] <;>
      split_ifs <;> first | rfl | (exfalso; omega) | (congr 1 <;> omega)

theorem encode_blasIndex {K : Type} (order : StorageOrder) (s : Nat) (M : Nat → Nat → K)
    (i j : Nat) (hi : i < s) (hj : j < s) : encode order s M (blasIndex order s i j) = M i j := by
  have hs : 0 < s := by omega
  cases order
  · simp only [encode, blasIndex]
    rw [Nat.add_mul_mod_self_right, Nat.mod_eq_of_lt hi, Nat.add_mul_div_right _ _ hs,
      Nat.div_eq_of_lt hi, Nat.zero_add]
  · simp only [encode, blasIndex]
    rw [Nat.add_mul_mod_self_right, Nat.mod_eq_of_lt hj, Nat.add_mul_div_right _ _ hs,
      Nat.div_eq_of_lt hj, Nat.zero_add]

theorem ei_conj_if_zero {K : Type} [CommRing K] [StarRing K] (c : Bool) :
    ei_conj_if c (0 : K) = 0 := by
  cases c <;> simp [ei_conj_if]

theorem accumulate_zero {K : Type} [AddCommMonoid K] (n : Nat) :
    accumulate (fun _ => (0 : K)) n = 0 := by
  induction n with
  | zero => rfl
  | succ n ih => simp [accumulate, ih]

theorem triangularBufferInit_invariant {K : Type} [CommRing K] (mode : TriangularMode) :
    triangularBufferInvariant mode (triangularBufferInit : Nat → Nat → K) := by
  intro i k
  constructor
  · intro h _
    simp [triangularBufferInit, h]
  · intro h _
    simp [triangularBufferInit, h]

/-- The triangular copy keeps the invariant of the scratch matrix. -/
theorem copyTriangularBlock_invariant {K : Type} [CommRing K] (mode : TriangularMode)
    (tri : Nat → Nat → K) (startBlock actualPanelWidth n : Nat) (buf : Nat → Nat → K)
    (h : triangularBufferInvariant mode buf) :
    triangularBufferInvariant mode
      (copyTriangularBlock mode tri startBlock actualPanelWidth n buf) := by
  intro i k
  rw [copyTriangularBlock_apply]
  obtain ⟨h1, h2⟩ := h i k
  constructor
  · intro hik hu
    simp only [hik, hu, if_true] at h1 ⊢
    split_ifs
    · exact h1 trivial trivial
    · exact h1 trivial trivial
  · intro hik hopp
    rw [if_neg hik]
    have h3 : ¬ (if mode.isLower = true then k < i ∧ i < actualPanelWidth else i < k) := by
      cases hl : mode.isLower
      · simpa [hl] using hopp
      · simp only [hl, if_true] at hopp ⊢
        omega
    rw [if_neg h3]
    split_ifs <;> exact h2 hik hopp

/-- After the triangular copy, the leading block of the scratch matrix is the
diagonal micro block of the dense matrix that the triangular operand stands
for. -/
theorem copyTriangularBlock_view {K : Type} [CommRing K] (mode : TriangularMode)
    (tri : Nat → Nat → K) (startBlock actualPanelWidth : Nat) (buf : Nat → Nat → K)
    (h : triangularBufferInvariant mode buf) (i k : Nat) (hi : i < actualPanelWidth)
    (hk : k < actualPanelWidth) :
    copyTriangularBlock mode tri startBlock actualPanelWidth actualPanelWidth buf i k =
      triangularView mode tri (startBlock + i) (startBlock + k) := by
  rw [copyTriangularBlock_apply, if_pos hk]
  obtain ⟨h1, h2⟩ := h i k
  unfold triangularView
  by_cases hik : i = k
  · have : startBlock + i = startBlock + k := by omega
    rw [if_pos hik, if_pos this]
    cases hu : mode.unitDiag
    · simp
    · simp only [if_true]
      exact h1 hik hu
  · have : ¬ (startBlock + i = startBlock + k) := by omega
    rw [if_neg hik, if_neg this]
    cases hl : mode.isLower
    · simp only [hl, Bool.false_eq_true, if_false] at h2 ⊢
      by_cases h3 : i < k
      · have h4 : startBlock + i < startBlock + k := by omega
        rw [if_pos h3, if_pos h4]
      · have h4 : ¬ (startBlock + i < startBlock + k) := by omega
        rw [if_neg h3, if_neg h4]
        exact h2 hik h3
    · simp only [hl, if_true] at h2 ⊢
      by_cases h3 : k < i
      · have h4 : startBlock + k < startBlock + i := by omega
        rw [if_pos ⟨h3, hi⟩, if_pos h4]
      · have h4 : ¬ (startBlock + k < startBlock + i) := by omega
        have h5 : ¬ (k < i ∧ i < actualPanelWidth) := by omega
        rw [if_neg h5, if_neg h4]
        exact h2 hik h3

/-- The dense part of one depth strip: every row from `i2` up to `endRow`
receives the product of the strip of the lhs with the packed rhs panel. -/
theorem trmmLhsGeppLoop_spec {K : Type} [CommRing K] [StarRing K]
    (lhsOrder : StorageOrder) (conjLhs conjRhs : Bool) (cols : Nat)
    (lhs : Nat → K) (lhsStride resStride mc actual_k2 actual_kc : Nat)
    (blockB : Nat → Nat → K) (endRow : Nat)
    (hmc : 0 < mc) (hs : endRow ≤ resStride) (fuel : Nat) :
    ∀ (i2 : Nat) (blockA : Nat → Nat → K) (res : Nat → K), endRow - i2 ≤ fuel →
      ∃ bA out, trmmLhsGeppLoop lhsOrder conjLhs conjRhs cols lhs lhsStride resStride mc
          actual_k2 actual_kc blockB endRow fuel i2 blockA res = some (bA, out) ∧
        ∀ i j, i < resStride → out (i + j * resStride) = res (i + j * resStride) +
          (if i2 ≤ i ∧ i < endRow ∧ j < cols then
            accumulate (fun p =>
              ei_conj_if conjLhs (readMat lhsOrder lhsStride lhs i (actual_k2 + p)) *
              ei_conj_if conjRhs (blockB p j)) actual_kc else 0) := by
  induction fuel with
  | zero =>
    intro i2 blockA res hf
    have h : ¬ i2 < endRow := by omega
    refine ⟨blockA, res, by simp [trmmLhsGeppLoop, h], ?_⟩
    intro i j _
    have : ¬ (i2 ≤ i ∧ i < endRow ∧ j < cols) := by omega
    simp [this]
  | succ fuel ih =>
    intro i2 blockA res hf
    by_cases h : i2 < endRow
    · simp only [trmmLhsGeppLoop, if_pos h]
      obtain ⟨bA, out, hrun, hout⟩ := ih (i2 + mc)
        (ei_gemm_pack_lhs lhsOrder false blockA
          (ptrAdd lhs (blasIndex lhsOrder lhsStride i2 actual_k2)) lhsStride actual_kc
          (min (i2 + mc) endRow - i2) 1)
        (ei_gebp_kernel conjLhs conjRhs i2 resStride
          (ei_gemm_pack_lhs lhsOrder false blockA
            (ptrAdd lhs (blasIndex lhsOrder lhsStride i2 actual_k2)) lhsStride actual_kc
            (min (i2 + mc) endRow - i2) 1)
          blockB (min (i2 + mc) endRow - i2) actual_kc 0 0 cols res) (by omega)
      refine ⟨bA, out, hrun, ?_⟩
      intro i j hi
      rw [hout i j hi, ei_gebp_kernel_apply conjLhs conjRhs i2 resStride i2 0 _ _ _ _ _ _ _ _ i j
        (by simp) (by omega) hi]
      by_cases hin : i2 ≤ i ∧ i < i2 + (min (i2 + mc) endRow - i2) ∧ 0 ≤ j ∧ j < 0 + cols
      · have h1 : ¬ (i2 + mc ≤ i ∧ i < endRow ∧ j < cols) := by omega
        have h2 : i2 ≤ i ∧ i < endRow ∧ j < cols := by omega
        rw [if_pos hin, if_neg h1, if_pos h2, add_zero]
        congr 1
        apply accumulate_congr
        intro p hp
        have h3 : i - i2 < min (i2 + mc) endRow - i2 ∧ p < actual_kc := by omega
        have h4 : i2 + (i - i2) = i := by omega
        simp only [ei_conj_if_false, ei_gemm_pack_lhs, ptrAdd, blasIndex_add, readMat,
          Nat.sub_zero, Nat.zero_add, h4, one_mul]
        rw [if_pos h3]
      · rw [if_neg hin, add_zero]
        by_cases h1 : i2 + mc ≤ i ∧ i < endRow ∧ j < cols
        · have h2 : i2 ≤ i ∧ i < endRow ∧ j < cols := by omega
          rw [if_pos h1, if_pos h2]
        · have h2 : ¬ (i2 ≤ i ∧ i < endRow ∧ j < cols) := by omega
          rw [if_neg h1, if_neg h2]
    · refine ⟨blockA, res, by simp [trmmLhsGeppLoop, h], ?_⟩
      intro i j _
      have : ¬ (i2 ≤ i ∧ i < endRow ∧ j < cols) := by omega
      simp [this]

/-- The contribution of one small panel, row by row: the diagonal micro block
(read from the scratch matrix) and the remaining micro panel (read from the
operand) together give the panel of the dense matrix that the triangular
operand stands for; the rows they skip are rows where that matrix is zero. -/
theorem trmmLhs_panel_rows {K : Type} [CommRing K] [StarRing K] (mode : TriangularMode)
    (conjLhs : Bool) (A : Nat → Nat → K) (c : Nat → K) (a w k1 apw i : Nat)
    (hk : k1 + apw ≤ w) (hi : a ≤ i ∧ i < a + w) :
    (if a + k1 ≤ i ∧ i < a + k1 + apw then
        accumulate (fun p => ei_conj_if conjLhs (triangularView mode A i (a + k1 + p)) * c p) apw
      else 0) +
      (if (if mode.isLower then a + k1 + apw else a) ≤ i ∧
          i < (if mode.isLower then a + k1 + apw else a) +
            (if mode.isLower then w - k1 - apw else k1) then
        accumulate (fun p => ei_conj_if conjLhs (A i (a + k1 + p)) * c p) apw
      else 0) =
      accumulate (fun p => ei_conj_if conjLhs (triangularView mode A i (a + k1 + p)) * c p)
        apw := by
  by_cases hd : a + k1 ≤ i ∧ i < a + k1 + apw
  · have ht : ¬ ((if mode.isLower then a + k1 + apw else a) ≤ i ∧
        i < (if mode.isLower then a + k1 + apw else a) +
          (if mode.isLower then w - k1 - apw else k1)) := by
      cases mode.isLower <;> simp <;> omega
    rw [if_pos hd, if_neg ht, add_zero]
  · rw [if_neg hd, zero_add]
    by_cases ht : (if mode.isLower then a + k1 + apw else a) ≤ i ∧
        i < (if mode.isLower then a + k1 + apw else a) +
          (if mode.isLower then w - k1 - apw else k1)
    · rw [if_pos ht]
      apply accumulate_congr
      intro p hp
      congr 2
      unfold triangularView
      cases hl : mode.isLower
      · simp only [hl, Bool.false_eq_true, if_false] at ht ⊢
        rw [if_neg (by omega), if_pos (by omega)]
      · simp only [hl, if_true] at ht ⊢
        rw [if_neg (by omega), if_pos (by omega)]
    · rw [if_neg ht]
      symm
      rw [accumulate_congr _ (fun _ => (0 : K)) apw, accumulate_zero]
      intro p hp
      have hz : triangularView mode A i (a + k1 + p) = 0 := by
        unfold triangularView
        cases hl : mode.isLower
        · simp only [hl, Bool.false_eq_true, if_false] at ht ⊢
          rw [if_neg (by omega), if_neg (by omega)]
        · simp only [hl, if_true] at ht ⊢
          rw [if_neg (by omega), if_neg (by omega)]
      rw [hz, ei_conj_if_zero, zero_mul]

/-- The kernel called on the tile whose first row is `r0` and first column is
column 0 of the destination. -/
theorem ei_gebp_kernel_rows {K : Type} [CommRing K] [StarRing K] (conjA conjB : Bool)
    (resStride r0 : Nat) (blockA blockB : Nat → Nat → K) (rows depth : Nat)
    (offsetA offsetB : Nat) (cols : Nat) (res : Nat → K) (i j : Nat)
    (hr : r0 + rows ≤ resStride) (hi : i < resStride) :
    ei_gebp_kernel conjA conjB r0 resStride blockA blockB rows depth offsetA offsetB cols res
        (i + j * resStride) =
      res (i + j * resStride) +
        (if (r0 ≤ i ∧ i < r0 + rows) ∧ j < cols then
          accumulate (fun p => ei_conj_if conjA (blockA (i - r0) (offsetA + p)) *
            ei_conj_if conjB (blockB (offsetB + p) j)) depth else 0) := by
  rw [ei_gebp_kernel_apply conjA conjB r0 resStride r0 0 blockA blockB rows depth offsetA
    offsetB cols res i j (by simp) hr hi]
  congr 1
  by_cases h : (r0 ≤ i ∧ i < r0 + rows) ∧ j < cols
  · have h1 : r0 ≤ i ∧ i < r0 + rows ∧ 0 ≤ j ∧ j < 0 + cols := by omega
    rw [if_pos h, if_pos h1, Nat.sub_zero]
  · have h1 : ¬ (r0 ≤ i ∧ i < r0 + rows ∧ 0 ≤ j ∧ j < 0 + cols) := by omega
    rw [if_neg h, if_neg h1]

/-- One small panel of a triangular lhs: the scratch matrix keeps its
invariant, and every row of the strip receives the product of its part of the
panel of the dense triangular matrix with the packed rhs. -/
theorem trmmLhsPanelBody_spec {K : Type} [CommRing K] [StarRing K]
    (mode : TriangularMode) (lhsOrder : StorageOrder) (conjLhs conjRhs : Bool) (cols : Nat)
    (lhs : Nat → K) (lhsStride resStride smallPanelWidth actual_k2 actual_kc : Nat)
    (blockB bval : Nat → Nat → K) (hs : actual_k2 + actual_kc ≤ resStride)
    (hB : ∀ p j, p < actual_kc → j < cols → blockB p j = bval (actual_k2 + p) j)
    (k1 : Nat) (hk1 : k1 < actual_kc) (blockA buf : Nat → Nat → K) (res : Nat → K)
    (hinv : triangularBufferInvariant mode buf) :
    triangularBufferInvariant mode
        (trmmLhsPanelBody mode lhsOrder conjLhs conjRhs cols lhs lhsStride resStride
          smallPanelWidth actual_k2 actual_kc blockB k1 blockA buf res).2.1 ∧
      ∀ i j, i < resStride →
        (trmmLhsPanelBody mode lhsOrder conjLhs conjRhs cols lhs lhsStride resStride
          smallPanelWidth actual_k2 actual_kc blockB k1 blockA buf res).2.2
            (i + j * resStride) =
          res (i + j * resStride) +
            (if actual_k2 ≤ i ∧ i < actual_k2 + actual_kc ∧ j < cols then
              accumulate (fun p =>
                ei_conj_if conjLhs (triangularView mode (readMat lhsOrder lhsStride lhs) i
                  (actual_k2 + k1 + p)) *
                ei_conj_if conjRhs (bval (actual_k2 + k1 + p) j))
                (min (actual_kc - k1) smallPanelWidth) else 0) := by
  have hbuf1 := copyTriangularBlock_invariant mode (readMat lhsOrder lhsStride lhs)
    (actual_k2 + k1) (min (actual_kc - k1) smallPanelWidth)
    (min (actual_kc - k1) smallPanelWidth) buf hinv
  -- the diagonal micro block
  have hD : ∀ (bA : Nat → Nat → K) i j, i < resStride →
      ei_gebp_kernel conjLhs conjRhs (actual_k2 + k1) resStride
        (ei_gemm_pack_lhs lhsOrder false bA
          (encode lhsOrder smallPanelWidth
            (copyTriangularBlock mode (readMat lhsOrder lhsStride lhs) (actual_k2 + k1)
              (min (actual_kc - k1) smallPanelWidth) (min (actual_kc - k1) smallPanelWidth) buf))
          smallPanelWidth (min (actual_kc - k1) smallPanelWidth)
          (min (actual_kc - k1) smallPanelWidth) 1)
        blockB (min (actual_kc - k1) smallPanelWidth) (min (actual_kc - k1) smallPanelWidth)
        0 k1 cols res (i + j * resStride) =
      res (i + j * resStride) +
        (if (actual_k2 + k1 ≤ i ∧ i < actual_k2 + k1 + min (actual_kc - k1) smallPanelWidth) ∧
            j < cols then
          accumulate (fun p =>
            ei_conj_if conjLhs (triangularView mode (readMat lhsOrder lhsStride lhs) i
              (actual_k2 + k1 + p)) *
            ei_conj_if conjRhs (bval (actual_k2 + k1 + p) j))
            (min (actual_kc - k1) smallPanelWidth) else 0) := by
    intro bA i j hi
    rw [ei_gebp_kernel_rows _ _ _ _ _ _ _ _ _ _ _ _ _ _ (by omega) hi]
    congr 1
    by_cases h : (actual_k2 + k1 ≤ i ∧
        i < actual_k2 + k1 + min (actual_kc - k1) smallPanelWidth) ∧ j < cols
    · rw [if_pos h, if_pos h]
      apply accumulate_congr
      intro p hp
      have h1 : i - (actual_k2 + k1) < min (actual_kc - k1) smallPanelWidth ∧
          p < min (actual_kc - k1) smallPanelWidth := by omega
      have h2 : actual_k2 + k1 + (i - (actual_k2 + k1)) = i := by omega
      simp only [ei_gemm_pack_lhs, Nat.zero_add, ei_conj_if_false, one_mul]
      rw [if_pos h1, encode_blasIndex _ _ _ _ _ (by omega) (by omega),
        copyTriangularBlock_view _ _ _ _ _ hinv _ _ h1.1 h1.2, h2,
        hB (k1 + p) j (by omega) h.2, Nat.add_assoc actual_k2 k1 p]
    · rw [if_neg h, if_neg h]
  -- the remaining micro panel
  have hT : ∀ (bA : Nat → Nat → K) (r : Nat → K) i j, i < resStride →
      ei_gebp_kernel conjLhs conjRhs
        (if mode.isLower then actual_k2 + k1 + min (actual_kc - k1) smallPanelWidth
          else actual_k2) resStride
        (ei_gemm_pack_lhs lhsOrder false bA
          (ptrAdd lhs (blasIndex lhsOrder lhsStride
            (if mode.isLower then actual_k2 + k1 + min (actual_kc - k1) smallPanelWidth
              else actual_k2) (actual_k2 + k1))) lhsStride
          (min (actual_kc - k1) smallPanelWidth)
          (if mode.isLower then actual_kc - k1 - min (actual_kc - k1) smallPanelWidth else k1) 1)
        blockB
        (if mode.isLower then actual_kc - k1 - min (actual_kc - k1) smallPanelWidth else k1)
        (min (actual_kc - k1) smallPanelWidth) 0 k1 cols r (i + j * resStride) =
      r (i + j * resStride) +
        (if ((if mode.isLower then actual_k2 + k1 + min (actual_kc - k1) smallPanelWidth
              else actual_k2) ≤ i ∧
            i < (if mode.isLower then actual_k2 + k1 + min (actual_kc - k1) smallPanelWidth
              else actual_k2) +
              (if mode.isLower then actual_kc - k1 - min (actual_kc - k1) smallPanelWidth
                else k1)) ∧ j < cols then
          accumulate (fun p =>
            ei_conj_if conjLhs (readMat lhsOrder lhsStride lhs i (actual_k2 + k1 + p)) *
            ei_conj_if conjRhs (bval (actual_k2 + k1 + p) j))
            (min (actual_kc - k1) smallPanelWidth) else 0) := by
    intro bA r i j hi
    rw [ei_gebp_kernel_rows _ _ _ _ _ _ _ _ _ _ _ _ _ _
      (by cases mode.isLower <;> simp <;> omega) hi]
    congr 1
    by_cases h : ((if mode.isLower then actual_k2 + k1 + min (actual_kc - k1) smallPanelWidth
              else actual_k2) ≤ i ∧
            i < (if mode.isLower then actual_k2 + k1 + min (actual_kc - k1) smallPanelWidth
              else actual_k2) +
              (if mode.isLower then actual_kc - k1 - min (actual_kc - k1) smallPanelWidth
                else k1)) ∧ j < cols
    · rw [if_pos h, if_pos h]
      apply accumulate_congr
      intro p hp
      have h1 : i - (if mode.isLower then
            actual_k2 + k1 + min (actual_kc - k1) smallPanelWidth else actual_k2) <
          (if mode.isLower then actual_kc - k1 - min (actual_kc - k1) smallPanelWidth else k1) ∧
          p < min (actual_kc - k1) smallPanelWidth := by
        refine ⟨?_, hp⟩
        omega
      have h2 : (if mode.isLower then
            actual_k2 + k1 + min (actual_kc - k1) smallPanelWidth else actual_k2) +
          (i - (if mode.isLower then
            actual_k2 + k1 + min (actual_kc - k1) smallPanelWidth else actual_k2)) = i := by
        omega
      simp only [ei_gemm_pack_lhs, Nat.zero_add, ei_conj_if_false, one_mul, ptrAdd,
        blasIndex_add]
      rw [if_pos h1, h2, hB (k1 + p) j (by omega) h.2, Nat.add_assoc actual_k2 k1 p]
      rfl
    · rw [if_neg h, if_neg h]
  unfold trmmLhsPanelBody
  simp only
  by_cases hlt : 0 < (if mode.isLower then
      actual_kc - k1 - min (actual_kc - k1) smallPanelWidth else k1)
  · rw [if_pos hlt]
    refine ⟨hbuf1, ?_⟩
    intro i j hi
    simp only
    rw [hT _ _ i j hi, hD _ i j hi, add_assoc]
    congr 1
    by_cases hin : actual_k2 ≤ i ∧ i < actual_k2 + actual_kc ∧ j < cols
    · have hrows := trmmLhs_panel_rows mode conjLhs (readMat lhsOrder lhsStride lhs)
        (fun p => ei_conj_if conjRhs (bval (actual_k2 + k1 + p) j)) actual_k2 actual_kc k1
        (min (actual_kc - k1) smallPanelWidth) i (by omega) ⟨hin.1, hin.2.1⟩
      rw [if_pos hin]
      simp only [hin.2.2, and_true]
      exact hrows
    · have h1 : ¬ ((actual_k2 + k1 ≤ i ∧
          i < actual_k2 + k1 + min (actual_kc - k1) smallPanelWidth) ∧ j < cols) := by omega
      have h2 : ¬ (((if mode.isLower then
              actual_k2 + k1 + min (actual_kc - k1) smallPanelWidth else actual_k2) ≤ i ∧
            i < (if mode.isLower then actual_k2 + k1 + min (actual_kc - k1) smallPanelWidth
              else actual_k2) +
              (if mode.isLower then actual_kc - k1 - min (actual_kc - k1) smallPanelWidth
                else k1)) ∧ j < cols) := by
        cases mode.isLower <;> simp <;> omega
      rw [if_neg hin, if_neg h1, if_neg h2, add_zero]
  · rw [if_neg hlt]
    refine ⟨hbuf1, ?_⟩
    intro i j hi
    simp only
    rw [hD _ i j hi]
    congr 1
    by_cases hin : actual_k2 ≤ i ∧ i < actual_k2 + actual_kc ∧ j < cols
    · have hrows := trmmLhs_panel_rows mode conjLhs (readMat lhsOrder lhsStride lhs)
        (fun p => ei_conj_if conjRhs (bval (actual_k2 + k1 + p) j)) actual_k2 actual_kc k1
        (min (actual_kc - k1) smallPanelWidth) i (by omega) ⟨hin.1, hin.2.1⟩
      have h2 : ¬ ((if mode.isLower then
              actual_k2 + k1 + min (actual_kc - k1) smallPanelWidth else actual_k2) ≤ i ∧
            i < (if mode.isLower then actual_k2 + k1 + min (actual_kc - k1) smallPanelWidth
              else actual_k2) +
              (if mode.isLower then actual_kc - k1 - min (actual_kc - k1) smallPanelWidth
                else k1)) := by
        omega
      rw [if_neg h2, add_zero] at hrows
      rw [if_pos hin]
      simp only [hin.2.2, and_true]
      exact hrows
    · have h1 : ¬ ((actual_k2 + k1 ≤ i ∧
          i < actual_k2 + k1 + min (actual_kc - k1) smallPanelWidth) ∧ j < cols) := by omega
      rw [if_neg hin, if_neg h1]

/-- The loop over the small panels of one depth strip: the scratch matrix keeps
its invariant and every row of the strip receives the product of its row of
the dense triangular matrix, over the depth range from panel offset `k1` on,
with the packed rhs. -/
theorem trmmLhsPanelLoop_spec {K : Type} [CommRing K] [StarRing K]
    (mode : TriangularMode) (lhsOrder : StorageOrder) (conjLhs conjRhs : Bool) (cols : Nat)
    (lhs : Nat → K) (lhsStride resStride smallPanelWidth actual_k2 actual_kc : Nat)
    (blockB bval : Nat → Nat → K) (hspw : 0 < smallPanelWidth)
    (hs : actual_k2 + actual_kc ≤ resStride)
    (hB : ∀ p j, p < actual_kc → j < cols → blockB p j = bval (actual_k2 + p) j)
    (fuel : Nat) :
    ∀ (k1 : Nat) (blockA buf : Nat → Nat → K) (res : Nat → K), actual_kc - k1 ≤ fuel →
      triangularBufferInvariant mode buf →
      ∃ bA buf1 out, trmmLhsPanelLoop mode lhsOrder conjLhs conjRhs cols lhs lhsStride
          resStride smallPanelWidth actual_k2 actual_kc blockB fuel k1 blockA buf res =
            some (bA, buf1, out) ∧
        triangularBufferInvariant mode buf1 ∧
        ∀ i j, i < resStride → out (i + j * resStride) = res (i + j * resStride) +
          (if actual_k2 ≤ i ∧ i < actual_k2 + actual_kc ∧ j < cols then
            accumulate (fun p =>
              ei_conj_if conjLhs (triangularView mode (readMat lhsOrder lhsStride lhs) i
                (actual_k2 + k1 + p)) *
              ei_conj_if conjRhs (bval (actual_k2 + k1 + p) j)) (actual_kc - k1) else 0) := by
  induction fuel with
  | zero =>
    intro k1 blockA buf res hf hinv
    have h : ¬ k1 < actual_kc := by omega
    have h0 : actual_kc - k1 = 0 := by omega
    refine ⟨blockA, buf, res, by simp [trmmLhsPanelLoop, h], hinv, ?_⟩
    intro i j _
    simp [h0, accumulate]
  | succ fuel ih =>
    intro k1 blockA buf res hf hinv
    by_cases h : k1 < actual_kc
    · simp only [trmmLhsPanelLoop, if_pos h]
      obtain ⟨hinv1, hres1⟩ := trmmLhsPanelBody_spec mode lhsOrder conjLhs conjRhs cols lhs
        lhsStride resStride smallPanelWidth actual_k2 actual_kc blockB bval hs hB k1 h blockA
        buf res hinv
      obtain ⟨bA, buf1, out, hrun, hinv2, hout⟩ := ih (k1 + smallPanelWidth) _ _ _
        (by omega) hinv1
      refine ⟨bA, buf1, out, hrun, hinv2, ?_⟩
      intro i j hi
      rw [hout i j hi, hres1 i j hi, add_assoc]
      congr 1
      by_cases hin : actual_k2 ≤ i ∧ i < actual_k2 + actual_kc ∧ j < cols
      · rw [if_pos hin, if_pos hin, if_pos hin]
        have hsplit : actual_kc - k1 =
            min (actual_kc - k1) smallPanelWidth + (actual_kc - (k1 + smallPanelWidth)) := by
          omega
        conv_rhs => rw [hsplit, accumulate_add]
        congr 1
        by_cases hlast : k1 + smallPanelWidth ≤ actual_kc
        · have h4 : min (actual_kc - k1) smallPanelWidth = smallPanelWidth := by omega
          rw [h4]
          apply accumulate_congr
          intro p _
          have e : actual_k2 + (k1 + smallPanelWidth) + p =
              actual_k2 + k1 + (smallPanelWidth + p) := by omega
          rw [e]
        · have h4 : actual_kc - (k1 + smallPanelWidth) = 0 := by omega
          rw [h4]
          rfl
      · rw [if_neg hin, if_neg hin, if_neg hin, add_zero]
    · have h0 : actual_kc - k1 = 0 := by omega
      refine ⟨blockA, buf, res, by simp [trmmLhsPanelLoop, h], hinv, ?_⟩
      intro i j _
      simp [h0, accumulate]

/-- The contribution of one depth strip, row by row: the diagonal block and
the dense part together give the strip of the dense matrix that the triangular
operand stands for; the rows they skip are rows where that matrix is zero. -/
theorem trmmLhs_strip_rows {K : Type} [CommRing K] [StarRing K] (mode : TriangularMode)
    (conjLhs : Bool) (A : Nat → Nat → K) (c : Nat → K) (a w n i : Nat) (hi : i < n) :
    (if a ≤ i ∧ i < a + w then
        accumulate (fun p => ei_conj_if conjLhs (triangularView mode A i (a + p)) * c p) w
      else 0) +
      (if (if mode.isLower then a + w else 0) ≤ i ∧ i < (if mode.isLower then n else a) then
        accumulate (fun p => ei_conj_if conjLhs (A i (a + p)) * c p) w
      else 0) =
      accumulate (fun p => ei_conj_if conjLhs (triangularView mode A i (a + p)) * c p) w := by
  by_cases hd : a ≤ i ∧ i < a + w
  · have ht : ¬ ((if mode.isLower then a + w else 0) ≤ i ∧
        i < (if mode.isLower then n else a)) := by
      cases mode.isLower <;> simp <;> omega
    rw [if_pos hd, if_neg ht, add_zero]
  · rw [if_neg hd, zero_add]
    by_cases ht : (if mode.isLower then a + w else 0) ≤ i ∧ i < (if mode.isLower then n else a)
    · rw [if_pos ht]
      apply accumulate_congr
      intro p hp
      congr 2
      unfold triangularView
      cases hl : mode.isLower
      · simp only [hl, Bool.false_eq_true, if_false] at ht ⊢
        rw [if_neg (by omega), if_pos (by omega)]
      · simp only [hl, if_true] at ht ⊢
        rw [if_neg (by omega), if_pos (by omega)]
    · rw [if_neg ht]
      symm
      rw [accumulate_congr _ (fun _ => (0 : K)) w, accumulate_zero]
      intro p hp
      have hz : triangularView mode A i (a + p) = 0 := by
        unfold triangularView
        cases hl : mode.isLower
        · simp only [hl, Bool.false_eq_true, if_false] at ht ⊢
          rw [if_neg (by omega), if_neg (by omega)]
        · simp only [hl, if_true] at ht ⊢
          rw [if_neg (by omega), if_neg (by omega)]
      rw [hz, ei_conj_if_zero, zero_mul]

/-- The packed rhs panel of a depth strip holds `alpha` times the strip of the
rhs. -/
theorem trmm_pack_rhs_strip {K : Type} [CommRing K] [StarRing K] (rhsOrder : StorageOrder)
    (old : Nat → Nat → K) (rhs : Nat → K) (rhsStride : Nat) (alpha : K) (a c0 w cols : Nat)
    (p j : Nat) (hp : p < w) (hj : j < cols) :
    ei_gemm_pack_rhs rhsOrder false old (ptrAdd rhs (blasIndex rhsOrder rhsStride a c0))
        rhsStride alpha w cols 0 p j =
      alpha * readMat rhsOrder rhsStride rhs (a + p) (c0 + j) := by
  have h : 0 ≤ p ∧ p < 0 + w ∧ j < cols := by omega
  simp only [ei_gemm_pack_rhs, ptrAdd, blasIndex_add, readMat, Nat.sub_zero, ei_conj_if_false]
  rw [if_pos h]

/-- The diagonal block followed by the dense part of one depth strip
`[a, a + w)` of a square triangular lhs of size `n`: both loops return, the
scratch matrix keeps its invariant, and every entry of the destination
receives the product of the strip of the dense triangular matrix with `alpha`
times the strip of the rhs. -/
theorem trmmLhs_strip_spec {K : Type} [CommRing K] [StarRing K]
    (mode : TriangularMode) (lhsOrder : StorageOrder) (conjLhs : Bool)
    (rhsOrder : StorageOrder) (conjRhs : Bool) (n cols : Nat)
    (lhs : Nat → K) (lhsStride : Nat) (rhs : Nat → K) (rhsStride resStride : Nat) (alpha : K)
    (mc smallPanelWidth : Nat) (hmc : 0 < mc) (hspw : 0 < smallPanelWidth)
    (hs : n ≤ resStride) (a w : Nat) (ha : a + w ≤ n)
    (blockA blockB buf : Nat → Nat → K) (res : Nat → K)
    (hinv : triangularBufferInvariant mode buf) :
    ∃ bA1 buf1 res1 bA2 out,
      trmmLhsPanelLoop mode lhsOrder conjLhs conjRhs cols lhs lhsStride resStride
          smallPanelWidth a w
          (ei_gemm_pack_rhs rhsOrder false blockB
            (ptrAdd rhs (blasIndex rhsOrder rhsStride a 0)) rhsStride alpha w cols 0)
          w 0 blockA buf res = some (bA1, buf1, res1) ∧
      trmmLhsGeppLoop lhsOrder conjLhs conjRhs cols lhs lhsStride resStride mc a w
          (ei_gemm_pack_rhs rhsOrder false blockB
            (ptrAdd rhs (blasIndex rhsOrder rhsStride a 0)) rhsStride alpha w cols 0)
          (if mode.isLower then n else a) n (if mode.isLower then a + w else 0) bA1 res1 =
        some (bA2, out) ∧
      triangularBufferInvariant mode buf1 ∧
      ∀ i j, i < resStride → out (i + j * resStride) = res (i + j * resStride) +
        (if i < n ∧ j < cols then
          accumulate (fun p =>
            ei_conj_if conjLhs (triangularView mode (readMat lhsOrder lhsStride lhs) i (a + p)) *
            ei_conj_if conjRhs (alpha * readMat rhsOrder rhsStride rhs (a + p) j)) w
          else 0) := by
  have hB : ∀ p j, p < w → j < cols →
      ei_gemm_pack_rhs rhsOrder false blockB
        (ptrAdd rhs (blasIndex rhsOrder rhsStride a 0)) rhsStride alpha w cols 0 p j =
      (fun p j => alpha * readMat rhsOrder rhsStride rhs p j) (a + p) j := by
    intro p j hp hj
    rw [trmm_pack_rhs_strip rhsOrder _ rhs rhsStride alpha _ 0 _ cols p j hp hj, Nat.zero_add]
  obtain ⟨bA1, buf1, res1, hrun1, hinv1, hres1⟩ := trmmLhsPanelLoop_spec mode lhsOrder conjLhs
    conjRhs cols lhs lhsStride resStride smallPanelWidth a w _
    (fun p j => alpha * readMat rhsOrder rhsStride rhs p j) hspw (by omega) hB
    w 0 blockA buf res (by omega) hinv
  obtain ⟨bA2, res2, hrun2, hres2⟩ := trmmLhsGeppLoop_spec lhsOrder conjLhs conjRhs cols lhs
    lhsStride resStride mc a w
    (ei_gemm_pack_rhs rhsOrder false blockB
      (ptrAdd rhs (blasIndex rhsOrder rhsStride a 0)) rhsStride alpha w cols 0)
    (if mode.isLower then n else a) hmc (by cases mode.isLower <;> simp <;> omega) n
    (if mode.isLower then a + w else 0) bA1 res1 (by cases mode.isLower <;> simp; omega)
  refine ⟨bA1, buf1, res1, bA2, res2, hrun1, hrun2, hinv1, ?_⟩
  intro i j hi
  rw [hres2 i j hi, hres1 i j hi, add_assoc]
  congr 1
  by_cases hin : i < n ∧ j < cols
  · have hrows := trmmLhs_strip_rows mode conjLhs (readMat lhsOrder lhsStride lhs)
      (fun p => ei_conj_if conjRhs (alpha * readMat rhsOrder rhsStride rhs (a + p) j))
      a w n i hin.1
    rw [if_pos hin, ← hrows]
    simp only [hin.2, and_true, Nat.add_zero, Nat.sub_zero]
    congr 1
    by_cases ht : (if mode.isLower then a + w else 0) ≤ i ∧ i < (if mode.isLower then n else a)
    · rw [if_pos ht, if_pos ht]
      apply accumulate_congr
      intro p hp
      rw [hB p j hp hin.2]
    · rw [if_neg ht, if_neg ht]
  · have h1 : ¬ (a ≤ i ∧ i < a + w ∧ j < cols) := by omega
    have h2 : ¬ ((if mode.isLower then a + w else 0) ≤ i ∧
        i < (if mode.isLower then n else a) ∧ j < cols) := by
      cases mode.isLower <;> simp <;> omega
    rw [if_neg hin, if_neg h1, if_neg h2, add_zero]

/-- One iteration of the loop over the depth strips of a square triangular
lhs of size `n`. -/
theorem trmmLhsDepthBody_spec {K : Type} [CommRing K] [StarRing K]
    (mode : TriangularMode) (lhsOrder : StorageOrder) (conjLhs : Bool)
    (rhsOrder : StorageOrder) (conjRhs : Bool) (n cols : Nat)
    (lhs : Nat → K) (lhsStride : Nat) (rhs : Nat → K) (rhsStride resStride : Nat) (alpha : K)
    (kc mc smallPanelWidth : Nat) (hkc : 0 < kc) (hmc : 0 < mc) (hspw : 0 < smallPanelWidth)
    (hs : n ≤ resStride) (k2 : Nat)
    (hk2 : if mode.isLower then 0 < k2 ∧ k2 ≤ n else k2 < n)
    (blockA blockB buf : Nat → Nat → K) (res : Nat → K)
    (hinv : triangularBufferInvariant mode buf) :
    ∃ bA bB buf1 out,
      trmmLhsDepthBody mode lhsOrder conjLhs rhsOrder conjRhs n cols n lhs lhsStride rhs
          rhsStride resStride alpha kc mc smallPanelWidth k2 blockA blockB buf res =
        some ((if mode.isLower then k2 - kc else k2 + kc), bA, bB, buf1, out) ∧
      triangularBufferInvariant mode buf1 ∧
      ∀ i j, i < resStride → out (i + j * resStride) = res (i + j * resStride) +
        (if i < n ∧ j < cols then
          accumulate (fun p =>
            ei_conj_if conjLhs (triangularView mode (readMat lhsOrder lhsStride lhs) i
              ((if mode.isLower then k2 - min k2 kc else k2) + p)) *
            ei_conj_if conjRhs (alpha * readMat rhsOrder rhsStride rhs
              ((if mode.isLower then k2 - min k2 kc else k2) + p) j))
            (if mode.isLower then min k2 kc else min (n - k2) kc) else 0) := by
  cases hl : mode.isLower
  · simp only [hl, Bool.false_eq_true, if_false] at hk2 ⊢
    obtain ⟨bA1, buf1, res1, bA2, out, hrun1, hrun2, hinv1, hout⟩ := trmmLhs_strip_spec mode
      lhsOrder conjLhs rhsOrder conjRhs n cols lhs lhsStride rhs rhsStride resStride alpha mc
      smallPanelWidth hmc hspw hs k2 (min (n - k2) kc) (by omega) blockA blockB buf res hinv
    simp only [hl, Bool.false_eq_true, if_false] at hrun2
    have hre : ¬ (n < k2 + min (n - k2) kc) := by omega
    have hmin : min k2 n = k2 := by omega
    unfold trmmLhsDepthBody
    simp only [hl, Bool.false_eq_true, if_false, Bool.not_false, Bool.true_and, hk2, hre,
      decide_True, decide_False, Bool.and_false, Bool.false_or, if_true, hmin]
    rw [hrun1]
    simp only
    rw [hrun2]
    simp only
    have hnext : ((k2 : Int) + (kc : Int)).toNat = k2 + kc := by omega
    rw [hnext]
    exact ⟨bA2, _, buf1, out, rfl, hinv1, hout⟩
  · simp only [hl, if_true] at hk2 ⊢
    obtain ⟨bA1, buf1, res1, bA2, out, hrun1, hrun2, hinv1, hout⟩ := trmmLhs_strip_spec mode
      lhsOrder conjLhs rhsOrder conjRhs n cols lhs lhsStride rhs rhsStride resStride alpha mc
      smallPanelWidth hmc hspw hs (k2 - min k2 kc) (min k2 kc) (by omega) blockA blockB buf res
      hinv
    simp only [hl, if_true] at hrun2
    have he : k2 - min k2 kc + min k2 kc = k2 := by omega
    rw [he] at hrun2
    unfold trmmLhsDepthBody
    simp only [hl, if_true, Bool.not_true, Bool.false_and, Bool.false_eq_true, if_false,
      Bool.true_or]
    rw [hrun1]
    simp only
    rw [hrun2]
    simp only
    have hnext : ((k2 : Int) - (kc : Int)).toNat = k2 - kc := by omega
    rw [hnext]
    exact ⟨bA2, _, buf1, out, rfl, hinv1, hout⟩

/-- The descending loop over the depth strips of a square lower triangular
lhs, entered at `k2`: it returns and adds the product over the depth range
`[0, k2)`. -/
theorem trmmLhsDepthLoop_lower {K : Type} [CommRing K] [StarRing K]
    (mode : TriangularMode) (lhsOrder : StorageOrder) (conjLhs : Bool)
    (rhsOrder : StorageOrder) (conjRhs : Bool) (n cols : Nat)
    (lhs : Nat → K) (lhsStride : Nat) (rhs : Nat → K) (rhsStride resStride : Nat) (alpha : K)
    (kc mc smallPanelWidth : Nat) (hkc : 0 < kc) (hmc : 0 < mc) (hspw : 0 < smallPanelWidth)
    (hs : n ≤ resStride) (hl : mode.isLower = true) (fuel : Nat) :
    ∀ (k2 : Nat) (blockA blockB buf : Nat → Nat → K) (res : Nat → K), k2 ≤ n → k2 ≤ fuel →
      triangularBufferInvariant mode buf →
      ∃ out, trmmLhsDepthLoop mode lhsOrder conjLhs rhsOrder conjRhs n cols n lhs lhsStride
          rhs rhsStride resStride alpha kc mc smallPanelWidth fuel k2 blockA blockB buf res =
            some out ∧
        ∀ i j, i < resStride → out (i + j * resStride) = res (i + j * resStride) +
          (if i < n ∧ j < cols then
            accumulate (fun p =>
              ei_conj_if conjLhs (triangularView mode (readMat lhsOrder lhsStride lhs) i p) *
              ei_conj_if conjRhs (alpha * readMat rhsOrder rhsStride rhs p j)) k2 else 0) := by
  induction fuel with
  | zero =>
    intro k2 blockA blockB buf res _ hf _
    have h0 : k2 = 0 := by omega
    subst h0
    refine ⟨res, by simp [trmmLhsDepthLoop, hl], ?_⟩
    intro i j _
    simp [accumulate]
  | succ fuel ih =>
    intro k2 blockA blockB buf res hk hf hinv
    by_cases h : 0 < k2
    · obtain ⟨bA, bB, buf1, res1, hbody, hinv1, hres1⟩ := trmmLhsDepthBody_spec mode lhsOrder
        conjLhs rhsOrder conjRhs n cols lhs lhsStride rhs rhsStride resStride alpha kc mc
        smallPanelWidth hkc hmc hspw hs k2 (by simp only [hl, if_true]; exact ⟨h, hk⟩)
        blockA blockB buf res hinv
      simp only [hl, if_true] at hbody hres1
      obtain ⟨out, hrun, hout⟩ := ih (k2 - kc) bA bB buf1 res1 (by omega) (by omega) hinv1
      refine ⟨out, ?_, ?_⟩
      · simp only [trmmLhsDepthLoop, hl, if_true, if_pos h, hbody]
        exact hrun
      · intro i j hi
        rw [hout i j hi, hres1 i j hi, add_assoc]
        congr 1
        by_cases hin : i < n ∧ j < cols
        · rw [if_pos hin, if_pos hin, if_pos hin]
          have hsplit : k2 = (k2 - kc) + min k2 kc := by omega
          have hstart : k2 - min k2 kc = k2 - kc := by omega
          conv_rhs => rw [hsplit, accumulate_add]
          rw [hstart, add_comm]
        · rw [if_neg hin, if_neg hin, if_neg hin, add_zero]
    · have h0 : k2 = 0 := by omega
      subst h0
      refine ⟨res, by simp [trmmLhsDepthLoop, hl], ?_⟩
      intro i j _
      simp [accumulate]

/-- The ascending loop over the depth strips of a square upper triangular lhs,
entered at `k2`: it returns and adds the product over the depth range
`[k2, n)`. -/
theorem trmmLhsDepthLoop_upper {K : Type} [CommRing K] [StarRing K]
    (mode : TriangularMode) (lhsOrder : StorageOrder) (conjLhs : Bool)
    (rhsOrder : StorageOrder) (conjRhs : Bool) (n cols : Nat)
    (lhs : Nat → K) (lhsStride : Nat) (rhs : Nat → K) (rhsStride resStride : Nat) (alpha : K)
    (kc mc smallPanelWidth : Nat) (hkc : 0 < kc) (hmc : 0 < mc) (hspw : 0 < smallPanelWidth)
    (hs : n ≤ resStride) (hl : mode.isLower = false) (fuel : Nat) :
    ∀ (k2 : Nat) (blockA blockB buf : Nat → Nat → K) (res : Nat → K), n - k2 ≤ fuel →
      triangularBufferInvariant mode buf →
      ∃ out, trmmLhsDepthLoop mode lhsOrder conjLhs rhsOrder conjRhs n cols n lhs lhsStride
          rhs rhsStride resStride alpha kc mc smallPanelWidth fuel k2 blockA blockB buf res =
            some out ∧
        ∀ i j, i < resStride → out (i + j * resStride) = res (i + j * resStride) +
          (if i < n ∧ j < cols then
            accumulate (fun p =>
              ei_conj_if conjLhs (triangularView mode (readMat lhsOrder lhsStride lhs) i
                (k2 + p)) *
              ei_conj_if conjRhs (alpha * readMat rhsOrder rhsStride rhs (k2 + p) j))
              (n - k2) else 0) := by
  induction fuel with
  | zero =>
    intro k2 blockA blockB buf res hf _
    have h : ¬ k2 < n := by omega
    have h0 : n - k2 = 0 := by omega
    refine ⟨res, by simp [trmmLhsDepthLoop, hl, h], ?_⟩
    intro i j _
    simp [h0, accumulate]
  | succ fuel ih =>
    intro k2 blockA blockB buf res hf hinv
    by_cases h : k2 < n
    · obtain ⟨bA, bB, buf1, res1, hbody, hinv1, hres1⟩ := trmmLhsDepthBody_spec mode lhsOrder
        conjLhs rhsOrder conjRhs n cols lhs lhsStride rhs rhsStride resStride alpha kc mc
        smallPanelWidth hkc hmc hspw hs k2
        (by simp only [hl, Bool.false_eq_true, if_false]; exact h)
        blockA blockB buf res hinv
      simp only [hl, Bool.false_eq_true, if_false] at hbody hres1
      obtain ⟨out, hrun, hout⟩ := ih (k2 + kc) bA bB buf1 res1 (by omega) hinv1
      refine ⟨out, ?_, ?_⟩
      · simp only [trmmLhsDepthLoop, hl, Bool.false_eq_true, if_false, if_pos h, hbody]
        exact hrun
      · intro i j hi
        rw [hout i j hi, hres1 i j hi, add_assoc]
        congr 1
        by_cases hin : i < n ∧ j < cols
        · rw [if_pos hin, if_pos hin, if_pos hin]
          have hsplit : n - k2 = min (n - k2) kc + (n - (k2 + kc)) := by omega
          conv_rhs => rw [hsplit, accumulate_add]
          congr 1
          by_cases hlast : k2 + kc ≤ n
          · have h4 : min (n - k2) kc = kc := by omega
            rw [h4]
            apply accumulate_congr
            intro p _
            have e : k2 + kc + p = k2 + (kc + p) := by omega
            rw [e]
          · have h4 : n - (k2 + kc) = 0 := by omega
            rw [h4]
            rfl
        · rw [if_neg hin, if_neg hin, if_neg hin, add_zero]
    · have h0 : n - k2 = 0 := by omega
      refine ⟨res, by simp [trmmLhsDepthLoop, hl, h], ?_⟩
      intro i j _
      simp [h0, accumulate]

/-- What the driver for a square triangular lhs of size `n` computes: it
returns, and every entry of the destination has received `alpha` times the
product of the dense matrix that the triangular operand stands for with the
rhs, both conjugated as their flags say. -/
theorem trmmLhsRun_spec {K : Type} [CommRing K] [StarRing K]
    (mode : TriangularMode) (lhsOrder : StorageOrder) (conjLhs : Bool)
    (rhsOrder : StorageOrder) (conjRhs : Bool) (n cols : Nat)
    (lhs : Nat → K) (lhsStride : Nat) (rhs : Nat → K) (rhsStride : Nat)
    (res : Nat → K) (resStride : Nat) (alpha : K) (kc mc smallPanelWidth : Nat)
    (blockA blockB : Nat → Nat → K)
    (hkc : 0 < kc) (hmc : 0 < mc) (hspw : 0 < smallPanelWidth) (hs : n ≤ resStride) :
    ∃ out, trmmLhsRun mode lhsOrder conjLhs rhsOrder conjRhs n cols n lhs lhsStride rhs
        rhsStride res resStride alpha kc mc smallPanelWidth blockA blockB = some out ∧
      ∀ i j, i < resStride → out (i + j * resStride) = res (i + j * resStride) +
        (if i < n ∧ j < cols then
          alpha * Finset.sum (Finset.range n) (fun p =>
            ei_conj_if conjLhs (triangularView mode (readMat lhsOrder lhsStride lhs) i p) *
            ei_conj_if conjRhs (readMat rhsOrder rhsStride rhs p j)) else 0) := by
  have hterm : ∀ (b : K), ei_conj_if conjRhs ((if conjRhs then star alpha else alpha) * b) =
      alpha * ei_conj_if conjRhs b := by
    intro b
    cases conjRhs <;> simp [ei_conj_if, star_mul']
  cases hl : mode.isLower
  · obtain ⟨out, hrun, hout⟩ := trmmLhsDepthLoop_upper mode lhsOrder conjLhs rhsOrder conjRhs
      n cols lhs lhsStride rhs rhsStride resStride (if conjRhs then star alpha else alpha)
      kc mc smallPanelWidth hkc hmc hspw hs hl n 0 blockA blockB triangularBufferInit res
      (by omega) (triangularBufferInit_invariant mode)
    refine ⟨out, by simp only [trmmLhsRun, hl, Bool.false_eq_true, if_false]; exact hrun, ?_⟩
    intro i j hi
    rw [hout i j hi]
    congr 1
    by_cases hin : i < n ∧ j < cols
    · rw [if_pos hin, if_pos hin, ← accumulate_eq_sum, ← accumulate_mul_left, Nat.sub_zero]
      apply accumulate_congr
      intro p _
      rw [Nat.zero_add, hterm]
      ring
    · rw [if_neg hin, if_neg hin]
  · obtain ⟨out, hrun, hout⟩ := trmmLhsDepthLoop_lower mode lhsOrder conjLhs rhsOrder conjRhs
      n cols lhs lhsStride rhs rhsStride resStride (if conjRhs then star alpha else alpha)
      kc mc smallPanelWidth hkc hmc hspw hs hl n n blockA blockB triangularBufferInit res
      (le_refl n) (le_refl n) (triangularBufferInit_invariant mode)
    refine ⟨out, by simp only [trmmLhsRun, hl, if_true]; exact hrun, ?_⟩
    intro i j hi
    rw [hout i j hi]
    congr 1
    by_cases hin : i < n ∧ j < cols
    · rw [if_pos hin, if_pos hin, ← accumulate_eq_sum, ← accumulate_mul_left]
      apply accumulate_congr
      intro p _
      rw [hterm]
      ring
    · rw [if_neg hin, if_neg hin]

/-! ## The triangular product with a triangular rhs -/

/-- Packing one small panel of a triangular rhs strip: the scratch matrix keeps
its invariant, only the columns of the panel are written, and the panel holds
`alpha` times the dense matrix that the triangular operand stands for. -/
theorem trmmRhsPackBody_spec {K : Type} [CommRing K] [StarRing K]
    (mode : TriangularMode) (rhsOrder : StorageOrder) (rhs : Nat → K) (rhsStride : Nat)
    (alpha : K) (smallPanelWidth actual_k2 actual_kc : Nat) (j2 : Nat)
    (hj2 : j2 < actual_kc) (blockB buf : Nat → Nat → K)
    (hinv : triangularBufferInvariant mode buf) :
    triangularBufferInvariant mode
        (trmmRhsPackBody mode rhsOrder rhs rhsStride alpha smallPanelWidth actual_k2 actual_kc
          j2 blockB buf).2 ∧
      (∀ p c, (c < j2 ∨ j2 + min (actual_kc - j2) smallPanelWidth ≤ c) →
        (trmmRhsPackBody mode rhsOrder rhs rhsStride alpha smallPanelWidth actual_k2 actual_kc
          j2 blockB buf).1 p c = blockB p c) ∧
      rhsPanelGood mode actual_k2 actual_kc
        (trmmRhsPackBody mode rhsOrder rhs rhsStride alpha smallPanelWidth actual_k2 actual_kc
          j2 blockB buf).1
        (fun p c => alpha * triangularView mode (readMat rhsOrder rhsStride rhs) p c)
        j2 (min (actual_kc - j2) smallPanelWidth) := by
  refine ⟨copyTriangularBlock_invariant mode _ _ _ _ buf hinv, ?_, ?_⟩
  · intro p c hc
    simp only [trmmRhsPackBody, packRhsPanelAt, ei_gemm_pack_rhs, panelAt]
    by_cases h1 : j2 ≤ c
    · have h2 : ¬ (c - j2 < min (actual_kc - j2) smallPanelWidth) := by omega
      have h3 : j2 + (c - j2) = c := by omega
      simp only [if_pos h1, h2, and_false, if_false, h3]
    · simp only [if_neg h1]
  · intro c p hc hp
    have h1 : j2 ≤ j2 + c := by omega
    have h2 : j2 + c - j2 = c := by omega
    simp only [trmmRhsPackBody, packRhsPanelAt, ei_gemm_pack_rhs, panelAt, if_pos h1, h2,
      ei_conj_if_false]
    by_cases hd : j2 ≤ p ∧ p < j2 + min (actual_kc - j2) smallPanelWidth
    · have h3 : j2 ≤ p ∧ p < j2 + min (actual_kc - j2) smallPanelWidth ∧
          c < min (actual_kc - j2) smallPanelWidth := ⟨hd.1, hd.2, hc⟩
      have h4 : actual_k2 + j2 + (p - j2) = actual_k2 + p := by omega
      rw [if_pos h3, encode_blasIndex _ _ _ _ _ (by omega) (by omega),
        copyTriangularBlock_view _ _ _ _ _ hinv _ _ (by omega) hc, h4]
    · have h3 : ¬ (j2 ≤ p ∧ p < j2 + min (actual_kc - j2) smallPanelWidth ∧
          c < min (actual_kc - j2) smallPanelWidth) := fun h => hd ⟨h.1, h.2.1⟩
      rw [if_neg h3]
      have h5 : (if mode.isLower then j2 + min (actual_kc - j2) smallPanelWidth else 0) ≤ p ∧
          p < (if mode.isLower then j2 + min (actual_kc - j2) smallPanelWidth else 0) +
            (if mode.isLower then actual_kc - j2 - min (actual_kc - j2) smallPanelWidth
              else j2) ∧
          c < min (actual_kc - j2) smallPanelWidth := by
        refine ⟨?_, ?_, hc⟩
        · cases hl : mode.isLower <;> simp only [hl, Bool.false_eq_true, if_false, if_true] at hp ⊢
            <;> omega
        · cases hl : mode.isLower <;> simp only [hl, Bool.false_eq_true, if_false, if_true] at hp ⊢
            <;> omega
      rw [if_pos h5]
      simp only [ptrAdd, blasIndex_add]
      have h6 : actual_k2 + (if mode.isLower then
            j2 + min (actual_kc - j2) smallPanelWidth else 0) +
          (p - (if mode.isLower then j2 + min (actual_kc - j2) smallPanelWidth else 0)) =
          actual_k2 + p := by
        omega
      rw [h6]
      congr 1
      unfold triangularView readMat
      cases hl : mode.isLower
      · simp only [hl, Bool.false_eq_true, if_false] at hp h5 ⊢
        rw [if_neg (by omega), if_pos (by omega)]
      · simp only [hl, if_true] at hp h5 ⊢
        rw [if_neg (by omega), if_pos (by omega)]

/-- The loop that packs the triangular part of a strip: it returns, keeps the
invariant of the scratch matrix, leaves the columns before `j2` as they were,
and leaves every small panel from `j2` on holding `alpha` times the dense
triangular matrix. -/
theorem trmmRhsPackLoop_spec {K : Type} [CommRing K] [StarRing K]
    (mode : TriangularMode) (rhsOrder : StorageOrder) (rhs : Nat → K) (rhsStride : Nat)
    (alpha : K) (smallPanelWidth actual_k2 actual_kc : Nat) (hspw : 0 < smallPanelWidth)
    (fuel : Nat) :
    ∀ (j2 : Nat) (blockB buf : Nat → Nat → K), actual_kc - j2 ≤ fuel →
      triangularBufferInvariant mode buf →
      ∃ bB buf1, trmmRhsPackLoop mode rhsOrder rhs rhsStride alpha smallPanelWidth actual_k2
          actual_kc fuel j2 blockB buf = some (bB, buf1) ∧
        triangularBufferInvariant mode buf1 ∧
        (∀ p c, c < j2 → bB p c = blockB p c) ∧
        rhsPanelsPacked mode smallPanelWidth actual_k2 actual_kc bB
          (fun p c => alpha * triangularView mode (readMat rhsOrder rhsStride rhs) p c)
          fuel j2 := by
  induction fuel with
  | zero =>
    intro j2 blockB buf hf hinv
    have h : ¬ j2 < actual_kc := by omega
    exact ⟨blockB, buf, by simp [trmmRhsPackLoop, h], hinv, fun _ _ _ => rfl, trivial⟩
  | succ fuel ih =>
    intro j2 blockB buf hf hinv
    by_cases h : j2 < actual_kc
    · obtain ⟨hinv1, hframe1, hgood1⟩ := trmmRhsPackBody_spec mode rhsOrder rhs rhsStride alpha
        smallPanelWidth actual_k2 actual_kc j2 h blockB buf hinv
      obtain ⟨bB, buf1, hrun, hinv2, hframe2, hpacked⟩ := ih (j2 + smallPanelWidth) _ _
        (by omega) hinv1
      refine ⟨bB, buf1, ?_, hinv2, ?_, ?_⟩
      · simp only [trmmRhsPackLoop, if_pos h]
        exact hrun
      · intro p c hc
        rw [hframe2 p c (by omega), hframe1 p c (Or.inl hc)]
      · intro _
        refine ⟨?_, hpacked⟩
        intro c p hc hp
        rw [hframe2 p (j2 + c) (by omega)]
        exact hgood1 c p hc hp
    · refine ⟨blockB, buf, by simp [trmmRhsPackLoop, h], hinv, fun _ _ _ => rfl, ?_⟩
      intro hlt
      exact absurd hlt h

/-- A sum over a window equals the sum over the whole range when the summand
vanishes outside the window. -/
theorem accumulate_window {K : Type} [AddCommMonoid K] (g : Nat → K) (a m n : Nat)
    (ham : a + m ≤ n) (hz : ∀ p, p < n → (p < a ∨ a + m ≤ p) → g p = 0) :
    accumulate (fun q => g (a + q)) m = accumulate g n := by
  have hn : n = a + (m + (n - (a + m))) := by omega
  rw [hn, accumulate_add, accumulate_add]
  have h1 : accumulate g a = 0 := by
    rw [accumulate_congr g (fun _ => (0 : K)) a, accumulate_zero]
    intro p hp
    exact hz p (by omega) (Or.inl hp)
  have h2 : accumulate (fun p => g (a + (m + p))) (n - (a + m)) = 0 := by
    rw [accumulate_congr _ (fun _ => (0 : K)) _, accumulate_zero]
    intro p hp
    exact hz (a + (m + p)) (by omega) (Or.inr (by omega))
  rw [h1, h2, zero_add, add_zero]

/-- The triangular kernel of one lhs block: it returns, and the columns of the
destination that face the strip, from panel offset `j2` on, receive the
product of the lhs block with `alpha` times the dense triangular matrix. -/
theorem trmmRhsKernelLoop_spec {K : Type} [CommRing K] [StarRing K]
    (mode : TriangularMode) (rhsOrder : StorageOrder) (rhs : Nat → K) (rhsStride : Nat)
    (alpha : K) (conjLhs conjRhs : Bool) (resStride smallPanelWidth : Nat)
    (i2 actual_k2 actual_kc actual_mc : Nat) (blockA blockB : Nat → Nat → K)
    (hspw : 0 < smallPanelWidth) (hs : i2 + actual_mc ≤ resStride) (fuel : Nat) :
    ∀ (j2 : Nat) (res : Nat → K), actual_kc - j2 ≤ fuel →
      rhsPanelsPacked mode smallPanelWidth actual_k2 actual_kc blockB
        (fun p c => alpha * triangularView mode (readMat rhsOrder rhsStride rhs) p c)
        fuel j2 →
      ∃ out, trmmRhsKernelLoop mode conjLhs conjRhs resStride smallPanelWidth i2 actual_k2
          actual_kc actual_mc blockA blockB fuel j2 res = some out ∧
        ∀ i c, i < resStride → out (i + c * resStride) = res (i + c * resStride) +
          (if (i2 ≤ i ∧ i < i2 + actual_mc) ∧ actual_k2 + j2 ≤ c ∧
              c < actual_k2 + actual_kc then
            accumulate (fun p => ei_conj_if conjLhs (blockA (i - i2) p) *
              ei_conj_if conjRhs
                (alpha * triangularView mode (readMat rhsOrder rhsStride rhs)
                  (actual_k2 + p) c)) actual_kc else 0) := by
  induction fuel with
  | zero =>
    intro j2 res hf _
    have h : ¬ j2 < actual_kc := by omega
    refine ⟨res, by simp [trmmRhsKernelLoop, h], ?_⟩
    intro i c _
    have : ¬ ((i2 ≤ i ∧ i < i2 + actual_mc) ∧ actual_k2 + j2 ≤ c ∧
        c < actual_k2 + actual_kc) := by omega
    rw [if_neg this, add_zero]
  | succ fuel ih =>
    intro j2 res hf hpacked
    by_cases h : j2 < actual_kc
    · obtain ⟨hgood, hrest⟩ := hpacked h
      obtain ⟨out, hrun, hout⟩ := ih (j2 + smallPanelWidth)
        (ei_gebp_kernel conjLhs conjRhs (i2 + (actual_k2 + j2) * resStride) resStride blockA
          (panelAt blockB j2) actual_mc
          (if mode.isLower then actual_kc - j2 else j2 + min (actual_kc - j2) smallPanelWidth)
          (if mode.isLower then j2 else 0) (if mode.isLower then j2 else 0)
          (min (actual_kc - j2) smallPanelWidth) res) (by omega) hrest
      refine ⟨out, ?_, ?_⟩
      · simp only [trmmRhsKernelLoop, if_pos h]
        exact hrun
      · intro i c hi
        rw [hout i c hi, ei_gebp_kernel_apply conjLhs conjRhs _ resStride i2 (actual_k2 + j2)
          _ _ _ _ _ _ _ _ i c rfl hs hi, add_assoc]
        congr 1
        by_cases hin : i2 ≤ i ∧ i < i2 + actual_mc ∧ actual_k2 + j2 ≤ c ∧
            c < actual_k2 + j2 + min (actual_kc - j2) smallPanelWidth
        · have h1 : ¬ ((i2 ≤ i ∧ i < i2 + actual_mc) ∧ actual_k2 + (j2 + smallPanelWidth) ≤ c ∧
              c < actual_k2 + actual_kc) := by omega
          have h2 : (i2 ≤ i ∧ i < i2 + actual_mc) ∧ actual_k2 + j2 ≤ c ∧
              c < actual_k2 + actual_kc := by omega
          rw [if_pos hin, if_neg h1, if_pos h2, add_zero]
          have hc : actual_k2 + j2 + (c - (actual_k2 + j2)) = c := by omega
          have hwin := accumulate_window
            (fun p => ei_conj_if conjLhs (blockA (i - i2) p) *
              ei_conj_if conjRhs
                (alpha * triangularView mode (readMat rhsOrder rhsStride rhs)
                  (actual_k2 + p) c))
            (if mode.isLower then j2 else 0)
            (if mode.isLower then actual_kc - j2
              else j2 + min (actual_kc - j2) smallPanelWidth)
            actual_kc (by cases mode.isLower <;> simp <;> omega)
            (by
              intro p hp hout
              have hz : triangularView mode (readMat rhsOrder rhsStride rhs)
                  (actual_k2 + p) c = 0 := by
                unfold triangularView
                cases hl : mode.isLower
                · simp only [hl, Bool.false_eq_true, if_false] at hout ⊢
                  rw [if_neg (by omega), if_neg (by omega)]
                · simp only [hl, if_true] at hout ⊢
                  rw [if_neg (by omega), if_neg (by omega)]
              simp only [hz, mul_zero, ei_conj_if_zero])
          rw [← hwin]
          apply accumulate_congr
          intro q hq
          simp only [panelAt]
          rw [hgood (c - (actual_k2 + j2)) ((if mode.isLower then j2 else 0) + q) (by omega)
            (by cases hl : mode.isLower <;>
              simp only [hl, Bool.false_eq_true, if_false, if_true] at hq ⊢ <;> omega)]
          simp only [hc]
        · rw [if_neg hin, zero_add]
          by_cases h1 : (i2 ≤ i ∧ i < i2 + actual_mc) ∧ actual_k2 + (j2 + smallPanelWidth) ≤ c ∧
              c < actual_k2 + actual_kc
          · have h2 : (i2 ≤ i ∧ i < i2 + actual_mc) ∧ actual_k2 + j2 ≤ c ∧
                c < actual_k2 + actual_kc := by omega
            rw [if_pos h1, if_pos h2]
          · have h2 : ¬ ((i2 ≤ i ∧ i < i2 + actual_mc) ∧ actual_k2 + j2 ≤ c ∧
                c < actual_k2 + actual_kc) := by omega
            rw [if_neg h1, if_neg h2]
    · refine ⟨res, by simp [trmmRhsKernelLoop, h], ?_⟩
      intro i c _
      have : ¬ ((i2 ≤ i ∧ i < i2 + actual_mc) ∧ actual_k2 + j2 ≤ c ∧
          c < actual_k2 + actual_kc) := by omega
      rw [if_neg this, add_zero]

/-- The contribution of one depth strip of a triangular rhs, column by column:
the triangular kernel and the kernel on the general part together give the
strip of the dense triangular matrix; the columns they skip are columns where
that matrix is zero. -/
theorem trmmRhs_strip_cols {K : Type} [CommRing K] [StarRing K] (mode : TriangularMode)
    (conjRhs : Bool) (B : Nat → Nat → K) (alpha : K) (x : Nat → K) (a w n c : Nat)
    (haw : a + w ≤ n) (hc : c < n) :
    (if a ≤ c ∧ c < a + w then
        accumulate (fun p => x p * ei_conj_if conjRhs (alpha * triangularView mode B (a + p) c)) w
      else 0) +
      (if (if mode.isLower then 0 else a + w) ≤ c ∧
          c < (if mode.isLower then 0 else a + w) + (if mode.isLower then a else n - (a + w)) then
        accumulate (fun p => x p * ei_conj_if conjRhs (alpha * triangularView mode B (a + p) c)) w
      else 0) =
      accumulate (fun p => x p * ei_conj_if conjRhs (alpha * triangularView mode B (a + p) c))
        w := by
  by_cases hd : a ≤ c ∧ c < a + w
  · have ht : ¬ ((if mode.isLower then 0 else a + w) ≤ c ∧
        c < (if mode.isLower then 0 else a + w) + (if mode.isLower then a else n - (a + w))) := by
      cases mode.isLower <;> simp <;> omega
    rw [if_pos hd, if_neg ht, add_zero]
  · rw [if_neg hd, zero_add]
    by_cases ht : (if mode.isLower then 0 else a + w) ≤ c ∧
        c < (if mode.isLower then 0 else a + w) + (if mode.isLower then a else n - (a + w))
    · rw [if_pos ht]
    · rw [if_neg ht]
      symm
      rw [accumulate_congr _ (fun _ => (0 : K)) w, accumulate_zero]
      intro p hp
      have hz : triangularView mode B (a + p) c = 0 := by
        unfold triangularView
        cases hl : mode.isLower
        · simp only [hl, Bool.false_eq_true, if_false] at ht ⊢
          rw [if_neg (by omega), if_neg (by omega)]
        · simp only [hl, if_true] at ht ⊢
          rw [if_neg (by omega), if_neg (by omega)]
      rw [hz, mul_zero, ei_conj_if_zero, mul_zero]

/-- The loop over the lhs blocks of one depth strip `[a, a + w)` of a square
triangular rhs of size `n`: it returns, and every row from `i2` on receives
the product of the strip of the lhs with `alpha` times the strip of the dense
triangular matrix. -/
theorem trmmRhsRowLoop_spec {K : Type} [CommRing K] [StarRing K]
    (mode : TriangularMode) (lhsOrder rhsOrder : StorageOrder) (conjLhs conjRhs : Bool)
    (rows n : Nat) (lhs : Nat → K) (lhsStride : Nat) (rhs : Nat → K) (rhsStride : Nat)
    (resStride : Nat) (alpha : K) (mc smallPanelWidth a w : Nat) (blockB geb : Nat → Nat → K)
    (hmc : 0 < mc) (hspw : 0 < smallPanelWidth) (hs : rows ≤ resStride) (hw : 0 < w)
    (haw : a + w ≤ n)
    (hpacked : rhsPanelsPacked mode smallPanelWidth a w blockB
      (fun p c => alpha * triangularView mode (readMat rhsOrder rhsStride rhs) p c) w 0)
    (hgeb : ∀ p j, p < w → j < (if mode.isLower then a else n - (a + w)) →
      geb p j = alpha * triangularView mode (readMat rhsOrder rhsStride rhs) (a + p)
        ((if mode.isLower then 0 else a + w) + j))
    (fuel : Nat) :
    ∀ (i2 : Nat) (blockA : Nat → Nat → K) (res : Nat → K), rows - i2 ≤ fuel →
      ∃ bA out, trmmRhsRowLoop mode lhsOrder conjLhs conjRhs rows lhs lhsStride resStride mc
          smallPanelWidth a w (if mode.isLower then a else n - (a + w)) w
          (if mode.isLower then 0 else a + w) blockB geb fuel i2 blockA res = some (bA, out) ∧
        ∀ i c, i < resStride → out (i + c * resStride) = res (i + c * resStride) +
          (if i2 ≤ i ∧ i < rows ∧ c < n then
            accumulate (fun p =>
              ei_conj_if conjLhs (readMat lhsOrder lhsStride lhs i (a + p)) *
              ei_conj_if conjRhs
                (alpha * triangularView mode (readMat rhsOrder rhsStride rhs) (a + p) c)) w
            else 0) := by
  induction fuel with
  | zero =>
    intro i2 blockA res hf
    have h : ¬ i2 < rows := by omega
    refine ⟨blockA, res, by simp [trmmRhsRowLoop, h], ?_⟩
    intro i c _
    have : ¬ (i2 ≤ i ∧ i < rows ∧ c < n) := by omega
    rw [if_neg this, add_zero]
  | succ fuel ih =>
    intro i2 blockA res hf
    by_cases h : i2 < rows
    · obtain ⟨res1, hker, hres1⟩ := trmmRhsKernelLoop_spec mode rhsOrder rhs rhsStride alpha
        conjLhs conjRhs resStride smallPanelWidth i2 a w (min mc (rows - i2))
        (ei_gemm_pack_lhs lhsOrder false blockA
          (ptrAdd lhs (blasIndex lhsOrder lhsStride i2 a)) lhsStride w (min mc (rows - i2)) 1)
        blockB hspw (by omega) w 0 res (by omega) hpacked
      obtain ⟨bA, out, hrun, hout⟩ := ih (i2 + mc)
        (ei_gemm_pack_lhs lhsOrder false blockA
          (ptrAdd lhs (blasIndex lhsOrder lhsStride i2 a)) lhsStride w (min mc (rows - i2)) 1)
        (ei_gebp_kernel conjLhs conjRhs (i2 + (if mode.isLower then 0 else a + w) * resStride)
          resStride
          (ei_gemm_pack_lhs lhsOrder false blockA
            (ptrAdd lhs (blasIndex lhsOrder lhsStride i2 a)) lhsStride w (min mc (rows - i2)) 1)
          geb (min mc (rows - i2)) w 0 0 (if mode.isLower then a else n - (a + w)) res1)
        (by omega)
      refine ⟨bA, out, ?_, ?_⟩
      · simp only [trmmRhsRowLoop, if_pos h, if_pos hw, hker]
        exact hrun
      · intro i c hi
        have hA : ∀ p, p < w → i2 ≤ i ∧ i < i2 + min mc (rows - i2) →
            ei_gemm_pack_lhs lhsOrder false blockA
              (ptrAdd lhs (blasIndex lhsOrder lhsStride i2 a)) lhsStride w
              (min mc (rows - i2)) 1 (i - i2) p =
            readMat lhsOrder lhsStride lhs i (a + p) := by
          intro p hp hrow
          have h3 : i - i2 < min mc (rows - i2) ∧ p < w := by omega
          have h4 : i2 + (i - i2) = i := by omega
          simp only [ei_gemm_pack_lhs, ptrAdd, blasIndex_add, readMat, ei_conj_if_false,
            one_mul, h4]
          rw [if_pos h3]
        have hTri : (if (i2 ≤ i ∧ i < i2 + min mc (rows - i2)) ∧ a + 0 ≤ c ∧ c < a + w then
              accumulate (fun p => ei_conj_if conjLhs
                (ei_gemm_pack_lhs lhsOrder false blockA
                  (ptrAdd lhs (blasIndex lhsOrder lhsStride i2 a)) lhsStride w
                  (min mc (rows - i2)) 1 (i - i2) p) *
                ei_conj_if conjRhs
                  (alpha * triangularView mode (readMat rhsOrder rhsStride rhs) (a + p) c)) w
            else 0) =
            (if i2 ≤ i ∧ i < i2 + min mc (rows - i2) then
              (if a ≤ c ∧ c < a + w then
                accumulate (fun p =>
                  ei_conj_if conjLhs (readMat lhsOrder lhsStride lhs i (a + p)) *
                  ei_conj_if conjRhs
                    (alpha * triangularView mode (readMat rhsOrder rhsStride rhs) (a + p) c)) w
              else 0) else 0) := by
          by_cases hrow : i2 ≤ i ∧ i < i2 + min mc (rows - i2)
          · by_cases ht : a ≤ c ∧ c < a + w
            · rw [if_pos ⟨hrow, by omega⟩, if_pos hrow, if_pos ht]
              apply accumulate_congr
              intro p hp
              rw [hA p hp hrow]
            · rw [if_neg (by omega), if_pos hrow, if_neg ht]
          · rw [if_neg (fun hh => hrow hh.1), if_neg hrow]
        have hGen : (if i2 ≤ i ∧ i < i2 + min mc (rows - i2) ∧
                (if mode.isLower then 0 else a + w) ≤ c ∧
                c < (if mode.isLower then 0 else a + w) +
                  (if mode.isLower then a else n - (a + w)) then
              accumulate (fun p => ei_conj_if conjLhs
                (ei_gemm_pack_lhs lhsOrder false blockA
                  (ptrAdd lhs (blasIndex lhsOrder lhsStride i2 a)) lhsStride w
                  (min mc (rows - i2)) 1 (i - i2) (0 + p)) *
                ei_conj_if conjRhs
                  (geb (0 + p) (c - (if mode.isLower then 0 else a + w)))) w
            else 0) =
            (if i2 ≤ i ∧ i < i2 + min mc (rows - i2) then
              (if (if mode.isLower then 0 else a + w) ≤ c ∧
                  c < (if mode.isLower then 0 else a + w) +
                    (if mode.isLower then a else n - (a + w)) then
                accumulate (fun p =>
                  ei_conj_if conjLhs (readMat lhsOrder lhsStride lhs i (a + p)) *
                  ei_conj_if conjRhs
                    (alpha * triangularView mode (readMat rhsOrder rhsStride rhs) (a + p) c)) w
              else 0) else 0) := by
          by_cases hrow : i2 ≤ i ∧ i < i2 + min mc (rows - i2)
          · by_cases hg : (if mode.isLower then 0 else a + w) ≤ c ∧
                c < (if mode.isLower then 0 else a + w) +
                  (if mode.isLower then a else n - (a + w))
            · rw [if_pos ⟨hrow.1, hrow.2, hg.1, hg.2⟩, if_pos hrow, if_pos hg]
              apply accumulate_congr
              intro p hp
              have hcc : (if mode.isLower then 0 else a + w) +
                  (c - (if mode.isLower then 0 else a + w)) = c := by omega
              rw [Nat.zero_add, hA p hp hrow, hgeb p _ hp (by omega), hcc]
            · rw [if_neg (fun hh => hg hh.2.2), if_pos hrow, if_neg hg]
          · rw [if_neg (fun hh => hrow ⟨hh.1, hh.2.1⟩), if_neg hrow]
        rw [hout i c hi, ei_gebp_kernel_apply conjLhs conjRhs _ resStride i2
          (if mode.isLower then 0 else a + w) _ _ _ _ _ _ _ _ i c rfl (by omega) hi,
          hres1 i c hi, hTri, hGen, add_assoc, add_assoc]
        congr 1
        by_cases hrow : i2 ≤ i ∧ i < i2 + min mc (rows - i2)
        · have h1 : ¬ (i2 + mc ≤ i ∧ i < rows ∧ c < n) := by omega
          rw [if_pos hrow, if_pos hrow, if_neg h1, add_zero]
          by_cases hc : c < n
          · have h2 : i2 ≤ i ∧ i < rows ∧ c < n := by omega
            rw [if_pos h2]
            exact trmmRhs_strip_cols mode conjRhs (readMat rhsOrder rhsStride rhs) alpha
              (fun p => ei_conj_if conjLhs (readMat lhsOrder lhsStride lhs i (a + p))) a w n c
              haw hc
          · have h2 : ¬ (i2 ≤ i ∧ i < rows ∧ c < n) := by omega
            have ht : ¬ (a ≤ c ∧ c < a + w) := by omega
            have hg : ¬ ((if mode.isLower then 0 else a + w) ≤ c ∧
                c < (if mode.isLower then 0 else a + w) +
                  (if mode.isLower then a else n - (a + w))) := by
              cases mode.isLower <;> simp <;> omega
            rw [if_neg h2, if_neg ht, if_neg hg, add_zero]
        · rw [if_neg hrow, if_neg hrow, zero_add, zero_add]
          by_cases h1 : i2 + mc ≤ i ∧ i < rows ∧ c < n
          · have h2 : i2 ≤ i ∧ i < rows ∧ c < n := by omega
            rw [if_pos h1, if_pos h2]
          · have h2 : ¬ (i2 ≤ i ∧ i < rows ∧ c < n) := by omega
            rw [if_neg h1, if_neg h2]
    · refine ⟨blockA, res, by simp [trmmRhsRowLoop, h], ?_⟩
      intro i c _
      have : ¬ (i2 ≤ i ∧ i < rows ∧ c < n) := by omega
      rw [if_neg this, add_zero]

/-- One depth strip `[a, a + w)` of a square triangular rhs of size `n`: the
packing loop and the loop over the lhs blocks return, the scratch matrix keeps
its invariant, and every entry of the destination receives the product of the
strip of the lhs with `alpha` times the strip of the dense triangular matrix. -/
theorem trmmRhs_strip_spec {K : Type} [CommRing K] [StarRing K]
    (mode : TriangularMode) (lhsOrder : StorageOrder) (conjLhs : Bool)
    (rhsOrder : StorageOrder) (conjRhs : Bool) (rows n : Nat)
    (lhs : Nat → K) (lhsStride : Nat) (rhs : Nat → K) (rhsStride resStride : Nat) (alpha : K)
    (mc smallPanelWidth : Nat) (hmc : 0 < mc) (hspw : 0 < smallPanelWidth)
    (hs : rows ≤ resStride) (a w : Nat) (hw : 0 < w) (haw : a + w ≤ n)
    (blockA blockB geb buf : Nat → Nat → K) (res : Nat → K)
    (hinv : triangularBufferInvariant mode buf) :
    ∃ bB1 buf1 bA1 out,
      trmmRhsPackLoop mode rhsOrder rhs rhsStride alpha smallPanelWidth a w w 0 blockB buf =
        some (bB1, buf1) ∧
      trmmRhsRowLoop mode lhsOrder conjLhs conjRhs rows lhs lhsStride resStride mc
          smallPanelWidth a w (if mode.isLower then a else n - (a + w)) w
          (if mode.isLower then 0 else a + w) bB1
          (ei_gemm_pack_rhs rhsOrder false geb
            (ptrAdd rhs (blasIndex rhsOrder rhsStride a (if mode.isLower then 0 else a + w)))
            rhsStride alpha w (if mode.isLower then a else n - (a + w)) 0)
          rows 0 blockA res = some (bA1, out) ∧
      triangularBufferInvariant mode buf1 ∧
      ∀ i c, i < resStride → out (i + c * resStride) = res (i + c * resStride) +
        (if i < rows ∧ c < n then
          accumulate (fun p =>
            ei_conj_if conjLhs (readMat lhsOrder lhsStride lhs i (a + p)) *
            ei_conj_if conjRhs
              (alpha * triangularView mode (readMat rhsOrder rhsStride rhs) (a + p) c)) w
          else 0) := by
  obtain ⟨bB1, buf1, hpack, hinv1, _, hpacked⟩ := trmmRhsPackLoop_spec mode rhsOrder rhs rhsStride
    alpha smallPanelWidth a w hspw w 0 blockB buf (by omega) hinv
  have hgeb : ∀ p j, p < w → j < (if mode.isLower then a else n - (a + w)) →
      ei_gemm_pack_rhs rhsOrder false geb
        (ptrAdd rhs (blasIndex rhsOrder rhsStride a (if mode.isLower then 0 else a + w)))
        rhsStride alpha w (if mode.isLower then a else n - (a + w)) 0 p j =
      alpha * triangularView mode (readMat rhsOrder rhsStride rhs) (a + p)
        ((if mode.isLower then 0 else a + w) + j) := by
    intro p j hp hj
    rw [trmm_pack_rhs_strip rhsOrder _ rhs rhsStride alpha _ _ _ _ p j hp hj]
    congr 1
    unfold triangularView
    cases hl : mode.isLower
    · simp only [hl, Bool.false_eq_true, if_false] at hj ⊢
      rw [if_neg (by omega), if_pos (by omega)]
    · simp only [hl, if_true] at hj ⊢
      rw [if_neg (by omega), if_pos (by omega)]
  obtain ⟨bA1, out, hrun, hout⟩ := trmmRhsRowLoop_spec mode lhsOrder rhsOrder conjLhs conjRhs
    rows n lhs lhsStride rhs rhsStride resStride alpha mc smallPanelWidth a w bB1 _ hmc hspw hs
    hw haw hpacked hgeb rows 0 blockA res (by omega)
  refine ⟨bB1, buf1, bA1, out, hpack, hrun, hinv1, ?_⟩
  intro i c hi
  rw [hout i c hi]
  congr 1
  by_cases hin : i < rows ∧ c < n
  · rw [if_pos hin, if_pos ⟨Nat.zero_le i, hin.1, hin.2⟩]
  · rw [if_neg hin, if_neg (fun hh => hin ⟨hh.2.1, hh.2.2⟩)]

/-- One iteration of the loop over the depth strips of a square triangular
rhs of size `n`. -/
theorem trmmRhsDepthBody_spec {K : Type} [CommRing K] [StarRing K]
    (mode : TriangularMode) (lhsOrder : StorageOrder) (conjLhs : Bool)
    (rhsOrder : StorageOrder) (conjRhs : Bool) (rows n : Nat)
    (lhs : Nat → K) (lhsStride : Nat) (rhs : Nat → K) (rhsStride resStride : Nat) (alpha : K)
    (kc mc smallPanelWidth : Nat) (hkc : 0 < kc) (hmc : 0 < mc) (hspw : 0 < smallPanelWidth)
    (hs : rows ≤ resStride) (k2 : Nat)
    (hk2 : if mode.isLower then k2 < n else 0 < k2 ∧ k2 ≤ n)
    (blockA blockB geb buf : Nat → Nat → K) (res : Nat → K)
    (hinv : triangularBufferInvariant mode buf) :
    ∃ bA bB g buf1 out,
      trmmRhsDepthBody mode lhsOrder conjLhs rhsOrder conjRhs rows n n lhs lhsStride rhs
          rhsStride resStride alpha kc mc smallPanelWidth k2 blockA blockB geb buf res =
        some ((if mode.isLower then k2 + kc else k2 - kc), bA, bB, g, buf1, out) ∧
      triangularBufferInvariant mode buf1 ∧
      ∀ i c, i < resStride → out (i + c * resStride) = res (i + c * resStride) +
        (if i < rows ∧ c < n then
          accumulate (fun p =>
            ei_conj_if conjLhs (readMat lhsOrder lhsStride lhs i
              ((if mode.isLower then k2 else k2 - min k2 kc) + p)) *
            ei_conj_if conjRhs
              (alpha * triangularView mode (readMat rhsOrder rhsStride rhs)
                ((if mode.isLower then k2 else k2 - min k2 kc) + p) c))
            (if mode.isLower then min (n - k2) kc else min k2 kc) else 0) := by
  cases hl : mode.isLower
  · simp only [hl, Bool.false_eq_true, if_false] at hk2 ⊢
    obtain ⟨bB1, buf1, bA1, out, hpack, hrow, hinv1, hout⟩ := trmmRhs_strip_spec mode lhsOrder
      conjLhs rhsOrder conjRhs rows n lhs lhsStride rhs rhsStride resStride alpha mc
      smallPanelWidth hmc hspw hs (k2 - min k2 kc) (min k2 kc) (by omega) (by omega)
      blockA blockB geb buf res hinv
    simp only [hl, Bool.false_eq_true, if_false] at hrow
    have he : k2 - min k2 kc + min k2 kc = k2 := by omega
    rw [he] at hrow
    have hts : 0 < min k2 kc := by omega
    unfold trmmRhsDepthBody
    simp only [hl, Bool.false_eq_true, if_false, Bool.false_and, if_pos hts]
    rw [hpack]
    simp only
    rw [hrow]
    simp only
    have hnext : ((k2 : Int) - (kc : Int)).toNat = k2 - kc := by omega
    rw [hnext]
    exact ⟨bA1, _, _, buf1, out, rfl, hinv1, hout⟩
  · simp only [hl, if_true] at hk2 ⊢
    obtain ⟨bB1, buf1, bA1, out, hpack, hrow, hinv1, hout⟩ := trmmRhs_strip_spec mode lhsOrder
      conjLhs rhsOrder conjRhs rows n lhs lhsStride rhs rhsStride resStride alpha mc
      smallPanelWidth hmc hspw hs k2 (min (n - k2) kc) (by omega) (by omega)
      blockA blockB geb buf res hinv
    simp only [hl, if_true] at hrow
    have hre : ¬ (n < k2 + min (n - k2) kc) := by omega
    have hmin : min n k2 = k2 := by omega
    have hcols : ¬ (n ≤ k2) := by omega
    have hts : 0 < min (n - k2) kc := by omega
    unfold trmmRhsDepthBody
    simp only [hl, if_true, Bool.true_and, hk2, hre, hcols, decide_True, decide_False,
      Bool.and_false, Bool.false_eq_true, if_false, hmin, if_pos hts]
    rw [hpack]
    simp only
    rw [hrow]
    simp only
    have hnext : ((k2 : Int) + (kc : Int)).toNat = k2 + kc := by omega
    rw [hnext]
    exact ⟨bA1, _, _, buf1, out, rfl, hinv1, hout⟩

/-- The ascending loop over the depth strips of a square lower triangular rhs,
entered at `k2`: it returns and adds the product over the depth range
`[k2, n)`. -/
theorem trmmRhsDepthLoop_lower {K : Type} [CommRing K] [StarRing K]
    (mode : TriangularMode) (lhsOrder : StorageOrder) (conjLhs : Bool)
    (rhsOrder : StorageOrder) (conjRhs : Bool) (rows n : Nat)
    (lhs : Nat → K) (lhsStride : Nat) (rhs : Nat → K) (rhsStride resStride : Nat) (alpha : K)
    (kc mc smallPanelWidth : Nat) (hkc : 0 < kc) (hmc : 0 < mc) (hspw : 0 < smallPanelWidth)
    (hs : rows ≤ resStride) (hl : mode.isLower = true) (fuel : Nat) :
    ∀ (k2 : Nat) (blockA blockB geb buf : Nat → Nat → K) (res : Nat → K), n - k2 ≤ fuel →
      triangularBufferInvariant mode buf →
      ∃ out, trmmRhsDepthLoop mode lhsOrder conjLhs rhsOrder conjRhs rows n n lhs lhsStride
          rhs rhsStride resStride alpha kc mc smallPanelWidth fuel k2 blockA blockB geb buf
          res = some out ∧
        ∀ i c, i < resStride → out (i + c * resStride) = res (i + c * resStride) +
          (if i < rows ∧ c < n then
            accumulate (fun p =>
              ei_conj_if conjLhs (readMat lhsOrder lhsStride lhs i (k2 + p)) *
              ei_conj_if conjRhs
                (alpha * triangularView mode (readMat rhsOrder rhsStride rhs) (k2 + p) c))
              (n - k2) else 0) := by
  induction fuel with
  | zero =>
    intro k2 blockA blockB geb buf res hf _
    have h : ¬ k2 < n := by omega
    have h0 : n - k2 = 0 := by omega
    refine ⟨res, by simp [trmmRhsDepthLoop, hl, h], ?_⟩
    intro i c _
    simp [h0, accumulate]
  | succ fuel ih =>
    intro k2 blockA blockB geb buf res hf hinv
    by_cases h : k2 < n
    · obtain ⟨bA, bB, g, buf1, res1, hbody, hinv1, hres1⟩ := trmmRhsDepthBody_spec mode
        lhsOrder conjLhs rhsOrder conjRhs rows n lhs lhsStride rhs rhsStride resStride alpha kc
        mc smallPanelWidth hkc hmc hspw hs k2 (by simp only [hl, if_true]; exact h)
        blockA blockB geb buf res hinv
      simp only [hl, if_true] at hbody hres1
      obtain ⟨out, hrun, hout⟩ := ih (k2 + kc) bA bB g buf1 res1 (by omega) hinv1
      refine ⟨out, ?_, ?_⟩
      · simp only [trmmRhsDepthLoop, hl, if_true, if_pos h, hbody]
        exact hrun
      · intro i c hi
        rw [hout i c hi, hres1 i c hi, add_assoc]
        congr 1
        by_cases hin : i < rows ∧ c < n
        · rw [if_pos hin, if_pos hin, if_pos hin]
          have hsplit : n - k2 = min (n - k2) kc + (n - (k2 + kc)) := by omega
          conv_rhs => rw [hsplit, accumulate_add]
          congr 1
          by_cases hlast : k2 + kc ≤ n
          · have h4 : min (n - k2) kc = kc := by omega
            rw [h4]
            apply accumulate_congr
            intro p _
            have e : k2 + kc + p = k2 + (kc + p) := by omega
            rw [e]
          · have h4 : n - (k2 + kc) = 0 := by omega
            rw [h4]
            rfl
        · rw [if_neg hin, if_neg hin, if_neg hin, add_zero]
    · have h0 : n - k2 = 0 := by omega
      refine ⟨res, by simp [trmmRhsDepthLoop, hl, h], ?_⟩
      intro i c _
      simp [h0, accumulate]

/-- The descending loop over the depth strips of a square upper triangular
rhs, entered at `k2`: it returns and adds the product over the depth range
`[0, k2)`. -/
theorem trmmRhsDepthLoop_upper {K : Type} [CommRing K] [StarRing K]
    (mode : TriangularMode) (lhsOrder : StorageOrder) (conjLhs : Bool)
    (rhsOrder : StorageOrder) (conjRhs : Bool) (rows n : Nat)
    (lhs : Nat → K) (lhsStride : Nat) (rhs : Nat → K) (rhsStride resStride : Nat) (alpha : K)
    (kc mc smallPanelWidth : Nat) (hkc : 0 < kc) (hmc : 0 < mc) (hspw : 0 < smallPanelWidth)
    (hs : rows ≤ resStride) (hl : mode.isLower = false) (fuel : Nat) :
    ∀ (k2 : Nat) (blockA blockB geb buf : Nat → Nat → K) (res : Nat → K), k2 ≤ n →
      k2 ≤ fuel → triangularBufferInvariant mode buf →
      ∃ out, trmmRhsDepthLoop mode lhsOrder conjLhs rhsOrder conjRhs rows n n lhs lhsStride
          rhs rhsStride resStride alpha kc mc smallPanelWidth fuel k2 blockA blockB geb buf
          res = some out ∧
        ∀ i c, i < resStride → out (i + c * resStride) = res (i + c * resStride) +
          (if i < rows ∧ c < n then
            accumulate (fun p =>
              ei_conj_if conjLhs (readMat lhsOrder lhsStride lhs i p) *
              ei_conj_if conjRhs
                (alpha * triangularView mode (readMat rhsOrder rhsStride rhs) p c))
              k2 else 0) := by
  induction fuel with
  | zero =>
    intro k2 blockA blockB geb buf res _ hf _
    have h0 : k2 = 0 := by omega
    subst h0
    refine ⟨res, by simp [trmmRhsDepthLoop, hl], ?_⟩
    intro i c _
    simp [accumulate]
  | succ fuel ih =>
    intro k2 blockA blockB geb buf res hk hf hinv
    by_cases h : 0 < k2
    · obtain ⟨bA, bB, g, buf1, res1, hbody, hinv1, hres1⟩ := trmmRhsDepthBody_spec mode
        lhsOrder conjLhs rhsOrder conjRhs rows n lhs lhsStride rhs rhsStride resStride alpha kc
        mc smallPanelWidth hkc hmc hspw hs k2
        (by simp only [hl, Bool.false_eq_true, if_false]; exact ⟨h, hk⟩)
        blockA blockB geb buf res hinv
      simp only [hl, Bool.false_eq_true, if_false] at hbody hres1
      obtain ⟨out, hrun, hout⟩ := ih (k2 - kc) bA bB g buf1 res1 (by omega) (by omega) hinv1
      refine ⟨out, ?_, ?_⟩
      · simp only [trmmRhsDepthLoop, hl, Bool.false_eq_true, if_false, if_pos h, hbody]
        exact hrun
      · intro i c hi
        rw [hout i c hi, hres1 i c hi, add_assoc]
        congr 1
        by_cases hin : i < rows ∧ c < n
        · rw [if_pos hin, if_pos hin, if_pos hin]
          have hsplit : k2 = (k2 - kc) + min k2 kc := by omega
          have hstart : k2 - min k2 kc = k2 - kc := by omega
          conv_rhs => rw [hsplit, accumulate_add]
          rw [hstart, add_comm]
        · rw [if_neg hin, if_neg hin, if_neg hin, add_zero]
    · have h0 : k2 = 0 := by omega
      subst h0
      refine ⟨res, by simp [trmmRhsDepthLoop, hl], ?_⟩
      intro i c _
      simp [accumulate]

/-- What the driver for a square triangular rhs of size `n` computes: it
returns, and every entry of the destination has received `alpha` times the
product of the lhs with the dense matrix that the triangular operand stands
for, both conjugated as their flags say. -/
theorem trmmRhsRun_spec {K : Type} [CommRing K] [StarRing K]
    (mode : TriangularMode) (lhsOrder : StorageOrder) (conjLhs : Bool)
    (rhsOrder : StorageOrder) (conjRhs : Bool) (rows n : Nat)
    (lhs : Nat → K) (lhsStride : Nat) (rhs : Nat → K) (rhsStride : Nat)
    (res : Nat → K) (resStride : Nat) (alpha : K) (kc mc smallPanelWidth : Nat)
    (blockA blockB geb : Nat → Nat → K)
    (hkc : 0 < kc) (hmc : 0 < mc) (hspw : 0 < smallPanelWidth) (hs : rows ≤ resStride) :
    ∃ out, trmmRhsRun mode lhsOrder conjLhs rhsOrder conjRhs rows n n lhs lhsStride rhs
        rhsStride res resStride alpha kc mc smallPanelWidth blockA blockB geb = some out ∧
      ∀ i c, i < resStride → out (i + c * resStride) = res (i + c * resStride) +
        (if i < rows ∧ c < n then
          alpha * Finset.sum (Finset.range n) (fun p =>
            ei_conj_if conjLhs (readMat lhsOrder lhsStride lhs i p) *
            ei_conj_if conjRhs (triangularView mode (readMat rhsOrder rhsStride rhs) p c))
          else 0) := by
  have hterm : ∀ (b : K), ei_conj_if conjRhs ((if conjRhs then star alpha else alpha) * b) =
      alpha * ei_conj_if conjRhs b := by
    intro b
    cases conjRhs <;> simp [ei_conj_if, star_mul']
  cases hl : mode.isLower
  · obtain ⟨out, hrun, hout⟩ := trmmRhsDepthLoop_upper mode lhsOrder conjLhs rhsOrder conjRhs
      rows n lhs lhsStride rhs rhsStride resStride (if conjRhs then star alpha else alpha)
      kc mc smallPanelWidth hkc hmc hspw hs hl n n blockA blockB geb triangularBufferInit res
      (le_refl n) (le_refl n) (triangularBufferInit_invariant mode)
    refine ⟨out, by simp only [trmmRhsRun, hl, Bool.false_eq_true, if_false]; exact hrun, ?_⟩
    intro i c hi
    rw [hout i c hi]
    congr 1
    by_cases hin : i < rows ∧ c < n
    · rw [if_pos hin, if_pos hin, ← accumulate_eq_sum, ← accumulate_mul_left]
      apply accumulate_congr
      intro p _
      rw [hterm]
      ring
    · rw [if_neg hin, if_neg hin]
  · obtain ⟨out, hrun, hout⟩ := trmmRhsDepthLoop_lower mode lhsOrder conjLhs rhsOrder conjRhs
      rows n lhs lhsStride rhs rhsStride resStride (if conjRhs then star alpha else alpha)
      kc mc smallPanelWidth hkc hmc hspw hs hl n 0 blockA blockB geb triangularBufferInit res
      (by omega) (triangularBufferInit_invariant mode)
    refine ⟨out, by simp only [trmmRhsRun, hl, if_true]; exact hrun, ?_⟩
    intro i c hi
    rw [hout i c hi]
    congr 1
    by_cases hin : i < rows ∧ c < n
    · rw [if_pos hin, if_pos hin, ← accumulate_eq_sum, ← accumulate_mul_left, Nat.sub_zero]
      apply accumulate_congr
      intro p _
      rw [Nat.zero_add, hterm]
      ring
    · rw [if_neg hin, if_neg hin]

/-! ## Claims on the general product -/

/-- C1: for all sizes, operands, `alpha` and positive block sizes, the
sequential column-major driver returns and leaves in every entry `(i, j)` of
the destination its previous value plus `alpha * Σ_p A[i,p] * B[p,j]`, the
operands being read through their mappers (and conjugation flags, which the
claim takes unset). -/
theorem gemm_colmajor_definition {K : Type} [CommRing K] [StarRing K]
    (lhsOrder : StorageOrder) (conjLhs : Bool) (rhsOrder : StorageOrder) (conjRhs : Bool)
    (alphaOnLhs : Bool) (rows cols depth : Nat) (lhs : Nat → K) (lhsStride : Nat)
    (rhs : Nat → K) (rhsStride : Nat) (res : Nat → K) (resStride : Nat) (alpha : K)
    (blocking : ei_level3_blocking K)
    (hkc : 0 < blocking.kc) (hmc : 0 < blocking.mc) (hs : rows ≤ resStride) :
    ∃ out, ei_general_matrix_matrix_product_run lhsOrder conjLhs rhsOrder conjRhs
        StorageOrder.ColMajor alphaOnLhs rows cols depth lhs lhsStride rhs rhsStride res
        resStride alpha blocking = some out ∧
      ∀ i j, i < rows → j < cols →
        readMat StorageOrder.ColMajor resStride out i j =
          readMat StorageOrder.ColMajor resStride res i j +
            alpha * Finset.sum (Finset.range depth) (fun p =>
              ei_conj_if conjLhs (readMat lhsOrder lhsStride lhs i p) *
              ei_conj_if conjRhs (readMat rhsOrder rhsStride rhs p j)) := by
  obtain ⟨out, hrun, hout⟩ := runColMajor_spec lhsOrder conjLhs rhsOrder conjRhs alphaOnLhs
    rows cols depth lhs lhsStride rhs rhsStride res resStride alpha blocking hkc hmc hs
  refine ⟨out, hrun, ?_⟩
  intro i j hi hj
  have h := hout i j (by omega)
  rw [if_pos ⟨hi, hj⟩] at h
  exact h

/-- C1, seed scenario 1: `A = [[1,2],[3,4]]`, `B = [[5,6],[7,8]]`, `alpha = 1`,
`C = 0` with unit block sizes satisfies the hypotheses, and the general
statement holds there; the destination ends as `[[19,22],[43,50]]`. -/
theorem gemm_colmajor_definition_witness :
    (0 < unitBlocking.kc ∧ 0 < unitBlocking.mc ∧ 2 ≤ 2) ∧
    (∃ out, ei_general_matrix_matrix_product_run StorageOrder.ColMajor false
        StorageOrder.ColMajor false StorageOrder.ColMajor false 2 2 2 seedA 2 seedB 2
        (fun _ => 0) 2 1 unitBlocking = some out ∧
      ∀ i j, i < 2 → j < 2 →
        readMat StorageOrder.ColMajor 2 out i j =
          readMat StorageOrder.ColMajor 2 (fun _ => (0 : ℤ)) i j +
            1 * Finset.sum (Finset.range 2) (fun p =>
              ei_conj_if false (readMat StorageOrder.ColMajor 2 seedA i p) *
              ei_conj_if false (readMat StorageOrder.ColMajor 2 seedB p j))) ∧
    (ei_general_matrix_matrix_product_run StorageOrder.ColMajor false
        StorageOrder.ColMajor false StorageOrder.ColMajor false 2 2 2 seedA 2 seedB 2
        (fun _ => 0) 2 1 unitBlocking).map
      (fun out => [[readMat StorageOrder.ColMajor 2 out 0 0,
                    readMat StorageOrder.ColMajor 2 out 0 1],
                   [readMat StorageOrder.ColMajor 2 out 1 0,
                    readMat StorageOrder.ColMajor 2 out 1 1]]) =
      some [[19, 22], [43, 50]] :=
  ⟨by decide,
   gemm_colmajor_definition StorageOrder.ColMajor false StorageOrder.ColMajor false false
     2 2 2 seedA 2 seedB 2 (fun _ => 0) 2 1 unitBlocking (by decide) (by decide) (by decide),
   by decide⟩

/-- C2: the row-major-destination driver on `(C, A, B)` gives the transpose of
what the column-major driver gives on the transposed problem `(Cᵀ, Bᵀ, Aᵀ)`:
sizes, operands, strides and conjugation flags swapped, both operand orders
flipped; the matrices are placed in memory by `encode` and read back by the
mapper of the destination order. -/
theorem gemm_rowmajor_is_transposed_colmajor {K : Type} [CommRing K] [StarRing K]
    (lhsOrder : StorageOrder) (conjLhs : Bool) (rhsOrder : StorageOrder) (conjRhs : Bool)
    (alphaOnLhs : Bool) (rows cols depth : Nat) (A B C : Nat → Nat → K)
    (lhsStride rhsStride resStride : Nat) (alpha : K) (blocking : ei_level3_blocking K) :
    (ei_general_matrix_matrix_product_run lhsOrder conjLhs rhsOrder conjRhs
        StorageOrder.RowMajor alphaOnLhs rows cols depth
        (encode lhsOrder lhsStride A) lhsStride (encode rhsOrder rhsStride B) rhsStride
        (encode StorageOrder.RowMajor resStride C) resStride alpha blocking).map
      (fun out => readMat StorageOrder.RowMajor resStride out) =
    (ei_general_matrix_matrix_product_run rhsOrder.flip conjRhs lhsOrder.flip conjLhs
        StorageOrder.ColMajor alphaOnLhs cols rows depth
        (encode rhsOrder.flip rhsStride (transposeMat B)) rhsStride
        (encode lhsOrder.flip lhsStride (transposeMat A)) lhsStride
        (encode StorageOrder.ColMajor resStride (transposeMat C)) resStride alpha blocking).map
      (fun out => transposeMat (readMat StorageOrder.ColMajor resStride out)) := by
  have hA : encode lhsOrder.flip lhsStride (transposeMat A) = encode lhsOrder lhsStride A := by
    cases lhsOrder <;> rfl
  have hB : encode rhsOrder.flip rhsStride (transposeMat B) = encode rhsOrder rhsStride B := by
    cases rhsOrder <;> rfl
  have hC : encode StorageOrder.ColMajor resStride (transposeMat C) =
      encode StorageOrder.RowMajor resStride C := rfl
  rw [hA, hB, hC]
  rfl

/-- C3: with `alpha = 0` the driver returns and every entry of the destination
keeps exactly the value it had before the call (column-major and row-major
destinations alike). -/
theorem gemm_alpha_zero_frame {K : Type} [CommRing K] [StarRing K]
    (lhsOrder : StorageOrder) (conjLhs : Bool) (rhsOrder : StorageOrder) (conjRhs : Bool)
    (resOrder : StorageOrder) (alphaOnLhs : Bool) (rows cols depth : Nat)
    (lhs : Nat → K) (lhsStride : Nat) (rhs : Nat → K) (rhsStride : Nat)
    (res : Nat → K) (resStride : Nat) (blocking : ei_level3_blocking K)
    (hkc : 0 < blocking.kc) (hmc : 0 < blocking.mc)
    (hs : (match resOrder with
      | StorageOrder.ColMajor => rows
      | StorageOrder.RowMajor => cols) ≤ resStride) :
    ∃ out, ei_general_matrix_matrix_product_run lhsOrder conjLhs rhsOrder conjRhs resOrder
        alphaOnLhs rows cols depth lhs lhsStride rhs rhsStride res resStride 0 blocking =
          some out ∧
      ∀ i j, i < rows → j < cols →
        readMat resOrder resStride out i j = readMat resOrder resStride res i j := by
  cases resOrder with
  | ColMajor =>
    obtain ⟨out, hrun, hout⟩ := runColMajor_spec lhsOrder conjLhs rhsOrder conjRhs alphaOnLhs
      rows cols depth lhs lhsStride rhs rhsStride res resStride 0 blocking hkc hmc hs
    refine ⟨out, hrun, ?_⟩
    intro i j hi _
    have h := hout i j (Nat.lt_of_lt_of_le hi hs)
    simpa [readMat, blasIndex] using h
  | RowMajor =>
    obtain ⟨out, hrun, hout⟩ := runColMajor_spec rhsOrder.flip conjRhs lhsOrder.flip conjLhs
      alphaOnLhs cols rows depth rhs rhsStride lhs lhsStride res resStride 0 blocking hkc hmc hs
    refine ⟨out, hrun, ?_⟩
    intro i j _ hj
    have h := hout j i (Nat.lt_of_lt_of_le hj hs)
    simpa [readMat, blasIndex] using h

/-- C3 at a concrete input: the seed operands with `alpha = 0` and a
destination holding `5` everywhere. -/
theorem gemm_alpha_zero_frame_witness :
    (0 < unitBlocking.kc ∧ 0 < unitBlocking.mc ∧ 2 ≤ 2) ∧
    ∃ out, ei_general_matrix_matrix_product_run StorageOrder.ColMajor false
        StorageOrder.ColMajor false StorageOrder.ColMajor false 2 2 2 seedA 2 seedB 2
        (fun _ => 5) 2 0 unitBlocking = some out ∧
      ∀ i j, i < 2 → j < 2 →
        readMat StorageOrder.ColMajor 2 out i j =
          readMat StorageOrder.ColMajor 2 (fun _ => (5 : ℤ)) i j :=
  ⟨by decide,
   gemm_alpha_zero_frame StorageOrder.ColMajor false StorageOrder.ColMajor false
     StorageOrder.ColMajor false 2 2 2 seedA 2 seedB 2 (fun _ => 5) 2 unitBlocking
     (by decide) (by decide) (by decide)⟩

/-- C4: the driver with `ConjugateLhs` set, run on `(C, A, B, alpha)`, gives in
every entry of the destination the complex conjugate of what the driver with
`ConjugateRhs` set gives on `(conj C, A, B, conj alpha)`; both runs return. -/
theorem gemm_conjugation_commutes {K : Type} [CommRing K] [StarRing K]
    (lhsOrder rhsOrder resOrder : StorageOrder) (alphaOnLhs : Bool) (rows cols depth : Nat)
    (lhs : Nat → K) (lhsStride : Nat) (rhs : Nat → K) (rhsStride : Nat)
    (res : Nat → K) (resStride : Nat) (alpha : K) (blocking : ei_level3_blocking K)
    (hkc : 0 < blocking.kc) (hmc : 0 < blocking.mc)
    (hs : (match resOrder with
      | StorageOrder.ColMajor => rows
      | StorageOrder.RowMajor => cols) ≤ resStride) :
    ∃ out1 out2,
      ei_general_matrix_matrix_product_run lhsOrder true rhsOrder false resOrder alphaOnLhs
        rows cols depth lhs lhsStride rhs rhsStride res resStride alpha blocking = some out1 ∧
      ei_general_matrix_matrix_product_run lhsOrder false rhsOrder true resOrder alphaOnLhs
        rows cols depth lhs lhsStride rhs rhsStride (fun n => star (res n)) resStride
        (star alpha) blocking = some out2 ∧
      ∀ i j, i < rows → j < cols →
        readMat resOrder resStride out1 i j = star (readMat resOrder resStride out2 i j) := by
  cases resOrder with
  | ColMajor =>
    obtain ⟨out1, hrun1, hout1⟩ := runColMajor_spec lhsOrder true rhsOrder false alphaOnLhs
      rows cols depth lhs lhsStride rhs rhsStride res resStride alpha blocking hkc hmc hs
    obtain ⟨out2, hrun2, hout2⟩ := runColMajor_spec lhsOrder false rhsOrder true alphaOnLhs
      rows cols depth lhs lhsStride rhs rhsStride (fun n => star (res n)) resStride
      (star alpha) blocking hkc hmc hs
    refine ⟨out1, out2, hrun1, hrun2, ?_⟩
    intro i j hi hj
    have h1 := hout1 i j (Nat.lt_of_lt_of_le hi hs)
    have h2 := hout2 i j (Nat.lt_of_lt_of_le hi hs)
    rw [if_pos ⟨hi, hj⟩] at h1 h2
    simp only [readMat, blasIndex] at h1 h2 ⊢
    rw [h1, h2]
    simp [ei_conj_if, star_sum, star_mul']
  | RowMajor =>
    obtain ⟨out1, hrun1, hout1⟩ := runColMajor_spec rhsOrder.flip false lhsOrder.flip true
      alphaOnLhs cols rows depth rhs rhsStride lhs lhsStride res resStride alpha blocking
      hkc hmc hs
    obtain ⟨out2, hrun2, hout2⟩ := runColMajor_spec rhsOrder.flip true lhsOrder.flip false
      alphaOnLhs cols rows depth rhs rhsStride lhs lhsStride (fun n => star (res n)) resStride
      (star alpha) blocking hkc hmc hs
    refine ⟨out1, out2, hrun1, hrun2, ?_⟩
    intro i j hi hj
    have h1 := hout1 j i (Nat.lt_of_lt_of_le hj hs)
    have h2 := hout2 j i (Nat.lt_of_lt_of_le hj hs)
    rw [if_pos ⟨hj, hi⟩] at h1 h2
    simp only [readMat, blasIndex] at h1 h2 ⊢
    rw [h1, h2]
    simp [ei_conj_if, star_sum, star_mul']

/-- C4 at a concrete complex input over the Gaussian integers, with
`alpha = 2 + 3i` and a destination holding `1 - i` everywhere. -/
theorem gemm_conjugation_commutes_witness :
    (0 < unitBlockingZ.kc ∧ 0 < unitBlockingZ.mc ∧ 2 ≤ 2) ∧
    ∃ out1 out2,
      ei_general_matrix_matrix_product_run StorageOrder.ColMajor true StorageOrder.ColMajor
        false StorageOrder.ColMajor false 2 2 2 seedZ 2 seedW 2 (fun _ => ⟨1, -1⟩) 2 ⟨2, 3⟩
        unitBlockingZ = some out1 ∧
      ei_general_matrix_matrix_product_run StorageOrder.ColMajor false StorageOrder.ColMajor
        true StorageOrder.ColMajor false 2 2 2 seedZ 2 seedW 2
        (fun n => star ((fun _ => (⟨1, -1⟩ : GaussianInt)) n)) 2 (star ⟨2, 3⟩)
        unitBlockingZ = some out2 ∧
      ∀ i j, i < 2 → j < 2 →
        readMat StorageOrder.ColMajor 2 out1 i j =
          star (readMat StorageOrder.ColMajor 2 out2 i j) :=
  ⟨by decide,
   gemm_conjugation_commutes StorageOrder.ColMajor StorageOrder.ColMajor
     StorageOrder.ColMajor false 2 2 2 seedZ 2 seedW 2 (fun _ => ⟨1, -1⟩) 2 ⟨2, 3⟩
     unitBlockingZ (by decide) (by decide) (by decide)⟩

/-! ## Claims on the triangular product -/

/-- C5: for every square triangular left operand of size `n` (upper or lower,
unit or non-unit diagonal), every `B`, `C`, `alpha` and positive block sizes,
the driver with `LhsIsTriangular = true` returns and leaves in every entry
`(i, j)` of the destination its previous value plus
`alpha * Σ_p T[i,p] * B[p,j]`, where `T` is the operand on the declared
triangle, zero on the opposite triangle and, in unit mode, one on the diagonal
(operands conjugated as their flags say). -/
theorem trmm_lhs_is_gemm_on_padded {K : Type} [CommRing K] [StarRing K]
    (mode : TriangularMode) (lhsOrder : StorageOrder) (conjLhs : Bool)
    (rhsOrder : StorageOrder) (conjRhs : Bool) (n cols : Nat)
    (lhs : Nat → K) (lhsStride : Nat) (rhs : Nat → K) (rhsStride : Nat)
    (res : Nat → K) (resStride : Nat) (alpha : K) (kc mc smallPanelWidth : Nat)
    (blockA blockB geb : Nat → Nat → K)
    (hkc : 0 < kc) (hmc : 0 < mc) (hspw : 0 < smallPanelWidth) (hs : n ≤ resStride) :
    ∃ out, ei_product_triangular_matrix_matrix_run mode true lhsOrder conjLhs rhsOrder conjRhs
        n cols n lhs lhsStride rhs rhsStride res resStride alpha kc mc smallPanelWidth
        blockA blockB geb = some out ∧
      ∀ i j, i < n → j < cols →
        readMat StorageOrder.ColMajor resStride out i j =
          readMat StorageOrder.ColMajor resStride res i j +
            alpha * Finset.sum (Finset.range n) (fun p =>
              ei_conj_if conjLhs (triangularView mode (readMat lhsOrder lhsStride lhs) i p) *
              ei_conj_if conjRhs (readMat rhsOrder rhsStride rhs p j)) := by
  obtain ⟨out, hrun, hout⟩ := trmmLhsRun_spec mode lhsOrder conjLhs rhsOrder conjRhs n cols lhs
    lhsStride rhs rhsStride res resStride alpha kc mc smallPanelWidth blockA blockB hkc hmc
    hspw hs
  refine ⟨out, by simp only [ei_product_triangular_matrix_matrix_run, if_true]; exact hrun, ?_⟩
  intro i j hi hj
  have h := hout i j (by omega)
  rw [if_pos ⟨hi, hj⟩] at h
  exact h

/-- C5, seed scenario 3: upper non-unit `A = [[2,3],[0,5]]`, `B = [[1,0],[1,1]]`,
`alpha = 1`, `C = 0` satisfies the hypotheses and the general statement holds
there; the destination ends as `[[5,3],[5,5]]`, and as `[[4,3],[1,1]]` in
upper unit mode. -/
theorem trmm_lhs_is_gemm_on_padded_witness :
    (0 < 1 ∧ 0 < 1 ∧ 0 < 1 ∧ 2 ≤ 2) ∧
    (∃ out, ei_product_triangular_matrix_matrix_run modeUpper true StorageOrder.ColMajor false
        StorageOrder.ColMajor false 2 2 2 seedTriA 2 seedTriB 2 (fun _ => 0) 2 1 1 1 1
        (fun _ _ => 7) (fun _ _ => 9) (fun _ _ => 11) = some out ∧
      ∀ i j, i < 2 → j < 2 →
        readMat StorageOrder.ColMajor 2 out i j =
          readMat StorageOrder.ColMajor 2 (fun _ => (0 : ℤ)) i j +
            1 * Finset.sum (Finset.range 2) (fun p =>
              ei_conj_if false
                (triangularView modeUpper (readMat StorageOrder.ColMajor 2 seedTriA) i p) *
              ei_conj_if false (readMat StorageOrder.ColMajor 2 seedTriB p j))) ∧
    (ei_product_triangular_matrix_matrix_run modeUpper true StorageOrder.ColMajor false
        StorageOrder.ColMajor false 2 2 2 seedTriA 2 seedTriB 2 (fun _ => 0) 2 1 1 1 1
        (fun _ _ => 7) (fun _ _ => 9) (fun _ _ => 11)).map
      (fun out => [[readMat StorageOrder.ColMajor 2 out 0 0,
                    readMat StorageOrder.ColMajor 2 out 0 1],
                   [readMat StorageOrder.ColMajor 2 out 1 0,
                    readMat StorageOrder.ColMajor 2 out 1 1]]) =
      some [[5, 3], [5, 5]] ∧
    (ei_product_triangular_matrix_matrix_run modeUnitUpper true StorageOrder.ColMajor false
        StorageOrder.ColMajor false 2 2 2 seedTriA 2 seedTriB 2 (fun _ => 0) 2 1 1 1 1
        (fun _ _ => 7) (fun _ _ => 9) (fun _ _ => 11)).map
      (fun out => [[readMat StorageOrder.ColMajor 2 out 0 0,
                    readMat StorageOrder.ColMajor 2 out 0 1],
                   [readMat StorageOrder.ColMajor 2 out 1 0,
                    readMat StorageOrder.ColMajor 2 out 1 1]]) =
      some [[4, 3], [1, 1]] :=
  ⟨by decide,
   trmm_lhs_is_gemm_on_padded modeUpper StorageOrder.ColMajor false StorageOrder.ColMajor false
     2 2 seedTriA 2 seedTriB 2 (fun _ => 0) 2 1 1 1 1 (fun _ _ => 7) (fun _ _ => 9)
     (fun _ _ => 11) (by decide) (by decide) (by decide) (by decide),
   by decide, by decide⟩

/-- C6: for every general left operand `A`, every square triangular right
operand of size `n` (upper or lower, unit or non-unit), every `C`, `alpha` and
positive block sizes, the driver with `LhsIsTriangular = false` returns and
leaves in every entry `(i, j)` its previous value plus
`alpha * Σ_p A[i,p] * T[p,j]`; and each depth strip it visits (`k2` as the
loop admits it) adds to every column exactly the products over the depth rows
of that strip, which vanish where `T` is zero on the strip. -/
theorem trmm_rhs_is_gemm_on_padded {K : Type} [CommRing K] [StarRing K]
    (mode : TriangularMode) (lhsOrder : StorageOrder) (conjLhs : Bool)
    (rhsOrder : StorageOrder) (conjRhs : Bool) (rows n : Nat)
    (lhs : Nat → K) (lhsStride : Nat) (rhs : Nat → K) (rhsStride : Nat)
    (res : Nat → K) (resStride : Nat) (alpha : K) (kc mc smallPanelWidth : Nat)
    (blockA blockB geb : Nat → Nat → K)
    (hkc : 0 < kc) (hmc : 0 < mc) (hspw : 0 < smallPanelWidth) (hs : rows ≤ resStride) :
    (∃ out, ei_product_triangular_matrix_matrix_run mode false lhsOrder conjLhs rhsOrder
        conjRhs rows n n lhs lhsStride rhs rhsStride res resStride alpha kc mc smallPanelWidth
        blockA blockB geb = some out ∧
      ∀ i j, i < rows → j < n →
        readMat StorageOrder.ColMajor resStride out i j =
          readMat StorageOrder.ColMajor resStride res i j +
            alpha * Finset.sum (Finset.range n) (fun p =>
              ei_conj_if conjLhs (readMat lhsOrder lhsStride lhs i p) *
              ei_conj_if conjRhs
                (triangularView mode (readMat rhsOrder rhsStride rhs) p j))) ∧
    (∀ (k2 : Nat) (bA0 bB0 g0 buf0 : Nat → Nat → K) (r0 : Nat → K),
      (if mode.isLower then k2 < n else 0 < k2 ∧ k2 ≤ n) →
      triangularBufferInvariant mode buf0 →
      ∃ k2next bA bB g buf1 out,
        trmmRhsDepthBody mode lhsOrder conjLhs rhsOrder conjRhs rows n n lhs lhsStride rhs
          rhsStride resStride alpha kc mc smallPanelWidth k2 bA0 bB0 g0 buf0 r0 =
            some (k2next, bA, bB, g, buf1, out) ∧
        ∀ i j, i < rows → j < n →
          readMat StorageOrder.ColMajor resStride out i j =
            readMat StorageOrder.ColMajor resStride r0 i j +
              accumulate (fun p =>
                ei_conj_if conjLhs (readMat lhsOrder lhsStride lhs i
                  ((if mode.isLower then k2 else k2 - min k2 kc) + p)) *
                ei_conj_if conjRhs
                  (alpha * triangularView mode (readMat rhsOrder rhsStride rhs)
                    ((if mode.isLower then k2 else k2 - min k2 kc) + p) j))
                (if mode.isLower then min (n - k2) kc else min k2 kc)) := by
  constructor
  · obtain ⟨out, hrun, hout⟩ := trmmRhsRun_spec mode lhsOrder conjLhs rhsOrder conjRhs rows n
      lhs lhsStride rhs rhsStride res resStride alpha kc mc smallPanelWidth blockA blockB geb
      hkc hmc hspw hs
    refine ⟨out, ?_, ?_⟩
    · simp only [ei_product_triangular_matrix_matrix_run, Bool.false_eq_true, if_false]
      exact hrun
    · intro i j hi hj
      have h := hout i j (by omega)
      rw [if_pos ⟨hi, hj⟩] at h
      exact h
  · intro k2 bA0 bB0 g0 buf0 r0 hk2 hinv
    obtain ⟨bA, bB, g, buf1, out, hbody, _, hout⟩ := trmmRhsDepthBody_spec mode lhsOrder conjLhs
      rhsOrder conjRhs rows n lhs lhsStride rhs rhsStride resStride alpha kc mc smallPanelWidth
      hkc hmc hspw hs k2 hk2 bA0 bB0 g0 buf0 r0 hinv
    refine ⟨_, bA, bB, g, buf1, out, hbody, ?_⟩
    intro i j hi hj
    have h := hout i j (by omega)
    rw [if_pos ⟨hi, hj⟩] at h
    exact h

/-- C6 at a concrete input: a 2 x 2 left operand and the upper triangular
right operand of seed scenario 3, with unit block sizes. -/
theorem trmm_rhs_is_gemm_on_padded_witness :
    (0 < 1 ∧ 0 < 1 ∧ 0 < 1 ∧ 2 ≤ 2) ∧
    ((∃ out, ei_product_triangular_matrix_matrix_run modeUpper false StorageOrder.ColMajor
        false StorageOrder.ColMajor false 2 2 2 seedTriB 2 seedTriA 2 (fun _ => 0) 2 1 1 1 1
        (fun _ _ => 7) (fun _ _ => 9) (fun _ _ => 11) = some out ∧
      ∀ i j, i < 2 → j < 2 →
        readMat StorageOrder.ColMajor 2 out i j =
          readMat StorageOrder.ColMajor 2 (fun _ => (0 : ℤ)) i j +
            1 * Finset.sum (Finset.range 2) (fun p =>
              ei_conj_if false (readMat StorageOrder.ColMajor 2 seedTriB i p) *
              ei_conj_if false
                (triangularView modeUpper (readMat StorageOrder.ColMajor 2 seedTriA) p j))) ∧
    (∀ (k2 : Nat) (bA0 bB0 g0 buf0 : Nat → Nat → ℤ) (r0 : Nat → ℤ),
      (if modeUpper.isLower then k2 < 2 else 0 < k2 ∧ k2 ≤ 2) →
      triangularBufferInvariant modeUpper buf0 →
      ∃ k2next bA bB g buf1 out,
        trmmRhsDepthBody modeUpper StorageOrder.ColMajor false StorageOrder.ColMajor false
          2 2 2 seedTriB 2 seedTriA 2 2 1 1 1 1 k2 bA0 bB0 g0 buf0 r0 =
            some (k2next, bA, bB, g, buf1, out) ∧
        ∀ i j, i < 2 → j < 2 →
          readMat StorageOrder.ColMajor 2 out i j =
            readMat StorageOrder.ColMajor 2 r0 i j +
              accumulate (fun p =>
                ei_conj_if false (readMat StorageOrder.ColMajor 2 seedTriB i
                  ((if modeUpper.isLower then k2 else k2 - min k2 1) + p)) *
                ei_conj_if false
                  (1 * triangularView modeUpper (readMat StorageOrder.ColMajor 2 seedTriA)
                    ((if modeUpper.isLower then k2 else k2 - min k2 1) + p) j))
                (if modeUpper.isLower then min (2 - k2) 1 else min k2 1))) ∧
    (ei_product_triangular_matrix_matrix_run modeUpper false StorageOrder.ColMajor
        false StorageOrder.ColMajor false 2 2 2 seedTriB 2 seedTriA 2 (fun _ => 0) 2 1 1 1 1
        (fun _ _ => 7) (fun _ _ => 9) (fun _ _ => 11)).map
      (fun out => [[readMat StorageOrder.ColMajor 2 out 0 0,
                    readMat StorageOrder.ColMajor 2 out 0 1],
                   [readMat StorageOrder.ColMajor 2 out 1 0,
                    readMat StorageOrder.ColMajor 2 out 1 1]]) =
      some [[2, 3], [2, 8]] :=
  ⟨by decide,
   trmm_rhs_is_gemm_on_padded modeUpper StorageOrder.ColMajor false StorageOrder.ColMajor false
     2 2 seedTriB 2 seedTriA 2 (fun _ => 0) 2 1 1 1 1 (fun _ _ => 7) (fun _ _ => 9)
     (fun _ _ => 11) (by decide) (by decide) (by decide) (by decide),
   by decide⟩

theorem triangularView_congr {K : Type} [CommRing K] (mode : TriangularMode) (n : Nat)
    (A B : Nat → Nat → K) (h : agreeOnTriangle mode n A B) (i p : Nat) (hi : i < n)
    (hp : p < n) : triangularView mode A i p = triangularView mode B i p := by
  unfold triangularView
  by_cases hip : i = p
  · rw [if_pos hip, if_pos hip]
    cases hu : mode.unitDiag
    · simp only [Bool.false_eq_true, if_false]
      exact h i p hi hp (Or.inr ⟨hip, hu⟩)
    · simp only [if_true]
  · rw [if_neg hip, if_neg hip]
    by_cases ht : (if mode.isLower then p < i else i < p)
    · rw [if_pos ht, if_pos ht]
      exact h i p hi hp (Or.inl ht)
    · rw [if_neg ht, if_neg ht]

/-- C7: two triangular operands of size `n` that agree on the declared strict
triangle (and on the diagonal in non-unit mode) give, with the same other
operand, destination and `alpha`, the same entries of the destination, whether
the triangular operand is the lhs or the rhs: neither the opposite triangle
nor, in unit mode, the diagonal is observable. -/
theorem trmm_ignores_opposite_triangle {K : Type} [CommRing K] [StarRing K]
    (mode : TriangularMode) (lhsIsTriangular : Bool) (lhsOrder : StorageOrder)
    (conjLhs : Bool) (rhsOrder : StorageOrder) (conjRhs : Bool) (rows cols n : Nat)
    (lhs1 lhs2 : Nat → K) (lhsStride : Nat) (rhs1 rhs2 : Nat → K) (rhsStride : Nat)
    (res : Nat → K) (resStride : Nat) (alpha : K) (kc mc smallPanelWidth : Nat)
    (blockA blockB geb : Nat → Nat → K)
    (hkc : 0 < kc) (hmc : 0 < mc) (hspw : 0 < smallPanelWidth) (hs : rows ≤ resStride)
    (hshape : if lhsIsTriangular then rows = n else cols = n)
    (hagree : if lhsIsTriangular then
        rhs1 = rhs2 ∧
          agreeOnTriangle mode n (readMat lhsOrder lhsStride lhs1)
            (readMat lhsOrder lhsStride lhs2)
      else
        lhs1 = lhs2 ∧
          agreeOnTriangle mode n (readMat rhsOrder rhsStride rhs1)
            (readMat rhsOrder rhsStride rhs2)) :
    ∃ out1 out2,
      ei_product_triangular_matrix_matrix_run mode lhsIsTriangular lhsOrder conjLhs rhsOrder
        conjRhs rows cols n lhs1 lhsStride rhs1 rhsStride res resStride alpha kc mc
        smallPanelWidth blockA blockB geb = some out1 ∧
      ei_product_triangular_matrix_matrix_run mode lhsIsTriangular lhsOrder conjLhs rhsOrder
        conjRhs rows cols n lhs2 lhsStride rhs2 rhsStride res resStride alpha kc mc
        smallPanelWidth blockA blockB geb = some out2 ∧
      ∀ i j, i < rows → j < cols →
        readMat StorageOrder.ColMajor resStride out1 i j =
          readMat StorageOrder.ColMajor resStride out2 i j := by
  cases lhsIsTriangular
  · simp only [Bool.false_eq_true, if_false] at hshape hagree
    obtain ⟨hl, ha⟩ := hagree
    subst hshape
    subst hl
    obtain ⟨out1, hrun1, hout1⟩ := trmmRhsRun_spec mode lhsOrder conjLhs rhsOrder conjRhs rows
      cols lhs1 lhsStride rhs1 rhsStride res resStride alpha kc mc smallPanelWidth blockA blockB
      geb hkc hmc hspw hs
    obtain ⟨out2, hrun2, hout2⟩ := trmmRhsRun_spec mode lhsOrder conjLhs rhsOrder conjRhs rows
      cols lhs1 lhsStride rhs2 rhsStride res resStride alpha kc mc smallPanelWidth blockA blockB
      geb hkc hmc hspw hs
    refine ⟨out1, out2, ?_, ?_, ?_⟩
    · simp only [ei_product_triangular_matrix_matrix_run, Bool.false_eq_true, if_false]
      exact hrun1
    · simp only [ei_product_triangular_matrix_matrix_run, Bool.false_eq_true, if_false]
      exact hrun2
    · intro i j hi hj
      have h1 := hout1 i j (by omega)
      have h2 := hout2 i j (by omega)
      rw [if_pos ⟨hi, hj⟩] at h1 h2
      simp only [readMat, blasIndex] at h1 h2 ⊢
      rw [h1, h2]
      congr 2
      apply Finset.sum_congr rfl
      intro p hp
      rw [triangularView_congr mode cols _ _ ha p j (Finset.mem_range.mp hp) hj]
  · simp only [if_true] at hshape hagree
    obtain ⟨hr, ha⟩ := hagree
    subst hshape
    subst hr
    obtain ⟨out1, hrun1, hout1⟩ := trmmLhsRun_spec mode lhsOrder conjLhs rhsOrder conjRhs rows
      cols lhs1 lhsStride rhs1 rhsStride res resStride alpha kc mc smallPanelWidth blockA blockB
      hkc hmc hspw hs
    obtain ⟨out2, hrun2, hout2⟩ := trmmLhsRun_spec mode lhsOrder conjLhs rhsOrder conjRhs rows
      cols lhs2 lhsStride rhs1 rhsStride res resStride alpha kc mc smallPanelWidth blockA blockB
      hkc hmc hspw hs
    refine ⟨out1, out2, ?_, ?_, ?_⟩
    · simp only [ei_product_triangular_matrix_matrix_run, if_true]
      exact hrun1
    · simp only [ei_product_triangular_matrix_matrix_run, if_true]
      exact hrun2
    · intro i j hi hj
      have h1 := hout1 i j (by omega)
      have h2 := hout2 i j (by omega)
      rw [if_pos ⟨hi, hj⟩] at h1 h2
      simp only [readMat, blasIndex] at h1 h2 ⊢
      rw [h1, h2]
      congr 2
      apply Finset.sum_congr rfl
      intro p hp
      rw [triangularView_congr mode rows _ _ ha i p hi (Finset.mem_range.mp hp)]

/-- The two images of seed scenario 3 agree on the upper triangle. -/
theorem seedTri_agree :
    agreeOnTriangle modeUpper 2 (readMat StorageOrder.ColMajor 2 seedTriA)
      (readMat StorageOrder.ColMajor 2 seedTriA2) := by
  intro i p hi hp h
  have hi2 : i = 0 ∨ i = 1 := by omega
  have hp2 : p = 0 ∨ p = 1 := by omega
  rcases hi2 with rfl | rfl <;> rcases hp2 with rfl | rfl <;>
    simp [modeUpper] at h <;> decide

/-- C7 at a concrete input: the upper triangular lhs of seed scenario 3 stored
with `77` and with `0` in the opposite triangle. -/
theorem trmm_ignores_opposite_triangle_witness :
    (0 < 1 ∧ 0 < 1 ∧ 0 < 1 ∧ 2 ≤ 2) ∧
    (if true then 2 = 2 else 2 = 2) ∧
    (if true then
        seedTriB = seedTriB ∧
          agreeOnTriangle modeUpper 2 (readMat StorageOrder.ColMajor 2 seedTriA)
            (readMat StorageOrder.ColMajor 2 seedTriA2)
      else
        seedTriA = seedTriA2 ∧
          agreeOnTriangle modeUpper 2 (readMat StorageOrder.ColMajor 2 seedTriB)
            (readMat StorageOrder.ColMajor 2 seedTriB)) ∧
    ∃ out1 out2,
      ei_product_triangular_matrix_matrix_run modeUpper true StorageOrder.ColMajor false
        StorageOrder.ColMajor false 2 2 2 seedTriA 2 seedTriB 2 (fun _ => 0) 2 1 1 1 1
        (fun _ _ => 7) (fun _ _ => 9) (fun _ _ => 11) = some out1 ∧
      ei_product_triangular_matrix_matrix_run modeUpper true StorageOrder.ColMajor false
        StorageOrder.ColMajor false 2 2 2 seedTriA2 2 seedTriB 2 (fun _ => 0) 2 1 1 1 1
        (fun _ _ => 7) (fun _ _ => 9) (fun _ _ => 11) = some out2 ∧
      ∀ i j, i < 2 → j < 2 →
        readMat StorageOrder.ColMajor 2 out1 i j = readMat StorageOrder.ColMajor 2 out2 i j :=
  ⟨by decide, rfl, ⟨rfl, seedTri_agree⟩,
   trmm_ignores_opposite_triangle modeUpper true StorageOrder.ColMajor false
     StorageOrder.ColMajor false 2 2 2 seedTriA seedTriA2 2 seedTriB seedTriB 2 (fun _ => 0) 2 1
     1 1 1 (fun _ _ => 7) (fun _ _ => 9) (fun _ _ => 11) (by decide) (by decide) (by decide)
     (by decide) rfl ⟨rfl, seedTri_agree⟩⟩

/-! ## Householder reflectors -/

theorem squaredNorm_split {K : Type} [CommRing K] (n : Nat) (x : Nat → K) (hn : 1 ≤ n) :
    squaredNorm n x = ei_abs2 (x 0) + tailSquaredNorm n x := by
  have h : n = 1 + (n - 1) := by omega
  unfold squaredNorm tailSquaredNorm
  conv_lhs => rw [h]
  rw [accumulate_add]
  simp [accumulate]

/-- The sum `essential.adjoint() * tail` when `essential = tail / c0`. -/
theorem essential_dot_tail {K : Type} [LinearOrderedField K] [StarRing K] [TrivialStar K]
    (n : Nat) (x : Nat → K) (c0 : K) :
    accumulate (fun i => star (x (1 + i) / c0) * asColumn x (1 + i) 0) (n - 1) =
      tailSquaredNorm n x / c0 := by
  unfold tailSquaredNorm
  rw [div_eq_inv_mul, ← accumulate_mul_left]
  apply accumulate_congr
  intro p _
  simp only [star_trivial, asColumn, ei_abs2]
  ring

/-- Whenever the divisor `c0` satisfies `(c0 - x 0)² = ‖x‖²` and `x ≠ 0`, the
reflector built from `x` maps `x` to `(x 0 - c0) * e₁`. -/
theorem reflectOwnVector_of_divisor {K : Type} [LinearOrderedField K] [StarRing K]
    [TrivialStar K] (precision : K) (sqrt : K → K) (n : Nat) (x : Nat → K) (hn : 1 ≤ n)
    (hx : squaredNorm n x ≠ 0)
    (hc : (makeHouseholder_c0 precision sqrt n x - x 0) *
      (makeHouseholder_c0 precision sqrt n x - x 0) = squaredNorm n x)
    (hc0 : makeHouseholder_c0 precision sqrt n x ≠ 0) :
    reflectOwnVector precision sqrt n x 0 = x 0 - makeHouseholder_c0 precision sqrt n x ∧
      ∀ i, 1 ≤ i → i < n → reflectOwnVector precision sqrt n x i = 0 := by
  have hsplit := squaredNorm_split n x hn
  have hd : makeHouseholder_c0 precision sqrt n x - x 0 ≠ 0 := by
    intro h0
    rw [h0, mul_zero] at hc
    exact hx hc.symm
  have hden : makeHouseholder_c0 precision sqrt n x * makeHouseholder_c0 precision sqrt n x +
      squaredNorm n x - x 0 * x 0 =
      2 * makeHouseholder_c0 precision sqrt n x *
        (makeHouseholder_c0 precision sqrt n x - x 0) := by
    rw [← hc]; ring
  have htail : tailSquaredNorm n x =
      makeHouseholder_c0 precision sqrt n x *
        (makeHouseholder_c0 precision sqrt n x - 2 * x 0) := by
    have : tailSquaredNorm n x = squaredNorm n x - x 0 * x 0 := by
      rw [hsplit]; simp [ei_abs2]
    rw [this, ← hc]; ring
  have htmp : applyHouseholderOnTheLeft_tmp n (asColumn x)
      (makeHouseholder precision sqrt n x).1 0 =
      makeHouseholder_c0 precision sqrt n x - x 0 := by
    simp only [applyHouseholderOnTheLeft_tmp, makeHouseholder]
    rw [essential_dot_tail, htail]
    simp only [asColumn]
    field_simp
    ring
  have hbeta : (makeHouseholder precision sqrt n x).2 *
      (makeHouseholder_c0 precision sqrt n x - x 0) =
      makeHouseholder_c0 precision sqrt n x := by
    simp only [makeHouseholder, ei_abs2]
    rw [hden]
    field_simp
    ring
  constructor
  · unfold reflectOwnVector applyHouseholderOnTheLeft
    rw [if_pos Nat.zero_lt_one, if_pos rfl, htmp, hbeta]
    simp [asColumn]
  · intro i hi1 hin
    unfold reflectOwnVector applyHouseholderOnTheLeft
    rw [if_pos Nat.zero_lt_one, if_neg (by omega), if_pos hin, htmp, mul_assoc, mul_comm,
      mul_assoc]
    rw [mul_comm _ (makeHouseholder precision sqrt n x).2, hbeta]
    simp only [makeHouseholder, asColumn]
    have h1 : 1 + (i - 1) = i := by omega
    rw [h1]
    field_simp

theorem makeHouseholder_c0_of_head_zero {K : Type} [LinearOrderedField K] (precision : K)
    (sqrt : K → K) (n : Nat) (x : Nat → K) (h0 : x 0 = 0)
    (hsqrt : 0 ≤ sqrt (squaredNorm n x) ∧
      sqrt (squaredNorm n x) * sqrt (squaredNorm n x) = squaredNorm n x) :
    makeHouseholder_c0 precision sqrt n x = sqrt (squaredNorm n x) := by
  have hs : 0 ≤ squaredNorm n x := by rw [← hsqrt.2]; exact mul_self_nonneg _
  have hcond : ei_abs2 (x 0) ≤ ei_abs2 precision * squaredNorm n x := by
    rw [h0]
    simp only [ei_abs2, mul_zero]
    exact mul_nonneg (mul_self_nonneg _) hs
  simp only [makeHouseholder_c0, if_pos hcond]

theorem makeHouseholder_c0_of_head_large {K : Type} [LinearOrderedField K] (precision : K)
    (sqrt : K → K) (n : Nat) (x : Nat → K)
    (hbr : ei_abs2 precision * squaredNorm n x < ei_abs2 (x 0)) :
    makeHouseholder_c0 precision sqrt n x = x 0 + x 0 / |x 0| * sqrt (squaredNorm n x) := by
  simp only [makeHouseholder_c0, if_neg (not_le.mpr hbr)]

/-- In both admissible cases the divisor satisfies `(c0 - x 0)² = ‖x‖²` and is
not zero. -/
theorem makeHouseholder_c0_square {K : Type} [LinearOrderedField K] (precision : K)
    (sqrt : K → K) (n : Nat) (x : Nat → K)
    (hsqrt : 0 ≤ sqrt (squaredNorm n x) ∧
      sqrt (squaredNorm n x) * sqrt (squaredNorm n x) = squaredNorm n x)
    (hx : squaredNorm n x ≠ 0)
    (hfirst : x 0 = 0 ∨ ei_abs2 precision * squaredNorm n x < ei_abs2 (x 0)) :
    (makeHouseholder_c0 precision sqrt n x - x 0) *
      (makeHouseholder_c0 precision sqrt n x - x 0) = squaredNorm n x ∧
      makeHouseholder_c0 precision sqrt n x ≠ 0 := by
  have hr : sqrt (squaredNorm n x) ≠ 0 := by
    intro h
    rw [h, mul_zero] at hsqrt
    exact hx hsqrt.2.symm
  have hs : 0 ≤ squaredNorm n x := by rw [← hsqrt.2]; exact mul_self_nonneg _
  by_cases h0 : x 0 = 0
  · rw [makeHouseholder_c0_of_head_zero precision sqrt n x h0 hsqrt, h0, sub_zero]
    exact ⟨hsqrt.2, hr⟩
  · have hbr : ei_abs2 precision * squaredNorm n x < ei_abs2 (x 0) := by
      rcases hfirst with h | h
      · exact absurd h h0
      · exact h
    have habs : |x 0| ≠ 0 := abs_ne_zero.mpr h0
    have hpos : 0 < |x 0| := abs_pos.mpr h0
    have hsq : x 0 / |x 0| * (x 0 / |x 0|) = 1 := by
      rw [div_mul_div_comm, ← abs_mul_abs_self (x 0)]
      exact div_self (mul_ne_zero habs habs)
    rw [makeHouseholder_c0_of_head_large precision sqrt n x hbr]
    constructor
    · have : x 0 + x 0 / |x 0| * sqrt (squaredNorm n x) - x 0 =
          x 0 / |x 0| * sqrt (squaredNorm n x) := by ring
      rw [this, mul_mul_mul_comm, hsq, one_mul]
      exact hsqrt.2
    · have hfac : x 0 + x 0 / |x 0| * sqrt (squaredNorm n x) =
          x 0 / |x 0| * (|x 0| + sqrt (squaredNorm n x)) := by
        field_simp
        ring
      rw [hfac]
      apply mul_ne_zero
      · exact div_ne_zero h0 habs
      · have : 0 < |x 0| + sqrt (squaredNorm n x) := add_pos_of_pos_of_nonneg hpos hsqrt.1
        exact ne_of_gt this

/-- The entries below the first of the reflected vector, in terms of the
divisor `c0`. -/
theorem reflectOwnVector_below {K : Type} [LinearOrderedField K] [StarRing K]
    [TrivialStar K] (precision : K) (sqrt : K → K) (n : Nat) (x : Nat → K) (i : Nat)
    (hi : 1 ≤ i) (hin : i < n) :
    reflectOwnVector precision sqrt n x i =
      x i - 2 * (makeHouseholder_c0 precision sqrt n x * makeHouseholder_c0 precision sqrt n x) /
          (makeHouseholder_c0 precision sqrt n x * makeHouseholder_c0 precision sqrt n x +
            squaredNorm n x - x 0 * x 0) *
        (x i / makeHouseholder_c0 precision sqrt n x) *
        (x 0 + tailSquaredNorm n x / makeHouseholder_c0 precision sqrt n x) := by
  unfold reflectOwnVector applyHouseholderOnTheLeft
  rw [if_pos Nat.zero_lt_one, if_neg (by omega), if_pos hin]
  simp only [applyHouseholderOnTheLeft_tmp, makeHouseholder]
  rw [essential_dot_tail]
  have h1 : 1 + (i - 1) = i := by omega
  simp only [asColumn, ei_abs2, h1]

/-! ## Claims on the Householder primitives -/

theorem squaredNorm_vec34 : squaredNorm 2 vec34 = 5 * 5 := by
  norm_num [squaredNorm, accumulate, ei_abs2, vec34]

theorem squaredNorm_vecSmallHead : squaredNorm 2 vecSmallHead = 40000400002 * 40000400002 := by
  norm_num [squaredNorm, accumulate, ei_abs2, vecSmallHead]

theorem squaredNorm_vecSmallTail : squaredNorm 2 vecSmallTail = 1000001 * 1000001 := by
  norm_num [squaredNorm, accumulate, ei_abs2, vecSmallTail]

theorem squaredNorm_vec30 : squaredNorm 2 vec30 = 3 * 3 := by
  norm_num [squaredNorm, accumulate, ei_abs2, vec30]

theorem sqrt_squaredNorm_vec34 : Rat.sqrt (squaredNorm 2 vec34) = 5 := by
  rw [squaredNorm_vec34, Rat.sqrt_eq]; norm_num

theorem sqrt_squaredNorm_vecSmallHead :
    Rat.sqrt (squaredNorm 2 vecSmallHead) = 40000400002 := by
  rw [squaredNorm_vecSmallHead, Rat.sqrt_eq]; norm_num

theorem sqrt_squaredNorm_vecSmallTail : Rat.sqrt (squaredNorm 2 vecSmallTail) = 1000001 := by
  rw [squaredNorm_vecSmallTail, Rat.sqrt_eq]; norm_num

theorem sqrt_squaredNorm_vec30 : Rat.sqrt (squaredNorm 2 vec30) = 3 := by
  rw [squaredNorm_vec30, Rat.sqrt_eq]; norm_num

/-- C8 (amended): for every non-zero vector `x` of length `n ≥ 2` whose first
entry is zero or not negligible (`|x 0|² > precision² * ‖x‖²`), applying to
`x` the reflector that `makeHouseholder` builds from it gives `mu * e₁`:
every entry below the first is zero and `|mu| = ‖x‖`. -/
theorem householder_annihilates_own_vector {K : Type} [LinearOrderedField K] [StarRing K]
    [TrivialStar K] (precision : K) (sqrt : K → K) (n : Nat) (x : Nat → K) (hn : 2 ≤ n)
    (hsqrt : 0 ≤ sqrt (squaredNorm n x) ∧
      sqrt (squaredNorm n x) * sqrt (squaredNorm n x) = squaredNorm n x)
    (hx : squaredNorm n x ≠ 0)
    (hfirst : x 0 = 0 ∨ ei_abs2 precision * squaredNorm n x < ei_abs2 (x 0)) :
    (∀ i, 1 ≤ i → i < n → reflectOwnVector precision sqrt n x i = 0) ∧
      |reflectOwnVector precision sqrt n x 0| = sqrt (squaredNorm n x) := by
  obtain ⟨hc, hc0⟩ := makeHouseholder_c0_square precision sqrt n x hsqrt hx hfirst
  obtain ⟨h0, htail⟩ := reflectOwnVector_of_divisor precision sqrt n x (by omega) hx hc hc0
  refine ⟨htail, ?_⟩
  rw [h0, abs_sub_comm, ← abs_of_nonneg hsqrt.1]
  apply abs_eq_abs.mpr
  rw [← hsqrt.2] at hc
  exact mul_self_eq_mul_self_iff.mp hc

/-- C8 (amended) at `x = [3, 4]`: the hypotheses hold and the statement gives
a reflected vector with zero second entry and first entry of modulus 5. -/
theorem householder_annihilates_own_vector_witness :
    (2 ≤ 2 ∧
      (0 ≤ Rat.sqrt (squaredNorm 2 vec34) ∧
        Rat.sqrt (squaredNorm 2 vec34) * Rat.sqrt (squaredNorm 2 vec34) =
          squaredNorm 2 vec34) ∧
      squaredNorm 2 vec34 ≠ 0 ∧
      (vec34 0 = 0 ∨ ei_abs2 precisionFloat * squaredNorm 2 vec34 < ei_abs2 (vec34 0))) ∧
    ((∀ i, 1 ≤ i → i < 2 → reflectOwnVector precisionFloat Rat.sqrt 2 vec34 i = 0) ∧
      |reflectOwnVector precisionFloat Rat.sqrt 2 vec34 0| = Rat.sqrt (squaredNorm 2 vec34)) :=
  have h1 : 0 ≤ Rat.sqrt (squaredNorm 2 vec34) ∧
      Rat.sqrt (squaredNorm 2 vec34) * Rat.sqrt (squaredNorm 2 vec34) =
        squaredNorm 2 vec34 := by
    rw [sqrt_squaredNorm_vec34, squaredNorm_vec34]; norm_num
  have h2 : squaredNorm 2 vec34 ≠ 0 := by rw [squaredNorm_vec34]; norm_num
  have h3 : vec34 0 = 0 ∨ ei_abs2 precisionFloat * squaredNorm 2 vec34 < ei_abs2 (vec34 0) := by
    right; rw [squaredNorm_vec34]; norm_num [ei_abs2, precisionFloat, vec34]
  ⟨⟨le_refl 2, h1, h2, h3⟩,
    householder_annihilates_own_vector precisionFloat Rat.sqrt 2 vec34 (le_refl 2) h1 h2 h3⟩

/-- C8 as stated fails: for `x = [400002, 40000400000]` (norm `40000400002`,
first entry negligible at `precision = 1e-5` but not zero) `makeHouseholder`
takes `c0 = ‖x‖` and the reflector it builds leaves the second entry
`-320006400048000200000400000 / 800016000120000400001`, which is not zero. -/
theorem householder_negligible_head_counterexample :
    ei_abs2 (vecSmallHead 0) ≤ ei_abs2 precisionFloat * squaredNorm 2 vecSmallHead ∧
    reflectOwnVector precisionFloat Rat.sqrt 2 vecSmallHead 1 =
      -320006400048000200000400000 / 800016000120000400001 ∧
    ¬ ((∀ i, 1 ≤ i → i < 2 → reflectOwnVector precisionFloat Rat.sqrt 2 vecSmallHead i = 0) ∧
      |reflectOwnVector precisionFloat Rat.sqrt 2 vecSmallHead 0| =
        Rat.sqrt (squaredNorm 2 vecSmallHead)) := by
  have hc0 : makeHouseholder_c0 precisionFloat Rat.sqrt 2 vecSmallHead = 40000400002 := by
    simp only [makeHouseholder_c0]
    rw [sqrt_squaredNorm_vecSmallHead, squaredNorm_vecSmallHead]
    norm_num [ei_abs2, precisionFloat, vecSmallHead]
  have ht : tailSquaredNorm 2 vecSmallHead = 40000400000 * 40000400000 := by
    norm_num [tailSquaredNorm, accumulate, ei_abs2, vecSmallHead]
  have hv0 : vecSmallHead 0 = 400002 := by simp [vecSmallHead]
  have hv1 : vecSmallHead 1 = 40000400000 := by simp [vecSmallHead]
  have hval : reflectOwnVector precisionFloat Rat.sqrt 2 vecSmallHead 1 =
      -320006400048000200000400000 / 800016000120000400001 := by
    rw [reflectOwnVector_below precisionFloat Rat.sqrt 2 vecSmallHead 1 (le_refl 1)
      (by decide), hc0, squaredNorm_vecSmallHead, ht, hv0, hv1]
    norm_num
  refine ⟨?_, hval, ?_⟩
  · rw [squaredNorm_vecSmallHead, hv0]; norm_num [ei_abs2, precisionFloat]
  · rintro ⟨h, _⟩
    have h1 := h 1 (le_refl 1) (by decide)
    rw [hval] at h1
    norm_num at h1

/-- C9 (amended): for every vector `x` whose first entry is not negligible
(`|x 0|² > precision² * ‖x‖²`), `makeHouseholder` returns
`essential = x[1..] / (x 0 - mu)` and
`beta = 2 * |x 0 - mu|² / (|x 0 - mu|² + σ²)` with
`mu = -sign(x 0) * sqrt(|x 0|² + σ²)` and `σ²` the squared norm of `x[1..]`;
the method is const and returns only these two values. -/
theorem makeHouseholder_formula {K : Type} [LinearOrderedField K] (precision : K)
    (sqrt : K → K) (n : Nat) (x : Nat → K) (hn : 1 ≤ n)
    (hbr : ei_abs2 precision * squaredNorm n x < ei_abs2 (x 0)) :
    (∀ i, i < n - 1 → (makeHouseholder precision sqrt n x).1 i =
        x (1 + i) / (x 0 - reflectedHead sqrt n x)) ∧
      (makeHouseholder precision sqrt n x).2 =
        2 * ei_abs2 (x 0 - reflectedHead sqrt n x) /
          (ei_abs2 (x 0 - reflectedHead sqrt n x) + tailSquaredNorm n x) := by
  have hc0 : makeHouseholder_c0 precision sqrt n x = x 0 - reflectedHead sqrt n x := by
    rw [makeHouseholder_c0_of_head_large precision sqrt n x hbr, reflectedHead,
      ← squaredNorm_split n x hn]
    ring
  have hs : squaredNorm n x - ei_abs2 (x 0) = tailSquaredNorm n x := by
    rw [squaredNorm_split n x hn]; ring
  constructor
  · intro i _
    simp only [makeHouseholder, hc0]
  · simp only [makeHouseholder, hc0]
    rw [add_sub_assoc, hs]

/-- C9 (amended) at `x = [3, 4]` with `precision = 1e-5`. -/
theorem makeHouseholder_formula_witness :
    (1 ≤ 2 ∧ ei_abs2 precisionFloat * squaredNorm 2 vec34 < ei_abs2 (vec34 0)) ∧
    ((∀ i, i < 2 - 1 → (makeHouseholder precisionFloat Rat.sqrt 2 vec34).1 i =
        vec34 (1 + i) / (vec34 0 - reflectedHead Rat.sqrt 2 vec34)) ∧
      (makeHouseholder precisionFloat Rat.sqrt 2 vec34).2 =
        2 * ei_abs2 (vec34 0 - reflectedHead Rat.sqrt 2 vec34) /
          (ei_abs2 (vec34 0 - reflectedHead Rat.sqrt 2 vec34) + tailSquaredNorm 2 vec34)) :=
  have h : ei_abs2 precisionFloat * squaredNorm 2 vec34 < ei_abs2 (vec34 0) := by
    rw [squaredNorm_vec34]; norm_num [ei_abs2, precisionFloat, vec34]
  ⟨⟨by decide, h⟩, makeHouseholder_formula precisionFloat Rat.sqrt 2 vec34 (by decide) h⟩

/-- C9 as stated fails.  At `x = [3, 4]` the tail is not negligible and
`makeHouseholder` returns `essential = [1/2]`, `beta = 8/5`, whereas the
claimed `mu = sign(x 0) * sqrt(25) = 5` gives `essential = [4 / (3 - 5)] = [-2]`
and `beta = 2/5`.  At `x = [400002, 40000400000]` the tail is not negligible
either but the first entry is, and the returned `essential` is the tail
divided by the norm: neither sign of `mu` gives it. -/
theorem makeHouseholder_claimed_sign_counterexample :
    (precisionFloat * ei_abs2 (vec34 0) < tailSquaredNorm 2 vec34 ∧
      (makeHouseholder precisionFloat Rat.sqrt 2 vec34).1 0 = 1 / 2 ∧
      (makeHouseholder precisionFloat Rat.sqrt 2 vec34).2 = 8 / 5 ∧
      vec34 (1 + 0) / (vec34 0 - claimedMu Rat.sqrt 2 vec34) = -2 ∧
      2 * ei_abs2 (vec34 0 - claimedMu Rat.sqrt 2 vec34) /
        (ei_abs2 (vec34 0 - claimedMu Rat.sqrt 2 vec34) + tailSquaredNorm 2 vec34) = 2 / 5 ∧
      ¬ ((∀ i, i < 2 - 1 → (makeHouseholder precisionFloat Rat.sqrt 2 vec34).1 i =
          vec34 (1 + i) / (vec34 0 - claimedMu Rat.sqrt 2 vec34)) ∧
        (makeHouseholder precisionFloat Rat.sqrt 2 vec34).2 =
          2 * ei_abs2 (vec34 0 - claimedMu Rat.sqrt 2 vec34) /
            (ei_abs2 (vec34 0 - claimedMu Rat.sqrt 2 vec34) + tailSquaredNorm 2 vec34))) ∧
    (precisionFloat * ei_abs2 (vecSmallHead 0) < tailSquaredNorm 2 vecSmallHead ∧
      (makeHouseholder precisionFloat Rat.sqrt 2 vecSmallHead).1 0 =
        40000400000 / 40000400002 ∧
      vecSmallHead (1 + 0) / (vecSmallHead 0 - claimedMu Rat.sqrt 2 vecSmallHead) =
        40000400000 / (-40000000000) ∧
      vecSmallHead (1 + 0) / (vecSmallHead 0 - reflectedHead Rat.sqrt 2 vecSmallHead) =
        40000400000 / 40000800004) := by
  have ht : tailSquaredNorm 2 vec34 = 4 * 4 := by
    norm_num [tailSquaredNorm, accumulate, ei_abs2, vec34]
  have hv0 : vec34 0 = 3 := by simp [vec34]
  have hv1 : vec34 (1 + 0) = 4 := by simp [vec34]
  have hbr : ei_abs2 precisionFloat * squaredNorm 2 vec34 < ei_abs2 (vec34 0) := by
    rw [squaredNorm_vec34]; norm_num [ei_abs2, precisionFloat, vec34]
  have hc0 : makeHouseholder_c0 precisionFloat Rat.sqrt 2 vec34 = 8 := by
    rw [makeHouseholder_c0_of_head_large precisionFloat Rat.sqrt 2 vec34 hbr,
      sqrt_squaredNorm_vec34, hv0]
    norm_num
  have hmu : claimedMu Rat.sqrt 2 vec34 = 5 := by
    rw [claimedMu, ← squaredNorm_split 2 vec34 (by decide), sqrt_squaredNorm_vec34, hv0]
    norm_num
  have hess : (makeHouseholder precisionFloat Rat.sqrt 2 vec34).1 0 = 1 / 2 := by
    simp only [makeHouseholder, hc0, hv1]
    norm_num
  have hbeta : (makeHouseholder precisionFloat Rat.sqrt 2 vec34).2 = 8 / 5 := by
    simp only [makeHouseholder, hc0, hv0, squaredNorm_vec34, ei_abs2]
    norm_num
  have hclaim : vec34 (1 + 0) / (vec34 0 - claimedMu Rat.sqrt 2 vec34) = -2 := by
    rw [hmu, hv0, hv1]; norm_num
  have ht2 : tailSquaredNorm 2 vecSmallHead = 40000400000 * 40000400000 := by
    norm_num [tailSquaredNorm, accumulate, ei_abs2, vecSmallHead]
  have hw0 : vecSmallHead 0 = 400002 := by simp [vecSmallHead]
  have hw1 : vecSmallHead (1 + 0) = 40000400000 := by simp [vecSmallHead]
  have hd0 : makeHouseholder_c0 precisionFloat Rat.sqrt 2 vecSmallHead = 40000400002 := by
    simp only [makeHouseholder_c0]
    rw [sqrt_squaredNorm_vecSmallHead, squaredNorm_vecSmallHead]
    norm_num [ei_abs2, precisionFloat, vecSmallHead]
  have hmu2 : claimedMu Rat.sqrt 2 vecSmallHead = 40000400002 := by
    rw [claimedMu, ← squaredNorm_split 2 vecSmallHead (by decide),
      sqrt_squaredNorm_vecSmallHead, hw0]
    norm_num
  have hmu3 : reflectedHead Rat.sqrt 2 vecSmallHead = -40000400002 := by
    rw [reflectedHead, ← squaredNorm_split 2 vecSmallHead (by decide),
      sqrt_squaredNorm_vecSmallHead, hw0]
    norm_num
  refine ⟨⟨?_, hess, hbeta, hclaim, ?_, ?_⟩, ?_, ?_, ?_, ?_⟩
  · rw [ht, hv0]; norm_num [ei_abs2, precisionFloat]
  · rw [hmu, hv0, ht]; norm_num [ei_abs2]
  · rintro ⟨h, _⟩
    have h0 := h 0 (by decide)
    rw [hess, hclaim] at h0
    norm_num at h0
  · rw [ht2, hw0]; norm_num [ei_abs2, precisionFloat]
  · simp only [makeHouseholder, hd0, hw1]
  · rw [hmu2, hw0, hw1]; norm_num
  · rw [hmu3, hw0, hw1]; norm_num

/-- C10 (amended): for every vector `x` whose tail `x[1..]` is all zero and
whose first entry is not zero, `makeHouseholder` returns `essential = 0` and
`beta = 2` (the reflector `I - 2 * e₁ * e₁ᵀ`, which negates the first entry);
the code has no test on the norm of the tail. -/
theorem makeHouseholder_zero_tail {K : Type} [LinearOrderedField K] (precision : K)
    (sqrt : K → K) (n : Nat) (x : Nat → K) (hn : 1 ≤ n)
    (htail : ∀ i, 1 ≤ i → i < n → x i = 0) (h0 : x 0 ≠ 0)
    (hsqrt : 0 ≤ sqrt (squaredNorm n x) ∧
      sqrt (squaredNorm n x) * sqrt (squaredNorm n x) = squaredNorm n x) :
    (∀ i, i < n - 1 → (makeHouseholder precision sqrt n x).1 i = 0) ∧
      (makeHouseholder precision sqrt n x).2 = 2 := by
  have ht : tailSquaredNorm n x = 0 := by
    unfold tailSquaredNorm
    rw [accumulate_congr _ (fun _ => (0 : K) * 0) (n - 1)
      (fun p hp => by simp only [ei_abs2]; rw [htail (1 + p) (by omega) (by omega)]),
      accumulate_mul_left, zero_mul]
  have hs : squaredNorm n x = x 0 * x 0 := by
    rw [squaredNorm_split n x hn, ht, add_zero, ei_abs2]
  have hr : sqrt (squaredNorm n x) = |x 0| := by
    rw [← abs_of_nonneg hsqrt.1]
    apply abs_eq_abs.mpr
    apply mul_self_eq_mul_self_iff.mp
    rw [hsqrt.2, hs]
  have habs : |x 0| ≠ 0 := abs_ne_zero.mpr h0
  have hc0 : makeHouseholder_c0 precision sqrt n x ≠ 0 := by
    by_cases hbr : ei_abs2 (x 0) ≤ ei_abs2 precision * squaredNorm n x
    · simp only [makeHouseholder_c0, if_pos hbr]
      rw [hr]; exact habs
    · simp only [makeHouseholder_c0, if_neg hbr]
      rw [hr, div_mul_cancel₀ _ habs]
      intro h
      apply h0
      have : (2 : K) * x 0 = 0 := by rw [two_mul]; exact h
      rcases mul_eq_zero.mp this with h2 | h2
      · exact absurd h2 two_ne_zero
      · exact h2
  constructor
  · intro i hi
    simp only [makeHouseholder]
    rw [htail (1 + i) (by omega) (by omega), zero_div]
  · simp only [makeHouseholder, ei_abs2]
    rw [hs, add_sub_cancel_right]
    field_simp

/-- C10 (amended) at `x = [3, 0]`. -/
theorem makeHouseholder_zero_tail_witness :
    (1 ≤ 2 ∧ (∀ i, 1 ≤ i → i < 2 → vec30 i = 0) ∧ vec30 0 ≠ 0 ∧
      (0 ≤ Rat.sqrt (squaredNorm 2 vec30) ∧
        Rat.sqrt (squaredNorm 2 vec30) * Rat.sqrt (squaredNorm 2 vec30) =
          squaredNorm 2 vec30)) ∧
    ((∀ i, i < 2 - 1 → (makeHouseholder precisionFloat Rat.sqrt 2 vec30).1 i = 0) ∧
      (makeHouseholder precisionFloat Rat.sqrt 2 vec30).2 = 2) :=
  have h1 : ∀ i, 1 ≤ i → i < 2 → vec30 i = 0 := by
    intro i hi1 hi2
    have : i = 1 := by omega
    subst this
    simp [vec30]
  have h2 : vec30 0 ≠ 0 := by simp [vec30]
  have h3 : 0 ≤ Rat.sqrt (squaredNorm 2 vec30) ∧
      Rat.sqrt (squaredNorm 2 vec30) * Rat.sqrt (squaredNorm 2 vec30) =
        squaredNorm 2 vec30 := by
    rw [sqrt_squaredNorm_vec30, squaredNorm_vec30]; norm_num
  ⟨⟨by decide, h1, h2, h3⟩,
    makeHouseholder_zero_tail precisionFloat Rat.sqrt 2 vec30 (by decide) h1 h2 h3⟩

/-- C10 as stated fails.  For `x = [999999, 2000]` (norm `1000001`) the tail
satisfies `σ² ≤ precision * |x 0|²` at `precision = 1e-5`, yet
`makeHouseholder` returns `essential = [1/1000]` and
`beta = 2000000/1000001`, neither of which is zero.  For `x = [3, 0]`, whose
tail is all zero, it returns `beta = 2`. -/
theorem makeHouseholder_negligible_tail_counterexample :
    (tailSquaredNorm 2 vecSmallTail ≤ precisionFloat * ei_abs2 (vecSmallTail 0) ∧
      (makeHouseholder precisionFloat Rat.sqrt 2 vecSmallTail).1 0 = 1 / 1000 ∧
      (makeHouseholder precisionFloat Rat.sqrt 2 vecSmallTail).2 = 2000000 / 1000001 ∧
      ¬ ((∀ i, i < 2 - 1 → (makeHouseholder precisionFloat Rat.sqrt 2 vecSmallTail).1 i = 0) ∧
        (makeHouseholder precisionFloat Rat.sqrt 2 vecSmallTail).2 = 0)) ∧
    (tailSquaredNorm 2 vec30 ≤ precisionFloat * ei_abs2 (vec30 0) ∧
      (makeHouseholder precisionFloat Rat.sqrt 2 vec30).2 = 2 ∧
      ¬ ((∀ i, i < 2 - 1 → (makeHouseholder precisionFloat Rat.sqrt 2 vec30).1 i = 0) ∧
        (makeHouseholder precisionFloat Rat.sqrt 2 vec30).2 = 0)) := by
  have ht : tailSquaredNorm 2 vecSmallTail = 2000 * 2000 := by
    norm_num [tailSquaredNorm, accumulate, ei_abs2, vecSmallTail]
  have hv0 : vecSmallTail 0 = 999999 := by simp [vecSmallTail]
  have hv1 : vecSmallTail (1 + 0) = 2000 := by simp [vecSmallTail]
  have hbr : ei_abs2 precisionFloat * squaredNorm 2 vecSmallTail <
      ei_abs2 (vecSmallTail 0) := by
    rw [squaredNorm_vecSmallTail, hv0]; norm_num [ei_abs2, precisionFloat]
  have hc0 : makeHouseholder_c0 precisionFloat Rat.sqrt 2 vecSmallTail = 2000000 := by
    rw [makeHouseholder_c0_of_head_large precisionFloat Rat.sqrt 2 vecSmallTail hbr,
      sqrt_squaredNorm_vecSmallTail, hv0]
    norm_num
  have hess : (makeHouseholder precisionFloat Rat.sqrt 2 vecSmallTail).1 0 = 1 / 1000 := by
    simp only [makeHouseholder, hc0, hv1]
    norm_num
  have hbeta : (makeHouseholder precisionFloat Rat.sqrt 2 vecSmallTail).2 =
      2000000 / 1000001 := by
    simp only [makeHouseholder, hc0, hv0, squaredNorm_vecSmallTail, ei_abs2]
    norm_num
  have ht3 : tailSquaredNorm 2 vec30 = 0 := by
    norm_num [tailSquaredNorm, accumulate, ei_abs2, vec30]
  have hu0 : vec30 0 = 3 := by simp [vec30]
  have hbr3 : ei_abs2 precisionFloat * squaredNorm 2 vec30 < ei_abs2 (vec30 0) := by
    rw [squaredNorm_vec30, hu0]; norm_num [ei_abs2, precisionFloat]
  have hc3 : makeHouseholder_c0 precisionFloat Rat.sqrt 2 vec30 = 6 := by
    rw [makeHouseholder_c0_of_head_large precisionFloat Rat.sqrt 2 vec30 hbr3,
      sqrt_squaredNorm_vec30, hu0]
    norm_num
  have hbeta3 : (makeHouseholder precisionFloat Rat.sqrt 2 vec30).2 = 2 := by
    simp only [makeHouseholder, hc3, hu0, squaredNorm_vec30, ei_abs2]
    norm_num
  refine ⟨⟨?_, hess, hbeta, ?_⟩, ?_, hbeta3, ?_⟩
  · rw [ht, hv0]; norm_num [ei_abs2, precisionFloat]
  · rintro ⟨_, h⟩
    rw [hbeta] at h
    norm_num at h
  · rw [ht3, hu0]; norm_num [ei_abs2, precisionFloat]
  · rintro ⟨_, h⟩
    rw [hbeta3] at h
    norm_num at h

/-! ## Householder reflectors as matrices -/

theorem householderVector_zero {K : Type} [One K] (e : Nat → K) :
    householderVector e 0 = 1 := rfl

theorem householderVector_succ {K : Type} [One K] (e : Nat → K) (k : Nat) :
    householderVector e (1 + k) = e k := by
  simp [householderVector, Nat.add_comm 1 k]

theorem accumulate_mul_right {K : Type} [CommRing K] (c : K) (f : Nat → K) (n : Nat) :
    accumulate (fun p => f p * c) n = accumulate f n * c := by
  induction n with
  | zero => simp [accumulate]
  | succ n ih => simp [accumulate, ih, add_mul]

theorem accumulate_sub {K : Type} [CommRing K] (f g : Nat → K) (n : Nat) :
    accumulate (fun p => f p - g p) n = accumulate f n - accumulate g n := by
  induction n with
  | zero => simp [accumulate]
  | succ n ih => simp only [accumulate, ih]; ring

theorem accumulate_star {K : Type} [CommRing K] [StarRing K] (f : Nat → K) (n : Nat) :
    star (accumulate f n) = accumulate (fun p => star (f p)) n := by
  induction n with
  | zero => simp [accumulate]
  | succ n ih => simp [accumulate, ih]

/-- The row vector `tmp` is `vᴴ * B` with `v = (1, essential)`. -/
theorem applyHouseholderOnTheLeft_tmp_eq {K : Type} [CommRing K] [StarRing K] (rows : Nat)
    (hr : 1 ≤ rows) (B : Nat → Nat → K) (e : Nat → K) (j : Nat) :
    applyHouseholderOnTheLeft_tmp rows B e j =
      accumulate (fun k => star (householderVector e k) * B k j) rows := by
  have h : rows = 1 + (rows - 1) := by omega
  conv_rhs => rw [h, accumulate_add]
  unfold applyHouseholderOnTheLeft_tmp
  congr 1
  · simp [accumulate, householderVector]
  · apply accumulate_congr
    intro p _
    rw [householderVector_succ]

/-- The column vector `tmp` is `B * w` with `w = (1, conj essential)`. -/
theorem applyHouseholderOnTheRight_tmp_eq {K : Type} [CommRing K] [StarRing K] (cols : Nat)
    (hc : 1 ≤ cols) (B : Nat → Nat → K) (e : Nat → K) (i : Nat) :
    applyHouseholderOnTheRight_tmp cols B e i =
      accumulate (fun k => B i k * householderVector (conjugateVector e) k) cols := by
  have h : cols = 1 + (cols - 1) := by omega
  conv_rhs => rw [h, accumulate_add]
  unfold applyHouseholderOnTheRight_tmp
  congr 1
  · simp [accumulate, householderVector]
  · apply accumulate_congr
    intro p _
    rw [householderVector_succ]
    rfl

/-- Entry by entry, `applyHouseholderOnTheLeft` is `(I - beta * v * vᴴ) * B`. -/
theorem applyHouseholderOnTheLeft_eq_reflector {K : Type} [CommRing K] [StarRing K]
    (rows cols : Nat) (hr : 1 ≤ rows) (B : Nat → Nat → K) (e : Nat → K) (beta : K)
    (i j : Nat) (hi : i < rows) (hj : j < cols) :
    applyHouseholderOnTheLeft rows cols B e beta i j =
      reflectorTimesBlock rows (householderVector e) beta B i j := by
  unfold applyHouseholderOnTheLeft reflectorTimesBlock
  rw [if_pos hj, applyHouseholderOnTheLeft_tmp_eq rows hr]
  by_cases h0 : i = 0
  · subst h0
    rw [if_pos rfl, householderVector_zero, mul_one]
  · rw [if_neg h0, if_pos hi]
    simp only [householderVector, if_neg h0]

/-- Entry by entry, `applyHouseholderOnTheRight` is `B * (I - beta * w * wᴴ)`
with `w = (1, conj essential)`. -/
theorem applyHouseholderOnTheRight_eq_reflector {K : Type} [CommRing K] [StarRing K]
    (rows cols : Nat) (hc : 1 ≤ cols) (B : Nat → Nat → K) (e : Nat → K) (beta : K)
    (i j : Nat) (hi : i < rows) (hj : j < cols) :
    applyHouseholderOnTheRight rows cols B e beta i j =
      blockTimesReflector cols (householderVector (conjugateVector e)) beta B i j := by
  unfold applyHouseholderOnTheRight blockTimesReflector
  rw [if_pos hi, applyHouseholderOnTheRight_tmp_eq cols hc]
  by_cases h0 : j = 0
  · subst h0
    rw [if_pos rfl, householderVector_zero, star_one, mul_one]
  · rw [if_neg h0, if_pos hj]
    simp only [householderVector, if_neg h0, conjugateVector, star_star]

/-- The adjoint of `(I - beta * v * vᴴ) * Bᴴ` is `B * (I - beta * v * vᴴ)` when
`beta` is real. -/
theorem adjoint_reflectorTimesBlock {K : Type} [CommRing K] [StarRing K] (n : Nat)
    (v : Nat → K) (beta : K) (hb : star beta = beta) (B : Nat → Nat → K) (i j : Nat) :
    adjointBlock (reflectorTimesBlock n v beta (adjointBlock B)) i j =
      blockTimesReflector n v beta B i j := by
  simp only [adjointBlock, reflectorTimesBlock, blockTimesReflector, star_sub, star_mul,
    star_star, hb, accumulate_star]
  ring

/-- Applying the same reflector twice: the second `tmp` is the first one times
`1 - beta * (1 + ‖essential‖²)`. -/
theorem applyHouseholderOnTheLeft_tmp_twice {K : Type} [CommRing K] [StarRing K]
    (rows cols : Nat) (hr : 1 ≤ rows) (B : Nat → Nat → K) (e : Nat → K) (beta : K) (j : Nat)
    (hj : j < cols) :
    applyHouseholderOnTheLeft_tmp rows (applyHouseholderOnTheLeft rows cols B e beta) e j =
      (1 - beta * (1 + accumulate (fun k => star (e k) * e k) (rows - 1))) *
        applyHouseholderOnTheLeft_tmp rows B e j := by
  have hsum : accumulate (fun k => star (e k) *
        applyHouseholderOnTheLeft rows cols B e beta (1 + k) j) (rows - 1) =
      accumulate (fun k => star (e k) * B (1 + k) j) (rows - 1) -
        beta * applyHouseholderOnTheLeft_tmp rows B e j *
          accumulate (fun k => star (e k) * e k) (rows - 1) := by
    rw [← accumulate_mul_left, ← accumulate_sub]
    apply accumulate_congr
    intro k hk
    unfold applyHouseholderOnTheLeft
    rw [if_pos hj, if_neg (by omega), if_pos (by omega)]
    have h1 : 1 + k - 1 = k := by omega
    rw [h1]
    ring
  have h0 : applyHouseholderOnTheLeft rows cols B e beta 0 j =
      B 0 j - beta * applyHouseholderOnTheLeft_tmp rows B e j := by
    unfold applyHouseholderOnTheLeft
    rw [if_pos hj, if_pos rfl]
  conv_lhs => unfold applyHouseholderOnTheLeft_tmp
  rw [hsum, h0]
  unfold applyHouseholderOnTheLeft_tmp
  ring

/-- A reflector with `beta * (1 + ‖essential‖²) = 2` is an involution. -/
theorem applyHouseholderOnTheLeft_involution {K : Type} [CommRing K] [StarRing K]
    (rows cols : Nat) (hr : 1 ≤ rows) (B : Nat → Nat → K) (e : Nat → K) (beta : K)
    (hb : beta * (1 + accumulate (fun k => star (e k) * e k) (rows - 1)) = 2) (i j : Nat) :
    applyHouseholderOnTheLeft rows cols (applyHouseholderOnTheLeft rows cols B e beta) e beta
      i j = B i j := by
  by_cases hj : j < cols
  · have ht := applyHouseholderOnTheLeft_tmp_twice rows cols hr B e beta j hj
    rw [hb] at ht
    by_cases h0 : i = 0
    · subst h0
      unfold applyHouseholderOnTheLeft
      rw [if_pos hj, if_pos rfl]
      unfold applyHouseholderOnTheLeft at ht
      rw [ht, if_pos hj, if_pos rfl]
      ring
    · by_cases hi : i < rows
      · unfold applyHouseholderOnTheLeft
        rw [if_pos hj, if_neg h0, if_pos hi]
        unfold applyHouseholderOnTheLeft at ht
        rw [ht, if_pos hj, if_neg h0, if_pos hi]
        ring
      · unfold applyHouseholderOnTheLeft
        rw [if_pos hj, if_neg h0, if_neg hi, if_pos hj, if_neg h0, if_neg hi]
  · unfold applyHouseholderOnTheLeft
    rw [if_neg hj, if_neg hj]

theorem squaredNorm_nonneg {K : Type} [LinearOrderedField K] (n : Nat) (x : Nat → K) :
    0 ≤ squaredNorm n x := by
  unfold squaredNorm
  induction n with
  | zero => simp [accumulate]
  | succ n ih =>
    simp only [accumulate]
    exact add_nonneg ih (mul_self_nonneg _)

/-- A vector with a non-zero entry has a non-zero squared norm. -/
theorem squaredNorm_ne_zero {K : Type} [LinearOrderedField K] (n : Nat) (x : Nat → K)
    (hx : ∃ i, i < n ∧ x i ≠ 0) : squaredNorm n x ≠ 0 := by
  obtain ⟨i, hi, hxi⟩ := hx
  have hpos : 0 < squaredNorm n x := by
    induction n with
    | zero => omega
    | succ n ih =>
      have hstep : squaredNorm (n + 1) x = squaredNorm n x + x n * x n := rfl
      rw [hstep]
      by_cases hin : i < n
      · exact add_pos_of_pos_of_nonneg (ih hin) (mul_self_nonneg _)
      · have : i = n := by omega
        subst this
        exact add_pos_of_nonneg_of_pos (squaredNorm_nonneg i x)
          (mul_self_pos.mpr hxi)
  exact ne_of_gt hpos

theorem tailSquaredNorm_nonneg {K : Type} [LinearOrderedField K] (n : Nat) (x : Nat → K) :
    0 ≤ tailSquaredNorm n x := by
  unfold tailSquaredNorm
  induction (n - 1) with
  | zero => simp [accumulate]
  | succ m ih =>
    simp only [accumulate]
    exact add_nonneg ih (mul_self_nonneg _)

/-- The divisor `c0` of `makeHouseholder` is not zero when `x` is not zero, in
both branches. -/
theorem makeHouseholder_c0_ne_zero {K : Type} [LinearOrderedField K] (precision : K)
    (sqrt : K → K) (n : Nat) (x : Nat → K)
    (hsqrt : 0 ≤ sqrt (squaredNorm n x) ∧
      sqrt (squaredNorm n x) * sqrt (squaredNorm n x) = squaredNorm n x)
    (hx : squaredNorm n x ≠ 0) :
    makeHouseholder_c0 precision sqrt n x ≠ 0 := by
  have hr : sqrt (squaredNorm n x) ≠ 0 := by
    intro h
    rw [h, mul_zero] at hsqrt
    exact hx hsqrt.2.symm
  by_cases hbr : ei_abs2 (x 0) ≤ ei_abs2 precision * squaredNorm n x
  · simp only [makeHouseholder_c0, if_pos hbr]
    exact hr
  · have h0 : x 0 ≠ 0 := by
      intro h
      apply hbr
      rw [h]
      simp only [ei_abs2, mul_zero]
      exact mul_nonneg (mul_self_nonneg _) (squaredNorm_nonneg n x)
    have habs : |x 0| ≠ 0 := abs_ne_zero.mpr h0
    have hpos : 0 < |x 0| := abs_pos.mpr h0
    simp only [makeHouseholder_c0, if_neg hbr]
    have hfac : x 0 + x 0 / |x 0| * sqrt (squaredNorm n x) =
        x 0 / |x 0| * (|x 0| + sqrt (squaredNorm n x)) := by
      field_simp
      ring
    rw [hfac]
    apply mul_ne_zero
    · exact div_ne_zero h0 habs
    · exact ne_of_gt (add_pos_of_pos_of_nonneg hpos hsqrt.1)

/-- The values returned by `makeHouseholder` satisfy
`beta * (1 + ‖essential‖²) = 2` whenever the divisor is not zero. -/
theorem makeHouseholder_beta_norm {K : Type} [LinearOrderedField K] [StarRing K]
    [TrivialStar K] (precision : K) (sqrt : K → K) (n : Nat) (x : Nat → K) (hn : 1 ≤ n)
    (hc0 : makeHouseholder_c0 precision sqrt n x ≠ 0) :
    (makeHouseholder precision sqrt n x).2 *
      (1 + accumulate (fun k => star ((makeHouseholder precision sqrt n x).1 k) *
        (makeHouseholder precision sqrt n x).1 k) (n - 1)) = 2 := by
  have hsum : accumulate (fun k => star ((makeHouseholder precision sqrt n x).1 k) *
        (makeHouseholder precision sqrt n x).1 k) (n - 1) =
      tailSquaredNorm n x /
        (makeHouseholder_c0 precision sqrt n x * makeHouseholder_c0 precision sqrt n x) := by
    unfold tailSquaredNorm
    rw [div_eq_inv_mul, ← accumulate_mul_left]
    apply accumulate_congr
    intro p _
    simp only [makeHouseholder, star_trivial, ei_abs2]
    field_simp
  have hpos : 0 < makeHouseholder_c0 precision sqrt n x *
      makeHouseholder_c0 precision sqrt n x := mul_self_pos.mpr hc0
  have hden : makeHouseholder_c0 precision sqrt n x * makeHouseholder_c0 precision sqrt n x +
      tailSquaredNorm n x ≠ 0 :=
    ne_of_gt (add_pos_of_pos_of_nonneg hpos (tailSquaredNorm_nonneg n x))
  have hb : (makeHouseholder precision sqrt n x).2 =
      2 * (makeHouseholder_c0 precision sqrt n x * makeHouseholder_c0 precision sqrt n x) /
        (makeHouseholder_c0 precision sqrt n x * makeHouseholder_c0 precision sqrt n x +
          tailSquaredNorm n x) := by
    simp only [makeHouseholder, ei_abs2]
    rw [squaredNorm_split n x hn, ei_abs2]
    congr 1
    ring
  rw [hsum, hb]
  field_simp

/-! ## Claims on the application of reflectors -/

/-- C11 (amended): on the input `x = [3, 4]`, whenever the first entry is not
negligible at the precision in use and `ei_sqrt 25 = 5`, `makeHouseholder`
returns `essential = [1/2]` and `beta = 8/5`, and applying the resulting
reflector on the left to `x` yields `[-5, 0]`. -/
theorem makeHouseholder_three_four (precision : ℚ) (sqrt : ℚ → ℚ)
    (hbr : ei_abs2 precision * squaredNorm 2 vec34 < ei_abs2 (vec34 0))
    (hs : sqrt (squaredNorm 2 vec34) = 5) :
    (makeHouseholder precision sqrt 2 vec34).1 0 = 1 / 2 ∧
      (makeHouseholder precision sqrt 2 vec34).2 = 8 / 5 ∧
      applyHouseholderOnTheLeft 2 1 (asColumn vec34) (makeHouseholder precision sqrt 2 vec34).1
        (makeHouseholder precision sqrt 2 vec34).2 0 0 = -5 ∧
      applyHouseholderOnTheLeft 2 1 (asColumn vec34) (makeHouseholder precision sqrt 2 vec34).1
        (makeHouseholder precision sqrt 2 vec34).2 1 0 = 0 := by
  have hv0 : vec34 0 = 3 := by simp [vec34]
  have hv1 : vec34 (1 + 0) = 4 := by simp [vec34]
  have hc0 : makeHouseholder_c0 precision sqrt 2 vec34 = 8 := by
    rw [makeHouseholder_c0_of_head_large precision sqrt 2 vec34 hbr, hs, hv0]
    norm_num
  have hess : (makeHouseholder precision sqrt 2 vec34).1 0 = 1 / 2 := by
    simp only [makeHouseholder, hc0, hv1]
    norm_num
  have hbeta : (makeHouseholder precision sqrt 2 vec34).2 = 8 / 5 := by
    simp only [makeHouseholder, hc0, hv0, squaredNorm_vec34, ei_abs2]
    norm_num
  have htmp : applyHouseholderOnTheLeft_tmp 2 (asColumn vec34)
      (makeHouseholder precision sqrt 2 vec34).1 0 = 5 := by
    simp only [applyHouseholderOnTheLeft_tmp, accumulate, hess, asColumn, hv0, hv1,
      star_trivial]
    norm_num
  refine ⟨hess, hbeta, ?_, ?_⟩
  · unfold applyHouseholderOnTheLeft
    rw [if_pos Nat.zero_lt_one, if_pos rfl, htmp, hbeta]
    simp only [asColumn, hv0]
    norm_num
  · unfold applyHouseholderOnTheLeft
    rw [if_pos Nat.zero_lt_one, if_neg Nat.one_ne_zero, if_pos Nat.one_lt_two, htmp, hbeta,
      hess]
    simp only [asColumn]
    rw [show vec34 1 = 4 from hv1]
    norm_num

/-- C11 (amended) at `precision = 1e-5` with the exact rational square root. -/
theorem makeHouseholder_three_four_witness :
    (ei_abs2 precisionFloat * squaredNorm 2 vec34 < ei_abs2 (vec34 0) ∧
      Rat.sqrt (squaredNorm 2 vec34) = 5) ∧
    ((makeHouseholder precisionFloat Rat.sqrt 2 vec34).1 0 = 1 / 2 ∧
      (makeHouseholder precisionFloat Rat.sqrt 2 vec34).2 = 8 / 5 ∧
      applyHouseholderOnTheLeft 2 1 (asColumn vec34)
        (makeHouseholder precisionFloat Rat.sqrt 2 vec34).1
        (makeHouseholder precisionFloat Rat.sqrt 2 vec34).2 0 0 = -5 ∧
      applyHouseholderOnTheLeft 2 1 (asColumn vec34)
        (makeHouseholder precisionFloat Rat.sqrt 2 vec34).1
        (makeHouseholder precisionFloat Rat.sqrt 2 vec34).2 1 0 = 0) :=
  have h : ei_abs2 precisionFloat * squaredNorm 2 vec34 < ei_abs2 (vec34 0) := by
    rw [squaredNorm_vec34]; norm_num [ei_abs2, precisionFloat, vec34]
  ⟨⟨h, sqrt_squaredNorm_vec34⟩,
    makeHouseholder_three_four precisionFloat Rat.sqrt h sqrt_squaredNorm_vec34⟩

/-- C11 as stated fails: on `x = [3, 4]` `makeHouseholder` returns
`beta = 8/5`, not `1`, and `essential = [1/2]`, not `[2]`.  The claimed pair
is not a reflector of `x` either: applying `beta = 1`, `essential = [2]` on
the left to `x` yields `[-8, -18]`. -/
theorem makeHouseholder_three_four_counterexample :
    (makeHouseholder precisionFloat Rat.sqrt 2 vec34).2 ≠ 1 ∧
    (makeHouseholder precisionFloat Rat.sqrt 2 vec34).1 0 ≠ 2 ∧
    applyHouseholderOnTheLeft 2 1 (asColumn vec34) (fun _ => 2) 1 0 0 = -8 ∧
    applyHouseholderOnTheLeft 2 1 (asColumn vec34) (fun _ => 2) 1 1 0 = -18 := by
  have hv0 : vec34 0 = 3 := by simp [vec34]
  have hv1 : vec34 (1 + 0) = 4 := by simp [vec34]
  have hbr : ei_abs2 precisionFloat * squaredNorm 2 vec34 < ei_abs2 (vec34 0) := by
    rw [squaredNorm_vec34]; norm_num [ei_abs2, precisionFloat, vec34]
  have hc0 : makeHouseholder_c0 precisionFloat Rat.sqrt 2 vec34 = 8 := by
    rw [makeHouseholder_c0_of_head_large precisionFloat Rat.sqrt 2 vec34 hbr,
      sqrt_squaredNorm_vec34, hv0]
    norm_num
  have htmp : applyHouseholderOnTheLeft_tmp 2 (asColumn vec34) (fun _ => 2) 0 = 11 := by
    simp only [applyHouseholderOnTheLeft_tmp, accumulate, asColumn, hv0, hv1, star_trivial]
    norm_num
  refine ⟨?_, ?_, ?_, ?_⟩
  · simp only [makeHouseholder, hc0, hv0, squaredNorm_vec34, ei_abs2]
    norm_num
  · simp only [makeHouseholder, hc0, hv1]
    norm_num
  · unfold applyHouseholderOnTheLeft
    rw [if_pos Nat.zero_lt_one, if_pos rfl, htmp]
    simp only [asColumn, hv0]
    norm_num
  · unfold applyHouseholderOnTheLeft
    rw [if_pos Nat.zero_lt_one, if_neg Nat.one_ne_zero, if_pos Nat.one_lt_two, htmp]
    simp only [asColumn]
    rw [show vec34 1 = 4 from hv1]
    norm_num

/-- C12: for every non-zero vector `x` of size `n` and every block `B` with
`n` rows, the pair `(essential, beta)` that `makeHouseholder` returns for `x`
satisfies `beta * (1 + ‖essential‖²) = 2`, and applying
`applyHouseholderOnTheLeft(essential, beta)` to `B` twice returns `B`. -/
theorem householder_reflector_involution {K : Type} [LinearOrderedField K] [StarRing K]
    [TrivialStar K] (precision : K) (sqrt : K → K) (n : Nat) (x : Nat → K)
    (hx : ∃ i, i < n ∧ x i ≠ 0)
    (hsqrt : 0 ≤ sqrt (squaredNorm n x) ∧
      sqrt (squaredNorm n x) * sqrt (squaredNorm n x) = squaredNorm n x)
    (cols : Nat) (B : Nat → Nat → K) :
    (makeHouseholder precision sqrt n x).2 *
        (1 + accumulate (fun k => star ((makeHouseholder precision sqrt n x).1 k) *
          (makeHouseholder precision sqrt n x).1 k) (n - 1)) = 2 ∧
      ∀ i j, applyHouseholderOnTheLeft n cols
        (applyHouseholderOnTheLeft n cols B (makeHouseholder precision sqrt n x).1
          (makeHouseholder precision sqrt n x).2)
        (makeHouseholder precision sqrt n x).1 (makeHouseholder precision sqrt n x).2 i j =
          B i j := by
  have hn : 1 ≤ n := by
    obtain ⟨i, hi, _⟩ := hx
    omega
  have hc0 := makeHouseholder_c0_ne_zero precision sqrt n x hsqrt (squaredNorm_ne_zero n x hx)
  have hb := makeHouseholder_beta_norm precision sqrt n x hn hc0
  exact ⟨hb, fun i j => applyHouseholderOnTheLeft_involution n cols hn B _ _ hb i j⟩

/-- C12 at `x = [3, 4]` and the one-column block `[3, 4]`. -/
theorem householder_reflector_involution_witness :
    ((∃ i, i < 2 ∧ vec34 i ≠ 0) ∧
      (0 ≤ Rat.sqrt (squaredNorm 2 vec34) ∧
        Rat.sqrt (squaredNorm 2 vec34) * Rat.sqrt (squaredNorm 2 vec34) =
          squaredNorm 2 vec34)) ∧
    ((makeHouseholder precisionFloat Rat.sqrt 2 vec34).2 *
        (1 + accumulate (fun k => star ((makeHouseholder precisionFloat Rat.sqrt 2 vec34).1 k) *
          (makeHouseholder precisionFloat Rat.sqrt 2 vec34).1 k) (2 - 1)) = 2 ∧
      ∀ i j, applyHouseholderOnTheLeft 2 1
        (applyHouseholderOnTheLeft 2 1 (asColumn vec34)
          (makeHouseholder precisionFloat Rat.sqrt 2 vec34).1
          (makeHouseholder precisionFloat Rat.sqrt 2 vec34).2)
        (makeHouseholder precisionFloat Rat.sqrt 2 vec34).1
        (makeHouseholder precisionFloat Rat.sqrt 2 vec34).2 i j = asColumn vec34 i j) :=
  have h1 : ∃ i, i < 2 ∧ vec34 i ≠ 0 := ⟨0, by decide, by simp [vec34]⟩
  have h2 : 0 ≤ Rat.sqrt (squaredNorm 2 vec34) ∧
      Rat.sqrt (squaredNorm 2 vec34) * Rat.sqrt (squaredNorm 2 vec34) =
        squaredNorm 2 vec34 := by
    rw [sqrt_squaredNorm_vec34, squaredNorm_vec34]; norm_num
  ⟨⟨h1, h2⟩,
    householder_reflector_involution precisionFloat Rat.sqrt 2 vec34 h1 h2 1 (asColumn vec34)⟩

/-- C13: for every block `B` with `rows ≥ 1` rows, every essential vector and
every `beta`, `applyHouseholderOnTheLeft` computes
`t = B[0,:] + essentialᴴ * B[1..,:]`, subtracts `beta * t` from row 0 and
`beta * essential * t` from the rows below, and so replaces `B` by
`(I - beta * v * vᴴ) * B` with `v = (1, essential)`; nothing outside the block
changes. -/
theorem applyHouseholderOnTheLeft_is_reflector {K : Type} [CommRing K] [StarRing K]
    (rows cols : Nat) (hr : 1 ≤ rows) (B : Nat → Nat → K) (essential : Nat → K) (beta : K) :
    (∀ j, applyHouseholderOnTheLeft_tmp rows B essential j =
        B 0 j + accumulate (fun k => star (essential k) * B (1 + k) j) (rows - 1)) ∧
      (∀ j, j < cols → applyHouseholderOnTheLeft rows cols B essential beta 0 j =
        B 0 j - beta * applyHouseholderOnTheLeft_tmp rows B essential j) ∧
      (∀ i j, i < rows - 1 → j < cols →
        applyHouseholderOnTheLeft rows cols B essential beta (1 + i) j =
          B (1 + i) j - beta * essential i * applyHouseholderOnTheLeft_tmp rows B essential j) ∧
      (∀ i j, i < rows → j < cols → applyHouseholderOnTheLeft rows cols B essential beta i j =
        reflectorTimesBlock rows (householderVector essential) beta B i j) ∧
      (∀ i j, rows ≤ i ∨ cols ≤ j →
        applyHouseholderOnTheLeft rows cols B essential beta i j = B i j) := by
  refine ⟨fun j => rfl, ?_, ?_, ?_, ?_⟩
  · intro j hj
    unfold applyHouseholderOnTheLeft
    rw [if_pos hj, if_pos rfl]
  · intro i j hi hj
    unfold applyHouseholderOnTheLeft
    rw [if_pos hj, if_neg (by omega), if_pos (by omega)]
    have h1 : 1 + i - 1 = i := by omega
    rw [h1]
  · intro i j hi hj
    exact applyHouseholderOnTheLeft_eq_reflector rows cols hr B essential beta i j hi hj
  · intro i j h
    unfold applyHouseholderOnTheLeft
    by_cases hj : j < cols
    · have hi : rows ≤ i := by omega
      rw [if_pos hj, if_neg (by omega), if_neg (by omega)]
    · rw [if_neg hj]

/-- C13 on the complex column block `[1, 0]ᵀ` with `essential = [i]`. -/
theorem applyHouseholderOnTheLeft_is_reflector_witness :
    1 ≤ 2 ∧
    ((∀ j, applyHouseholderOnTheLeft_tmp 2 (adjointBlock rowOneZero) essentialImaginary j =
        adjointBlock rowOneZero 0 j +
          accumulate (fun k => star (essentialImaginary k) *
            adjointBlock rowOneZero (1 + k) j) (2 - 1)) ∧
      (∀ j, j < 1 →
        applyHouseholderOnTheLeft 2 1 (adjointBlock rowOneZero) essentialImaginary 1 0 j =
          adjointBlock rowOneZero 0 j -
            1 * applyHouseholderOnTheLeft_tmp 2 (adjointBlock rowOneZero) essentialImaginary j) ∧
      (∀ i j, i < 2 - 1 → j < 1 →
        applyHouseholderOnTheLeft 2 1 (adjointBlock rowOneZero) essentialImaginary 1 (1 + i) j =
          adjointBlock rowOneZero (1 + i) j - 1 * essentialImaginary i *
            applyHouseholderOnTheLeft_tmp 2 (adjointBlock rowOneZero) essentialImaginary j) ∧
      (∀ i j, i < 2 → j < 1 →
        applyHouseholderOnTheLeft 2 1 (adjointBlock rowOneZero) essentialImaginary 1 i j =
          reflectorTimesBlock 2 (householderVector essentialImaginary) 1
            (adjointBlock rowOneZero) i j) ∧
      (∀ i j, 2 ≤ i ∨ 1 ≤ j →
        applyHouseholderOnTheLeft 2 1 (adjointBlock rowOneZero) essentialImaginary 1 i j =
          adjointBlock rowOneZero i j)) :=
  ⟨by decide,
    applyHouseholderOnTheLeft_is_reflector 2 1 (by decide) (adjointBlock rowOneZero)
      essentialImaginary 1⟩

/-- C14 (amended): for every block `B` with `cols ≥ 1` columns (real or
complex), every essential vector and every real `beta`,
`applyHouseholderOnTheRight` replaces `B` by `B * (I - beta * w * wᴴ)` with
`w = (1, conj essential)`: applying on the right to `B` equals the adjoint of
applying on the left to `Bᴴ` the reflector of the conjugated essential part.
When the essential part is real, `w = v = (1, essential)` and this is the
adjoint of applying the same reflector on the left to `Bᴴ`. -/
theorem applyHouseholderOnTheRight_is_conjugate_reflector {K : Type} [CommRing K] [StarRing K]
    (rows cols : Nat) (hc : 1 ≤ cols) (B : Nat → Nat → K) (essential : Nat → K) (beta : K)
    (hb : star beta = beta) :
    (∀ i j, i < rows → j < cols → applyHouseholderOnTheRight rows cols B essential beta i j =
        blockTimesReflector cols (householderVector (conjugateVector essential)) beta B i j) ∧
      (∀ i j, i < rows → j < cols → applyHouseholderOnTheRight rows cols B essential beta i j =
        adjointBlock (applyHouseholderOnTheLeft cols rows (adjointBlock B)
          (conjugateVector essential) beta) i j) ∧
      ((∀ k, star (essential k) = essential k) →
        ∀ i j, i < rows → j < cols →
          applyHouseholderOnTheRight rows cols B essential beta i j =
            blockTimesReflector cols (householderVector essential) beta B i j ∧
          applyHouseholderOnTheRight rows cols B essential beta i j =
            adjointBlock (applyHouseholderOnTheLeft cols rows (adjointBlock B)
              essential beta) i j) := by
  have h1 : ∀ i j, i < rows → j < cols →
      applyHouseholderOnTheRight rows cols B essential beta i j =
        blockTimesReflector cols (householderVector (conjugateVector essential)) beta B i j :=
    fun i j hi hj =>
      applyHouseholderOnTheRight_eq_reflector rows cols hc B essential beta i j hi hj
  have h2 : ∀ i j, i < rows → j < cols →
      applyHouseholderOnTheRight rows cols B essential beta i j =
        adjointBlock (applyHouseholderOnTheLeft cols rows (adjointBlock B)
          (conjugateVector essential) beta) i j := by
    intro i j hi hj
    rw [h1 i j hi hj, ← adjoint_reflectorTimesBlock cols _ beta hb B i j]
    unfold adjointBlock
    rw [applyHouseholderOnTheLeft_eq_reflector cols rows hc _ _ beta j i hj hi]
  refine ⟨h1, h2, ?_⟩
  intro hreal i j hi hj
  have he : conjugateVector essential = essential := funext hreal
  have h3 := h1 i j hi hj
  have h4 := h2 i j hi hj
  rw [he] at h3 h4
  exact ⟨h3, h4⟩

/-- C14 (amended) on the one-row complex block `[1, 0]` with
`essential = [i]` and `beta = 1`. -/
theorem applyHouseholderOnTheRight_is_conjugate_reflector_witness :
    (1 ≤ 2 ∧ star (1 : GaussianInt) = 1) ∧
    ((∀ i j, i < 1 → j < 2 →
        applyHouseholderOnTheRight 1 2 rowOneZero essentialImaginary 1 i j =
          blockTimesReflector 2 (householderVector (conjugateVector essentialImaginary)) 1
            rowOneZero i j) ∧
      (∀ i j, i < 1 → j < 2 →
        applyHouseholderOnTheRight 1 2 rowOneZero essentialImaginary 1 i j =
          adjointBlock (applyHouseholderOnTheLeft 2 1 (adjointBlock rowOneZero)
            (conjugateVector essentialImaginary) 1) i j) ∧
      ((∀ k, star (essentialImaginary k) = essentialImaginary k) →
        ∀ i j, i < 1 → j < 2 →
          applyHouseholderOnTheRight 1 2 rowOneZero essentialImaginary 1 i j =
            blockTimesReflector 2 (householderVector essentialImaginary) 1 rowOneZero i j ∧
          applyHouseholderOnTheRight 1 2 rowOneZero essentialImaginary 1 i j =
            adjointBlock (applyHouseholderOnTheLeft 2 1 (adjointBlock rowOneZero)
              essentialImaginary 1) i j)) :=
  ⟨⟨by decide, star_one GaussianInt⟩,
    applyHouseholderOnTheRight_is_conjugate_reflector 1 2 (by decide) rowOneZero
      essentialImaginary 1 (star_one GaussianInt)⟩

/-- C14 as stated fails on a complex block: for `B = [1, 0]`,
`essential = [i]` and `beta = 1`, `applyHouseholderOnTheRight` gives
`[0, -i]`, whereas `B * (I - beta * v * vᴴ)` with `v = (1, i)`, which is also
the adjoint of applying the same reflector on the left to `Bᴴ`, is `[0, i]`. -/
theorem applyHouseholderOnTheRight_mirror_counterexample :
    applyHouseholderOnTheRight 1 2 rowOneZero essentialImaginary 1 0 1 = ⟨0, -1⟩ ∧
    blockTimesReflector 2 (householderVector essentialImaginary) 1 rowOneZero 0 1 = ⟨0, 1⟩ ∧
    adjointBlock (applyHouseholderOnTheLeft 2 1 (adjointBlock rowOneZero)
      essentialImaginary 1) 0 1 = ⟨0, 1⟩ ∧
    applyHouseholderOnTheRight 1 2 rowOneZero essentialImaginary 1 0 1 ≠
      blockTimesReflector 2 (householderVector essentialImaginary) 1 rowOneZero 0 1 ∧
    applyHouseholderOnTheRight 1 2 rowOneZero essentialImaginary 1 0 1 ≠
      adjointBlock (applyHouseholderOnTheLeft 2 1 (adjointBlock rowOneZero)
        essentialImaginary 1) 0 1 := by
  decide

/-! ## The orthogonal factor of a tridiagonalization -/

theorem toMatrix_apply {K : Type} (n : Nat) (M : Nat → Nat → K) (r c : Fin n) :
    toMatrix n M r c = M r.val c.val := rfl

theorem toMatrix_mul_apply {K : Type} [CommRing K] (n : Nat) (A B : Nat → Nat → K)
    (r c : Fin n) :
    (toMatrix n A * toMatrix n B) r c = accumulate (fun k => A r.val k * B k c.val) n := by
  rw [Matrix.mul_apply, accumulate_eq_sum, ← Fin.sum_univ_eq_sum_range]
  rfl

theorem toMatrix_identity {K : Type} [CommRing K] (n : Nat) :
    toMatrix n (identity : Nat → Nat → K) = 1 := by
  ext r c
  simp [toMatrix, identity, Matrix.one_apply, Fin.ext_iff]

/-- The vector that `matrixQ` reads, with the coefficient `(i+1, i)` set to 1,
is the packed Householder vector. -/
theorem setCoeff_column_eq_packedVector {K : Type} [Zero K] [One K] (M : Nat → Nat → K)
    (i k : Nat) :
    setCoeff M (i + 1) i 1 (i + 1 + k) i = Tridiagonalization.packedVector M i (i + 1 + k) := by
  unfold setCoeff Tridiagonalization.packedVector
  by_cases hk : k = 0
  · subst hk
    simp
  · rw [if_neg (by omega), if_neg (by omega), if_neg (by omega)]

/-- A sum against the packed vector `v_i` only runs over the rows after `i`. -/
theorem accumulate_packedVector {K : Type} [CommRing K] (n i : Nat) (hi : i + 1 ≤ n)
    (M : Nat → Nat → K) (g : Nat → K) :
    accumulate (fun k => Tridiagonalization.packedVector M i (i + 1 + k) * g (i + 1 + k))
      (n - i - 1) =
    accumulate (fun k => Tridiagonalization.packedVector M i k * g k) n := by
  apply accumulate_window (fun k => Tridiagonalization.packedVector M i k * g k) (i + 1)
    (n - i - 1) n (by omega)
  intro p hp hcase
  have h : p ≤ i := by omega
  simp [Tridiagonalization.packedVector, h]

/-- One iteration of `matrixQ` multiplies `matQ` on the left by `H_i`, as long
as the first `i + 1` columns of `matQ` are zero below the diagonal. -/
theorem matrixQStep_eq_mul {K : Type} [CommRing K] (n : Nat) (M : Nat → Nat → K)
    (h : Nat → K) (i : Nat) (Q : Nat → Nat → K)
    (hQ : ∀ r c, c < i + 1 → c < r → Q r c = 0) :
    toMatrix n (Tridiagonalization.matrixQStep n M h i Q) =
      toMatrix n (Tridiagonalization.packedReflector M h i) * toMatrix n Q := by
  ext r c
  rw [toMatrix_mul_apply, toMatrix_apply]
  have hsum : accumulate (fun k => Tridiagonalization.packedReflector M h i r.val k *
        Q k c.val) n =
      Q r.val c.val - h i * Tridiagonalization.packedVector M i r.val *
        accumulate (fun k => Tridiagonalization.packedVector M i k * Q k c.val) n := by
    have h1 : accumulate (fun k => Tridiagonalization.packedReflector M h i r.val k *
          Q k c.val) n =
        accumulate (fun k => identity r.val k * Q k c.val) n -
          accumulate (fun k => h i * Tridiagonalization.packedVector M i r.val *
            (Tridiagonalization.packedVector M i k * Q k c.val)) n := by
      rw [← accumulate_sub]
      apply accumulate_congr
      intro k _
      unfold Tridiagonalization.packedReflector
      ring
    have h2 : accumulate (fun k => (identity r.val k : K) * Q k c.val) n = Q r.val c.val := by
      rw [accumulate_eq_sum, Finset.sum_eq_single r.val]
      · simp [identity]
      · intro b _ hb
        simp [identity, Ne.symm hb]
      · intro hr
        exact absurd (Finset.mem_range.mpr r.isLt) hr
    rw [h1, h2, accumulate_mul_left]
  rw [hsum]
  unfold Tridiagonalization.matrixQStep
  by_cases hr : i + 1 ≤ r.val
  · by_cases hc : i + 1 ≤ c.val
    · simp only []
      rw [if_pos ⟨hr, r.isLt, hc, c.isLt⟩]
      have hr' : i + 1 + (r.val - (i + 1)) = r.val := by omega
      have hc' : i + 1 + (c.val - (i + 1)) = c.val := by omega
      have hv : setCoeff M (i + 1) i 1 (i + 1 + (r.val - (i + 1))) i =
          Tridiagonalization.packedVector M i r.val := by
        rw [setCoeff_column_eq_packedVector, hr']
      rw [hv, hc']
      have ht : accumulate (fun k => setCoeff M (i + 1) i 1 (i + 1 + k) i *
            Q (i + 1 + k) c.val) (n - i - 1) =
          accumulate (fun k => Tridiagonalization.packedVector M i k * Q k c.val) n := by
        rw [← accumulate_packedVector n i (by omega) M (fun k => Q k c.val)]
        apply accumulate_congr
        intro k _
        rw [setCoeff_column_eq_packedVector]
      rw [ht]
    · simp only []
      rw [if_neg (by omega)]
      have hz : accumulate (fun k => Tridiagonalization.packedVector M i k * Q k c.val) n =
          0 := by
        rw [accumulate_congr _ (fun _ => (0 : K)) n, accumulate_zero]
        intro k _
        by_cases hk : k ≤ i
        · simp [Tridiagonalization.packedVector, hk]
        · rw [hQ k c.val (by omega) (by omega), mul_zero]
      rw [hz, mul_zero, sub_zero]
  · simp only []
    rw [if_neg (by omega)]
    have hv : Tridiagonalization.packedVector M i r.val = 0 := by
      have : r.val ≤ i := by omega
      simp [Tridiagonalization.packedVector, this]
    rw [hv, mul_zero, zero_mul, sub_zero]

/-- An iteration of `matrixQ` leaves the columns before its corner as they
are. -/
theorem matrixQStep_frame {K : Type} [CommRing K] (n : Nat) (M : Nat → Nat → K)
    (h : Nat → K) (i : Nat) (Q : Nat → Nat → K) (r c : Nat) (hc : c < i + 1) :
    Tridiagonalization.matrixQStep n M h i Q r c = Q r c := by
  unfold Tridiagonalization.matrixQStep
  simp only []
  rw [if_neg (by omega)]

/-- The loop of `matrixQ` over `i = count - 1, …, 0` multiplies `matQ` on the
left by `H_0 * … * H_(count-1)`. -/
theorem matrixQLoop_eq_mul {K : Type} [CommRing K] (n : Nat) (M : Nat → Nat → K)
    (h : Nat → K) (count : Nat) (Q : Nat → Nat → K)
    (hQ : ∀ r c, c < count → c < r → Q r c = 0) :
    toMatrix n (Tridiagonalization.matrixQLoop n M h count Q) =
      Tridiagonalization.reflectorProduct n M h count * toMatrix n Q := by
  induction count generalizing Q with
  | zero => simp [Tridiagonalization.matrixQLoop, Tridiagonalization.reflectorProduct]
  | succ i ih =>
    simp only [Tridiagonalization.matrixQLoop, Tridiagonalization.reflectorProduct]
    rw [ih, matrixQStep_eq_mul n M h i Q hQ, Matrix.mul_assoc]
    intro r c hc hrc
    rw [matrixQStep_frame n M h i Q r c (by omega)]
    exact hQ r c (by omega) hrc

/-- The matrix returned by `matrixQ` is `H_0 * H_1 * … * H_(n-2)`. -/
theorem matrixQ_eq_reflectorProduct {K : Type} [CommRing K] (n : Nat) (M : Nat → Nat → K)
    (h : Nat → K) :
    toMatrix n (Tridiagonalization.matrixQ n M h) =
      Tridiagonalization.reflectorProduct n M h (n - 1) := by
  unfold Tridiagonalization.matrixQ
  rw [matrixQLoop_eq_mul, toMatrix_identity, Matrix.mul_one]
  intro r c _ hrc
  simp only [identity]
  rw [if_neg (by omega)]

/-! ## One iteration of the tridiagonalization -/

theorem stepScaled_of_col_ne {K : Type} [LinearOrderedField K] (sqrt : K → K) (n i : Nat)
    (M : Nat → Nat → K) (r c : Nat) (hc : c ≠ i) :
    Tridiagonalization.stepScaled sqrt n i M r c = M r c := by
  unfold Tridiagonalization.stepScaled setCoeff
  simp only []
  rw [if_neg (by omega), if_neg (by omega), if_neg (by omega)]

theorem stepScaled_col_head {K : Type} [LinearOrderedField K] (sqrt : K → K) (n i : Nat)
    (M : Nat → Nat → K) :
    Tridiagonalization.stepScaled sqrt n i M (i + 1) i = 1 := by
  unfold Tridiagonalization.stepScaled setCoeff
  simp

theorem stepScaled_col_tail {K : Type} [LinearOrderedField K] (sqrt : K → K) (n i : Nat)
    (M : Nat → Nat → K) (r : Nat) (hr : i + 2 ≤ r) (hrn : r < n) :
    Tridiagonalization.stepScaled sqrt n i M r i =
      M r i * (1 / (M (i + 1) i - Tridiagonalization.stepBeta sqrt n i M)) := by
  unfold Tridiagonalization.stepScaled setCoeff
  simp only []
  rw [if_neg (by omega), if_neg (by omega), if_pos ⟨trivial, hr, hrn⟩]

theorem stepScaled_col_above {K : Type} [LinearOrderedField K] (sqrt : K → K) (n i : Nat)
    (M : Nat → Nat → K) (r : Nat) (hr : r ≤ i) :
    Tridiagonalization.stepScaled sqrt n i M r i = M r i := by
  unfold Tridiagonalization.stepScaled setCoeff
  simp only []
  rw [if_neg (by omega), if_neg (by omega), if_neg (by omega)]

/-- The transformation of iteration `i` leaves the strict upper triangle as it
is. -/
theorem householderStep_fst_upper {K : Type} [LinearOrderedField K] (sqrt : K → K) (n i : Nat)
    (st : (Nat → Nat → K) × (Nat → K)) (r c : Nat) (hrc : r < c) :
    (Tridiagonalization.householderStep sqrt n i st).1 r c = st.1 r c := by
  unfold Tridiagonalization.householderStep setCoeff
  simp only []
  rw [if_neg (by omega), if_neg (by omega)]
  by_cases hc : c = i
  · subst hc
    exact stepScaled_col_above sqrt n c st.1 r (by omega)
  · exact stepScaled_of_col_ne sqrt n i st.1 r c hc

/-- The transformation of iteration `i` leaves the columns before `i` as they
are. -/
theorem householderStep_fst_before {K : Type} [LinearOrderedField K] (sqrt : K → K)
    (n i : Nat) (st : (Nat → Nat → K) × (Nat → K)) (r c : Nat) (hc : c < i) :
    (Tridiagonalization.householderStep sqrt n i st).1 r c = st.1 r c := by
  unfold Tridiagonalization.householderStep setCoeff
  simp only []
  rw [if_neg (by omega), if_neg (by omega)]
  exact stepScaled_of_col_ne sqrt n i st.1 r c (by omega)

theorem householderStep_fst_diag {K : Type} [LinearOrderedField K] (sqrt : K → K)
    (n i : Nat) (st : (Nat → Nat → K) × (Nat → K)) (r : Nat) (hr : r ≤ i) :
    (Tridiagonalization.householderStep sqrt n i st).1 r i = st.1 r i := by
  unfold Tridiagonalization.householderStep setCoeff
  simp only []
  rw [if_neg (by omega), if_neg (by omega)]
  exact stepScaled_col_above sqrt n i st.1 r hr

theorem householderStep_fst_sub {K : Type} [LinearOrderedField K] (sqrt : K → K)
    (n i : Nat) (st : (Nat → Nat → K) × (Nat → K)) :
    (Tridiagonalization.householderStep sqrt n i st).1 (i + 1) i =
      Tridiagonalization.stepBeta sqrt n i st.1 := by
  unfold Tridiagonalization.householderStep setCoeff
  simp

theorem householderStep_fst_col {K : Type} [LinearOrderedField K] (sqrt : K → K)
    (n i : Nat) (st : (Nat → Nat → K) × (Nat → K)) (r : Nat) (hr : i + 2 ≤ r) :
    (Tridiagonalization.householderStep sqrt n i st).1 r i =
      Tridiagonalization.stepScaled sqrt n i st.1 r i := by
  unfold Tridiagonalization.householderStep setCoeff
  simp only []
  rw [if_neg (by omega), if_neg (by omega)]

theorem householderStep_fst_corner {K : Type} [LinearOrderedField K] (sqrt : K → K)
    (n i : Nat) (st : (Nat → Nat → K) × (Nat → K)) (r c : Nat) (hc : i + 1 ≤ c)
    (hrc : c ≤ r) (hr : r < n) :
    (Tridiagonalization.householderStep sqrt n i st).1 r c =
      st.1 r c -
        (Tridiagonalization.stepScaled sqrt n i st.1 r i *
            Tridiagonalization.stepCorrection sqrt n i st.1 (c - (i + 1)) +
          Tridiagonalization.stepCorrection sqrt n i st.1 (r - (i + 1)) *
            Tridiagonalization.stepScaled sqrt n i st.1 c i) := by
  unfold Tridiagonalization.householderStep setCoeff
  simp only []
  rw [if_neg (by omega), if_pos ⟨hc, hrc, hr⟩, stepScaled_of_col_ne sqrt n i st.1 r c (by omega)]
  have h1 : i + 1 + (r - (i + 1)) = r := by omega
  have h2 : i + 1 + (c - (i + 1)) = c := by omega
  rw [h1, h2]

theorem householderStep_fst_outside {K : Type} [LinearOrderedField K] (sqrt : K → K)
    (n i : Nat) (st : (Nat → Nat → K) × (Nat → K)) (r c : Nat) (hr : n ≤ r) (hi : i + 1 < n) :
    (Tridiagonalization.householderStep sqrt n i st).1 r c = st.1 r c := by
  unfold Tridiagonalization.householderStep setCoeff
  simp only []
  rw [if_neg (by omega), if_neg (by omega)]
  unfold Tridiagonalization.stepScaled setCoeff
  simp only []
  rw [if_neg (by omega), if_neg (by omega), if_neg (by omega)]

theorem householderStep_snd_before {K : Type} [LinearOrderedField K] (sqrt : K → K)
    (n i : Nat) (st : (Nat → Nat → K) × (Nat → K)) (k : Nat) (hk : k < i) :
    (Tridiagonalization.householderStep sqrt n i st).2 k = st.2 k := by
  unfold Tridiagonalization.householderStep
  simp only []
  rw [if_neg (by omega), if_neg (by omega)]

theorem householderStep_snd_at {K : Type} [LinearOrderedField K] (sqrt : K → K)
    (n i : Nat) (st : (Nat → Nat → K) × (Nat → K)) :
    (Tridiagonalization.householderStep sqrt n i st).2 i =
      Tridiagonalization.stepH sqrt n i st.1 := by
  unfold Tridiagonalization.householderStep
  simp

/-- An iteration of `_compute` leaves the strict upper triangle, the columns
before `i` and the coefficients before `i` as they are. -/
theorem computeStep_frame {K : Type} [LinearOrderedField K] (isMuchSmallerThan : K → K → Bool)
    (sqrt : K → K) (n i : Nat) (st : (Nat → Nat → K) × (Nat → K)) :
    (∀ r c, r < c → (Tridiagonalization.computeStep isMuchSmallerThan sqrt n i st).1 r c =
        st.1 r c) ∧
      (∀ r c, c < i → (Tridiagonalization.computeStep isMuchSmallerThan sqrt n i st).1 r c =
        st.1 r c) ∧
      (∀ k, k < i → (Tridiagonalization.computeStep isMuchSmallerThan sqrt n i st).2 k =
        st.2 k) := by
  unfold Tridiagonalization.computeStep
  by_cases hs : isMuchSmallerThan (Tridiagonalization.v1norm2 n i st.1) 1 = true
  · rw [if_pos hs]
    refine ⟨fun _ _ _ => rfl, fun _ _ _ => rfl, ?_⟩
    intro k hk
    simp only []
    rw [if_neg (by omega)]
  · rw [if_neg hs]
    exact ⟨fun r c h => householderStep_fst_upper sqrt n i st r c h,
      fun r c h => householderStep_fst_before sqrt n i st r c h,
      fun k h => householderStep_snd_before sqrt n i st k h⟩

/-- The loop of `_compute` leaves the strict upper triangle as it is. -/
theorem computeLoop_upper {K : Type} [LinearOrderedField K] (isMuchSmallerThan : K → K → Bool)
    (sqrt : K → K) (n count : Nat) (st : (Nat → Nat → K) × (Nat → K)) (r c : Nat)
    (hrc : r < c) :
    (Tridiagonalization.computeLoop isMuchSmallerThan sqrt n count st).1 r c = st.1 r c := by
  induction count with
  | zero => rfl
  | succ i ih =>
    simp only [Tridiagonalization.computeLoop]
    rw [(computeStep_frame isMuchSmallerThan sqrt n i _).1 r c hrc, ih]

/-! ## The tridiagonalization reads the lower triangle only -/

theorem v1norm2_congr {K : Type} [LinearOrderedField K] (n i : Nat) (M N : Nat → Nat → K)
    (hMN : ∀ r c, c ≤ r → M r c = N r c) :
    Tridiagonalization.v1norm2 n i M = Tridiagonalization.v1norm2 n i N := by
  unfold Tridiagonalization.v1norm2
  apply accumulate_congr
  intro k _
  rw [hMN (i + 2 + k) i (by omega)]

theorem stepBeta_congr {K : Type} [LinearOrderedField K] (sqrt : K → K) (n i : Nat)
    (M N : Nat → Nat → K) (hMN : ∀ r c, c ≤ r → M r c = N r c) :
    Tridiagonalization.stepBeta sqrt n i M = Tridiagonalization.stepBeta sqrt n i N := by
  unfold Tridiagonalization.stepBeta
  rw [v1norm2_congr n i M N hMN, hMN (i + 1) i (by omega)]

theorem stepH_congr {K : Type} [LinearOrderedField K] (sqrt : K → K) (n i : Nat)
    (M N : Nat → Nat → K) (hMN : ∀ r c, c ≤ r → M r c = N r c) :
    Tridiagonalization.stepH sqrt n i M = Tridiagonalization.stepH sqrt n i N := by
  unfold Tridiagonalization.stepH
  rw [stepBeta_congr sqrt n i M N hMN, hMN (i + 1) i (by omega)]

theorem stepScaled_congr {K : Type} [LinearOrderedField K] (sqrt : K → K) (n i : Nat)
    (M N : Nat → Nat → K) (hMN : ∀ r c, c ≤ r → M r c = N r c) (r c : Nat) (hrc : c ≤ r) :
    Tridiagonalization.stepScaled sqrt n i M r c =
      Tridiagonalization.stepScaled sqrt n i N r c := by
  unfold Tridiagonalization.stepScaled setCoeff
  simp only []
  rw [stepBeta_congr sqrt n i M N hMN, hMN (i + 1) i (by omega), hMN r c hrc]

theorem stepProduct_congr {K : Type} [LinearOrderedField K] (sqrt : K → K) (n i : Nat)
    (M N : Nat → Nat → K) (hMN : ∀ r c, c ≤ r → M r c = N r c) (k : Nat) :
    Tridiagonalization.stepProduct sqrt n i M k =
      Tridiagonalization.stepProduct sqrt n i N k := by
  unfold Tridiagonalization.stepProduct
  simp only []
  rw [stepH_congr sqrt n i M N hMN]
  congr 1
  apply accumulate_congr
  intro l _
  rw [stepScaled_congr sqrt n i M N hMN (i + 1 + l) i (by omega)]
  congr 1
  unfold selfAdjointLower
  by_cases hlk : l ≤ k
  · rw [if_pos hlk, if_pos hlk]
    exact stepScaled_congr sqrt n i M N hMN _ _ (by omega)
  · rw [if_neg hlk, if_neg hlk]
    exact stepScaled_congr sqrt n i M N hMN _ _ (by omega)

theorem stepCorrection_congr {K : Type} [LinearOrderedField K] (sqrt : K → K) (n i : Nat)
    (M N : Nat → Nat → K) (hMN : ∀ r c, c ≤ r → M r c = N r c) (k : Nat) :
    Tridiagonalization.stepCorrection sqrt n i M k =
      Tridiagonalization.stepCorrection sqrt n i N k := by
  unfold Tridiagonalization.stepCorrection
  simp only []
  rw [stepH_congr sqrt n i M N hMN, stepProduct_congr sqrt n i M N hMN k,
    stepScaled_congr sqrt n i M N hMN (i + 1 + k) i (by omega)]
  congr 3
  apply accumulate_congr
  intro l _
  rw [stepProduct_congr sqrt n i M N hMN l,
    stepScaled_congr sqrt n i M N hMN (i + 1 + l) i (by omega)]

/-- Two states that agree on the lower triangle and on the coefficients are
sent by an iteration of `_compute` to two such states. -/
theorem computeStep_congr {K : Type} [LinearOrderedField K] (isMuchSmallerThan : K → K → Bool)
    (sqrt : K → K) (n i : Nat) (s t : (Nat → Nat → K) × (Nat → K))
    (hst : ∀ r c, c ≤ r → s.1 r c = t.1 r c) (hh : ∀ k, s.2 k = t.2 k) :
    (∀ r c, c ≤ r → (Tridiagonalization.computeStep isMuchSmallerThan sqrt n i s).1 r c =
        (Tridiagonalization.computeStep isMuchSmallerThan sqrt n i t).1 r c) ∧
      (∀ k, (Tridiagonalization.computeStep isMuchSmallerThan sqrt n i s).2 k =
        (Tridiagonalization.computeStep isMuchSmallerThan sqrt n i t).2 k) := by
  unfold Tridiagonalization.computeStep
  rw [v1norm2_congr n i s.1 t.1 hst]
  by_cases hs : isMuchSmallerThan (Tridiagonalization.v1norm2 n i t.1) 1 = true
  · rw [if_pos hs, if_pos hs]
    refine ⟨hst, ?_⟩
    intro k
    simp only []
    rw [hh k]
  · rw [if_neg hs, if_neg hs]
    constructor
    · intro r c hrc
      unfold Tridiagonalization.householderStep setCoeff
      simp only []
      rw [stepBeta_congr sqrt n i s.1 t.1 hst, stepScaled_congr sqrt n i s.1 t.1 hst r c hrc]
      by_cases hcond : i + 1 ≤ c ∧ c ≤ r ∧ r < n
      · rw [if_pos hcond, if_pos hcond,
          stepScaled_congr sqrt n i s.1 t.1 hst (i + 1 + (r - (i + 1))) i (by omega),
          stepScaled_congr sqrt n i s.1 t.1 hst (i + 1 + (c - (i + 1))) i (by omega),
          stepCorrection_congr sqrt n i s.1 t.1 hst (c - (i + 1)),
          stepCorrection_congr sqrt n i s.1 t.1 hst (r - (i + 1))]
      · rw [if_neg hcond, if_neg hcond]
    · intro k
      unfold Tridiagonalization.householderStep
      simp only []
      rw [stepH_congr sqrt n i s.1 t.1 hst, stepCorrection_congr sqrt n i s.1 t.1 hst (k - i),
        hh k]

theorem computeLoop_congr {K : Type} [LinearOrderedField K] (isMuchSmallerThan : K → K → Bool)
    (sqrt : K → K) (n count : Nat) (s t : (Nat → Nat → K) × (Nat → K))
    (hst : ∀ r c, c ≤ r → s.1 r c = t.1 r c) (hh : ∀ k, s.2 k = t.2 k) :
    (∀ r c, c ≤ r → (Tridiagonalization.computeLoop isMuchSmallerThan sqrt n count s).1 r c =
        (Tridiagonalization.computeLoop isMuchSmallerThan sqrt n count t).1 r c) ∧
      (∀ k, (Tridiagonalization.computeLoop isMuchSmallerThan sqrt n count s).2 k =
        (Tridiagonalization.computeLoop isMuchSmallerThan sqrt n count t).2 k) := by
  induction count with
  | zero => exact ⟨hst, hh⟩
  | succ i ih =>
    simp only [Tridiagonalization.computeLoop]
    exact computeStep_congr isMuchSmallerThan sqrt n i _ _ ih.1 ih.2

/-! ## The Householder transformations of a tridiagonalization are orthogonal -/

theorem accumulate_identity_left {K : Type} [CommRing K] (n r : Nat) (hr : r < n)
    (f : Nat → K) : accumulate (fun k => identity r k * f k) n = f r := by
  rw [accumulate_eq_sum, Finset.sum_eq_single r]
  · simp [identity]
  · intro b _ hb
    simp [identity, Ne.symm hb]
  · intro h
    exact absurd (Finset.mem_range.mpr hr) h

theorem accumulate_identity_right {K : Type} [CommRing K] (n c : Nat) (hc : c < n)
    (f : Nat → K) : accumulate (fun k => f k * identity k c) n = f c := by
  rw [accumulate_eq_sum, Finset.sum_eq_single c]
  · simp [identity]
  · intro b _ hb
    simp [identity, hb]
  · intro h
    exact absurd (Finset.mem_range.mpr hc) h

/-- The entries of `H_i * X`. -/
theorem packedReflector_mul_apply {K : Type} [CommRing K] (n : Nat) (M : Nat → Nat → K)
    (h : Nat → K) (i : Nat) (X : Nat → Nat → K) (r c : Nat) (hr : r < n) :
    accumulate (fun k => Tridiagonalization.packedReflector M h i r k * X k c) n =
      X r c - h i * Tridiagonalization.packedVector M i r *
        accumulate (fun k => Tridiagonalization.packedVector M i k * X k c) n := by
  have h1 : accumulate (fun k => Tridiagonalization.packedReflector M h i r k * X k c) n =
      accumulate (fun k => identity r k * X k c) n -
        accumulate (fun k => h i * Tridiagonalization.packedVector M i r *
          (Tridiagonalization.packedVector M i k * X k c)) n := by
    rw [← accumulate_sub]
    apply accumulate_congr
    intro k _
    unfold Tridiagonalization.packedReflector
    ring
  rw [h1, accumulate_identity_left n r hr, accumulate_mul_left]

/-- The entries of `X * H_i`. -/
theorem mul_packedReflector_apply {K : Type} [CommRing K] (n : Nat) (M : Nat → Nat → K)
    (h : Nat → K) (i : Nat) (X : Nat → Nat → K) (r c : Nat) (hc : c < n) :
    accumulate (fun k => X r k * Tridiagonalization.packedReflector M h i k c) n =
      X r c - h i * accumulate (fun k => X r k * Tridiagonalization.packedVector M i k) n *
        Tridiagonalization.packedVector M i c := by
  have h1 : accumulate (fun k => X r k * Tridiagonalization.packedReflector M h i k c) n =
      accumulate (fun k => X r k * identity k c) n -
        accumulate (fun k => (X r k * Tridiagonalization.packedVector M i k) *
          (h i * Tridiagonalization.packedVector M i c)) n := by
    rw [← accumulate_sub]
    apply accumulate_congr
    intro k _
    unfold Tridiagonalization.packedReflector
    ring
  rw [h1, accumulate_identity_right n c hc, accumulate_mul_right]
  ring

theorem packedReflector_symm {K : Type} [CommRing K] (M : Nat → Nat → K) (h : Nat → K)
    (i r c : Nat) :
    Tridiagonalization.packedReflector M h i r c =
      Tridiagonalization.packedReflector M h i c r := by
  unfold Tridiagonalization.packedReflector identity
  by_cases hrc : r = c
  · subst hrc; rfl
  · rw [if_neg hrc, if_neg (Ne.symm hrc)]
    ring

theorem toMatrix_packedReflector_transpose {K : Type} [CommRing K] (n : Nat)
    (M : Nat → Nat → K) (h : Nat → K) (i : Nat) :
    (toMatrix n (Tridiagonalization.packedReflector M h i)).transpose =
      toMatrix n (Tridiagonalization.packedReflector M h i) := by
  ext r c
  rw [Matrix.transpose_apply, toMatrix_apply, toMatrix_apply, packedReflector_symm]

/-- A Householder transformation with `h_i = 0` or `h_i * ‖v_i‖² = 2` is its
own inverse. -/
theorem packedReflector_mul_self {K : Type} [CommRing K] (n : Nat) (M : Nat → Nat → K)
    (h : Nat → K) (i : Nat)
    (hR : h i = 0 ∨ h i * accumulate (fun k => Tridiagonalization.packedVector M i k *
      Tridiagonalization.packedVector M i k) n = 2) :
    toMatrix n (Tridiagonalization.packedReflector M h i) *
      toMatrix n (Tridiagonalization.packedReflector M h i) = 1 := by
  ext r c
  rw [toMatrix_mul_apply, packedReflector_mul_apply n M h i _ r.val c.val r.isLt]
  have hsum : accumulate (fun k => Tridiagonalization.packedVector M i k *
        Tridiagonalization.packedReflector M h i k c.val) n =
      Tridiagonalization.packedVector M i c.val -
        h i * accumulate (fun k => Tridiagonalization.packedVector M i k *
          Tridiagonalization.packedVector M i k) n * Tridiagonalization.packedVector M i c.val :=
    mul_packedReflector_apply n M h i (fun _ k => Tridiagonalization.packedVector M i k) 0 c.val
      c.isLt
  rw [hsum]
  have hid : (1 : Matrix (Fin n) (Fin n) K) r c = identity r.val c.val := by
    simp [Matrix.one_apply, identity, Fin.ext_iff]
  rw [hid]
  unfold Tridiagonalization.packedReflector
  rcases hR with h0 | h2
  · rw [h0]; ring
  · have : h i * Tridiagonalization.packedVector M i r.val *
        (Tridiagonalization.packedVector M i c.val -
          h i * accumulate (fun k => Tridiagonalization.packedVector M i k *
            Tridiagonalization.packedVector M i k) n *
            Tridiagonalization.packedVector M i c.val) =
        -(h i * Tridiagonalization.packedVector M i r.val *
          Tridiagonalization.packedVector M i c.val) := by
      rw [h2]; ring
    rw [this]; ring

theorem packedVector_congr {K : Type} [Zero K] [One K] (M N : Nat → Nat → K) (i : Nat)
    (hMN : ∀ r, M r i = N r i) (k : Nat) :
    Tridiagonalization.packedVector M i k = Tridiagonalization.packedVector N i k := by
  unfold Tridiagonalization.packedVector
  rw [hMN k]

theorem reflectorProduct_congr {K : Type} [CommRing K] (n : Nat) (M N : Nat → Nat → K)
    (h g : Nat → K) (count : Nat) (hMN : ∀ r c, c < count → M r c = N r c)
    (hh : ∀ k, k < count → h k = g k) :
    Tridiagonalization.reflectorProduct n M h count =
      Tridiagonalization.reflectorProduct n N g count := by
  induction count with
  | zero => rfl
  | succ i ih =>
    simp only [Tridiagonalization.reflectorProduct]
    rw [ih (fun r c hc => hMN r c (by omega)) (fun k hk => hh k (by omega))]
    congr 1
    ext r c
    simp only [toMatrix_apply, Tridiagonalization.packedReflector]
    rw [hh i (by omega),
      packedVector_congr M N i (fun r => hMN r i (by omega)) r.val,
      packedVector_congr M N i (fun r => hMN r i (by omega)) c.val]

/-! ## The values computed by one iteration -/

theorem v1norm2_nonneg {K : Type} [LinearOrderedField K] (n i : Nat) (M : Nat → Nat → K) :
    0 ≤ Tridiagonalization.v1norm2 n i M := by
  unfold Tridiagonalization.v1norm2
  induction (n - (i + 2)) with
  | zero => simp [accumulate]
  | succ m ih =>
    simp only [accumulate]
    exact add_nonneg ih (mul_self_nonneg _)

theorem accumulate_sq_eq_zero {K : Type} [LinearOrderedField K] (f : Nat → K) (m : Nat)
    (h : accumulate (fun k => f k * f k) m = 0) (k : Nat) (hk : k < m) : f k = 0 := by
  induction m with
  | zero => omega
  | succ m ih =>
    simp only [accumulate] at h
    have hnn : 0 ≤ accumulate (fun k => f k * f k) m := by
      clear ih h hk
      induction m with
      | zero => simp [accumulate]
      | succ m ih2 =>
        simp only [accumulate]
        exact add_nonneg ih2 (mul_self_nonneg _)
    have h1 : accumulate (fun k => f k * f k) m = 0 := by
      have := mul_self_nonneg (f m)
      linarith
    have h2 : f m * f m = 0 := by
      rw [h1, zero_add] at h
      exact h
    by_cases hkm : k < m
    · exact ih h1 hkm
    · have : k = m := by omega
      subst this
      exact mul_self_eq_zero.mp h2

/-- A column tail whose squared norm is zero is zero. -/
theorem v1norm2_eq_zero {K : Type} [LinearOrderedField K] (n i : Nat) (M : Nat → Nat → K)
    (h : Tridiagonalization.v1norm2 n i M = 0) (r : Nat) (hr : i + 2 ≤ r) (hrn : r < n) :
    M r i = 0 := by
  have := accumulate_sq_eq_zero (fun k => M (i + 2 + k) i) (n - (i + 2)) h (r - (i + 2))
    (by omega)
  simp only [] at this
  rw [show i + 2 + (r - (i + 2)) = r by omega] at this
  exact this

/-- When the square root is exact and its argument is not zero, `beta² = v0² +
v1norm2`, `beta ≠ 0` and `v0 - beta ≠ 0`. -/
theorem stepBeta_facts {K : Type} [LinearOrderedField K] (sqrt : K → K) (n i : Nat)
    (M : Nat → Nat → K)
    (hs : 0 ≤ sqrt (ei_abs2 (M (i + 1) i) + Tridiagonalization.v1norm2 n i M) ∧
      sqrt (ei_abs2 (M (i + 1) i) + Tridiagonalization.v1norm2 n i M) *
        sqrt (ei_abs2 (M (i + 1) i) + Tridiagonalization.v1norm2 n i M) =
      ei_abs2 (M (i + 1) i) + Tridiagonalization.v1norm2 n i M)
    (hne : ei_abs2 (M (i + 1) i) + Tridiagonalization.v1norm2 n i M ≠ 0) :
    Tridiagonalization.stepBeta sqrt n i M * Tridiagonalization.stepBeta sqrt n i M =
        M (i + 1) i * M (i + 1) i + Tridiagonalization.v1norm2 n i M ∧
      Tridiagonalization.stepBeta sqrt n i M ≠ 0 ∧
      M (i + 1) i - Tridiagonalization.stepBeta sqrt n i M ≠ 0 := by
  have hr : sqrt (ei_abs2 (M (i + 1) i) + Tridiagonalization.v1norm2 n i M) ≠ 0 := by
    intro h0
    rw [h0, mul_zero] at hs
    exact hne hs.2.symm
  have hpos : 0 < sqrt (ei_abs2 (M (i + 1) i) + Tridiagonalization.v1norm2 n i M) :=
    lt_of_le_of_ne hs.1 (Ne.symm hr)
  unfold Tridiagonalization.stepBeta
  simp only []
  by_cases hv : 0 ≤ M (i + 1) i
  · rw [if_pos hv]
    refine ⟨?_, ?_, ?_⟩
    · rw [neg_mul_neg, hs.2]; rfl
    · exact neg_ne_zero.mpr hr
    · rw [sub_neg_eq_add]
      exact ne_of_gt (add_pos_of_nonneg_of_pos hv hpos)
  · rw [if_neg hv]
    refine ⟨?_, hr, ?_⟩
    · rw [hs.2]; rfl
    · have : M (i + 1) i < 0 := not_le.mp hv
      exact ne_of_lt (by linarith)

/-- After the transformation of iteration `i` the packed vector `v_i` is the
scaled column. -/
theorem packedVector_after_step {K : Type} [LinearOrderedField K] (sqrt : K → K) (n i : Nat)
    (st : (Nat → Nat → K) × (Nat → K)) (k : Nat) (hk : i + 1 ≤ k) :
    Tridiagonalization.packedVector (Tridiagonalization.householderStep sqrt n i st).1 i k =
      Tridiagonalization.stepScaled sqrt n i st.1 k i := by
  unfold Tridiagonalization.packedVector
  rw [if_neg (by omega)]
  by_cases h1 : k = i + 1
  · subst h1
    rw [if_pos rfl, stepScaled_col_head]
  · rw [if_neg h1, householderStep_fst_col sqrt n i st k (by omega)]

/-- The squared norm of the packed vector after the transformation. -/
theorem packedVector_norm_after_step {K : Type} [LinearOrderedField K] (sqrt : K → K)
    (n i : Nat) (hi : i + 2 ≤ n) (st : (Nat → Nat → K) × (Nat → K)) :
    accumulate (fun k =>
        Tridiagonalization.packedVector (Tridiagonalization.householderStep sqrt n i st).1 i k *
        Tridiagonalization.packedVector (Tridiagonalization.householderStep sqrt n i st).1 i k)
      n =
      1 + Tridiagonalization.v1norm2 n i st.1 *
        (1 / (st.1 (i + 1) i - Tridiagonalization.stepBeta sqrt n i st.1) *
          (1 / (st.1 (i + 1) i - Tridiagonalization.stepBeta sqrt n i st.1))) := by
  rw [← accumulate_packedVector n i (by omega) _
    (fun k => Tridiagonalization.packedVector
      (Tridiagonalization.householderStep sqrt n i st).1 i k)]
  have hm : n - i - 1 = 1 + (n - (i + 2)) := by omega
  rw [hm, accumulate_add]
  congr 1
  · simp only [accumulate, zero_add, Nat.add_zero]
    rw [packedVector_after_step sqrt n i st (i + 1) (le_refl _), stepScaled_col_head, mul_one]
  · unfold Tridiagonalization.v1norm2
    rw [← accumulate_mul_right]
    apply accumulate_congr
    intro p hp
    rw [packedVector_after_step sqrt n i st (i + 1 + (1 + p)) (by omega),
      stepScaled_col_tail sqrt n i st.1 (i + 1 + (1 + p)) (by omega) (by omega)]
    have e : i + 1 + (1 + p) = i + 2 + p := by omega
    rw [e]
    simp only [ei_abs2]
    ring

/-- The coefficient and the vector of the transformation satisfy
`h * ‖v‖² = 2`. -/
theorem stepH_norm {K : Type} [LinearOrderedField K] (sqrt : K → K) (n i : Nat)
    (M : Nat → Nat → K)
    (hb : Tridiagonalization.stepBeta sqrt n i M * Tridiagonalization.stepBeta sqrt n i M =
      M (i + 1) i * M (i + 1) i + Tridiagonalization.v1norm2 n i M)
    (hb0 : Tridiagonalization.stepBeta sqrt n i M ≠ 0)
    (hd : M (i + 1) i - Tridiagonalization.stepBeta sqrt n i M ≠ 0) :
    Tridiagonalization.stepH sqrt n i M *
      (1 + Tridiagonalization.v1norm2 n i M *
        (1 / (M (i + 1) i - Tridiagonalization.stepBeta sqrt n i M) *
          (1 / (M (i + 1) i - Tridiagonalization.stepBeta sqrt n i M)))) = 2 := by
  have hv : Tridiagonalization.v1norm2 n i M =
      Tridiagonalization.stepBeta sqrt n i M * Tridiagonalization.stepBeta sqrt n i M -
        M (i + 1) i * M (i + 1) i := by
    rw [hb]; ring
  rw [hv]
  unfold Tridiagonalization.stepH
  field_simp
  ring

/-! ## The loop of the tridiagonalization -/

/-- After iteration `i` the stored coefficient and vector satisfy `h_i = 0` or
`h_i * ‖v_i‖² = 2`. -/
theorem computeStep_reflector_property {K : Type} [LinearOrderedField K]
    (isMuchSmallerThan : K → K → Bool) (sqrt : K → K) (n i : Nat) (hi : i + 2 ≤ n)
    (st : (Nat → Nat → K) × (Nat → K)) (hzero : isMuchSmallerThan 0 1 = true)
    (hsq : Tridiagonalization.sqrtExactAt isMuchSmallerThan sqrt n i st.1) :
    (Tridiagonalization.computeStep isMuchSmallerThan sqrt n i st).2 i = 0 ∨
      (Tridiagonalization.computeStep isMuchSmallerThan sqrt n i st).2 i *
        accumulate (fun k =>
          Tridiagonalization.packedVector
            (Tridiagonalization.computeStep isMuchSmallerThan sqrt n i st).1 i k *
          Tridiagonalization.packedVector
            (Tridiagonalization.computeStep isMuchSmallerThan sqrt n i st).1 i k) n = 2 := by
  unfold Tridiagonalization.computeStep
  by_cases hs : isMuchSmallerThan (Tridiagonalization.v1norm2 n i st.1) 1 = true
  · rw [if_pos hs]
    left
    simp
  · rw [if_neg hs]
    right
    have hs' : isMuchSmallerThan (Tridiagonalization.v1norm2 n i st.1) 1 = false := by
      simpa using hs
    have hv : Tridiagonalization.v1norm2 n i st.1 ≠ 0 := by
      intro h0
      rw [h0, hzero] at hs'
      exact Bool.noConfusion hs'
    have hne : ei_abs2 (st.1 (i + 1) i) + Tridiagonalization.v1norm2 n i st.1 ≠ 0 := by
      have h1 : 0 < Tridiagonalization.v1norm2 n i st.1 :=
        lt_of_le_of_ne (v1norm2_nonneg n i st.1) (Ne.symm hv)
      have h2 : 0 ≤ ei_abs2 (st.1 (i + 1) i) := mul_self_nonneg _
      exact ne_of_gt (add_pos_of_nonneg_of_pos h2 h1)
    obtain ⟨hb, hb0, hd⟩ := stepBeta_facts sqrt n i st.1 (hsq hs') hne
    rw [householderStep_snd_at, packedVector_norm_after_step sqrt n i hi st]
    exact stepH_norm sqrt n i st.1 hb hb0 hd

/-- What `_compute` returns for `n ≥ 2`. -/
theorem compute_eq_some {K : Type} [LinearOrderedField K] (isMuchSmallerThan : K → K → Bool)
    (sqrt : K → K) (n : Nat) (hn : 2 ≤ n) (A : Nat → Nat → K) (h0 : Nat → K) :
    Tridiagonalization._compute isMuchSmallerThan sqrt n A h0 =
      some ((Tridiagonalization.computeLoop isMuchSmallerThan sqrt n (n - 2) (A, h0)).1,
        fun k => if k = n - 2 then 0
          else (Tridiagonalization.computeLoop isMuchSmallerThan sqrt n (n - 2) (A, h0)).2 k) := by
  unfold Tridiagonalization._compute
  rw [if_pos hn]

theorem current_symm {K : Type} [Zero K] (i : Nat) (M : Nat → Nat → K) (r c : Nat) :
    Tridiagonalization.current i M r c = Tridiagonalization.current i M c r := by
  unfold Tridiagonalization.current
  by_cases h1 : c ≤ r
  · by_cases h2 : r ≤ c
    · have : r = c := by omega
      subst this
      rfl
    · simp only [if_pos h1, if_neg h2]
  · have h2 : r ≤ c := by omega
    simp only [if_neg h1, if_pos h2]

theorem packedVector_eq_stepVector {K : Type} [LinearOrderedField K] (sqrt : K → K) (n i : Nat)
    (st : (Nat → Nat → K) × (Nat → K)) (k : Nat) :
    Tridiagonalization.packedVector (Tridiagonalization.householderStep sqrt n i st).1 i k =
      Tridiagonalization.stepVector sqrt n i st.1 k := by
  unfold Tridiagonalization.stepVector
  by_cases hk : k ≤ i
  · rw [if_pos hk]
    unfold Tridiagonalization.packedVector
    rw [if_pos hk]
  · rw [if_neg hk]
    exact packedVector_after_step sqrt n i st k (by omega)

/-- A sum against the Householder vector of iteration `i` only runs over the
rows after `i`. -/
theorem accumulate_stepVector {K : Type} [LinearOrderedField K] (sqrt : K → K) (n i : Nat)
    (hi : i + 1 ≤ n) (M : Nat → Nat → K) (g : Nat → K) :
    accumulate (fun k => g (i + 1 + k) * Tridiagonalization.stepScaled sqrt n i M (i + 1 + k) i)
      (n - i - 1) =
    accumulate (fun k => g k * Tridiagonalization.stepVector sqrt n i M k) n := by
  have h := accumulate_window (fun k => g k * Tridiagonalization.stepVector sqrt n i M k) (i + 1)
    (n - i - 1) n (by omega) (by
      intro p _ hcase
      have h : p ≤ i := by omega
      simp [Tridiagonalization.stepVector, h])
  rw [← h]
  apply accumulate_congr
  intro k _
  simp only [Tridiagonalization.stepVector]
  rw [if_neg (by omega)]

/-- The image of the Householder vector has no component before row `i`. -/
theorem stepImage_before {K : Type} [LinearOrderedField K] (sqrt : K → K) (n i : Nat)
    (M : Nat → Nat → K) (k : Nat) (hk : k < i) :
    Tridiagonalization.stepImage sqrt n i M k = 0 := by
  unfold Tridiagonalization.stepImage
  rw [accumulate_congr _ (fun _ => (0 : K)) n, accumulate_zero]
  intro l _
  by_cases hl : l ≤ i
  · simp [Tridiagonalization.stepVector, hl]
  · unfold Tridiagonalization.current
    rw [if_neg (by omega), if_pos ⟨hk, by omega⟩, zero_mul]

/-- The component `i` of the image is `v0 + v1norm2 / (v0 - beta)`. -/
theorem stepImage_at {K : Type} [LinearOrderedField K] (sqrt : K → K) (n i : Nat)
    (hi : i + 2 ≤ n) (M : Nat → Nat → K) :
    Tridiagonalization.stepImage sqrt n i M i =
      M (i + 1) i + Tridiagonalization.v1norm2 n i M *
        (1 / (M (i + 1) i - Tridiagonalization.stepBeta sqrt n i M)) := by
  unfold Tridiagonalization.stepImage
  rw [← accumulate_stepVector sqrt n i (by omega) M (fun l => Tridiagonalization.current i M i l)]
  have hm : n - i - 1 = 1 + (n - (i + 2)) := by omega
  rw [hm, accumulate_add]
  congr 1
  · simp only [accumulate, zero_add, Nat.add_zero]
    rw [stepScaled_col_head, mul_one]
    unfold Tridiagonalization.current
    rw [if_neg (by omega), if_neg (by omega)]
  · unfold Tridiagonalization.v1norm2
    rw [← accumulate_mul_right]
    apply accumulate_congr
    intro p hp
    rw [stepScaled_col_tail sqrt n i M (i + 1 + (1 + p)) (by omega) (by omega)]
    have e : i + 1 + (1 + p) = i + 2 + p := by omega
    rw [e]
    unfold Tridiagonalization.current
    rw [if_neg (by omega), if_neg (by omega)]
    simp only [ei_abs2]
    ring

/-- The temporary vector after its first assignment is `h` times the image,
on the rows of the corner. -/
theorem stepProduct_eq {K : Type} [LinearOrderedField K] (sqrt : K → K) (n i : Nat)
    (hi : i + 1 ≤ n) (M : Nat → Nat → K) (k : Nat) :
    Tridiagonalization.stepProduct sqrt n i M k =
      Tridiagonalization.stepH sqrt n i M * Tridiagonalization.stepImage sqrt n i M (i + 1 + k) := by
  unfold Tridiagonalization.stepProduct Tridiagonalization.stepImage
  simp only []
  congr 1
  rw [← accumulate_stepVector sqrt n i hi M
    (fun l => Tridiagonalization.current i M (i + 1 + k) l)]
  apply accumulate_congr
  intro l _
  congr 1
  by_cases hlk : l ≤ k
  · have h1 : i + 1 + l ≤ i + 1 + k := by omega
    have h2 : ¬(i + 1 + l < i ∧ i + 1 + l + 1 < i + 1 + k) := by omega
    simp only [selfAdjointLower, Tridiagonalization.current, if_pos hlk, if_pos h1, if_neg h2]
    exact stepScaled_of_col_ne sqrt n i M _ _ (by omega)
  · have h1 : ¬(i + 1 + l ≤ i + 1 + k) := by omega
    have h2 : ¬(i + 1 + k < i ∧ i + 1 + k + 1 < i + 1 + l) := by omega
    simp only [selfAdjointLower, Tridiagonalization.current, if_neg hlk, if_neg h1, if_neg h2]
    exact stepScaled_of_col_ne sqrt n i M _ _ (by omega)

/-- The temporary vector after its second assignment is
`h * (C v) - (h² / 2) * (v · C v) * v` on the rows of the corner. -/
theorem stepCorrection_eq {K : Type} [LinearOrderedField K] (sqrt : K → K) (n i : Nat)
    (hi : i + 1 ≤ n) (M : Nat → Nat → K) (k : Nat) :
    Tridiagonalization.stepCorrection sqrt n i M k =
      Tridiagonalization.stepH sqrt n i M * Tridiagonalization.stepImage sqrt n i M (i + 1 + k) -
        Tridiagonalization.stepH sqrt n i M * Tridiagonalization.stepH sqrt n i M / 2 *
          accumulate (fun l => Tridiagonalization.stepImage sqrt n i M l *
            Tridiagonalization.stepVector sqrt n i M l) n *
          Tridiagonalization.stepScaled sqrt n i M (i + 1 + k) i := by
  unfold Tridiagonalization.stepCorrection
  simp only []
  have hdot : accumulate (fun l => Tridiagonalization.stepScaled sqrt n i M (i + 1 + l) i *
        Tridiagonalization.stepProduct sqrt n i M l) (n - i - 1) =
      Tridiagonalization.stepH sqrt n i M *
        accumulate (fun l => Tridiagonalization.stepImage sqrt n i M l *
          Tridiagonalization.stepVector sqrt n i M l) n := by
    rw [← accumulate_stepVector sqrt n i hi M (fun l => Tridiagonalization.stepImage sqrt n i M l),
      ← accumulate_mul_left]
    apply accumulate_congr
    intro l _
    rw [stepProduct_eq sqrt n i hi M l]
    ring
  rw [hdot, stepProduct_eq sqrt n i hi M k]
  ring

/-! ## The state after one iteration stands for `H * C * H` -/

/-- Entry by entry on the lower triangle, the state after the transformation
of iteration `i` stands for `C - h (Cv) vᵀ - h v (Cv)ᵀ + h² (v·Cv) v vᵀ`. -/
theorem householderStep_current_lower {K : Type} [LinearOrderedField K] (sqrt : K → K)
    (n i : Nat) (hi : i + 2 ≤ n) (st : (Nat → Nat → K) × (Nat → K))
    (hb : Tridiagonalization.stepBeta sqrt n i st.1 * Tridiagonalization.stepBeta sqrt n i st.1 =
      st.1 (i + 1) i * st.1 (i + 1) i + Tridiagonalization.v1norm2 n i st.1)
    (hb0 : Tridiagonalization.stepBeta sqrt n i st.1 ≠ 0)
    (hd : st.1 (i + 1) i - Tridiagonalization.stepBeta sqrt n i st.1 ≠ 0)
    (r c : Nat) (hr : r < n) (hrc : c ≤ r) :
    Tridiagonalization.current (i + 1) (Tridiagonalization.householderStep sqrt n i st).1 r c =
      Tridiagonalization.current i st.1 r c -
        Tridiagonalization.stepH sqrt n i st.1 * Tridiagonalization.stepImage sqrt n i st.1 r *
          Tridiagonalization.stepVector sqrt n i st.1 c -
        Tridiagonalization.stepH sqrt n i st.1 * Tridiagonalization.stepVector sqrt n i st.1 r *
          Tridiagonalization.stepImage sqrt n i st.1 c +
        Tridiagonalization.stepH sqrt n i st.1 * Tridiagonalization.stepH sqrt n i st.1 *
          accumulate (fun l => Tridiagonalization.stepImage sqrt n i st.1 l *
            Tridiagonalization.stepVector sqrt n i st.1 l) n *
          Tridiagonalization.stepVector sqrt n i st.1 r *
          Tridiagonalization.stepVector sqrt n i st.1 c := by
  have hv1 : Tridiagonalization.v1norm2 n i st.1 =
      Tridiagonalization.stepBeta sqrt n i st.1 * Tridiagonalization.stepBeta sqrt n i st.1 -
        st.1 (i + 1) i * st.1 (i + 1) i := by
    rw [hb]; ring
  by_cases hc1 : i + 1 ≤ c
  · -- the corner
    have hL : Tridiagonalization.current (i + 1)
        (Tridiagonalization.householderStep sqrt n i st).1 r c =
        (Tridiagonalization.householderStep sqrt n i st).1 r c := by
      have h1 : ¬(c < i + 1 ∧ c + 1 < r) := by omega
      simp only [Tridiagonalization.current, if_pos hrc, if_neg h1]
    have hC : Tridiagonalization.current i st.1 r c = st.1 r c := by
      have h1 : ¬(c < i ∧ c + 1 < r) := by omega
      simp only [Tridiagonalization.current, if_pos hrc, if_neg h1]
    have hvr : Tridiagonalization.stepVector sqrt n i st.1 r =
        Tridiagonalization.stepScaled sqrt n i st.1 r i := by
      have h1 : ¬ r ≤ i := by omega
      simp only [Tridiagonalization.stepVector, if_neg h1]
    have hvc : Tridiagonalization.stepVector sqrt n i st.1 c =
        Tridiagonalization.stepScaled sqrt n i st.1 c i := by
      have h1 : ¬ c ≤ i := by omega
      simp only [Tridiagonalization.stepVector, if_neg h1]
    have er : i + 1 + (r - (i + 1)) = r := by omega
    have ec : i + 1 + (c - (i + 1)) = c := by omega
    rw [hL, hC, householderStep_fst_corner sqrt n i st r c hc1 hrc hr,
      stepCorrection_eq sqrt n i (by omega) st.1 (c - (i + 1)),
      stepCorrection_eq sqrt n i (by omega) st.1 (r - (i + 1)), er, ec, hvr, hvc]
    ring
  · by_cases hc2 : c = i
    · subst hc2
      have hvc : Tridiagonalization.stepVector sqrt n c st.1 c = 0 := by
        simp only [Tridiagonalization.stepVector, if_pos (le_refl c)]
      have hq := stepImage_at sqrt n c hi st.1
      by_cases hr1 : r = c
      · subst hr1
        have hL : Tridiagonalization.current (r + 1)
            (Tridiagonalization.householderStep sqrt n r st).1 r r =
            (Tridiagonalization.householderStep sqrt n r st).1 r r := by
          have h1 : ¬(r < r + 1 ∧ r + 1 < r) := by omega
          simp only [Tridiagonalization.current, if_pos (le_refl r), if_neg h1]
        have hC : Tridiagonalization.current r st.1 r r = st.1 r r := by
          have h1 : ¬(r < r ∧ r + 1 < r) := by omega
          simp only [Tridiagonalization.current, if_pos (le_refl r), if_neg h1]
        rw [hL, hC, householderStep_fst_diag sqrt n r st r (le_refl r), hvc]
        ring
      · by_cases hr2 : r = c + 1
        · subst hr2
          have hL : Tridiagonalization.current (c + 1)
              (Tridiagonalization.householderStep sqrt n c st).1 (c + 1) c =
              (Tridiagonalization.householderStep sqrt n c st).1 (c + 1) c := by
            have h1 : ¬(c < c + 1 ∧ c + 1 < c + 1) := by omega
            simp only [Tridiagonalization.current, if_pos hrc, if_neg h1]
          have hC : Tridiagonalization.current c st.1 (c + 1) c = st.1 (c + 1) c := by
            have h1 : ¬(c < c ∧ c + 1 < c + 1) := by omega
            simp only [Tridiagonalization.current, if_pos hrc, if_neg h1]
          have hvr : Tridiagonalization.stepVector sqrt n c st.1 (c + 1) = 1 := by
            have h1 : ¬ c + 1 ≤ c := by omega
            simp only [Tridiagonalization.stepVector, if_neg h1, stepScaled_col_head]
          rw [hL, hC, householderStep_fst_sub, hvc, hvr, hq, hv1]
          unfold Tridiagonalization.stepH
          field_simp
          ring
        · have hL : Tridiagonalization.current (c + 1)
              (Tridiagonalization.householderStep sqrt n c st).1 r c = 0 := by
            have h1 : c < c + 1 ∧ c + 1 < r := by omega
            simp only [Tridiagonalization.current, if_pos hrc, if_pos h1]
          have hC : Tridiagonalization.current c st.1 r c = st.1 r c := by
            have h1 : ¬(c < c ∧ c + 1 < r) := by omega
            simp only [Tridiagonalization.current, if_pos hrc, if_neg h1]
          have hvr : Tridiagonalization.stepVector sqrt n c st.1 r =
              st.1 r c * (1 / (st.1 (c + 1) c - Tridiagonalization.stepBeta sqrt n c st.1)) := by
            have h1 : ¬ r ≤ c := by omega
            simp only [Tridiagonalization.stepVector, if_neg h1]
            exact stepScaled_col_tail sqrt n c st.1 r (by omega) hr
          rw [hL, hC, hvc, hvr, hq, hv1]
          unfold Tridiagonalization.stepH
          field_simp
          ring
    · -- a column already reduced
      have hci : c < i := by omega
      have hvc : Tridiagonalization.stepVector sqrt n i st.1 c = 0 := by
        have h1 : c ≤ i := by omega
        simp only [Tridiagonalization.stepVector, if_pos h1]
      have hqc := stepImage_before sqrt n i st.1 c hci
      have hL : Tridiagonalization.current (i + 1)
          (Tridiagonalization.householderStep sqrt n i st).1 r c =
          Tridiagonalization.current i st.1 r c := by
        unfold Tridiagonalization.current
        rw [householderStep_fst_before sqrt n i st r c hci]
        by_cases h1 : c + 1 < r
        · have h2 : c < i + 1 ∧ c + 1 < r := ⟨by omega, h1⟩
          have h3 : c < i ∧ c + 1 < r := ⟨hci, h1⟩
          simp only [if_pos hrc, if_pos h2, if_pos h3]
        · have h2 : ¬(c < i + 1 ∧ c + 1 < r) := by omega
          have h3 : ¬(c < i ∧ c + 1 < r) := by omega
          simp only [if_pos hrc, if_neg h2, if_neg h3]
      rw [hL, hvc, hqc]
      ring

/-! ## The round trip of the tridiagonalization -/

/-- Entry by entry, the state after the transformation of iteration `i`
stands for `C - h (Cv) vᵀ - h v (Cv)ᵀ + h² (v·Cv) v vᵀ`. -/
theorem householderStep_current {K : Type} [LinearOrderedField K] (sqrt : K → K)
    (n i : Nat) (hi : i + 2 ≤ n) (st : (Nat → Nat → K) × (Nat → K))
    (hb : Tridiagonalization.stepBeta sqrt n i st.1 * Tridiagonalization.stepBeta sqrt n i st.1 =
      st.1 (i + 1) i * st.1 (i + 1) i + Tridiagonalization.v1norm2 n i st.1)
    (hb0 : Tridiagonalization.stepBeta sqrt n i st.1 ≠ 0)
    (hd : st.1 (i + 1) i - Tridiagonalization.stepBeta sqrt n i st.1 ≠ 0)
    (r c : Nat) (hr : r < n) (hc : c < n) :
    Tridiagonalization.current (i + 1) (Tridiagonalization.householderStep sqrt n i st).1 r c =
      Tridiagonalization.current i st.1 r c -
        Tridiagonalization.stepH sqrt n i st.1 * Tridiagonalization.stepImage sqrt n i st.1 r *
          Tridiagonalization.stepVector sqrt n i st.1 c -
        Tridiagonalization.stepH sqrt n i st.1 * Tridiagonalization.stepVector sqrt n i st.1 r *
          Tridiagonalization.stepImage sqrt n i st.1 c +
        Tridiagonalization.stepH sqrt n i st.1 * Tridiagonalization.stepH sqrt n i st.1 *
          accumulate (fun l => Tridiagonalization.stepImage sqrt n i st.1 l *
            Tridiagonalization.stepVector sqrt n i st.1 l) n *
          Tridiagonalization.stepVector sqrt n i st.1 r *
          Tridiagonalization.stepVector sqrt n i st.1 c := by
  by_cases hrc : c ≤ r
  · exact householderStep_current_lower sqrt n i hi st hb hb0 hd r c hr hrc
  · rw [current_symm (i + 1) _ r c, current_symm i _ r c,
      householderStep_current_lower sqrt n i hi st hb hb0 hd c r hc (by omega)]
    ring

/-- The entries of `H * (C * H)` for a symmetric `C`. -/
theorem packedReflector_conj_apply {K : Type} [CommRing K] (n : Nat) (M : Nat → Nat → K)
    (h : Nat → K) (i : Nat) (C : Nat → Nat → K) (hC : ∀ r c, C r c = C c r) (r c : Nat)
    (hr : r < n) (hc : c < n) :
    accumulate (fun k => Tridiagonalization.packedReflector M h i r k *
        accumulate (fun l => C k l * Tridiagonalization.packedReflector M h i l c) n) n =
      C r c -
        h i * accumulate (fun l => C r l * Tridiagonalization.packedVector M i l) n *
          Tridiagonalization.packedVector M i c -
        h i * Tridiagonalization.packedVector M i r *
          accumulate (fun l => C c l * Tridiagonalization.packedVector M i l) n +
        h i * h i *
          accumulate (fun k => accumulate (fun l => C k l * Tridiagonalization.packedVector M i l) n *
            Tridiagonalization.packedVector M i k) n *
          Tridiagonalization.packedVector M i r * Tridiagonalization.packedVector M i c := by
  have hinner : ∀ k, accumulate (fun l => C k l * Tridiagonalization.packedReflector M h i l c) n =
      C k c - h i * accumulate (fun l => C k l * Tridiagonalization.packedVector M i l) n *
        Tridiagonalization.packedVector M i c :=
    fun k => mul_packedReflector_apply n M h i C k c hc
  rw [accumulate_congr _ (fun k => Tridiagonalization.packedReflector M h i r k *
      (C k c - h i * accumulate (fun l => C k l * Tridiagonalization.packedVector M i l) n *
        Tridiagonalization.packedVector M i c)) n (fun k _ => by rw [hinner k]),
    packedReflector_mul_apply n M h i
      (fun k c => C k c - h i * accumulate (fun l => C k l *
        Tridiagonalization.packedVector M i l) n * Tridiagonalization.packedVector M i c) r c hr]
  have hsum : accumulate (fun k => Tridiagonalization.packedVector M i k *
        (C k c - h i * accumulate (fun l => C k l * Tridiagonalization.packedVector M i l) n *
          Tridiagonalization.packedVector M i c)) n =
      accumulate (fun l => C c l * Tridiagonalization.packedVector M i l) n -
        h i * Tridiagonalization.packedVector M i c *
          accumulate (fun k => accumulate (fun l => C k l *
            Tridiagonalization.packedVector M i l) n *
            Tridiagonalization.packedVector M i k) n := by
    rw [← accumulate_mul_left, ← accumulate_sub]
    apply accumulate_congr
    intro k _
    rw [hC c k]
    ring
  rw [hsum]
  ring

/-- In matrix form: the state after the transformation of iteration `i`
stands for `H_i * C * H_i`. -/
theorem householderStep_similarity {K : Type} [LinearOrderedField K] (sqrt : K → K)
    (n i : Nat) (hi : i + 2 ≤ n) (st : (Nat → Nat → K) × (Nat → K))
    (hb : Tridiagonalization.stepBeta sqrt n i st.1 * Tridiagonalization.stepBeta sqrt n i st.1 =
      st.1 (i + 1) i * st.1 (i + 1) i + Tridiagonalization.v1norm2 n i st.1)
    (hb0 : Tridiagonalization.stepBeta sqrt n i st.1 ≠ 0)
    (hd : st.1 (i + 1) i - Tridiagonalization.stepBeta sqrt n i st.1 ≠ 0) :
    toMatrix n (Tridiagonalization.current (i + 1)
        (Tridiagonalization.householderStep sqrt n i st).1) =
      toMatrix n (Tridiagonalization.packedReflector
          (Tridiagonalization.householderStep sqrt n i st).1
          (Tridiagonalization.householderStep sqrt n i st).2 i) *
        (toMatrix n (Tridiagonalization.current i st.1) *
          toMatrix n (Tridiagonalization.packedReflector
            (Tridiagonalization.householderStep sqrt n i st).1
            (Tridiagonalization.householderStep sqrt n i st).2 i)) := by
  ext r c
  rw [Matrix.mul_apply]
  have hin : ∀ k : Fin n, (toMatrix n (Tridiagonalization.current i st.1) *
      toMatrix n (Tridiagonalization.packedReflector
        (Tridiagonalization.householderStep sqrt n i st).1
        (Tridiagonalization.householderStep sqrt n i st).2 i)) k c =
      accumulate (fun l => Tridiagonalization.current i st.1 k.val l *
        Tridiagonalization.packedReflector (Tridiagonalization.householderStep sqrt n i st).1
          (Tridiagonalization.householderStep sqrt n i st).2 i l c.val) n :=
    fun k => toMatrix_mul_apply n _ _ k c
  simp only [hin, toMatrix_apply]
  rw [Fin.sum_univ_eq_sum_range (fun k => Tridiagonalization.packedReflector
      (Tridiagonalization.householderStep sqrt n i st).1
      (Tridiagonalization.householderStep sqrt n i st).2 i r.val k *
      accumulate (fun l => Tridiagonalization.current i st.1 k l *
        Tridiagonalization.packedReflector (Tridiagonalization.householderStep sqrt n i st).1
          (Tridiagonalization.householderStep sqrt n i st).2 i l c.val) n) n,
    ← accumulate_eq_sum,
    packedReflector_conj_apply n _ _ i (Tridiagonalization.current i st.1)
      (fun r c => current_symm i st.1 r c) r.val c.val r.isLt c.isLt,
    householderStep_current sqrt n i hi st hb hb0 hd r.val c.val r.isLt c.isLt,
    householderStep_snd_at]
  simp only [packedVector_eq_stepVector]
  rfl

/-- When the tail of column `i` is zero the state stands for the same matrix
before and after iteration `i`. -/
theorem current_succ_of_zero_tail {K : Type} [Zero K] (n i : Nat) (M : Nat → Nat → K)
    (hz : ∀ r, i + 2 ≤ r → r < n → M r i = 0) :
    toMatrix n (Tridiagonalization.current (i + 1) M) =
      toMatrix n (Tridiagonalization.current i M) := by
  ext r c
  simp only [toMatrix_apply, Tridiagonalization.current]
  by_cases hrc : c.val ≤ r.val
  · simp only [if_pos hrc]
    by_cases h1 : c.val + 1 < r.val
    · by_cases h2 : c.val < i
      · rw [if_pos ⟨by omega, h1⟩, if_pos ⟨h2, h1⟩]
      · by_cases h3 : c.val = i
        · rw [if_pos ⟨by omega, h1⟩, if_neg (by omega), h3,
            hz r.val (by omega) r.isLt]
        · rw [if_neg (by omega), if_neg (by omega)]
    · rw [if_neg (by omega), if_neg (by omega)]
  · simp only [if_neg hrc]
    by_cases h1 : r.val + 1 < c.val
    · by_cases h2 : r.val < i
      · rw [if_pos ⟨by omega, h1⟩, if_pos ⟨h2, h1⟩]
      · by_cases h3 : r.val = i
        · rw [if_pos ⟨by omega, h1⟩, if_neg (by omega), h3,
            hz c.val (by omega) c.isLt]
        · rw [if_neg (by omega), if_neg (by omega)]
    · rw [if_neg (by omega), if_neg (by omega)]

/-- A Householder transformation with coefficient zero is the identity. -/
theorem packedReflector_of_zero {K : Type} [CommRing K] (n : Nat) (M : Nat → Nat → K)
    (h : Nat → K) (i : Nat) (h0 : h i = 0) :
    toMatrix n (Tridiagonalization.packedReflector M h i) = 1 := by
  rw [← toMatrix_identity]
  ext r c
  simp only [toMatrix_apply, Tridiagonalization.packedReflector, h0]
  ring

/-! ## The invariant of the loop of `_compute` -/

/-- An iteration of `_compute` replaces the matrix `C` that the state stands
for by `H_i * C * H_i`. -/
theorem computeStep_similarity {K : Type} [LinearOrderedField K]
    (isMuchSmallerThan : K → K → Bool) (sqrt : K → K) (n i : Nat) (hi : i + 2 ≤ n)
    (st : (Nat → Nat → K) × (Nat → K)) (hzero : isMuchSmallerThan 0 1 = true)
    (hsq : Tridiagonalization.sqrtExactAt isMuchSmallerThan sqrt n i st.1)
    (hskip : Tridiagonalization.skipsOnlyZero isMuchSmallerThan n i st.1) :
    toMatrix n (Tridiagonalization.current (i + 1)
        (Tridiagonalization.computeStep isMuchSmallerThan sqrt n i st).1) =
      toMatrix n (Tridiagonalization.packedReflector
          (Tridiagonalization.computeStep isMuchSmallerThan sqrt n i st).1
          (Tridiagonalization.computeStep isMuchSmallerThan sqrt n i st).2 i) *
        (toMatrix n (Tridiagonalization.current i st.1) *
          toMatrix n (Tridiagonalization.packedReflector
            (Tridiagonalization.computeStep isMuchSmallerThan sqrt n i st).1
            (Tridiagonalization.computeStep isMuchSmallerThan sqrt n i st).2 i)) := by
  unfold Tridiagonalization.computeStep
  by_cases hs : isMuchSmallerThan (Tridiagonalization.v1norm2 n i st.1) 1 = true
  · rw [if_pos hs]
    have h0 : (fun k => if k = i then (0 : K) else st.2 k) i = 0 := by simp
    rw [packedReflector_of_zero n st.1 _ i h0, Matrix.mul_one, Matrix.one_mul]
    exact current_succ_of_zero_tail n i st.1
      (fun r hr hrn => v1norm2_eq_zero n i st.1 (hskip hs) r hr hrn)
  · rw [if_neg hs]
    have hs' : isMuchSmallerThan (Tridiagonalization.v1norm2 n i st.1) 1 = false := by
      simpa using hs
    have hv : Tridiagonalization.v1norm2 n i st.1 ≠ 0 := by
      intro h0
      rw [h0, hzero] at hs'
      exact Bool.noConfusion hs'
    have hne : ei_abs2 (st.1 (i + 1) i) + Tridiagonalization.v1norm2 n i st.1 ≠ 0 := by
      have h1 : 0 < Tridiagonalization.v1norm2 n i st.1 :=
        lt_of_le_of_ne (v1norm2_nonneg n i st.1) (Ne.symm hv)
      have h2 : 0 ≤ ei_abs2 (st.1 (i + 1) i) := mul_self_nonneg _
      exact ne_of_gt (add_pos_of_nonneg_of_pos h2 h1)
    obtain ⟨hb, hb0, hd⟩ := stepBeta_facts sqrt n i st.1 (hsq hs') hne
    exact householderStep_similarity sqrt n i hi st hb hb0 hd

/-- The invariant of the loop of `_compute`: with `P = H_0 * … * H_(count-1)`
and `C` the matrix that the state stands for, `P * C * Pᵀ` is the matrix that
the initial state stands for. -/
theorem computeLoop_round_trip {K : Type} [LinearOrderedField K]
    (isMuchSmallerThan : K → K → Bool) (sqrt : K → K) (n count : Nat)
    (hc : count + 2 ≤ n ∨ count = 0) (st : (Nat → Nat → K) × (Nat → K))
    (hzero : isMuchSmallerThan 0 1 = true)
    (hsq : ∀ j, j < count → Tridiagonalization.sqrtExactAt isMuchSmallerThan sqrt n j
      (Tridiagonalization.computeLoop isMuchSmallerThan sqrt n j st).1)
    (hskip : ∀ j, j < count → Tridiagonalization.skipsOnlyZero isMuchSmallerThan n j
      (Tridiagonalization.computeLoop isMuchSmallerThan sqrt n j st).1) :
    Tridiagonalization.reflectorProduct n
        (Tridiagonalization.computeLoop isMuchSmallerThan sqrt n count st).1
        (Tridiagonalization.computeLoop isMuchSmallerThan sqrt n count st).2 count *
      toMatrix n (Tridiagonalization.current count
        (Tridiagonalization.computeLoop isMuchSmallerThan sqrt n count st).1) *
      (Tridiagonalization.reflectorProduct n
        (Tridiagonalization.computeLoop isMuchSmallerThan sqrt n count st).1
        (Tridiagonalization.computeLoop isMuchSmallerThan sqrt n count st).2 count).transpose =
    toMatrix n (Tridiagonalization.current 0 st.1) := by
  induction count with
  | zero => simp [Tridiagonalization.computeLoop, Tridiagonalization.reflectorProduct]
  | succ c ih =>
    have ih' := ih (by omega) (fun j hj => hsq j (by omega)) (fun j hj => hskip j (by omega))
    have hfr := computeStep_frame isMuchSmallerThan sqrt n c
      (Tridiagonalization.computeLoop isMuchSmallerThan sqrt n c st)
    have hsim := computeStep_similarity isMuchSmallerThan sqrt n c (by omega)
      (Tridiagonalization.computeLoop isMuchSmallerThan sqrt n c st) hzero
      (hsq c (Nat.lt_succ_self c)) (hskip c (Nat.lt_succ_self c))
    have hR := computeStep_reflector_property isMuchSmallerThan sqrt n c (by omega)
      (Tridiagonalization.computeLoop isMuchSmallerThan sqrt n c st) hzero
      (hsq c (Nat.lt_succ_self c))
    have hHH := packedReflector_mul_self n _ _ c hR
    have hP := reflectorProduct_congr n
      (Tridiagonalization.computeStep isMuchSmallerThan sqrt n c
        (Tridiagonalization.computeLoop isMuchSmallerThan sqrt n c st)).1
      (Tridiagonalization.computeLoop isMuchSmallerThan sqrt n c st).1
      (Tridiagonalization.computeStep isMuchSmallerThan sqrt n c
        (Tridiagonalization.computeLoop isMuchSmallerThan sqrt n c st)).2
      (Tridiagonalization.computeLoop isMuchSmallerThan sqrt n c st).2 c
      (fun r k hk => hfr.2.1 r k hk) (fun k hk => hfr.2.2 k hk)
    simp only [Tridiagonalization.computeLoop, Tridiagonalization.reflectorProduct]
    rw [hsim, hP, Matrix.transpose_mul, toMatrix_packedReflector_transpose, ← ih']
    simp only [Matrix.mul_assoc]
    rw [← Matrix.mul_assoc (toMatrix n (Tridiagonalization.packedReflector _ _ c))
        (toMatrix n (Tridiagonalization.packedReflector _ _ c)), hHH, Matrix.one_mul]
    congr 2
    rw [← Matrix.mul_assoc (toMatrix n (Tridiagonalization.packedReflector _ _ c))
        (toMatrix n (Tridiagonalization.packedReflector _ _ c)), hHH, Matrix.one_mul]

/-- The tridiagonal matrix built from `diagonal()` and `subDiagonal()` is the
matrix that the final state stands for. -/
theorem tridiagonalMatrix_eq_current {K : Type} [Zero K] (n : Nat) (hn : 2 ≤ n)
    (M : Nat → Nat → K) :
    toMatrix n (tridiagonalMatrix (Tridiagonalization.diagonal M)
        (Tridiagonalization.subDiagonal M)) =
      toMatrix n (Tridiagonalization.current (n - 2) M) := by
  ext r c
  simp only [toMatrix_apply, tridiagonalMatrix, Tridiagonalization.current,
    Tridiagonalization.diagonal, Tridiagonalization.subDiagonal]
  have hr := r.isLt
  have hc := c.isLt
  by_cases h1 : r.val = c.val
  · rw [if_pos h1, if_pos (by omega), if_neg (by omega), h1]
  · rw [if_neg h1]
    by_cases h2 : r.val = c.val + 1
    · rw [if_pos h2, if_pos (by omega), if_neg (by omega), h2, Nat.add_comm]
    · rw [if_neg h2]
      by_cases h3 : c.val = r.val + 1
      · rw [if_pos h3, if_neg (by omega), if_neg (by omega), h3, Nat.add_comm]
      · rw [if_neg h3]
        by_cases h4 : c.val ≤ r.val
        · rw [if_pos h4, if_pos (by omega)]
        · rw [if_neg h4, if_pos (by omega)]

/-- A symmetric matrix is the matrix that it stands for as an initial state. -/
theorem current_zero_of_symmetric {K : Type} [Zero K] (n : Nat) (A : Nat → Nat → K)
    (hA : ∀ r c, r < n → c < n → A r c = A c r) :
    toMatrix n (Tridiagonalization.current 0 A) = toMatrix n A := by
  ext r c
  simp only [toMatrix_apply, Tridiagonalization.current]
  by_cases h : c.val ≤ r.val
  · rw [if_pos h, if_neg (by omega)]
  · rw [if_neg h, if_neg (by omega)]
    exact hA c.val r.val c.isLt r.isLt

/-! ## The tridiagonalization of the 4 × 4 example -/

theorem seed_v1norm2_0 : Tridiagonalization.v1norm2 4 0 seedTridiagA = 8 := by
  norm_num [Tridiagonalization.v1norm2, accumulate, ei_abs2, seedTridiagA]

theorem seed_beta_0 : Tridiagonalization.stepBeta Rat.sqrt 4 0 seedTridiagA = -3 := by
  unfold Tridiagonalization.stepBeta
  rw [seed_v1norm2_0]
  have h : ei_abs2 (seedTridiagA (0 + 1) 0) + 8 = 3 * 3 := by
    norm_num [ei_abs2, seedTridiagA]
  have h0 : (0 : ℚ) ≤ seedTridiagA (0 + 1) 0 := by norm_num [seedTridiagA]
  simp only [h, Rat.sqrt_eq, if_pos h0]
  norm_num

theorem seed_h_0 : Tridiagonalization.stepH Rat.sqrt 4 0 seedTridiagA = 4 / 3 := by
  unfold Tridiagonalization.stepH
  rw [seed_beta_0]
  norm_num [seedTridiagA]

/-- Column 0 after the scaling of iteration 0: `[4, 1, -1/2, 1/2]`. -/
theorem seed_scaled_0 :
    Tridiagonalization.stepScaled Rat.sqrt 4 0 seedTridiagA 1 0 = 1 ∧
      Tridiagonalization.stepScaled Rat.sqrt 4 0 seedTridiagA 2 0 = -1 / 2 ∧
      Tridiagonalization.stepScaled Rat.sqrt 4 0 seedTridiagA 3 0 = 1 / 2 := by
  unfold Tridiagonalization.stepScaled setCoeff
  simp only [seed_beta_0]
  norm_num [seedTridiagA]

/-- The temporary vector of iteration 0 after its first assignment:
`[10/3, -10/3, 2]`. -/
theorem seed_product_0 :
    Tridiagonalization.stepProduct Rat.sqrt 4 0 seedTridiagA 0 = 10 / 3 ∧
      Tridiagonalization.stepProduct Rat.sqrt 4 0 seedTridiagA 1 = -10 / 3 ∧
      Tridiagonalization.stepProduct Rat.sqrt 4 0 seedTridiagA 2 = 2 := by
  obtain ⟨s1, s2, s3⟩ := seed_scaled_0
  unfold Tridiagonalization.stepProduct selfAdjointLower
  simp only [seed_h_0, accumulate, Nat.zero_add, Nat.add_zero, Nat.reduceAdd, Nat.reduceSub,
    Nat.reduceLeDiff, s1, s2, s3,
    stepScaled_of_col_ne Rat.sqrt 4 0 seedTridiagA _ 1 (by decide),
    stepScaled_of_col_ne Rat.sqrt 4 0 seedTridiagA _ 2 (by decide),
    stepScaled_of_col_ne Rat.sqrt 4 0 seedTridiagA _ 3 (by decide)]
  norm_num [seedTridiagA]

/-- The temporary vector of iteration 0 after its second assignment:
`[-2/3, -4/3, 0]`. -/
theorem seed_correction_0 :
    Tridiagonalization.stepCorrection Rat.sqrt 4 0 seedTridiagA 0 = -2 / 3 ∧
      Tridiagonalization.stepCorrection Rat.sqrt 4 0 seedTridiagA 1 = -4 / 3 ∧
      Tridiagonalization.stepCorrection Rat.sqrt 4 0 seedTridiagA 2 = 0 := by
  obtain ⟨s1, s2, s3⟩ := seed_scaled_0
  obtain ⟨p1, p2, p3⟩ := seed_product_0
  unfold Tridiagonalization.stepCorrection
  simp only [seed_h_0, accumulate, Nat.zero_add, Nat.add_zero, Nat.reduceAdd, Nat.reduceSub,
    s1, s2, s3, p1, p2, p3]
  norm_num

theorem seed_not_small_0 :
    isMuchSmallerThanAt precisionFloat (Tridiagonalization.v1norm2 4 0 seedTridiagA) 1 =
      false := by
  rw [seed_v1norm2_0]
  simp only [isMuchSmallerThanAt, precisionFloat, decide_eq_false_iff_not]
  norm_num

theorem seed_loop_1 (h0 : Nat → ℚ) :
    Tridiagonalization.computeLoop (isMuchSmallerThanAt precisionFloat) Rat.sqrt 4 1
        (seedTridiagA, h0) =
      Tridiagonalization.householderStep Rat.sqrt 4 0 (seedTridiagA, h0) := by
  simp only [Tridiagonalization.computeLoop, Tridiagonalization.computeStep, seed_not_small_0]
  rfl

/-- The entries of the state after iteration 0 that iteration 1 reads, and
the Householder vector of iteration 0. -/
theorem seed_state_1 (h0 : Nat → ℚ) :
    (Tridiagonalization.householderStep Rat.sqrt 4 0 (seedTridiagA, h0)).1 2 1 = 1 ∧
      (Tridiagonalization.householderStep Rat.sqrt 4 0 (seedTridiagA, h0)).1 3 1 = 4 / 3 ∧
      (Tridiagonalization.householderStep Rat.sqrt 4 0 (seedTridiagA, h0)).1 2 0 = -1 / 2 ∧
      (Tridiagonalization.householderStep Rat.sqrt 4 0 (seedTridiagA, h0)).1 3 0 = 1 / 2 ∧
      (Tridiagonalization.householderStep Rat.sqrt 4 0 (seedTridiagA, h0)).2 0 = 4 / 3 := by
  obtain ⟨s1, s2, s3⟩ := seed_scaled_0
  obtain ⟨w1, w2, w3⟩ := seed_correction_0
  refine ⟨?_, ?_, ?_, ?_, ?_⟩
  · rw [householderStep_fst_corner Rat.sqrt 4 0 _ 2 1 (by decide) (by decide) (by decide)]
    simp only [Nat.zero_add, Nat.reduceSub, s1, s2, w1, w2]
    norm_num [seedTridiagA]
  · rw [householderStep_fst_corner Rat.sqrt 4 0 _ 3 1 (by decide) (by decide) (by decide)]
    simp only [Nat.zero_add, Nat.reduceSub, s1, s3, w1, w3]
    norm_num [seedTridiagA]
  · rw [householderStep_fst_col Rat.sqrt 4 0 _ 2 (by decide)]
    exact s2
  · rw [householderStep_fst_col Rat.sqrt 4 0 _ 3 (by decide)]
    exact s3
  · rw [householderStep_snd_at]
    exact seed_h_0

theorem seed_v1norm2_1 (h0 : Nat → ℚ) :
    Tridiagonalization.v1norm2 4 1
      (Tridiagonalization.householderStep Rat.sqrt 4 0 (seedTridiagA, h0)).1 = 16 / 9 := by
  obtain ⟨_, m31, _⟩ := seed_state_1 h0
  simp only [Tridiagonalization.v1norm2, accumulate, Nat.reduceAdd, Nat.reduceSub, Nat.add_zero,
    m31, ei_abs2]
  norm_num

theorem seed_beta_1 (h0 : Nat → ℚ) :
    Tridiagonalization.stepBeta Rat.sqrt 4 1
      (Tridiagonalization.householderStep Rat.sqrt 4 0 (seedTridiagA, h0)).1 = -5 / 3 := by
  obtain ⟨m21, _⟩ := seed_state_1 h0
  unfold Tridiagonalization.stepBeta
  rw [seed_v1norm2_1]
  simp only [Nat.reduceAdd, m21]
  have h : ei_abs2 (1 : ℚ) + 16 / 9 = 5 / 3 * (5 / 3) := by norm_num [ei_abs2]
  simp only [h, Rat.sqrt_eq]
  norm_num

theorem seed_h_1 (h0 : Nat → ℚ) :
    Tridiagonalization.stepH Rat.sqrt 4 1
      (Tridiagonalization.householderStep Rat.sqrt 4 0 (seedTridiagA, h0)).1 = 8 / 5 := by
  obtain ⟨m21, _⟩ := seed_state_1 h0
  unfold Tridiagonalization.stepH
  rw [seed_beta_1]
  simp only [Nat.reduceAdd, m21]
  norm_num

theorem seed_not_small_1 (h0 : Nat → ℚ) :
    isMuchSmallerThanAt precisionFloat (Tridiagonalization.v1norm2 4 1
      (Tridiagonalization.householderStep Rat.sqrt 4 0 (seedTridiagA, h0)).1) 1 = false := by
  rw [seed_v1norm2_1]
  simp only [isMuchSmallerThanAt, precisionFloat, decide_eq_false_iff_not]
  rw [abs_of_pos (by norm_num : (0 : ℚ) < 16 / 9)]
  norm_num

theorem seed_loop_2 (h0 : Nat → ℚ) :
    Tridiagonalization.computeLoop (isMuchSmallerThanAt precisionFloat) Rat.sqrt 4 2
        (seedTridiagA, h0) =
      Tridiagonalization.householderStep Rat.sqrt 4 1
        (Tridiagonalization.householderStep Rat.sqrt 4 0 (seedTridiagA, h0)) := by
  have h : Tridiagonalization.computeLoop (isMuchSmallerThanAt precisionFloat) Rat.sqrt 4 2
      (seedTridiagA, h0) =
      Tridiagonalization.computeStep (isMuchSmallerThanAt precisionFloat) Rat.sqrt 4 1
        (Tridiagonalization.computeLoop (isMuchSmallerThanAt precisionFloat) Rat.sqrt 4 1
          (seedTridiagA, h0)) := rfl
  rw [h, seed_loop_1]
  simp only [Tridiagonalization.computeStep, seed_not_small_1]
  rfl

/-- The packed Householder vectors and coefficients of the example:
`v_0 = [0, 1, -1/2, 1/2]`, `v_1 = [0, 0, 1, 1/2]`, `h = [4/3, 8/5, 0]`. -/
theorem seed_packed (h0 : Nat → ℚ) :
    (Tridiagonalization.computeLoop (isMuchSmallerThanAt precisionFloat) Rat.sqrt 4 2
        (seedTridiagA, h0)).1 2 0 = -1 / 2 ∧
      (Tridiagonalization.computeLoop (isMuchSmallerThanAt precisionFloat) Rat.sqrt 4 2
        (seedTridiagA, h0)).1 3 0 = 1 / 2 ∧
      (Tridiagonalization.computeLoop (isMuchSmallerThanAt precisionFloat) Rat.sqrt 4 2
        (seedTridiagA, h0)).1 3 1 = 1 / 2 ∧
      (Tridiagonalization.computeLoop (isMuchSmallerThanAt precisionFloat) Rat.sqrt 4 2
        (seedTridiagA, h0)).2 0 = 4 / 3 ∧
      (Tridiagonalization.computeLoop (isMuchSmallerThanAt precisionFloat) Rat.sqrt 4 2
        (seedTridiagA, h0)).2 1 = 8 / 5 := by
  obtain ⟨m21, m31, m20, m30, c0⟩ := seed_state_1 h0
  rw [seed_loop_2]
  refine ⟨?_, ?_, ?_, ?_, ?_⟩
  · rw [householderStep_fst_before Rat.sqrt 4 1 _ 2 0 (by decide)]; exact m20
  · rw [householderStep_fst_before Rat.sqrt 4 1 _ 3 0 (by decide)]; exact m30
  · rw [householderStep_fst_col Rat.sqrt 4 1 _ 3 (by decide),
      stepScaled_col_tail Rat.sqrt 4 1 _ 3 (by decide) (by decide), seed_beta_1]
    simp only [Nat.reduceAdd, m21, m31]
    norm_num
  · rw [householderStep_snd_before Rat.sqrt 4 1 _ 0 (by decide)]; exact c0
  · rw [householderStep_snd_at]; exact seed_h_1 h0

theorem seed_symmetric : ∀ r c, r < 4 → c < 4 → seedTridiagA r c = seedTridiagA c r := by
  intro r c hr hc
  interval_cases r <;> interval_cases c <;> rfl

theorem isMuchSmallerThanAt_zero : isMuchSmallerThanAt precisionFloat 0 1 = true := by
  simp only [isMuchSmallerThanAt, precisionFloat, decide_eq_true_eq]
  norm_num

theorem seed_sqrtExact (h0 : Nat → ℚ) : ∀ j, j < 4 - 2 →
    Tridiagonalization.sqrtExactAt (isMuchSmallerThanAt precisionFloat) Rat.sqrt 4 j
      (Tridiagonalization.computeLoop (isMuchSmallerThanAt precisionFloat) Rat.sqrt 4 j
        (seedTridiagA, h0)).1 := by
  intro j hj _
  have hj' : j = 0 ∨ j = 1 := by omega
  rcases hj' with h | h
  · subst h
    have hs : ei_abs2 (seedTridiagA (0 + 1) 0) + Tridiagonalization.v1norm2 4 0 seedTridiagA =
        3 * 3 := by
      rw [seed_v1norm2_0]; norm_num [ei_abs2, seedTridiagA]
    simp only [Tridiagonalization.computeLoop, hs, Rat.sqrt_eq]
    norm_num
  · subst h
    obtain ⟨m21, _⟩ := seed_state_1 h0
    rw [seed_loop_1]
    have hs : ei_abs2 ((Tridiagonalization.householderStep Rat.sqrt 4 0 (seedTridiagA, h0)).1
          (1 + 1) 1) +
        Tridiagonalization.v1norm2 4 1
          (Tridiagonalization.householderStep Rat.sqrt 4 0 (seedTridiagA, h0)).1 =
        5 / 3 * (5 / 3) := by
      rw [seed_v1norm2_1]
      simp only [Nat.reduceAdd, m21]
      norm_num [ei_abs2]
    simp only [hs, Rat.sqrt_eq]
    norm_num

theorem seed_skips (h0 : Nat → ℚ) : ∀ j, j < 4 - 2 →
    Tridiagonalization.skipsOnlyZero (isMuchSmallerThanAt precisionFloat) 4 j
      (Tridiagonalization.computeLoop (isMuchSmallerThanAt precisionFloat) Rat.sqrt 4 j
        (seedTridiagA, h0)).1 := by
  intro j hj hsmall
  have hj' : j = 0 ∨ j = 1 := by omega
  rcases hj' with h | h
  · subst h
    have := seed_not_small_0
    simp only [Tridiagonalization.computeLoop] at hsmall
    rw [this] at hsmall
    exact Bool.noConfusion hsmall
  · subst h
    rw [seed_loop_1] at hsmall
    rw [seed_not_small_1] at hsmall
    exact Bool.noConfusion hsmall

/-! ## Claims on the tridiagonalization -/

/-- The matrix that `matrixQ` returns on the result of `_compute` is the
product of the Householder transformations of the loop. -/
theorem compute_matrixQ {K : Type} [LinearOrderedField K] (isMuchSmallerThan : K → K → Bool)
    (sqrt : K → K) (n : Nat) (hn : 2 ≤ n) (A : Nat → Nat → K) (h0 : Nat → K) :
    toMatrix n (Tridiagonalization.matrixQ n
        (Tridiagonalization.computeLoop isMuchSmallerThan sqrt n (n - 2) (A, h0)).1
        (fun k => if k = n - 2 then 0
          else (Tridiagonalization.computeLoop isMuchSmallerThan sqrt n (n - 2) (A, h0)).2 k)) =
      Tridiagonalization.reflectorProduct n
        (Tridiagonalization.computeLoop isMuchSmallerThan sqrt n (n - 2) (A, h0)).1
        (Tridiagonalization.computeLoop isMuchSmallerThan sqrt n (n - 2) (A, h0)).2 (n - 2) := by
  rw [matrixQ_eq_reflectorProduct]
  have hk : n - 1 = (n - 2) + 1 := by omega
  rw [hk]
  simp only [Tridiagonalization.reflectorProduct]
  rw [packedReflector_of_zero n _ _ (n - 2) (by simp), Matrix.mul_one]
  apply reflectorProduct_congr
  · intro r c _
    rfl
  · intro k hk
    rw [if_neg (by omega)]

/-- C15 (amended): for every symmetric matrix `A` of size `n ≥ 2` such that
every column tail that `_compute` leaves untransformed is exactly zero (and
the square roots taken are exact), with `T` the symmetric tridiagonal matrix
built from `diagonal()` and `subDiagonal()` and `Q = matrixQ()`,
`Q * T * Qᵀ = A`. -/
theorem tridiagonalization_round_trip {K : Type} [LinearOrderedField K]
    (isMuchSmallerThan : K → K → Bool) (sqrt : K → K) (n : Nat) (hn : 2 ≤ n)
    (A : Nat → Nat → K) (h0 : Nat → K) (hA : ∀ r c, r < n → c < n → A r c = A c r)
    (hzero : isMuchSmallerThan 0 1 = true)
    (hsq : ∀ j, j < n - 2 → Tridiagonalization.sqrtExactAt isMuchSmallerThan sqrt n j
      (Tridiagonalization.computeLoop isMuchSmallerThan sqrt n j (A, h0)).1)
    (hskip : ∀ j, j < n - 2 → Tridiagonalization.skipsOnlyZero isMuchSmallerThan n j
      (Tridiagonalization.computeLoop isMuchSmallerThan sqrt n j (A, h0)).1) :
    ∃ M h, Tridiagonalization._compute isMuchSmallerThan sqrt n A h0 = some (M, h) ∧
      toMatrix n (Tridiagonalization.matrixQ n M h) *
          toMatrix n (tridiagonalMatrix (Tridiagonalization.diagonal M)
            (Tridiagonalization.subDiagonal M)) *
          (toMatrix n (Tridiagonalization.matrixQ n M h)).transpose =
        toMatrix n A := by
  refine ⟨_, _, compute_eq_some isMuchSmallerThan sqrt n hn A h0, ?_⟩
  rw [compute_matrixQ isMuchSmallerThan sqrt n hn A h0, tridiagonalMatrix_eq_current n hn,
    computeLoop_round_trip isMuchSmallerThan sqrt n (n - 2) (by omega) (A, h0) hzero hsq hskip,
    current_zero_of_symmetric n A hA]

/-- C15 (amended) on `A = [[4,1,-2,2],[1,2,0,1],[-2,0,3,-2],[2,1,-2,-1]]`,
where the two square roots taken are those of `9` and `25/9`. -/
theorem tridiagonalization_round_trip_witness :
    (2 ≤ 4 ∧ (∀ r c, r < 4 → c < 4 → seedTridiagA r c = seedTridiagA c r) ∧
      isMuchSmallerThanAt precisionFloat 0 1 = true ∧
      (∀ j, j < 4 - 2 →
        Tridiagonalization.sqrtExactAt (isMuchSmallerThanAt precisionFloat) Rat.sqrt 4 j
          (Tridiagonalization.computeLoop (isMuchSmallerThanAt precisionFloat) Rat.sqrt 4 j
            (seedTridiagA, fun _ => 0)).1) ∧
      (∀ j, j < 4 - 2 →
        Tridiagonalization.skipsOnlyZero (isMuchSmallerThanAt precisionFloat) 4 j
          (Tridiagonalization.computeLoop (isMuchSmallerThanAt precisionFloat) Rat.sqrt 4 j
            (seedTridiagA, fun _ => 0)).1)) ∧
    ∃ M h, Tridiagonalization._compute (isMuchSmallerThanAt precisionFloat) Rat.sqrt 4
        seedTridiagA (fun _ => 0) = some (M, h) ∧
      toMatrix 4 (Tridiagonalization.matrixQ 4 M h) *
          toMatrix 4 (tridiagonalMatrix (Tridiagonalization.diagonal M)
            (Tridiagonalization.subDiagonal M)) *
          (toMatrix 4 (Tridiagonalization.matrixQ 4 M h)).transpose =
        toMatrix 4 seedTridiagA :=
  ⟨⟨by decide, seed_symmetric, isMuchSmallerThanAt_zero, seed_sqrtExact _, seed_skips _⟩,
    tridiagonalization_round_trip (isMuchSmallerThanAt precisionFloat) Rat.sqrt 4 (by decide)
      seedTridiagA (fun _ => 0) seed_symmetric isMuchSmallerThanAt_zero (seed_sqrtExact _)
      (seed_skips _)⟩

/-- C15 as stated fails.  For the symmetric matrix
`A = [[0,1,δ],[1,0,0],[δ,0,0]]` with `δ = 1/1000` the tail of column 0 has
squared norm `1e-6`, which is much smaller than 1 at `1e-5`: `_compute`
leaves the column as it is with `h_0 = 0`, so `Q = I`, and `Q * T * Qᵀ = T`
has the entry `(2, 0)` equal to `0`, not `δ`. -/
theorem tridiagonalization_negligible_counterexample :
    (∀ r c, nearlyTridiagonal r c = nearlyTridiagonal c r) ∧
    ∃ M h, Tridiagonalization._compute (isMuchSmallerThanAt precisionFloat) Rat.sqrt 3
        nearlyTridiagonal (fun _ => 0) = some (M, h) ∧
      (toMatrix 3 (Tridiagonalization.matrixQ 3 M h) *
          toMatrix 3 (tridiagonalMatrix (Tridiagonalization.diagonal M)
            (Tridiagonalization.subDiagonal M)) *
          (toMatrix 3 (Tridiagonalization.matrixQ 3 M h)).transpose) 2 0 = 0 ∧
      toMatrix 3 nearlyTridiagonal 2 0 = 1 / 1000 ∧
      toMatrix 3 (Tridiagonalization.matrixQ 3 M h) *
          toMatrix 3 (tridiagonalMatrix (Tridiagonalization.diagonal M)
            (Tridiagonalization.subDiagonal M)) *
          (toMatrix 3 (Tridiagonalization.matrixQ 3 M h)).transpose ≠
        toMatrix 3 nearlyTridiagonal := by
  have hv : Tridiagonalization.v1norm2 3 0 nearlyTridiagonal = 1 / 1000000 := by
    norm_num [Tridiagonalization.v1norm2, accumulate, ei_abs2, nearlyTridiagonal]
  have hsmall : isMuchSmallerThanAt precisionFloat
      (Tridiagonalization.v1norm2 3 0 nearlyTridiagonal) 1 = true := by
    rw [hv]
    simp only [isMuchSmallerThanAt, precisionFloat, decide_eq_true_eq]
    rw [abs_of_pos (by norm_num : (0 : ℚ) < 1 / 1000000)]
    norm_num
  have hloop : Tridiagonalization.computeLoop (isMuchSmallerThanAt precisionFloat) Rat.sqrt 3
      (3 - 2) (nearlyTridiagonal, fun _ => 0) =
      (nearlyTridiagonal, fun k => if k = 0 then 0 else 0) := by
    simp only [Nat.reduceSub, Tridiagonalization.computeLoop, Tridiagonalization.computeStep,
      hsmall, if_true]
  have hQ : toMatrix 3 (Tridiagonalization.matrixQ 3 nearlyTridiagonal
      (fun k => if k = 3 - 2 then (0 : ℚ) else if k = 0 then 0 else 0)) = 1 := by
    rw [matrixQ_eq_reflectorProduct]
    simp only [Nat.reduceSub, Tridiagonalization.reflectorProduct]
    rw [packedReflector_of_zero 3 _ _ 0 (by simp), packedReflector_of_zero 3 _ _ 1 (by simp)]
    simp
  have hsym : ∀ r c, nearlyTridiagonal r c = nearlyTridiagonal c r := by
    intro r c
    rcases r with _ | _ | _ | r <;> rcases c with _ | _ | _ | c <;> simp [nearlyTridiagonal]
  have hT : toMatrix 3 (tridiagonalMatrix (Tridiagonalization.diagonal nearlyTridiagonal)
      (Tridiagonalization.subDiagonal nearlyTridiagonal)) 2 0 = 0 := by
    simp [toMatrix, tridiagonalMatrix]
  have hA : toMatrix 3 nearlyTridiagonal 2 0 = 1 / 1000 := by
    simp [toMatrix, nearlyTridiagonal]
  refine ⟨hsym, nearlyTridiagonal,
    fun k => if k = 3 - 2 then (0 : ℚ) else if k = 0 then 0 else 0, ?_, ?_, hA, ?_⟩
  · rw [compute_eq_some _ _ 3 (by decide), hloop]
  · rw [hQ, Matrix.one_mul, Matrix.transpose_one, Matrix.mul_one]
    exact hT
  · rw [hQ, Matrix.one_mul, Matrix.transpose_one, Matrix.mul_one]
    intro heq
    have h20 := congrFun (congrFun heq 2) 0
    rw [hT, hA] at h20
    norm_num at h20

/-- C17: for every input matrix `A` of size `n ≥ 2`, after `_compute` the
strict upper triangle of the packed matrix is entry for entry that of `A`,
and the result does not depend on it: an input `B` with the same lower
triangle (diagonal included) gives the same lower triangle and the same
Householder coefficients. -/
theorem compute_leaves_upper_triangle {K : Type} [LinearOrderedField K]
    (isMuchSmallerThan : K → K → Bool) (sqrt : K → K) (n : Nat) (hn : 2 ≤ n)
    (A B : Nat → Nat → K) (h0 : Nat → K) (hAB : ∀ r c, c ≤ r → A r c = B r c) :
    ∃ M h N g, Tridiagonalization._compute isMuchSmallerThan sqrt n A h0 = some (M, h) ∧
      Tridiagonalization._compute isMuchSmallerThan sqrt n B h0 = some (N, g) ∧
      (∀ r c, r < c → M r c = A r c) ∧
      (∀ r c, c ≤ r → M r c = N r c) ∧
      (∀ k, h k = g k) := by
  have hc := computeLoop_congr isMuchSmallerThan sqrt n (n - 2) (A, h0) (B, h0) hAB
    (fun _ => rfl)
  refine ⟨_, _, _, _, compute_eq_some isMuchSmallerThan sqrt n hn A h0,
    compute_eq_some isMuchSmallerThan sqrt n hn B h0, ?_, hc.1, ?_⟩
  · intro r c hrc
    exact computeLoop_upper isMuchSmallerThan sqrt n (n - 2) (A, h0) r c hrc
  · intro k
    rw [hc.2 k]

/-- C17 on the 4 × 4 example and on the matrix with the same lower triangle
and the value 77 everywhere above the diagonal. -/
theorem compute_leaves_upper_triangle_witness :
    (2 ≤ 4 ∧ (∀ r c, c ≤ r → seedTridiagA r c = seedTridiagLower r c)) ∧
    ∃ M h N g, Tridiagonalization._compute (isMuchSmallerThanAt precisionFloat) Rat.sqrt 4
        seedTridiagA (fun _ => 0) = some (M, h) ∧
      Tridiagonalization._compute (isMuchSmallerThanAt precisionFloat) Rat.sqrt 4
        seedTridiagLower (fun _ => 0) = some (N, g) ∧
      (∀ r c, r < c → M r c = seedTridiagA r c) ∧
      (∀ r c, c ≤ r → M r c = N r c) ∧
      (∀ k, h k = g k) :=
  have hAB : ∀ r c, c ≤ r → seedTridiagA r c = seedTridiagLower r c := by
    intro r c hrc
    simp only [seedTridiagLower, if_pos hrc]
  ⟨⟨by decide, hAB⟩,
    compute_leaves_upper_triangle (isMuchSmallerThanAt precisionFloat) Rat.sqrt 4 (by decide)
      seedTridiagA seedTridiagLower (fun _ => 0) hAB⟩

theorem reflectorProductReversed_eq_transpose {K : Type} [CommRing K] (n : Nat)
    (M : Nat → Nat → K) (h : Nat → K) (k : Nat) :
    Tridiagonalization.reflectorProductReversed n M h k =
      (Tridiagonalization.reflectorProduct n M h k).transpose := by
  induction k with
  | zero => simp [Tridiagonalization.reflectorProductReversed, Tridiagonalization.reflectorProduct]
  | succ k ih =>
    simp only [Tridiagonalization.reflectorProductReversed, Tridiagonalization.reflectorProduct]
    rw [Matrix.transpose_mul, toMatrix_packedReflector_transpose, ih]

/-- The transformation `H_i` is the identity as soon as the leading 1 of
`v_i` falls outside the matrix. -/
theorem packedReflector_outside {K : Type} [CommRing K] (n : Nat) (M : Nat → Nat → K)
    (h : Nat → K) (i : Nat) (hi : n ≤ i + 1) :
    toMatrix n (Tridiagonalization.packedReflector M h i) = 1 := by
  rw [← toMatrix_identity]
  ext r c
  have hr : r.val ≤ i := by have := r.isLt; omega
  simp only [toMatrix_apply, Tridiagonalization.packedReflector,
    Tridiagonalization.packedVector, if_pos hr]
  ring

/-- The product `H_(n-1) * … * H_1 * H_0` is the transpose of what `matrixQ`
returns. -/
theorem reflectorProductReversed_eq_matrixQ_transpose {K : Type} [CommRing K] (n : Nat) (M : Nat → Nat → K)
    (h : Nat → K) :
    Tridiagonalization.reflectorProductReversed n M h n =
      (toMatrix n (Tridiagonalization.matrixQ n M h)).transpose := by
  rw [matrixQ_eq_reflectorProduct, ← reflectorProductReversed_eq_transpose]
  rcases n with _ | m
  · rfl
  · simp only [Tridiagonalization.reflectorProductReversed, Nat.add_sub_cancel]
    rw [packedReflector_outside (m + 1) M h m (le_refl _), Matrix.one_mul]

/-- C18 (amended): for every size `n`, packed matrix `M` and coefficients
`h`, `matrixQ()` returns `Q = H_0 * H_1 * … * H_(n-2)` (the product taken in
that order), where `H_i = I - h_i * v_i * v_i'` and
`v_i = [0, …, 0, 1, M(i+2,i), …, M(n-1,i)]`; the product
`H_(n-1) * … * H_1 * H_0` of the documentation is the transpose of `Q`. -/
theorem matrixQ_is_forward_product {K : Type} [CommRing K] (n : Nat) (M : Nat → Nat → K)
    (h : Nat → K) :
    toMatrix n (Tridiagonalization.matrixQ n M h) =
        Tridiagonalization.reflectorProduct n M h (n - 1) ∧
      Tridiagonalization.reflectorProductReversed n M h n =
        (toMatrix n (Tridiagonalization.matrixQ n M h)).transpose := by
  exact ⟨matrixQ_eq_reflectorProduct n M h, reflectorProductReversed_eq_matrixQ_transpose n M h⟩

/-- C18 as stated fails.  On the packed result of
`A = [[4,1,-2,2],[1,2,0,1],[-2,0,3,-2],[2,1,-2,-1]]`, where
`v_0 = [0,1,-1/2,1/2]`, `v_1 = [0,0,1,1/2]` and `h = [4/3, 8/5, 0]`,
`matrixQ()` has the entry `(1, 2)` equal to `2/15`, whereas the product
`H_3 * H_2 * H_1 * H_0` has `2/3` there. -/
theorem matrixQ_documented_order_counterexample :
    ∃ M h, Tridiagonalization._compute (isMuchSmallerThanAt precisionFloat) Rat.sqrt 4
        seedTridiagA (fun _ => 0) = some (M, h) ∧
      toMatrix 4 (Tridiagonalization.matrixQ 4 M h) 1 2 = 2 / 15 ∧
      Tridiagonalization.reflectorProductReversed 4 M h 4 1 2 = 2 / 3 ∧
      toMatrix 4 (Tridiagonalization.matrixQ 4 M h) ≠
        Tridiagonalization.reflectorProductReversed 4 M h 4 := by
  obtain ⟨m20, m30, m31, c0, c1⟩ := seed_packed (fun _ => (0 : ℚ))
  have hQ : toMatrix 4 (Tridiagonalization.matrixQ 4
      (Tridiagonalization.computeLoop (isMuchSmallerThanAt precisionFloat) Rat.sqrt 4 2
        (seedTridiagA, fun _ => 0)).1
      (fun k => if k = 2 then 0
        else (Tridiagonalization.computeLoop (isMuchSmallerThanAt precisionFloat) Rat.sqrt 4 2
          (seedTridiagA, fun _ => 0)).2 k)) =
      toMatrix 4 (Tridiagonalization.packedReflector
        (Tridiagonalization.computeLoop (isMuchSmallerThanAt precisionFloat) Rat.sqrt 4 2
          (seedTridiagA, fun _ => 0)).1
        (fun k => if k = 2 then 0
          else (Tridiagonalization.computeLoop (isMuchSmallerThanAt precisionFloat) Rat.sqrt 4 2
            (seedTridiagA, fun _ => 0)).2 k) 0) *
      toMatrix 4 (Tridiagonalization.packedReflector
        (Tridiagonalization.computeLoop (isMuchSmallerThanAt precisionFloat) Rat.sqrt 4 2
          (seedTridiagA, fun _ => 0)).1
        (fun k => if k = 2 then 0
          else (Tridiagonalization.computeLoop (isMuchSmallerThanAt precisionFloat) Rat.sqrt 4 2
            (seedTridiagA, fun _ => 0)).2 k) 1) := by
    rw [matrixQ_eq_reflectorProduct]
    simp only [Nat.reduceSub, Tridiagonalization.reflectorProduct]
    rw [packedReflector_of_zero 4 _ _ 2 (by simp), Matrix.mul_one, Matrix.one_mul]
  have h12 : toMatrix 4 (Tridiagonalization.matrixQ 4
      (Tridiagonalization.computeLoop (isMuchSmallerThanAt precisionFloat) Rat.sqrt 4 2
        (seedTridiagA, fun _ => 0)).1
      (fun k => if k = 2 then 0
        else (Tridiagonalization.computeLoop (isMuchSmallerThanAt precisionFloat) Rat.sqrt 4 2
          (seedTridiagA, fun _ => 0)).2 k)) 1 2 = 2 / 15 := by
    rw [hQ, toMatrix_mul_apply]
    simp only [accumulate, Tridiagonalization.packedReflector, Tridiagonalization.packedVector,
      identity, m20, m30, m31, c0, c1]
    norm_num
  have h21 : toMatrix 4 (Tridiagonalization.matrixQ 4
      (Tridiagonalization.computeLoop (isMuchSmallerThanAt precisionFloat) Rat.sqrt 4 2
        (seedTridiagA, fun _ => 0)).1
      (fun k => if k = 2 then 0
        else (Tridiagonalization.computeLoop (isMuchSmallerThanAt precisionFloat) Rat.sqrt 4 2
          (seedTridiagA, fun _ => 0)).2 k)) 2 1 = 2 / 3 := by
    rw [hQ, toMatrix_mul_apply]
    simp only [accumulate, Tridiagonalization.packedReflector, Tridiagonalization.packedVector,
      identity, m20, m30, m31, c0, c1]
    norm_num
    rw [m20]
    norm_num
  refine ⟨_, _, compute_eq_some _ _ 4 (by decide) seedTridiagA _, h12, ?_, ?_⟩
  · rw [(reflectorProductReversed_eq_matrixQ_transpose 4 _ _), Matrix.transpose_apply]
    exact h21
  · intro heq
    have h := congrFun (congrFun heq 1) 2
    rw [h12, reflectorProductReversed_eq_matrixQ_transpose 4 _ _, Matrix.transpose_apply,
      h21] at h
    norm_num at h

/-! ## Claims on the decomposition in place -/

/-- The orthogonal factor that the closed-form path returns when it does not
transform the matrix is the identity. -/
theorem decomposeInPlace3x3_skip_identity {K : Type} [LinearOrderedField K]
    (isMuchSmallerThan : K → K → Bool) (sqrt : K → K) (A : Nat → Nat → K)
    (diag subdiag : Nat → K) (hs : isMuchSmallerThan (ei_abs2 (A 0 2)) 1 = true) :
    toMatrix 3 (Tridiagonalization._decomposeInPlace3x3 isMuchSmallerThan sqrt A diag subdiag
        true).1 = 1 := by
  unfold Tridiagonalization._decomposeInPlace3x3
  simp only [hs, if_true]
  ext r c
  fin_cases r <;> fin_cases c <;> simp [toMatrix, identity]

/-- The tridiagonal factor that the closed-form path returns when it does not
transform the matrix is the matrix itself, as long as its entry `(0, 2)` is
zero. -/
theorem decomposeInPlace3x3_skip {K : Type} [LinearOrderedField K]
    (isMuchSmallerThan : K → K → Bool) (sqrt : K → K) (A : Nat → Nat → K)
    (diag subdiag : Nat → K) (hA : ∀ r c, r < 3 → c < 3 → A r c = A c r)
    (hs : isMuchSmallerThan (ei_abs2 (A 0 2)) 1 = true) (h02 : A 0 2 = 0) :
    toMatrix 3 (tridiagonalMatrix
        (Tridiagonalization._decomposeInPlace3x3 isMuchSmallerThan sqrt A diag subdiag true).2.1
        (Tridiagonalization._decomposeInPlace3x3 isMuchSmallerThan sqrt A diag subdiag
          true).2.2) = toMatrix 3 A := by
  have h10 := hA 1 0 (by decide) (by decide)
  have h20 := hA 2 0 (by decide) (by decide)
  have h21 := hA 2 1 (by decide) (by decide)
  unfold Tridiagonalization._decomposeInPlace3x3
  simp only [hs, if_true]
  ext r c
  fin_cases r <;> fin_cases c <;>
    simp [toMatrix, tridiagonalMatrix, Function.update, h10, h20, h21, h02]

/-- The identities behind the closed form: with `c² + s² = 1`, `β c = a01`
and `β s = a02`, the reflection `[[c, s], [s, -c]]` carries the transformed
2 × 2 block back to the original one. -/
theorem closedForm_identities {K : Type} [CommRing K] (a11 a12 a22 c s : K)
    (hcs : c * c + s * s = 1) :
    c * (c * (a11 + s * (2 * c * a12 + s * (a22 - a11))) +
        s * (a12 - c * (2 * c * a12 + s * (a22 - a11)))) +
      s * (c * (a12 - c * (2 * c * a12 + s * (a22 - a11))) +
        s * (a22 - s * (2 * c * a12 + s * (a22 - a11)))) = a11 ∧
    s * (c * (a11 + s * (2 * c * a12 + s * (a22 - a11))) +
        s * (a12 - c * (2 * c * a12 + s * (a22 - a11)))) -
      c * (c * (a12 - c * (2 * c * a12 + s * (a22 - a11))) +
        s * (a22 - s * (2 * c * a12 + s * (a22 - a11)))) = a12 ∧
    s * (s * (a11 + s * (2 * c * a12 + s * (a22 - a11))) -
        c * (a12 - c * (2 * c * a12 + s * (a22 - a11)))) -
      c * (s * (a12 - c * (2 * c * a12 + s * (a22 - a11))) -
        c * (a22 - s * (2 * c * a12 + s * (a22 - a11)))) = a22 := by
  refine ⟨?_, ?_, ?_⟩
  · linear_combination (a11 - (2 * c * a12 + s * (a22 - a11)) * s) * hcs
  · linear_combination (c * (2 * c * a12 + s * (a22 - a11)) + a12) * hcs
  · linear_combination (a22 + (2 * c * a12 + s * (a22 - a11)) * s) * hcs

/-- The factors that the closed-form path returns when it transforms the
matrix. -/
theorem decomposeInPlace3x3_transform {K : Type} [LinearOrderedField K]
    (isMuchSmallerThan : K → K → Bool) (sqrt : K → K) (A : Nat → Nat → K)
    (diag subdiag : Nat → K) (hA : ∀ r c, r < 3 → c < 3 → A r c = A c r)
    (hs : isMuchSmallerThan (ei_abs2 (A 0 2)) 1 = false)
    (hb : sqrt (ei_abs2 (A 0 1) + ei_abs2 (A 0 2)) * sqrt (ei_abs2 (A 0 1) + ei_abs2 (A 0 2)) =
      ei_abs2 (A 0 1) + ei_abs2 (A 0 2))
    (hb0 : sqrt (ei_abs2 (A 0 1) + ei_abs2 (A 0 2)) ≠ 0) :
    toMatrix 3 (Tridiagonalization._decomposeInPlace3x3 isMuchSmallerThan sqrt A diag subdiag
        true).1 *
      (toMatrix 3 (Tridiagonalization._decomposeInPlace3x3 isMuchSmallerThan sqrt A diag subdiag
        true).1).transpose = 1 ∧
    toMatrix 3 (Tridiagonalization._decomposeInPlace3x3 isMuchSmallerThan sqrt A diag subdiag
        true).1 *
      toMatrix 3 (tridiagonalMatrix
        (Tridiagonalization._decomposeInPlace3x3 isMuchSmallerThan sqrt A diag subdiag true).2.1
        (Tridiagonalization._decomposeInPlace3x3 isMuchSmallerThan sqrt A diag subdiag
          true).2.2) *
      (toMatrix 3 (Tridiagonalization._decomposeInPlace3x3 isMuchSmallerThan sqrt A diag subdiag
        true).1).transpose = toMatrix 3 A := by
  have h10 := hA 1 0 (by decide) (by decide)
  have h20 := hA 2 0 (by decide) (by decide)
  have h21 := hA 2 1 (by decide) (by decide)
  unfold Tridiagonalization._decomposeInPlace3x3
  simp only [hs, Bool.false_eq_true, if_false, if_true]
  generalize sqrt (ei_abs2 (A 0 1) + ei_abs2 (A 0 2)) = β at hb hb0
  simp only [ei_abs2] at hb
  have hm1 : β * (A 0 1 * (1 / β)) = A 0 1 := by field_simp
  have hm2 : β * (A 0 2 * (1 / β)) = A 0 2 := by field_simp
  have hcs : A 0 1 * (1 / β) * (A 0 1 * (1 / β)) + A 0 2 * (1 / β) * (A 0 2 * (1 / β)) = 1 := by
    field_simp
    linear_combination -hb
  generalize A 0 1 * (1 / β) = c at hm1 hcs
  generalize A 0 2 * (1 / β) = s at hm2 hcs
  obtain ⟨i11, i12, i22⟩ := closedForm_identities (A 1 1) (A 1 2) (A 2 2) c s hcs
  constructor
  · ext r c'
    fin_cases r <;> fin_cases c' <;>
      simp [toMatrix, Matrix.mul_apply, Fin.sum_univ_three, Matrix.one_apply]
    · exact hcs
    · ring
    · ring
    · linear_combination hcs
  · ext r c'
    fin_cases r <;> fin_cases c'
    · simp [toMatrix, tridiagonalMatrix, Matrix.mul_apply, Fin.sum_univ_three]
    · simp [toMatrix, tridiagonalMatrix, Matrix.mul_apply, Fin.sum_univ_three]
      linear_combination hm1
    · simp [toMatrix, tridiagonalMatrix, Matrix.mul_apply, Fin.sum_univ_three]
      linear_combination hm2
    · simp [toMatrix, tridiagonalMatrix, Matrix.mul_apply, Fin.sum_univ_three, h10]
      linear_combination hm1
    · simp [toMatrix, tridiagonalMatrix, Matrix.mul_apply, Fin.sum_univ_three]
      linear_combination i11
    · simp [toMatrix, tridiagonalMatrix, Matrix.mul_apply, Fin.sum_univ_three]
      linear_combination i12
    · simp [toMatrix, tridiagonalMatrix, Matrix.mul_apply, Fin.sum_univ_three, h20]
      linear_combination hm2
    · simp [toMatrix, tridiagonalMatrix, Matrix.mul_apply, Fin.sum_univ_three, h21]
      linear_combination i12
    · simp [toMatrix, tridiagonalMatrix, Matrix.mul_apply, Fin.sum_univ_three]
      linear_combination i22

/-- C19 (amended): for every real symmetric 3 × 3 matrix `A` whose entry
`A(0,2)` is zero or not negligible (its square is not much smaller than 1),
`decomposeInPlace(mat = A, diag, subdiag, extractQ = true)` takes the
closed-form 3 × 3 path and returns an orthogonal `Q` in `mat` and a
tridiagonal `T` (diagonal `diag`, sub-diagonal `subdiag`) with
`Q * T * Qᵀ = A`. -/
theorem decomposeInPlace_closed_form {K : Type} [LinearOrderedField K]
    (isMuchSmallerThan : K → K → Bool) (sqrt : K → K) (A : Nat → Nat → K)
    (diag subdiag hCoeffs : Nat → K) (hA : ∀ r c, r < 3 → c < 3 → A r c = A c r)
    (hzero : isMuchSmallerThan 0 1 = true)
    (hskip : isMuchSmallerThan (ei_abs2 (A 0 2)) 1 = true → A 0 2 = 0)
    (hsq : isMuchSmallerThan (ei_abs2 (A 0 2)) 1 = false →
      sqrt (ei_abs2 (A 0 1) + ei_abs2 (A 0 2)) * sqrt (ei_abs2 (A 0 1) + ei_abs2 (A 0 2)) =
        ei_abs2 (A 0 1) + ei_abs2 (A 0 2)) :
    ∃ Q d e, Tridiagonalization.decomposeInPlace isMuchSmallerThan sqrt 3 A diag subdiag hCoeffs
        true = some (Q, d, e) ∧
      (Q, d, e) = Tridiagonalization._decomposeInPlace3x3 isMuchSmallerThan sqrt A diag subdiag
        true ∧
      toMatrix 3 Q * (toMatrix 3 Q).transpose = 1 ∧
      toMatrix 3 Q * toMatrix 3 (tridiagonalMatrix d e) * (toMatrix 3 Q).transpose =
        toMatrix 3 A := by
  refine ⟨(Tridiagonalization._decomposeInPlace3x3 isMuchSmallerThan sqrt A diag subdiag true).1,
    (Tridiagonalization._decomposeInPlace3x3 isMuchSmallerThan sqrt A diag subdiag true).2.1,
    (Tridiagonalization._decomposeInPlace3x3 isMuchSmallerThan sqrt A diag subdiag true).2.2,
    ?_, rfl, ?_⟩
  · unfold Tridiagonalization.decomposeInPlace
    rw [if_pos rfl]
  · by_cases hs : isMuchSmallerThan (ei_abs2 (A 0 2)) 1 = true
    · rw [decomposeInPlace3x3_skip_identity isMuchSmallerThan sqrt A diag subdiag hs,
        decomposeInPlace3x3_skip isMuchSmallerThan sqrt A diag subdiag hA hs (hskip hs)]
      simp
    · have hs' : isMuchSmallerThan (ei_abs2 (A 0 2)) 1 = false := by simpa using hs
      have h2 : ei_abs2 (A 0 2) ≠ 0 := by
        intro h0
        rw [h0, hzero] at hs'
        exact Bool.noConfusion hs'
      have hpos : 0 < ei_abs2 (A 0 1) + ei_abs2 (A 0 2) :=
        add_pos_of_nonneg_of_pos (mul_self_nonneg _)
          (lt_of_le_of_ne (mul_self_nonneg _) (Ne.symm h2))
      have hb0 : sqrt (ei_abs2 (A 0 1) + ei_abs2 (A 0 2)) ≠ 0 := by
        intro h0
        have := hsq hs'
        rw [h0, mul_zero] at this
        exact (ne_of_gt hpos) this.symm
      exact decomposeInPlace3x3_transform isMuchSmallerThan sqrt A diag subdiag hA hs'
        (hsq hs') hb0

/-- C19 (amended) on `A = [[1,3,4],[3,2,1],[4,1,0]]`, where the square root
taken is that of `25`. -/
theorem decomposeInPlace_closed_form_witness :
    ((∀ r c, r < 3 → c < 3 → seedSymmetric3 r c = seedSymmetric3 c r) ∧
      isMuchSmallerThanAt precisionFloat 0 1 = true ∧
      (isMuchSmallerThanAt precisionFloat (ei_abs2 (seedSymmetric3 0 2)) 1 = true →
        seedSymmetric3 0 2 = 0) ∧
      (isMuchSmallerThanAt precisionFloat (ei_abs2 (seedSymmetric3 0 2)) 1 = false →
        Rat.sqrt (ei_abs2 (seedSymmetric3 0 1) + ei_abs2 (seedSymmetric3 0 2)) *
            Rat.sqrt (ei_abs2 (seedSymmetric3 0 1) + ei_abs2 (seedSymmetric3 0 2)) =
          ei_abs2 (seedSymmetric3 0 1) + ei_abs2 (seedSymmetric3 0 2))) ∧
    ∃ Q d e, Tridiagonalization.decomposeInPlace (isMuchSmallerThanAt precisionFloat) Rat.sqrt 3
        seedSymmetric3 (fun _ => 0) (fun _ => 0) (fun _ => 0) true = some (Q, d, e) ∧
      (Q, d, e) = Tridiagonalization._decomposeInPlace3x3 (isMuchSmallerThanAt precisionFloat)
        Rat.sqrt seedSymmetric3 (fun _ => 0) (fun _ => 0) true ∧
      toMatrix 3 Q * (toMatrix 3 Q).transpose = 1 ∧
      toMatrix 3 Q * toMatrix 3 (tridiagonalMatrix d e) * (toMatrix 3 Q).transpose =
        toMatrix 3 seedSymmetric3 :=
  have hsym : ∀ r c, r < 3 → c < 3 → seedSymmetric3 r c = seedSymmetric3 c r := by
    intro r c hr hc
    interval_cases r <;> interval_cases c <;> rfl
  have hns : isMuchSmallerThanAt precisionFloat (ei_abs2 (seedSymmetric3 0 2)) 1 = false := by
    have h : ei_abs2 (seedSymmetric3 0 2) = 16 := by norm_num [ei_abs2, seedSymmetric3]
    rw [h]
    simp only [isMuchSmallerThanAt, precisionFloat, decide_eq_false_iff_not]
    rw [abs_of_pos (by norm_num : (0 : ℚ) < 16)]
    norm_num
  have hskip : isMuchSmallerThanAt precisionFloat (ei_abs2 (seedSymmetric3 0 2)) 1 = true →
      seedSymmetric3 0 2 = 0 := by
    intro h
    rw [hns] at h
    exact Bool.noConfusion h
  have hsq : isMuchSmallerThanAt precisionFloat (ei_abs2 (seedSymmetric3 0 2)) 1 = false →
      Rat.sqrt (ei_abs2 (seedSymmetric3 0 1) + ei_abs2 (seedSymmetric3 0 2)) *
          Rat.sqrt (ei_abs2 (seedSymmetric3 0 1) + ei_abs2 (seedSymmetric3 0 2)) =
        ei_abs2 (seedSymmetric3 0 1) + ei_abs2 (seedSymmetric3 0 2) := by
    intro _
    have h : ei_abs2 (seedSymmetric3 0 1) + ei_abs2 (seedSymmetric3 0 2) = 5 * 5 := by
      norm_num [ei_abs2, seedSymmetric3]
    rw [h, Rat.sqrt_eq]
    norm_num
  ⟨⟨hsym, isMuchSmallerThanAt_zero, hskip, hsq⟩,
    decomposeInPlace_closed_form (isMuchSmallerThanAt precisionFloat) Rat.sqrt seedSymmetric3
      (fun _ => 0) (fun _ => 0) (fun _ => 0) hsym isMuchSmallerThanAt_zero hskip hsq⟩

/-- C19 as stated fails.  For the symmetric matrix
`A = [[0,1,δ],[1,0,0],[δ,0,0]]` with `δ = 1/1000`, `|A(0,2)|²` is much smaller
than 1 at `1e-5`: the closed-form path returns `Q = I` and the tridiagonal
`T` with diagonal `[0,0,0]` and sub-diagonal `[1,0]`, so `Q * T * Qᵀ` has the
entry `(2, 0)` equal to `0`, not `δ`. -/
theorem decomposeInPlace_negligible_counterexample :
    (∀ r c, nearlyTridiagonal r c = nearlyTridiagonal c r) ∧
    ∃ Q d e, Tridiagonalization.decomposeInPlace (isMuchSmallerThanAt precisionFloat) Rat.sqrt 3
        nearlyTridiagonal (fun _ => 0) (fun _ => 0) (fun _ => 0) true = some (Q, d, e) ∧
      toMatrix 3 Q = 1 ∧
      (toMatrix 3 Q * toMatrix 3 (tridiagonalMatrix d e) * (toMatrix 3 Q).transpose) 2 0 = 0 ∧
      toMatrix 3 nearlyTridiagonal 2 0 = 1 / 1000 ∧
      toMatrix 3 Q * toMatrix 3 (tridiagonalMatrix d e) * (toMatrix 3 Q).transpose ≠
        toMatrix 3 nearlyTridiagonal := by
  have hsmall : isMuchSmallerThanAt precisionFloat (ei_abs2 (nearlyTridiagonal 0 2)) 1 =
      true := by
    have h : ei_abs2 (nearlyTridiagonal 0 2) = 1 / 1000000 := by
      norm_num [ei_abs2, nearlyTridiagonal]
    rw [h]
    simp only [isMuchSmallerThanAt, precisionFloat, decide_eq_true_eq]
    rw [abs_of_pos (by norm_num : (0 : ℚ) < 1 / 1000000)]
    norm_num
  have hsym : ∀ r c, nearlyTridiagonal r c = nearlyTridiagonal c r := by
    intro r c
    rcases r with _ | _ | _ | r <;> rcases c with _ | _ | _ | c <;> simp [nearlyTridiagonal]
  have hQ := decomposeInPlace3x3_skip_identity (isMuchSmallerThanAt precisionFloat) Rat.sqrt
    nearlyTridiagonal (fun _ => 0) (fun _ => 0) hsmall
  have hA : toMatrix 3 nearlyTridiagonal 2 0 = 1 / 1000 := by
    simp [toMatrix, nearlyTridiagonal]
  have hT : ∀ d e : Nat → ℚ, toMatrix 3 (tridiagonalMatrix d e) 2 0 = 0 := by
    intro d e
    simp [toMatrix, tridiagonalMatrix]
  refine ⟨hsym,
    (Tridiagonalization._decomposeInPlace3x3 (isMuchSmallerThanAt precisionFloat) Rat.sqrt
      nearlyTridiagonal (fun _ => 0) (fun _ => 0) true).1,
    (Tridiagonalization._decomposeInPlace3x3 (isMuchSmallerThanAt precisionFloat) Rat.sqrt
      nearlyTridiagonal (fun _ => 0) (fun _ => 0) true).2.1,
    (Tridiagonalization._decomposeInPlace3x3 (isMuchSmallerThanAt precisionFloat) Rat.sqrt
      nearlyTridiagonal (fun _ => 0) (fun _ => 0) true).2.2, ?_, hQ, ?_, hA, ?_⟩
  · unfold Tridiagonalization.decomposeInPlace
    rw [if_pos rfl]
  · rw [hQ, Matrix.one_mul, Matrix.transpose_one, Matrix.mul_one]
    exact hT _ _
  · rw [hQ, Matrix.one_mul, Matrix.transpose_one, Matrix.mul_one]
    intro heq
    have h20 := congrFun (congrFun heq 2) 0
    rw [hT, hA] at h20
    norm_num at h20

/-! ## Claims on the upper bidiagonalization and on uninitialised objects -/

/-- On a matrix without columns the exit test `k == cols-1` of the loop of
`compute` never holds: no amount of iterations lets the loop leave. -/
theorem computeLoop_zero_cols {K : Type} (kern : HouseholderKernels K) (rows : Nat)
    (fuel : Nat) :
    ∀ (k : Nat) (st : ((Nat → Nat → K) × BandMatrix K) × List ReflectorStep),
      UpperBidiagonalization.computeLoop kern rows 0 fuel k st = none := by
  induction fuel with
  | zero =>
    intro k st
    rfl
  | succ fuel ih =>
    intro k st
    obtain ⟨st, log⟩ := st
    have h : ¬ ((k : Int) = ((0 : Nat) : Int) - 1) := by omega
    simp only [UpperBidiagonalization.computeLoop, if_neg h]
    exact ih _ _

/-- Every use of `m_householder` made for the left reflector of index
`k < cols` lies inside the matrix, when `cols ≤ rows`. -/
theorem leftAccesses_inside (rows cols k : Nat) (hk : k < cols) (hrc : cols ≤ rows) :
    ∀ a ∈ UpperBidiagonalization.leftAccesses rows cols k, a.inside rows cols := by
  intro a ha
  simp only [UpperBidiagonalization.leftAccesses, List.mem_cons, List.mem_singleton,
    List.mem_nil_iff, or_false] at ha
  rcases ha with h | h | h | h | h <;> subst h <;>
    simp only [MatrixAccess.inside] <;> omega

/-- Every use of `m_householder` made for the right reflector of index
`k < cols - 1` lies inside the matrix, when `cols ≤ rows`. -/
theorem rightAccesses_inside (rows cols k : Nat) (hk : k + 1 < cols) (hrc : cols ≤ rows) :
    ∀ a ∈ UpperBidiagonalization.rightAccesses rows cols k, a.inside rows cols := by
  intro a ha
  simp only [UpperBidiagonalization.rightAccesses, List.mem_cons, List.mem_singleton,
    List.mem_nil_iff, or_false] at ha
  rcases ha with h | h | h | h | h <;> subst h <;>
    simp only [MatrixAccess.inside] <;> omega

/-- The loop of `compute` from the index `k < cols`, with `cols ≤ rows` and at
least `cols - k` iterations allowed: it leaves, having made the left
reflectors `k, …, cols - 1` and the right reflectors `k, …, cols - 2` in
increasing order, with every use of `m_householder` inside the matrix. -/
theorem computeLoop_schedule {K : Type} (kern : HouseholderKernels K) (rows cols : Nat)
    (hrc : cols ≤ rows) (n : Nat) :
    ∀ (k fuel : Nat) (st : (Nat → Nat → K) × BandMatrix K) (log : List ReflectorStep),
      k + 1 + n = cols → cols - k ≤ fuel →
      ∃ st1 made, UpperBidiagonalization.computeLoop kern rows cols fuel k (st, log) =
          some (st1, log ++ made) ∧
        reflectorIndices true made = List.range' k (cols - k) ∧
        reflectorIndices false made = List.range' k (cols - 1 - k) ∧
        ∀ s ∈ made, ∀ a ∈ s.accesses, a.inside rows cols := by
  induction n with
  | zero =>
    intro k fuel st log hk hf
    obtain ⟨fuel, rfl⟩ : ∃ f, fuel = f + 1 := ⟨fuel - 1, by omega⟩
    have h : (k : Int) = (cols : Int) - 1 := by omega
    refine ⟨UpperBidiagonalization.leftStep kern rows cols k st,
      [ReflectorStep.mk true k (UpperBidiagonalization.leftAccesses rows cols k)],
      by simp only [UpperBidiagonalization.computeLoop, if_pos h], ?_, ?_, ?_⟩
    · have h1 : cols - k = 1 := by omega
      rw [h1]
      rfl
    · have h1 : cols - 1 - k = 0 := by omega
      rw [h1]
      rfl
    · intro s hs a ha
      rw [List.mem_singleton] at hs
      subst hs
      exact leftAccesses_inside rows cols k (by omega) hrc a ha
  | succ n ih =>
    intro k fuel st log hk hf
    obtain ⟨fuel, rfl⟩ : ∃ f, fuel = f + 1 := ⟨fuel - 1, by omega⟩
    have h : ¬ ((k : Int) = (cols : Int) - 1) := by omega
    obtain ⟨st1, made, hrun, hl, hr, hin⟩ := ih (k + 1) fuel
      (UpperBidiagonalization.rightStep kern rows cols k
        (UpperBidiagonalization.leftStep kern rows cols k st))
      ((log ++ [ReflectorStep.mk true k (UpperBidiagonalization.leftAccesses rows cols k)]) ++
        [ReflectorStep.mk false k (UpperBidiagonalization.rightAccesses rows cols k)])
      (by omega) (by omega)
    refine ⟨st1,
      ReflectorStep.mk true k (UpperBidiagonalization.leftAccesses rows cols k) ::
        ReflectorStep.mk false k (UpperBidiagonalization.rightAccesses rows cols k) :: made,
      ?_, ?_, ?_, ?_⟩
    · simp only [UpperBidiagonalization.computeLoop, if_neg h]
      rw [hrun]
      simp
    · have h1 : cols - k = (cols - (k + 1)) + 1 := by omega
      rw [h1, List.range'_succ, ← hl]
      rfl
    · have h1 : cols - 1 - k = (cols - 1 - (k + 1)) + 1 := by omega
      rw [h1, List.range'_succ, ← hr]
      rfl
    · intro s hs a ha
      rw [List.mem_cons, List.mem_cons] at hs
      rcases hs with hs | hs | hs
      · subst hs
        exact leftAccesses_inside rows cols k (by omega) hrc a ha
      · subst hs
        exact rightAccesses_inside rows cols k (by omega) hrc a ha
      · exact hin s hs a ha

/-- On a matrix with `rows ≥ cols ≥ 1`, `compute` returns once its loop is
allowed `cols` iterations: it has made exactly the left reflectors
`0, …, cols - 1` and the right reflectors `0, …, cols - 2`, every use of
`m_householder` lies inside the `rows × cols` matrix, and the object is
initialised. -/
theorem compute_makes_all_reflectors {K : Type} (kern : HouseholderKernels K) (fuel : Nat)
    (self : UpperBidiagonalization K) (rows cols : Nat) (matrix : Nat → Nat → K)
    (hc : 1 ≤ cols) (hrc : cols ≤ rows) (hf : cols ≤ fuel) :
    ∃ out log, UpperBidiagonalization.compute kern fuel self rows cols matrix =
        ComputeOutcome.finished out log ∧
      out.m_isInitialized = true ∧
      reflectorIndices true log = List.range cols ∧
      reflectorIndices false log = List.range (cols - 1) ∧
      ∀ s ∈ log, ∀ a ∈ s.accesses, a.inside rows cols := by
  obtain ⟨st1, made, hrun, hl, hr, hin⟩ := computeLoop_schedule kern rows cols hrc (cols - 1) 0
    fuel (matrix, self.m_bidiagonal) [] (by omega) (by omega)
  have hlt : ¬ rows < cols := by omega
  refine ⟨UpperBidiagonalization.mk rows cols st1.1 st1.2 true, made, ?_, ?_, ?_, ?_, hin⟩
  · simp only [UpperBidiagonalization.compute, if_neg hlt, hrun, List.nil_append]
  · rfl
  · rw [hl, List.range_eq_range', Nat.sub_zero]
  · rw [hr, List.range_eq_range', Nat.sub_zero]

/-- C20: `UpperBidiagonalization::compute` fails by its assertion if and only
if the input has `rows < cols`, and the object that the failed call leaves is
the object as it was before the call: `m_householder`, `m_bidiagonal` and
`m_isInitialized` are unchanged. -/
theorem compute_assertion_iff_rows_lt_cols {K : Type} (kern : HouseholderKernels K)
    (fuel : Nat) (self : UpperBidiagonalization K) (rows cols : Nat)
    (matrix : Nat → Nat → K) :
    ((∃ left, UpperBidiagonalization.compute kern fuel self rows cols matrix =
        ComputeOutcome.assertionFailed left) ↔ rows < cols) ∧
    (∀ left, UpperBidiagonalization.compute kern fuel self rows cols matrix =
        ComputeOutcome.assertionFailed left →
      left.m_householder = self.m_householder ∧ left.m_bidiagonal = self.m_bidiagonal ∧
        left.m_isInitialized = self.m_isInitialized ∧ left = self) := by
  by_cases h : rows < cols
  · have hc : UpperBidiagonalization.compute kern fuel self rows cols matrix =
        ComputeOutcome.assertionFailed self := by
      simp only [UpperBidiagonalization.compute, if_pos h]
    refine ⟨⟨fun _ => h, fun _ => ⟨self, hc⟩⟩, ?_⟩
    intro left hl
    rw [hc] at hl
    have := ComputeOutcome.assertionFailed.inj hl
    subst this
    exact ⟨rfl, rfl, rfl, rfl⟩
  · have hc : ∀ left, UpperBidiagonalization.compute kern fuel self rows cols matrix ≠
        ComputeOutcome.assertionFailed left := by
      intro left
      simp only [UpperBidiagonalization.compute, if_neg h]
      cases UpperBidiagonalization.computeLoop kern rows cols fuel 0
        ((matrix, self.m_bidiagonal), []) with
      | none => simp
      | some r => simp
    refine ⟨⟨fun ⟨left, hl⟩ => absurd hl (hc left), fun hlt => absurd hlt h⟩, ?_⟩
    intro left hl
    exact absurd hl (hc left)

/-- C21 (amended): on an `UpperBidiagonalization` object whose flag
`m_isInitialized` is false, `householderU()` and `householderV()` fail by their
assertion, while `householder()` and `bidiagonal()` return the stored members;
the class `Tridiagonalization` has no initialisation flag, and on every object
of it `packedMatrix()` and `householderCoefficients()` return the stored
members. -/
theorem accessors_of_uninitialised {K : Type} [CommRing K] [StarRing K]
    (b : UpperBidiagonalization K) (t : Tridiagonalization.Object K)
    (hb : b.m_isInitialized = false) :
    b.householderU = Except.error "UpperBidiagonalization is not initialized." ∧
    b.householderV = Except.error "UpperBidiagonalization is not initialized." ∧
    b.householder = Except.ok b.m_householder ∧
    b.bidiagonal = Except.ok b.m_bidiagonal ∧
    t.packedMatrix = Except.ok (t.rows, t.cols, t.m_matrix) ∧
    t.householderCoefficients = Except.ok (t.hSize, t.m_hCoeffs) := by
  refine ⟨?_, ?_, rfl, rfl, rfl, rfl⟩
  · simp [UpperBidiagonalization.householderU, hb]
  · simp [UpperBidiagonalization.householderV, hb]

/-- C21 (amended) on the two default-constructed objects, over the Gaussian
integers. -/
theorem accessors_of_uninitialised_witness :
    (UpperBidiagonalization.defaultConstructed :
        UpperBidiagonalization GaussianInt).m_isInitialized = false ∧
    ((UpperBidiagonalization.defaultConstructed :
        UpperBidiagonalization GaussianInt).householderU =
      Except.error "UpperBidiagonalization is not initialized." ∧
    (UpperBidiagonalization.defaultConstructed :
        UpperBidiagonalization GaussianInt).householderV =
      Except.error "UpperBidiagonalization is not initialized." ∧
    (UpperBidiagonalization.defaultConstructed :
        UpperBidiagonalization GaussianInt).householder =
      Except.ok (UpperBidiagonalization.defaultConstructed :
        UpperBidiagonalization GaussianInt).m_householder ∧
    (UpperBidiagonalization.defaultConstructed :
        UpperBidiagonalization GaussianInt).bidiagonal =
      Except.ok (UpperBidiagonalization.defaultConstructed :
        UpperBidiagonalization GaussianInt).m_bidiagonal ∧
    (Tridiagonalization.Object.defaultConstructed :
        Tridiagonalization.Object GaussianInt).packedMatrix =
      Except.ok (0, 0, fun _ _ => 0) ∧
    (Tridiagonalization.Object.defaultConstructed :
        Tridiagonalization.Object GaussianInt).householderCoefficients =
      Except.ok (0, fun _ => 0)) :=
  ⟨rfl, accessors_of_uninitialised UpperBidiagonalization.defaultConstructed
    Tridiagonalization.Object.defaultConstructed rfl⟩

/-- C21 as stated fails.  On the default-constructed objects, on which
`compute` was never called, `householder()` and `bidiagonal()` of
`UpperBidiagonalization` and `packedMatrix()` and `householderCoefficients()`
of `Tridiagonalization` do not fail: they return the empty members. -/
theorem uninitialised_accessors_counterexample :
    (UpperBidiagonalization.defaultConstructed :
        UpperBidiagonalization ℤ).m_isInitialized = false ∧
    (¬ ∃ msg, (UpperBidiagonalization.defaultConstructed :
        UpperBidiagonalization ℤ).householder = Except.error msg) ∧
    (¬ ∃ msg, (UpperBidiagonalization.defaultConstructed :
        UpperBidiagonalization ℤ).bidiagonal = Except.error msg) ∧
    (¬ ∃ msg, (Tridiagonalization.Object.defaultConstructed :
        Tridiagonalization.Object ℤ).packedMatrix = Except.error msg) ∧
    (¬ ∃ msg, (Tridiagonalization.Object.defaultConstructed :
        Tridiagonalization.Object ℤ).householderCoefficients = Except.error msg) := by
  refine ⟨rfl, ?_, ?_, ?_, ?_⟩ <;>
    · rintro ⟨msg, h⟩
      cases h

/-- C30 fails on a matrix without columns.  For every number of rows, on a
`rows × 0` matrix the assertion `rows >= cols` passes and the loop of
`compute` is entered: no number of iterations lets it leave, since
`k == cols-1` compares `k ≥ 0` with `-1`; its first iteration constructs a left
reflector on `col(0).tail(rows)` and then a right reflector, and already the
column index 0 lies outside a matrix that has no column. -/
theorem compute_without_columns {K : Type} (kern : HouseholderKernels K) (fuel : Nat)
    (self : UpperBidiagonalization K) (rows : Nat) (matrix : Nat → Nat → K) :
    UpperBidiagonalization.compute kern fuel self rows 0 matrix =
      ComputeOutcome.notTerminated ∧
    UpperBidiagonalization.computeLoop kern rows 0 (fuel + 1) 0
        ((matrix, self.m_bidiagonal), []) =
      UpperBidiagonalization.computeLoop kern rows 0 fuel 1
        (UpperBidiagonalization.rightStep kern rows 0 0
          (UpperBidiagonalization.leftStep kern rows 0 0 (matrix, self.m_bidiagonal)),
         [ReflectorStep.mk true 0 (UpperBidiagonalization.leftAccesses rows 0 0),
          ReflectorStep.mk false 0 (UpperBidiagonalization.rightAccesses rows 0 0)]) ∧
    MatrixAccess.colTail 0 rows ∈ UpperBidiagonalization.leftAccesses rows 0 0 ∧
    ¬ (MatrixAccess.colTail 0 rows).inside rows 0 := by
  have hlt : ¬ rows < 0 := by omega
  refine ⟨?_, ?_, ?_, ?_⟩
  · simp only [UpperBidiagonalization.compute, if_neg hlt, computeLoop_zero_cols]
  · have h : ¬ (((0 : Nat) : Int) = ((0 : Nat) : Int) - 1) := by omega
    simp only [UpperBidiagonalization.computeLoop, if_neg h, List.nil_append,
      List.singleton_append]
  · simp [UpperBidiagonalization.leftAccesses]
  · simp [MatrixAccess.inside]


/-! ## Claims on the shape checks of the product wrappers -/

/-- C22 (amended): `GeneralProduct<Lhs,Rhs,GemmProduct>::scaleAndAddTo` fails
by its assertion, with the destination as it was, if and only if
`dst.rows != lhs.rows` or `dst.cols != rhs.cols`; when both equalities hold it
calls the driver with the sizes `(lhs.rows, rhs.cols, lhs.cols)`, whatever the
number of rows of the right operand. -/
theorem generalProduct_scaleAndAddTo_checks_destination {K : Type} [CommRing K] [StarRing K]
    (lhsOrder : StorageOrder) (conjLhs : Bool) (rhsOrder : StorageOrder) (conjRhs : Bool)
    (resOrder : StorageOrder) (alphaOnLhs : Bool)
    (dstRows dstCols lhsRows lhsCols rhsRows rhsCols : Nat)
    (lhs : Nat → K) (lhsStride : Nat) (rhs : Nat → K) (rhsStride : Nat)
    (dst : Nat → K) (dstStride : Nat) (alpha lhsFactor rhsFactor : K)
    (blocking : ei_level3_blocking K) :
    ((dstRows ≠ lhsRows ∨ dstCols ≠ rhsCols) ∧
      GeneralProduct.scaleAndAddTo lhsOrder conjLhs rhsOrder conjRhs resOrder alphaOnLhs
          dstRows dstCols lhsRows lhsCols rhsRows rhsCols lhs lhsStride rhs rhsStride dst
          dstStride alpha lhsFactor rhsFactor blocking =
        ProductOutcome.assertionFailed dst) ∨
    ((dstRows = lhsRows ∧ dstCols = rhsCols) ∧
      GeneralProduct.scaleAndAddTo lhsOrder conjLhs rhsOrder conjRhs resOrder alphaOnLhs
          dstRows dstCols lhsRows lhsCols rhsRows rhsCols lhs lhsStride rhs rhsStride dst
          dstStride alpha lhsFactor rhsFactor blocking =
        ProductOutcome.driverCalled lhsRows rhsCols lhsCols
          (ei_general_matrix_matrix_product_run lhsOrder conjLhs rhsOrder conjRhs resOrder
            alphaOnLhs lhsRows rhsCols lhsCols lhs lhsStride rhs rhsStride dst dstStride
            (alpha * lhsFactor * rhsFactor) blocking)) := by
  by_cases h : dstRows = lhsRows ∧ dstCols = rhsCols
  · right
    exact ⟨h, by simp only [GeneralProduct.scaleAndAddTo, if_pos h]⟩
  · left
    refine ⟨by omega, by simp only [GeneralProduct.scaleAndAddTo, if_neg h]⟩

/-- C22 as stated fails.  With `dst` of 2 × 2, `lhs = [[1,2],[3,4]]` of 2 × 2
and `rhs = [[5,8],[7,1],[6,2]]` of 3 × 2, `lhs.cols = 2` differs from
`rhs.rows = 3`, yet `scaleAndAddTo` does not fail: it calls the driver with
depth 2, and the destination, zero before, ends as `[[19,10],[43,28]]`. -/
theorem generalProduct_depth_mismatch_counterexample :
    (2 : Nat) ≠ 3 ∧
    (∀ d, GeneralProduct.scaleAndAddTo StorageOrder.ColMajor false StorageOrder.ColMajor false
        StorageOrder.ColMajor false 2 2 2 2 3 2 seedA 2 seedTall 3 (fun _ => 0) 2 1 1 1
        unitBlocking ≠ ProductOutcome.assertionFailed d) ∧
    (∃ out, GeneralProduct.scaleAndAddTo StorageOrder.ColMajor false StorageOrder.ColMajor false
        StorageOrder.ColMajor false 2 2 2 2 3 2 seedA 2 seedTall 3 (fun _ => 0) 2 1 1 1
        unitBlocking = ProductOutcome.driverCalled 2 2 2 (some out) ∧
      [[readMat StorageOrder.ColMajor 2 out 0 0, readMat StorageOrder.ColMajor 2 out 0 1],
       [readMat StorageOrder.ColMajor 2 out 1 0, readMat StorageOrder.ColMajor 2 out 1 1]] =
        [[19, 10], [43, 28]]) := by
  have hrun : (ei_general_matrix_matrix_product_run StorageOrder.ColMajor false
      StorageOrder.ColMajor false StorageOrder.ColMajor false 2 2 2 seedA 2 seedTall 3
      (fun _ => 0) 2 (1 * 1 * 1) unitBlocking).map
      (fun out => [[readMat StorageOrder.ColMajor 2 out 0 0,
                    readMat StorageOrder.ColMajor 2 out 0 1],
                   [readMat StorageOrder.ColMajor 2 out 1 0,
                    readMat StorageOrder.ColMajor 2 out 1 1]]) =
      some [[19, 10], [43, 28]] := by decide
  have hcall : GeneralProduct.scaleAndAddTo StorageOrder.ColMajor false StorageOrder.ColMajor
      false StorageOrder.ColMajor false 2 2 2 2 3 2 seedA 2 seedTall 3 (fun _ => 0) 2 1 1 1
      unitBlocking = ProductOutcome.driverCalled 2 2 2
        (ei_general_matrix_matrix_product_run StorageOrder.ColMajor false
          StorageOrder.ColMajor false StorageOrder.ColMajor false 2 2 2 seedA 2 seedTall 3
          (fun _ => 0) 2 (1 * 1 * 1) unitBlocking) := by
    simp only [GeneralProduct.scaleAndAddTo, and_self, if_true]
  refine ⟨by decide, ?_, ?_⟩
  · intro d hd
    rw [hcall] at hd
    cases hd
  · rw [hcall]
    cases hr : ei_general_matrix_matrix_product_run StorageOrder.ColMajor false
        StorageOrder.ColMajor false StorageOrder.ColMajor false 2 2 2 seedA 2 seedTall 3
        (fun _ => 0) 2 (1 * 1 * 1) unitBlocking with
    | none =>
      rw [hr] at hrun
      cases hrun
    | some out =>
      rw [hr] at hrun
      exact ⟨out, rfl, Option.some.inj hrun⟩

/-- C23 (amended): `TriangularProduct::scaleAndAddTo` makes no check: for all
shapes of the operands and of the destination, square triangular operand or
not, it does not fail and calls the driver with the sizes
`(lhs.rows, rhs.cols, lhs.cols)`. -/
theorem triangularProduct_scaleAndAddTo_unchecked {K : Type} [CommRing K] [StarRing K]
    (mode : TriangularMode) (lhsIsTriangular : Bool) (lhsOrder : StorageOrder)
    (conjLhs : Bool) (rhsOrder : StorageOrder) (conjRhs : Bool)
    (dstRows dstCols lhsRows lhsCols rhsRows rhsCols : Nat)
    (lhs : Nat → K) (lhsStride : Nat) (rhs : Nat → K) (rhsStride : Nat)
    (dst : Nat → K) (dstStride : Nat) (alpha lhsFactor rhsFactor : K)
    (kc mc smallPanelWidth : Nat) (blockA blockB geb : Nat → Nat → K) :
    (∀ d, TriangularProduct.scaleAndAddTo mode lhsIsTriangular lhsOrder conjLhs rhsOrder conjRhs
        dstRows dstCols lhsRows lhsCols rhsRows rhsCols lhs lhsStride rhs rhsStride dst
        dstStride alpha lhsFactor rhsFactor kc mc smallPanelWidth blockA blockB geb ≠
      ProductOutcome.assertionFailed d) ∧
    TriangularProduct.scaleAndAddTo mode lhsIsTriangular lhsOrder conjLhs rhsOrder conjRhs
        dstRows dstCols lhsRows lhsCols rhsRows rhsCols lhs lhsStride rhs rhsStride dst
        dstStride alpha lhsFactor rhsFactor kc mc smallPanelWidth blockA blockB geb =
      ProductOutcome.driverCalled lhsRows rhsCols lhsCols
        (ei_product_triangular_matrix_matrix_run mode lhsIsTriangular lhsOrder conjLhs
          rhsOrder conjRhs lhsRows rhsCols lhsCols lhs lhsStride rhs rhsStride dst dstStride
          (alpha * lhsFactor * rhsFactor) kc mc smallPanelWidth blockA blockB geb) := by
  refine ⟨?_, rfl⟩
  intro d hd
  simp only [TriangularProduct.scaleAndAddTo] at hd
  cases hd

/-- C23 as stated fails.  With the upper-triangular left operand `[[2, 3]]` of
one row and two columns (`rows != cols`), the right operand `[1, 1]` and a
1 × 1 destination holding 0, `scaleAndAddTo` does not fail: it calls the
driver with the sizes `(1, 1, 2)`, which reads both operands and writes
`2*1 + 3*1 = 5` to the destination. -/
theorem triangularProduct_non_square_counterexample :
    (1 : Nat) ≠ 2 ∧
    (∀ d, TriangularProduct.scaleAndAddTo modeUpper true StorageOrder.ColMajor false
        StorageOrder.ColMajor false 1 1 1 2 2 1 seedTrapezoid 1 seedOnes 2 (fun _ => 0) 1
        1 1 1 1 1 1 (fun _ _ => 7) (fun _ _ => 9) (fun _ _ => 11) ≠
      ProductOutcome.assertionFailed d) ∧
    (∃ out, TriangularProduct.scaleAndAddTo modeUpper true StorageOrder.ColMajor false
        StorageOrder.ColMajor false 1 1 1 2 2 1 seedTrapezoid 1 seedOnes 2 (fun _ => 0) 1
        1 1 1 1 1 1 (fun _ _ => 7) (fun _ _ => 9) (fun _ _ => 11) =
      ProductOutcome.driverCalled 1 1 2 (some out) ∧
      readMat StorageOrder.ColMajor 1 out 0 0 = 5 ∧
      readMat StorageOrder.ColMajor 1 (fun _ => (0 : ℤ)) 0 0 = 0) := by
  have hrun : (ei_product_triangular_matrix_matrix_run modeUpper true StorageOrder.ColMajor
      false StorageOrder.ColMajor false 1 1 2 seedTrapezoid 1 seedOnes 2 (fun _ => 0) 1
      (1 * 1 * 1) 1 1 1 (fun _ _ => 7) (fun _ _ => 9) (fun _ _ => 11)).map
      (fun out => readMat StorageOrder.ColMajor 1 out 0 0) = some 5 := by decide
  refine ⟨by decide, ?_, ?_⟩
  · intro d hd
    simp only [TriangularProduct.scaleAndAddTo] at hd
    cases hd
  · cases hr : ei_product_triangular_matrix_matrix_run modeUpper true StorageOrder.ColMajor
        false StorageOrder.ColMajor false 1 1 2 seedTrapezoid 1 seedOnes 2 (fun _ => 0) 1
        (1 * 1 * 1) 1 1 1 (fun _ _ => 7) (fun _ _ => 9) (fun _ _ => 11) with
    | none =>
      rw [hr] at hrun
      cases hrun
    | some out =>
      rw [hr] at hrun
      refine ⟨out, ?_, Option.some.inj hrun, rfl⟩
      simp only [TriangularProduct.scaleAndAddTo, hr]


/-! ## The kernel calls of the sequential general driver -/

/-- The history of kernel calls does not change what the row loop computes,
and the loop only appends to it. -/
theorem gemmRowLoopCalls_erase {K : Type} [Zero K] [Add K] [Mul K] [Star K]
    (lhsOrder : StorageOrder) (conjLhs : Bool) (rows cols mc k2 actual_kc : Nat)
    (lhs : Nat → K) (lhsStride resStride : Nat) (lhsAlpha : K) (blockB : Nat → Nat → K)
    (fuel : Nat) :
    ∀ (i2 : Nat) (blockA : Nat → Nat → K) (res : Nat → K) (calls : List GebpCall),
      (gemmRowLoopCalls lhsOrder conjLhs rows cols mc k2 actual_kc lhs lhsStride resStride
          lhsAlpha blockB fuel i2 blockA res calls).map (fun r => (r.1, r.2.1)) =
        gemmRowLoop lhsOrder conjLhs rows cols mc k2 actual_kc lhs lhsStride resStride
          lhsAlpha blockB fuel i2 blockA res := by
  induction fuel with
  | zero =>
    intro i2 blockA res calls
    by_cases h : i2 < rows
    · simp only [gemmRowLoopCalls, gemmRowLoop, if_pos h, Option.map_none']
    · simp only [gemmRowLoopCalls, gemmRowLoop, if_neg h, Option.map_some']
  | succ fuel ih =>
    intro i2 blockA res calls
    by_cases h : i2 < rows
    · simp only [gemmRowLoopCalls, gemmRowLoop, if_pos h]
      exact ih _ _ _ _
    · simp only [gemmRowLoopCalls, gemmRowLoop, if_neg h, Option.map_some']

/-- The calls of the row loop from `i2` on: the loop returns; every call made
is on the depth strip of the loop, starts at or after `i2`, has between 1 and
`mc` rows and stays within `rows`; the calls come in increasing order of
`i2`; and every row from `i2` up to `rows` is in the tile of exactly one
call, no other row in any. -/
theorem gemmRowLoopCalls_spec {K : Type} [Zero K] [Add K] [Mul K] [Star K]
    (lhsOrder : StorageOrder) (conjLhs : Bool) (rows cols mc k2 actual_kc : Nat)
    (lhs : Nat → K) (lhsStride resStride : Nat) (lhsAlpha : K) (blockB : Nat → Nat → K)
    (hmc : 0 < rows → 0 < mc) (fuel : Nat) :
    ∀ (i2 : Nat) (blockA : Nat → Nat → K) (res : Nat → K) (calls : List GebpCall),
      rows - i2 ≤ fuel →
      ∃ bA out made, gemmRowLoopCalls lhsOrder conjLhs rows cols mc k2 actual_kc lhs lhsStride
          resStride lhsAlpha blockB fuel i2 blockA res calls = some (bA, out, calls ++ made) ∧
        (∀ t ∈ made, t.k2 = k2 ∧ t.actual_kc = actual_kc ∧ i2 ≤ t.i2 ∧ 1 ≤ t.actual_mc ∧
          t.actual_mc ≤ mc ∧ t.i2 + t.actual_mc ≤ rows) ∧
        made.Pairwise (fun a b => a.i2 < b.i2) ∧
        ∀ i, made.countP (fun t => decide (t.i2 ≤ i ∧ i < t.i2 + t.actual_mc)) =
          if i2 ≤ i ∧ i < rows then 1 else 0 := by
  induction fuel with
  | zero =>
    intro i2 blockA res calls hf
    have h : ¬ i2 < rows := by omega
    refine ⟨blockA, res, [], by simp [gemmRowLoopCalls, h], by simp, by simp, ?_⟩
    intro i
    have : ¬ (i2 ≤ i ∧ i < rows) := by omega
    simp [this]
  | succ fuel ih =>
    intro i2 blockA res calls hf
    by_cases h : i2 < rows
    · have hmc0 : 0 < mc := hmc (by omega)
      obtain ⟨bA, out, made, hrun, hall, hord, hcount⟩ := ih (i2 + mc)
        (ei_gemm_pack_lhs lhsOrder conjLhs blockA
          (ptrAdd lhs (blasIndex lhsOrder lhsStride i2 k2)) lhsStride actual_kc
          (min (i2 + mc) rows - i2) lhsAlpha)
        (ei_gebp_kernel false false i2 resStride
          (ei_gemm_pack_lhs lhsOrder conjLhs blockA
            (ptrAdd lhs (blasIndex lhsOrder lhsStride i2 k2)) lhsStride actual_kc
            (min (i2 + mc) rows - i2) lhsAlpha)
          blockB (min (i2 + mc) rows - i2) actual_kc 0 0 cols res)
        (calls ++ [GebpCall.mk i2 k2 (min (i2 + mc) rows - i2) actual_kc]) (by omega)
      refine ⟨bA, out, GebpCall.mk i2 k2 (min (i2 + mc) rows - i2) actual_kc :: made, ?_, ?_,
        ?_, ?_⟩
      · simp only [gemmRowLoopCalls, if_pos h]
        rw [hrun, List.append_assoc, List.singleton_append]
      · intro t ht
        rw [List.mem_cons] at ht
        rcases ht with ht | ht
        · subst ht
          refine ⟨rfl, rfl, ?_⟩
          simp only
          omega
        · obtain ⟨h1, h2, h3, h4, h5, h6⟩ := hall t ht
          exact ⟨h1, h2, by omega, h4, h5, h6⟩
      · rw [List.pairwise_cons]
        refine ⟨?_, hord⟩
        intro t ht
        have := (hall t ht).2.2.1
        simp only
        omega
      · intro i
        rw [List.countP_cons, hcount i]
        simp only
        by_cases hi : i2 ≤ i ∧ i < rows
        · rw [if_pos hi]
          by_cases hi2 : i2 + mc ≤ i
          · have h1 : i2 + mc ≤ i ∧ i < rows := ⟨hi2, hi.2⟩
            have h2 : ¬ (i2 ≤ i ∧ i < i2 + (min (i2 + mc) rows - i2)) := by omega
            rw [if_pos h1]
            simp [h2]
          · have h1 : ¬ (i2 + mc ≤ i ∧ i < rows) := by omega
            have h2 : i2 ≤ i ∧ i < i2 + (min (i2 + mc) rows - i2) := by omega
            rw [if_neg h1]
            simp [h2]
        · have h1 : ¬ (i2 + mc ≤ i ∧ i < rows) := by omega
          have h2 : ¬ (i2 ≤ i ∧ i < i2 + (min (i2 + mc) rows - i2)) := by omega
          rw [if_neg hi, if_neg h1]
          simp [h2]
    · refine ⟨blockA, res, [], by simp [gemmRowLoopCalls, h], by simp, by simp, ?_⟩
      intro i
      have : ¬ (i2 ≤ i ∧ i < rows) := by omega
      simp [this]

/-- The history of kernel calls does not change what the depth loop
computes. -/
theorem gemmDepthLoopCalls_erase {K : Type} [Zero K] [Add K] [Mul K] [Star K]
    (lhsOrder : StorageOrder) (conjLhs : Bool) (rhsOrder : StorageOrder) (conjRhs : Bool)
    (rows cols depth kc mc : Nat) (lhs : Nat → K) (lhsStride : Nat) (rhs : Nat → K)
    (rhsStride resStride : Nat) (lhsAlpha rhsAlpha : K) (fuel : Nat) :
    ∀ (k2 : Nat) (blockA blockB : Nat → Nat → K) (res : Nat → K) (calls : List GebpCall),
      (gemmDepthLoopCalls lhsOrder conjLhs rhsOrder conjRhs rows cols depth kc mc lhs lhsStride
          rhs rhsStride resStride lhsAlpha rhsAlpha fuel k2 blockA blockB res calls).map
          (fun r => r.1) =
        gemmDepthLoop lhsOrder conjLhs rhsOrder conjRhs rows cols depth kc mc lhs lhsStride
          rhs rhsStride resStride lhsAlpha rhsAlpha fuel k2 blockA blockB res := by
  induction fuel with
  | zero =>
    intro k2 blockA blockB res calls
    by_cases h : k2 < depth
    · simp only [gemmDepthLoopCalls, gemmDepthLoop, if_pos h, Option.map_none']
    · simp only [gemmDepthLoopCalls, gemmDepthLoop, if_neg h, Option.map_some']
  | succ fuel ih =>
    intro k2 blockA blockB res calls
    by_cases h : k2 < depth
    · simp only [gemmDepthLoopCalls, gemmDepthLoop, if_pos h]
      rw [← gemmRowLoopCalls_erase lhsOrder conjLhs rows cols mc k2 (min (k2 + kc) depth - k2)
        lhs lhsStride resStride lhsAlpha _ rows 0 blockA res calls]
      cases gemmRowLoopCalls lhsOrder conjLhs rows cols mc k2 (min (k2 + kc) depth - k2) lhs
          lhsStride resStride lhsAlpha
          (ei_gemm_pack_rhs rhsOrder conjRhs blockB
            (ptrAdd rhs (blasIndex rhsOrder rhsStride k2 0)) rhsStride rhsAlpha
            (min (k2 + kc) depth - k2) cols 0) rows 0 blockA res calls with
      | none => rfl
      | some r =>
        obtain ⟨bA, out, calls1⟩ := r
        simp only [Option.map_some']
        exact ih _ _ _ _ _
    · simp only [gemmDepthLoopCalls, gemmDepthLoop, if_neg h, Option.map_some']

/-- Counting the calls of one depth strip whose tile holds `(i, k)` is
counting those whose rows hold `i`, if `k` is in the strip, and gives zero
otherwise. -/
theorem countP_covers_strip (made : List GebpCall) (k2 actual_kc i k : Nat)
    (h : ∀ t ∈ made, t.k2 = k2 ∧ t.actual_kc = actual_kc) :
    made.countP (fun t => t.covers i k) =
      if k2 ≤ k ∧ k < k2 + actual_kc then
        made.countP (fun t => decide (t.i2 ≤ i ∧ i < t.i2 + t.actual_mc))
      else 0 := by
  by_cases hk : k2 ≤ k ∧ k < k2 + actual_kc
  · rw [if_pos hk]
    apply List.countP_congr
    intro t ht
    obtain ⟨h1, h2⟩ := h t ht
    simp only [GebpCall.covers, decide_eq_true_eq, h1, h2]
    constructor
    · intro hc
      exact ⟨hc.1, hc.2.1⟩
    · intro hc
      exact ⟨hc.1, hc.2, hk.1, hk.2⟩
  · rw [if_neg hk, List.countP_eq_zero]
    intro t ht
    obtain ⟨h1, h2⟩ := h t ht
    simp only [GebpCall.covers, decide_eq_true_eq, h1, h2]
    intro hc
    exact hk ⟨hc.2.2.1, hc.2.2.2⟩

/-- The calls of the depth loop from `k2` on: the loop returns; every call
made starts at or after `k2` at a multiple of `kc` from it, has between 1 and
`kc` depth steps and between 1 and `mc` rows, and stays within
`rows × depth`; the calls come in lexicographic order of `(k2, i2)`; and
every coefficient `(i, k)` with `i < rows` and `k2 ≤ k < depth` is in the tile
of exactly one call, no other coefficient in any. -/
theorem gemmDepthLoopCalls_spec {K : Type} [Zero K] [Add K] [Mul K] [Star K]
    (lhsOrder : StorageOrder) (conjLhs : Bool) (rhsOrder : StorageOrder) (conjRhs : Bool)
    (rows cols depth kc mc : Nat) (lhs : Nat → K) (lhsStride : Nat) (rhs : Nat → K)
    (rhsStride resStride : Nat) (lhsAlpha rhsAlpha : K)
    (hkc : 0 < kc) (hmc : 0 < rows → 0 < mc) (fuel : Nat) :
    ∀ (k2 : Nat) (blockA blockB : Nat → Nat → K) (res : Nat → K) (calls : List GebpCall),
      depth - k2 ≤ fuel →
      ∃ out made, gemmDepthLoopCalls lhsOrder conjLhs rhsOrder conjRhs rows cols depth kc mc lhs
          lhsStride rhs rhsStride resStride lhsAlpha rhsAlpha fuel k2 blockA blockB res calls =
          some (out, calls ++ made) ∧
        (∀ t ∈ made, k2 ≤ t.k2 ∧ kc ∣ t.k2 - k2 ∧ 1 ≤ t.actual_kc ∧ t.actual_kc ≤ kc ∧
          t.k2 + t.actual_kc ≤ depth ∧ 1 ≤ t.actual_mc ∧ t.actual_mc ≤ mc ∧
          t.i2 + t.actual_mc ≤ rows) ∧
        made.Pairwise GebpCall.before ∧
        ∀ i k, made.countP (fun t => t.covers i k) =
          if i < rows ∧ k2 ≤ k ∧ k < depth then 1 else 0 := by
  induction fuel with
  | zero =>
    intro k2 blockA blockB res calls hf
    have h : ¬ k2 < depth := by omega
    refine ⟨res, [], by simp [gemmDepthLoopCalls, h], by simp, by simp, ?_⟩
    intro i k
    have : ¬ (i < rows ∧ k2 ≤ k ∧ k < depth) := by omega
    simp [this]
  | succ fuel ih =>
    intro k2 blockA blockB res calls hf
    by_cases h : k2 < depth
    · obtain ⟨bA, out1, strip, hrow, hall1, hord1, hcount1⟩ := gemmRowLoopCalls_spec lhsOrder
        conjLhs rows cols mc k2 (min (k2 + kc) depth - k2) lhs lhsStride resStride lhsAlpha
        (ei_gemm_pack_rhs rhsOrder conjRhs blockB
          (ptrAdd rhs (blasIndex rhsOrder rhsStride k2 0)) rhsStride rhsAlpha
          (min (k2 + kc) depth - k2) cols 0) hmc rows 0 blockA res calls (by omega)
      obtain ⟨out, rest, hrun, hall, hord, hcount⟩ := ih (k2 + kc) bA
        (ei_gemm_pack_rhs rhsOrder conjRhs blockB
          (ptrAdd rhs (blasIndex rhsOrder rhsStride k2 0)) rhsStride rhsAlpha
          (min (k2 + kc) depth - k2) cols 0) out1 (calls ++ strip) (by omega)
      refine ⟨out, strip ++ rest, ?_, ?_, ?_, ?_⟩
      · simp only [gemmDepthLoopCalls, if_pos h]
        rw [hrow]
        simp only
        rw [hrun, List.append_assoc]
      · intro t ht
        rw [List.mem_append] at ht
        rcases ht with ht | ht
        · obtain ⟨h1, h2, _, h4, h5, h6⟩ := hall1 t ht
          refine ⟨by omega, ?_, by omega, by omega, by omega, h4, h5, h6⟩
          rw [h1, Nat.sub_self]
          exact dvd_zero kc
        · obtain ⟨h1, h2, h3, h4, h5, h6, h7, h8⟩ := hall t ht
          refine ⟨by omega, ?_, h3, h4, h5, h6, h7, h8⟩
          obtain ⟨c, hc⟩ := h2
          exact ⟨c + 1, by rw [Nat.mul_add, Nat.mul_one, ← hc]; omega⟩
      · rw [List.pairwise_append]
        refine ⟨?_, hord, ?_⟩
        · refine List.Pairwise.imp_of_mem ?_ hord1
          intro a b ha hb hab
          right
          exact ⟨by rw [(hall1 a ha).1, (hall1 b hb).1], hab⟩
        · intro a ha b hb
          left
          have h1 := (hall1 a ha).1
          have h2 := (hall b hb).1
          omega
      · intro i k
        have hstrip : ∀ t ∈ strip, t.k2 = k2 ∧ t.actual_kc = min (k2 + kc) depth - k2 :=
          fun t ht => ⟨(hall1 t ht).1, (hall1 t ht).2.1⟩
        rw [List.countP_append, hcount i k, countP_covers_strip strip k2 _ i k hstrip,
          hcount1 i]
        by_cases h1 : k2 ≤ k ∧ k < k2 + (min (k2 + kc) depth - k2)
        · have h2 : ¬ (i < rows ∧ k2 + kc ≤ k ∧ k < depth) := by omega
          rw [if_pos h1, if_neg h2, Nat.add_zero]
          by_cases h3 : i < rows
          · rw [if_pos ⟨Nat.zero_le i, h3⟩, if_pos ⟨h3, h1.1, by omega⟩]
          · have h4 : ¬ (0 ≤ i ∧ i < rows) := fun hh => h3 hh.2
            have h5 : ¬ (i < rows ∧ k2 ≤ k ∧ k < depth) := fun hh => h3 hh.1
            rw [if_neg h4, if_neg h5]
        · rw [if_neg h1, Nat.zero_add]
          by_cases h3 : i < rows ∧ k2 + kc ≤ k ∧ k < depth
          · rw [if_pos h3, if_pos ⟨h3.1, by omega, h3.2.2⟩]
          · have h5 : ¬ (i < rows ∧ k2 ≤ k ∧ k < depth) := by omega
            rw [if_neg h3, if_neg h5]
    · refine ⟨res, [], by simp [gemmDepthLoopCalls, h], by simp, by simp, ?_⟩
      intro i k
      have : ¬ (i < rows ∧ k2 ≤ k ∧ k < depth) := by omega
      simp [this]


/-! ## Claims on the tiles and on the packing factors of the sequential driver -/

/-- C27: for all sizes and all block sizes `kc, mc ≥ 1`, the sequential driver
returns, and its kernel calls, in the order in which they are made, are in
strictly increasing lexicographic order of `(k2, i2)` (so none is repeated);
every call has `1 ≤ actual_mc ≤ mc`, `1 ≤ actual_kc ≤ kc`, its tile lies in
`[0, rows) × [0, depth)` and its `k2` is a multiple of `kc`; every
coefficient of `[0, rows) × [0, depth)` lies in the tile of exactly one call
and no other coefficient in any; and of two calls on the same row block the
one made first has the smaller `k2`. -/
theorem gemm_calls_partition {K : Type} [CommRing K] [StarRing K]
    (lhsOrder : StorageOrder) (conjLhs : Bool) (rhsOrder : StorageOrder) (conjRhs : Bool)
    (alphaOnLhs : Bool) (rows cols depth : Nat) (lhs : Nat → K) (lhsStride : Nat)
    (rhs : Nat → K) (rhsStride : Nat) (res : Nat → K) (resStride : Nat) (alpha : K)
    (blocking : ei_level3_blocking K)
    (hkc : 1 ≤ blocking.kc) (hmc : 1 ≤ blocking.mc) :
    ∃ out calls,
      runColMajorCalls lhsOrder conjLhs rhsOrder conjRhs alphaOnLhs rows cols depth lhs
        lhsStride rhs rhsStride res resStride alpha blocking = some (out, calls) ∧
      runColMajor lhsOrder conjLhs rhsOrder conjRhs alphaOnLhs rows cols depth lhs
        lhsStride rhs rhsStride res resStride alpha blocking = some out ∧
      calls.Pairwise GebpCall.before ∧ calls.Nodup ∧
      (∀ t ∈ calls, 1 ≤ t.actual_mc ∧ t.actual_mc ≤ blocking.mc ∧ 1 ≤ t.actual_kc ∧
        t.actual_kc ≤ blocking.kc ∧ t.i2 + t.actual_mc ≤ rows ∧ t.k2 + t.actual_kc ≤ depth ∧
        blocking.kc ∣ t.k2) ∧
      (∀ i k, calls.countP (fun t => t.covers i k) = if i < rows ∧ k < depth then 1 else 0) ∧
      (∀ a b, [a, b].Sublist calls → a.i2 = b.i2 → a.k2 < b.k2) := by
  obtain ⟨out, made, hrun, hall, hord, hcount⟩ := gemmDepthLoopCalls_spec lhsOrder conjLhs
    rhsOrder conjRhs rows cols depth blocking.kc (min rows blocking.mc) lhs lhsStride rhs
    rhsStride resStride (if alphaOnLhs then alpha else 1) (if alphaOnLhs then 1 else alpha) hkc
    (by omega) depth 0 blocking.blockA blocking.blockB res [] (by omega)
  rw [List.nil_append] at hrun
  have herase := gemmDepthLoopCalls_erase lhsOrder conjLhs rhsOrder conjRhs rows cols depth
    blocking.kc (min rows blocking.mc) lhs lhsStride rhs rhsStride resStride
    (if alphaOnLhs then alpha else 1) (if alphaOnLhs then 1 else alpha) depth 0 blocking.blockA
    blocking.blockB res []
  rw [hrun, Option.map_some'] at herase
  refine ⟨out, made, hrun, herase.symm, hord, ?_, ?_, ?_, ?_⟩
  · refine List.Pairwise.imp ?_ hord
    intro a b hab heq
    subst heq
    rcases hab with h | h
    · exact Nat.lt_irrefl _ h
    · exact Nat.lt_irrefl _ h.2
  · intro t ht
    obtain ⟨_, h2, h3, h4, h5, h6, h7, h8⟩ := hall t ht
    rw [Nat.sub_zero] at h2
    exact ⟨h6, by omega, h3, h4, h8, h5, h2⟩
  · intro i k
    rw [hcount i k]
    by_cases h : i < rows ∧ k < depth
    · rw [if_pos h, if_pos ⟨h.1, Nat.zero_le k, h.2⟩]
    · have h1 : ¬ (i < rows ∧ 0 ≤ k ∧ k < depth) := fun hh => h ⟨hh.1, hh.2.2⟩
      rw [if_neg h, if_neg h1]
  · intro a b hab hi
    rcases List.pairwise_iff_forall_sublist.mp hord hab with h | h
    · exact h
    · omega

/-- C27 on a lhs of 3 rows and depth 5 with `kc = mc = 2`: the hypotheses
hold, and the six calls are, in order, the tiles
`(i2, k2, actual_mc, actual_kc) = (0,0,2,2), (2,0,1,2), (0,2,2,2), (2,2,1,2),
(0,4,2,1), (2,4,1,1)`. -/
theorem gemm_calls_partition_witness :
    (1 ≤ blocking22.kc ∧ 1 ≤ blocking22.mc) ∧
    (∃ out calls,
      runColMajorCalls StorageOrder.ColMajor false StorageOrder.ColMajor false false 3 1 5
        seedA 3 seedB 5 (fun _ => 0) 3 1 blocking22 = some (out, calls) ∧
      runColMajor StorageOrder.ColMajor false StorageOrder.ColMajor false false 3 1 5
        seedA 3 seedB 5 (fun _ => 0) 3 1 blocking22 = some out ∧
      calls.Pairwise GebpCall.before ∧ calls.Nodup ∧
      (∀ t ∈ calls, 1 ≤ t.actual_mc ∧ t.actual_mc ≤ blocking22.mc ∧ 1 ≤ t.actual_kc ∧
        t.actual_kc ≤ blocking22.kc ∧ t.i2 + t.actual_mc ≤ 3 ∧ t.k2 + t.actual_kc ≤ 5 ∧
        blocking22.kc ∣ t.k2) ∧
      (∀ i k, calls.countP (fun t => t.covers i k) = if i < 3 ∧ k < 5 then 1 else 0) ∧
      (∀ a b, [a, b].Sublist calls → a.i2 = b.i2 → a.k2 < b.k2)) ∧
    (runColMajorCalls StorageOrder.ColMajor false StorageOrder.ColMajor false false 3 1 5
        seedA 3 seedB 5 (fun _ => 0) 3 1 blocking22).map (fun r => r.2) =
      some [GebpCall.mk 0 0 2 2, GebpCall.mk 2 0 1 2, GebpCall.mk 0 2 2 2,
        GebpCall.mk 2 2 1 2, GebpCall.mk 0 4 2 1, GebpCall.mk 2 4 1 1] :=
  ⟨by decide,
   gemm_calls_partition StorageOrder.ColMajor false StorageOrder.ColMajor false false 3 1 5
     seedA 3 seedB 5 (fun _ => 0) 3 1 blocking22 (by decide) (by decide),
   by decide⟩

/-- C28: for every `alpha` the two packing factors of the sequential driver
satisfy `lhsAlpha * rhsAlpha = alpha`; when the lhs scalar type is complex and
the rhs scalar type is not, `alphaOnLhs` holds, `lhsAlpha = alpha` and
`rhsAlpha = 1`; in every other case `alphaOnLhs` does not hold, `lhsAlpha = 1`
and `rhsAlpha = alpha`; and these are the factors that the driver hands to its
packing loops. -/
theorem gemm_alpha_on_one_side {K : Type} [CommRing K] [StarRing K]
    (lhsIsComplex rhsIsComplex : Bool) (alpha : K)
    (lhsOrder : StorageOrder) (conjLhs : Bool) (rhsOrder : StorageOrder) (conjRhs : Bool)
    (rows cols depth : Nat) (lhs : Nat → K) (lhsStride : Nat)
    (rhs : Nat → K) (rhsStride : Nat) (res : Nat → K) (resStride : Nat)
    (blocking : ei_level3_blocking K) :
    lhsAlpha (alphaOnLhs lhsIsComplex rhsIsComplex) alpha *
        rhsAlpha (alphaOnLhs lhsIsComplex rhsIsComplex) alpha = alpha ∧
    (alphaOnLhs lhsIsComplex rhsIsComplex = true ↔
      (lhsIsComplex = true ∧ rhsIsComplex = false)) ∧
    ((alphaOnLhs lhsIsComplex rhsIsComplex = true ∧
        lhsAlpha (alphaOnLhs lhsIsComplex rhsIsComplex) alpha = alpha ∧
        rhsAlpha (alphaOnLhs lhsIsComplex rhsIsComplex) alpha = 1) ∨
      (alphaOnLhs lhsIsComplex rhsIsComplex = false ∧
        lhsAlpha (alphaOnLhs lhsIsComplex rhsIsComplex) alpha = 1 ∧
        rhsAlpha (alphaOnLhs lhsIsComplex rhsIsComplex) alpha = alpha)) ∧
    runColMajor lhsOrder conjLhs rhsOrder conjRhs (alphaOnLhs lhsIsComplex rhsIsComplex)
        rows cols depth lhs lhsStride rhs rhsStride res resStride alpha blocking =
      gemmDepthLoop lhsOrder conjLhs rhsOrder conjRhs rows cols depth blocking.kc
        (min rows blocking.mc) lhs lhsStride rhs rhsStride resStride
        (lhsAlpha (alphaOnLhs lhsIsComplex rhsIsComplex) alpha)
        (rhsAlpha (alphaOnLhs lhsIsComplex rhsIsComplex) alpha)
        depth 0 blocking.blockA blocking.blockB res := by
  refine ⟨?_, ?_, ?_, rfl⟩
  · cases lhsIsComplex <;> cases rhsIsComplex <;> simp [alphaOnLhs, lhsAlpha, rhsAlpha]
  · cases lhsIsComplex <;> cases rhsIsComplex <;> simp [alphaOnLhs]
  · cases lhsIsComplex <;> cases rhsIsComplex <;> simp [alphaOnLhs, lhsAlpha, rhsAlpha]


/-! ## The expansion of a self-adjoint view -/

/-- The inner loop of the dynamic-size assignment for `Upper`, run for
`count ≤ outer` steps: rows `0 .. count` of column `outer` hold the source,
columns `0 .. count` of row `outer` its conjugate, the rest is untouched. -/
theorem dynamic_inner_upper {K : Type} [Star K] (src : Nat → Nat → K) (outer : Nat)
    (dst : Nat → Nat → K) (count : Nat) (hc : count ≤ outer) (r c : Nat) :
    triangular_assignment_selector_dynamic_inner true src outer count dst r c =
      if r < count ∧ c = outer then src r c
      else if r = outer ∧ c < count then star (src c r)
      else dst r c := by
  induction count generalizing r c with
  | zero => simp [triangular_assignment_selector_dynamic_inner]
  | succ count ih =>
    simp only [triangular_assignment_selector_dynamic_inner, if_true, copyCoeff, setCoeff,
      and_self]
    rw [ih (by omega)]
    by_cases h1 : r = outer ∧ c = count
    · obtain ⟨hr, hcc⟩ := h1
      subst hr hcc
      have h2 : ¬ (r < c + 1 ∧ c = r) := by omega
      have h3 : r = r ∧ c < c + 1 := ⟨rfl, by omega⟩
      rw [if_pos ⟨rfl, rfl⟩, if_neg h2, if_pos h3]
    · rw [if_neg h1]
      by_cases h2 : r = count ∧ c = outer
      · obtain ⟨hr, hcc⟩ := h2
        subst hr hcc
        rw [if_pos ⟨rfl, rfl⟩, if_pos ⟨by omega, rfl⟩]
      · rw [if_neg h2]
        by_cases h3 : r < count ∧ c = outer
        · rw [if_pos h3, if_pos ⟨by omega, h3.2⟩]
        · have h4 : ¬ (r < count + 1 ∧ c = outer) := by omega
          rw [if_neg h3, if_neg h4]
          by_cases h5 : r = outer ∧ c < count
          · rw [if_pos h5, if_pos ⟨h5.1, by omega⟩]
          · have h6 : ¬ (r = outer ∧ c < count + 1) := by omega
            rw [if_neg h5, if_neg h6]

/-- The inner loop of the dynamic-size assignment for `Lower`, run for
`count ≤ outer` steps: columns `0 .. count` of row `outer` hold the source,
rows `0 .. count` of column `outer` its conjugate, the rest is untouched. -/
theorem dynamic_inner_lower {K : Type} [Star K] (src : Nat → Nat → K) (outer : Nat)
    (dst : Nat → Nat → K) (count : Nat) (hc : count ≤ outer) (r c : Nat) :
    triangular_assignment_selector_dynamic_inner false src outer count dst r c =
      if r = outer ∧ c < count then src r c
      else if r < count ∧ c = outer then star (src c r)
      else dst r c := by
  induction count generalizing r c with
  | zero => simp [triangular_assignment_selector_dynamic_inner]
  | succ count ih =>
    simp only [triangular_assignment_selector_dynamic_inner, Bool.false_eq_true, if_false,
      copyCoeff, setCoeff, and_self, if_true]
    rw [ih (by omega)]
    by_cases h1 : r = count ∧ c = outer
    · obtain ⟨hr, hcc⟩ := h1
      subst hr hcc
      have h2 : ¬ (r = c ∧ c < r + 1) := by omega
      have h3 : r < r + 1 ∧ c = c := ⟨by omega, rfl⟩
      rw [if_pos ⟨rfl, rfl⟩, if_neg h2, if_pos h3]
    · rw [if_neg h1]
      by_cases h2 : r = outer ∧ c = count
      · obtain ⟨hr, hcc⟩ := h2
        subst hr hcc
        rw [if_pos ⟨rfl, rfl⟩, if_pos ⟨rfl, by omega⟩]
      · rw [if_neg h2]
        by_cases h3 : r = outer ∧ c < count
        · rw [if_pos h3, if_pos ⟨h3.1, by omega⟩]
        · have h4 : ¬ (r = outer ∧ c < count + 1) := by omega
          rw [if_neg h3, if_neg h4]
          by_cases h5 : r < count ∧ c = outer
          · rw [if_pos h5, if_pos ⟨by omega, h5.2⟩]
          · have h6 : ¬ (r < count + 1 ∧ c = outer) := by omega
            rw [if_neg h5, if_neg h6]

/-- The dynamic-size assignment of a self-adjoint view, run on `n` columns
(`Upper`) or rows (`Lower`): the leading `n × n` block of the destination is
the dense matrix that the view stands for, the diagonal as stored; the rest of
the destination is untouched. -/
theorem dynamic_apply {K : Type} [Star K] (upper : Bool) (src : Nat → Nat → K)
    (dst : Nat → Nat → K) (n : Nat) (r c : Nat) :
    triangular_assignment_selector_dynamic upper src n dst r c =
      if r < n ∧ c < n then selfAdjointDense upper src r c else dst r c := by
  induction n generalizing r c with
  | zero => simp [triangular_assignment_selector_dynamic]
  | succ n ih =>
    simp only [triangular_assignment_selector_dynamic, copyCoeff, setCoeff]
    by_cases h1 : r = n ∧ c = n
    · obtain ⟨hr, hcc⟩ := h1
      subst hr hcc
      rw [if_pos ⟨rfl, rfl⟩, if_pos ⟨by omega, by omega⟩]
      cases upper <;> simp [selfAdjointDense]
    · rw [if_neg h1]
      cases upper
      · rw [dynamic_inner_lower src n _ n (Nat.le_refl n), ih]
        by_cases h2 : r = n ∧ c < n
        · rw [if_pos h2, if_pos ⟨by omega, by omega⟩]
          have h3 : c ≤ r := by omega
          simp [selfAdjointDense, h3]
        · rw [if_neg h2]
          by_cases h3 : r < n ∧ c = n
          · rw [if_pos h3, if_pos ⟨by omega, by omega⟩]
            have h4 : ¬ c ≤ r := by omega
            simp [selfAdjointDense, h4]
          · rw [if_neg h3]
            by_cases h4 : r < n ∧ c < n
            · rw [if_pos h4, if_pos ⟨by omega, by omega⟩]
            · have h5 : ¬ (r < n + 1 ∧ c < n + 1) := by omega
              rw [if_neg h4, if_neg h5]
      · rw [dynamic_inner_upper src n _ n (Nat.le_refl n), ih]
        by_cases h2 : r < n ∧ c = n
        · rw [if_pos h2, if_pos ⟨by omega, by omega⟩]
          have h3 : r ≤ c := by omega
          simp [selfAdjointDense, h3]
        · rw [if_neg h2]
          by_cases h3 : r = n ∧ c < n
          · rw [if_pos h3, if_pos ⟨by omega, by omega⟩]
            have h4 : ¬ r ≤ c := by omega
            simp [selfAdjointDense, h4]
          · rw [if_neg h3]
            by_cases h4 : r < n ∧ c < n
            · rw [if_pos h4, if_pos ⟨by omega, by omega⟩]
            · have h5 : ¬ (r < n + 1 ∧ c < n + 1) := by omega
              rw [if_neg h4, if_neg h5]

/-- A coefficient `(r, c)` of a matrix with `n` rows has the position `u` in
the order of the unrolled assignment exactly when it is the declared
coefficient `(u % n, u / n)` or, off the diagonal, its mirror. -/
theorem unrolledIndex_eq_iff (upper : Bool) (n u r c : Nat) (hu : u < n * n) :
    (r < n ∧ c < n ∧ unrolledIndex upper n r c = u) ↔
      ((r = u % n ∧ c = u / n ∧ (if upper then u % n ≤ u / n else u / n ≤ u % n)) ∨
        (r = u / n ∧ c = u % n ∧ (if upper then u % n < u / n else u / n < u % n))) := by
  have hn : 0 < n := by
    rcases Nat.eq_zero_or_pos n with h | h
    · subst h
      omega
    · exact h
  have hdm : n * (u / n) + u % n = u := Nat.div_add_mod u n
  have hmod : u % n < n := Nat.mod_lt u hn
  have hcol : u / n < n := Nat.div_lt_of_lt_mul hu
  have hkey : ∀ a b, b < n → a * n + b = u → a = u / n ∧ b = u % n := by
    intro a b hb hab
    have h1 : u / n = a := by
      rw [← hab, Nat.add_comm, Nat.add_mul_div_right _ _ hn, Nat.div_eq_of_lt hb, Nat.zero_add]
    have h2 : u % n = b := by
      rw [← hab, Nat.add_comm, Nat.add_mul_mod_self_right, Nat.mod_eq_of_lt hb]
    exact ⟨h1.symm, h2.symm⟩
  have hmul : u / n * n + u % n = u := by rw [Nat.mul_comm]; exact hdm
  cases upper
  · simp only [unrolledIndex, Bool.false_eq_true, if_false]
    constructor
    · rintro ⟨hr, hc, hidx⟩
      rcases Nat.lt_or_ge r c with hrc | hrc
      · have h1 : min r c = r := Nat.min_eq_left (Nat.le_of_lt hrc)
        have h2 : max r c = c := Nat.max_eq_right (Nat.le_of_lt hrc)
        rw [h1, h2] at hidx
        obtain ⟨ha, hb⟩ := hkey r c hc hidx
        right
        exact ⟨ha, hb, by omega⟩
      · have h1 : min r c = c := Nat.min_eq_right hrc
        have h2 : max r c = r := Nat.max_eq_left hrc
        rw [h1, h2] at hidx
        obtain ⟨ha, hb⟩ := hkey c r hr hidx
        left
        exact ⟨hb, ha, by omega⟩
    · rintro (⟨hr, hc, hle⟩ | ⟨hr, hc, hlt⟩)
      · subst hr hc
        refine ⟨hmod, hcol, ?_⟩
        rw [Nat.min_eq_right hle, Nat.max_eq_left hle]
        exact hmul
      · subst hr hc
        refine ⟨hcol, hmod, ?_⟩
        rw [Nat.min_eq_left (Nat.le_of_lt hlt), Nat.max_eq_right (Nat.le_of_lt hlt)]
        exact hmul
  · simp only [unrolledIndex, if_true]
    constructor
    · rintro ⟨hr, hc, hidx⟩
      rcases Nat.lt_or_ge c r with hrc | hrc
      · have h1 : min r c = c := Nat.min_eq_right (Nat.le_of_lt hrc)
        have h2 : max r c = r := Nat.max_eq_left (Nat.le_of_lt hrc)
        rw [h1, h2] at hidx
        obtain ⟨ha, hb⟩ := hkey r c hc hidx
        right
        exact ⟨ha, hb, by omega⟩
      · have h1 : min r c = r := Nat.min_eq_left hrc
        have h2 : max r c = c := Nat.max_eq_right hrc
        rw [h1, h2] at hidx
        obtain ⟨ha, hb⟩ := hkey c r hr hidx
        left
        exact ⟨hb, ha, by omega⟩
    · rintro (⟨hr, hc, hle⟩ | ⟨hr, hc, hlt⟩)
      · subst hr hc
        refine ⟨hmod, hcol, ?_⟩
        rw [Nat.min_eq_left hle, Nat.max_eq_right hle]
        exact hmul
      · subst hr hc
        refine ⟨hcol, hmod, ?_⟩
        rw [Nat.min_eq_right (Nat.le_of_lt hlt), Nat.max_eq_left (Nat.le_of_lt hlt)]
        exact hmul

/-- One step of the unrolled assignment writes the coefficients whose
position is the step index, and no other. -/
theorem unrolled_step {K : Type} [Star K] (real : K → K) (upper : Bool) (n : Nat)
    (src dst : Nat → Nat → K) (u : Nat) (hu : u < n * n) (r c : Nat) :
    triangular_assignment_selector_unrolled real upper n src (u + 1) dst r c =
      if r < n ∧ c < n ∧ unrolledIndex upper n r c = u then
        (if r = c then real (src r r) else selfAdjointDense upper src r c)
      else triangular_assignment_selector_unrolled real upper n src u dst r c := by
  have hidx := unrolledIndex_eq_iff upper n u r c hu
  simp only [triangular_assignment_selector_unrolled, setCoeff, and_self, if_true]
  cases upper
  · simp only [Bool.false_eq_true, if_false] at hidx ⊢
    by_cases h1 : u % n = u / n
    · rw [if_pos h1]
      simp only [setCoeff]
      by_cases h2 : r = u % n ∧ c = u / n
      · have h3 : r < n ∧ c < n ∧ unrolledIndex false n r c = u :=
          hidx.mpr (Or.inl ⟨h2.1, h2.2, by omega⟩)
        have h4 : r = c := by omega
        rw [if_pos h2, if_pos h3, if_pos h4, h2.1, h1]
      · have h3 : ¬ (r < n ∧ c < n ∧ unrolledIndex false n r c = u) := by
          intro hh
          rcases hidx.mp hh with h | h
          · exact h2 ⟨h.1, h.2.1⟩
          · omega
        rw [if_neg h2, if_neg h3]
    · rw [if_neg h1]
      by_cases h2 : u / n < u % n
      · rw [if_pos h2]
        simp only [setCoeff, and_self, if_true]
        by_cases h3 : r = u / n ∧ c = u % n
        · have h4 : r < n ∧ c < n ∧ unrolledIndex false n r c = u :=
            hidx.mpr (Or.inr ⟨h3.1, h3.2, h2⟩)
          have h5 : ¬ r = c := by omega
          have h6 : ¬ u % n ≤ u / n := by omega
          rw [if_pos h3, if_pos h4, if_neg h5, h3.1, h3.2]
          simp only [selfAdjointDense, Bool.false_eq_true, if_false, if_neg h6]
        · rw [if_neg h3]
          by_cases h4 : r = u % n ∧ c = u / n
          · have h5 : r < n ∧ c < n ∧ unrolledIndex false n r c = u :=
              hidx.mpr (Or.inl ⟨h4.1, h4.2, by omega⟩)
            have h6 : ¬ r = c := by omega
            have h7 : u / n ≤ u % n := by omega
            rw [if_pos h4, if_pos h5, if_neg h6, h4.1, h4.2]
            simp only [selfAdjointDense, Bool.false_eq_true, if_false, if_pos h7]
          · have h5 : ¬ (r < n ∧ c < n ∧ unrolledIndex false n r c = u) := by
              intro hh
              rcases hidx.mp hh with h | h
              · exact h4 ⟨h.1, h.2.1⟩
              · exact h3 ⟨h.1, h.2.1⟩
            rw [if_neg h4, if_neg h5]
      · have h5 : ¬ (r < n ∧ c < n ∧ unrolledIndex false n r c = u) := by
          intro hh
          rcases hidx.mp hh with h | h
          · omega
          · omega
        rw [if_neg h2, if_neg h5]
  · simp only [if_true] at hidx ⊢
    by_cases h1 : u % n = u / n
    · rw [if_pos h1]
      simp only [setCoeff]
      by_cases h2 : r = u % n ∧ c = u / n
      · have h3 : r < n ∧ c < n ∧ unrolledIndex true n r c = u :=
          hidx.mpr (Or.inl ⟨h2.1, h2.2, by omega⟩)
        have h4 : r = c := by omega
        rw [if_pos h2, if_pos h3, if_pos h4, h2.1, h1]
      · have h3 : ¬ (r < n ∧ c < n ∧ unrolledIndex true n r c = u) := by
          intro hh
          rcases hidx.mp hh with h | h
          · exact h2 ⟨h.1, h.2.1⟩
          · omega
        rw [if_neg h2, if_neg h3]
    · rw [if_neg h1]
      by_cases h2 : u % n < u / n
      · rw [if_pos h2]
        simp only [setCoeff, and_self, if_true]
        by_cases h3 : r = u / n ∧ c = u % n
        · have h4 : r < n ∧ c < n ∧ unrolledIndex true n r c = u :=
            hidx.mpr (Or.inr ⟨h3.1, h3.2, h2⟩)
          have h5 : ¬ r = c := by omega
          have h6 : ¬ u / n ≤ u % n := by omega
          rw [if_pos h3, if_pos h4, if_neg h5, h3.1, h3.2]
          simp only [selfAdjointDense, if_true, if_neg h6]
        · rw [if_neg h3]
          by_cases h4 : r = u % n ∧ c = u / n
          · have h5 : r < n ∧ c < n ∧ unrolledIndex true n r c = u :=
              hidx.mpr (Or.inl ⟨h4.1, h4.2, by omega⟩)
            have h6 : ¬ r = c := by omega
            have h7 : u % n ≤ u / n := by omega
            rw [if_pos h4, if_pos h5, if_neg h6, h4.1, h4.2]
            simp only [selfAdjointDense, if_true, if_pos h7]
          · have h5 : ¬ (r < n ∧ c < n ∧ unrolledIndex true n r c = u) := by
              intro hh
              rcases hidx.mp hh with h | h
              · exact h4 ⟨h.1, h.2.1⟩
              · exact h3 ⟨h.1, h.2.1⟩
            rw [if_neg h4, if_neg h5]
      · have h5 : ¬ (r < n ∧ c < n ∧ unrolledIndex true n r c = u) := by
          intro hh
          rcases hidx.mp hh with h | h
          · omega
          · omega
        rw [if_neg h2, if_neg h5]

/-- The unrolled assignment of a self-adjoint view of a matrix with `n` rows,
after `count ≤ n * n` steps: the coefficients whose position is below `count`
hold the dense matrix that the view stands for, with the real part of the
source on the diagonal; the others are untouched. -/
theorem unrolled_apply {K : Type} [Star K] (real : K → K) (upper : Bool) (n : Nat)
    (src dst : Nat → Nat → K) (count : Nat) (hc : count ≤ n * n) (r c : Nat) :
    triangular_assignment_selector_unrolled real upper n src count dst r c =
      if r < n ∧ c < n ∧ unrolledIndex upper n r c < count then
        (if r = c then real (src r r) else selfAdjointDense upper src r c)
      else dst r c := by
  induction count with
  | zero => simp [triangular_assignment_selector_unrolled]
  | succ count ih =>
    rw [unrolled_step real upper n src dst count (by omega) r c, ih (by omega)]
    by_cases h1 : r < n ∧ c < n ∧ unrolledIndex upper n r c = count
    · have h2 : r < n ∧ c < n ∧ unrolledIndex upper n r c < count + 1 :=
        ⟨h1.1, h1.2.1, by omega⟩
      rw [if_pos h1, if_pos h2]
    · rw [if_neg h1]
      by_cases h2 : r < n ∧ c < n ∧ unrolledIndex upper n r c < count
      · have h3 : r < n ∧ c < n ∧ unrolledIndex upper n r c < count + 1 :=
          ⟨h2.1, h2.2.1, by omega⟩
        rw [if_pos h2, if_pos h3]
      · have h3 : ¬ (r < n ∧ c < n ∧ unrolledIndex upper n r c < count + 1) := by omega
        rw [if_neg h2, if_neg h3]

/-- Every coefficient of a matrix with `n` rows has a position below `n * n`
in the order of the unrolled assignment. -/
theorem unrolledIndex_lt (upper : Bool) (n r c : Nat) (hr : r < n) (hc : c < n) :
    unrolledIndex upper n r c < n * n := by
  have h1 : max r c < n := by omega
  have h2 : min r c < n := by omega
  have h3 : ∀ a b, a < n → b < n → a * n + b < n * n := by
    intro a b ha hb
    have : (a + 1) * n ≤ n * n := Nat.mul_le_mul_right n ha
    rw [Nat.add_mul, Nat.one_mul] at this
    omega
  cases upper
  · simp only [unrolledIndex, Bool.false_eq_true, if_false]
    exact h3 _ _ h2 h1
  · simp only [unrolledIndex, if_true]
    exact h3 _ _ h1 h2

/-- The complete unrolled assignment (`UnrollCount = n * n`): the leading
`n × n` block of the destination is the dense matrix that the view stands for,
with the real part of the source on the diagonal. -/
theorem unrolled_complete {K : Type} [Star K] (real : K → K) (upper : Bool) (n : Nat)
    (src dst : Nat → Nat → K) (r c : Nat) :
    triangular_assignment_selector_unrolled real upper n src (n * n) dst r c =
      if r < n ∧ c < n then
        (if r = c then real (src r r) else selfAdjointDense upper src r c)
      else dst r c := by
  rw [unrolled_apply real upper n src dst (n * n) (Nat.le_refl _) r c]
  by_cases h : r < n ∧ c < n
  · have h1 : r < n ∧ c < n ∧ unrolledIndex upper n r c < n * n :=
      ⟨h.1, h.2, unrolledIndex_lt upper n r c h.1 h.2⟩
    rw [if_pos h, if_pos h1]
  · have h1 : ¬ (r < n ∧ c < n ∧ unrolledIndex upper n r c < n * n) := fun hh => h ⟨hh.1, hh.2.1⟩
    rw [if_neg h, if_neg h1]


/-! ## Claims on the expansion of a self-adjoint view -/

/-- The complete unrolled assignment leaves on the diagonal the real part of
the stored diagonal. -/
theorem unrolled_diagonal {K : Type} [Star K] (real : K → K) (upper : Bool) (n : Nat)
    (src dst : Nat → Nat → K) (i : Nat) (hi : i < n) :
    triangular_assignment_selector_unrolled real upper n src (n * n) dst i i =
      real (src i i) := by
  rw [unrolled_complete, if_pos ⟨hi, hi⟩, if_pos rfl]

/-- The dynamic-size assignment leaves on the diagonal the stored diagonal, as
it is. -/
theorem dynamic_diagonal {K : Type} [Star K] (upper : Bool) (n : Nat)
    (src dst : Nat → Nat → K) (i : Nat) (hi : i < n) :
    triangular_assignment_selector_dynamic upper src n dst i i = src i i := by
  rw [dynamic_apply, if_pos ⟨hi, hi⟩]
  cases upper <;> simp [selfAdjointDense]

/-- The diagonal assignment of the evaluator kernel hands the stored diagonal
coefficient, as it is, to the functor. -/
theorem kernel_diagonal {K : Type} (functor : K → K → K) (src dst : Nat → Nat → K)
    (id : Nat) :
    triangular_dense_assignment_kernel_assignDiagonalCoeff functor src id dst id id =
      functor (dst id id) (src id id) := by
  simp [triangular_dense_assignment_kernel_assignDiagonalCoeff,
    generic_dense_assignment_kernel_assignCoeff, setCoeff]

/-- C24 fails outside the unrolled assignment.  For the upper self-adjoint
view of `[[1+2i, 3+i], [_, 5-i]]`, expanded into a zero matrix, the unrolled
assignment gives the diagonal `1, 5` (real parts), while the dynamic-size
assignment, for `Upper` and for `Lower`, and the diagonal assignment of the
evaluator kernel (with the plain assignment functor) give `1+2i` and `5-i`,
whose imaginary parts `2` and `-1` are not zero. -/
theorem selfadjoint_diagonal_kept_complex :
    triangular_assignment_selector_unrolled gaussianReal true 2 seedComplexUpper 4
      (fun _ _ => 0) 0 0 = ⟨1, 0⟩ ∧
    triangular_assignment_selector_unrolled gaussianReal true 2 seedComplexUpper 4
      (fun _ _ => 0) 1 1 = ⟨5, 0⟩ ∧
    triangular_assignment_selector_dynamic true seedComplexUpper 2 (fun _ _ => 0) 0 0 =
      ⟨1, 2⟩ ∧
    triangular_assignment_selector_dynamic true seedComplexUpper 2 (fun _ _ => 0) 1 1 =
      ⟨5, -1⟩ ∧
    triangular_assignment_selector_dynamic false seedComplexUpper 2 (fun _ _ => 0) 0 0 =
      ⟨1, 2⟩ ∧
    triangular_dense_assignment_kernel_assignDiagonalCoeff assign_op seedComplexUpper 0
      (fun _ _ => 0) 0 0 = ⟨1, 2⟩ ∧
    (triangular_assignment_selector_dynamic true seedComplexUpper 2 (fun _ _ => 0) 0 0).im ≠ 0 ∧
    (triangular_dense_assignment_kernel_assignDiagonalCoeff assign_op seedComplexUpper 0
      (fun _ _ => 0) 0 0).im ≠ 0 := by
  have hu0 := unrolled_diagonal gaussianReal true 2 seedComplexUpper (fun _ _ => 0) 0
    (by decide)
  have hu1 := unrolled_diagonal gaussianReal true 2 seedComplexUpper (fun _ _ => 0) 1
    (by decide)
  have hd0 := dynamic_diagonal true 2 seedComplexUpper (fun _ _ => 0) 0 (by decide)
  have hd1 := dynamic_diagonal true 2 seedComplexUpper (fun _ _ => 0) 1 (by decide)
  have hl0 := dynamic_diagonal false 2 seedComplexUpper (fun _ _ => 0) 0 (by decide)
  have hk0 := kernel_diagonal assign_op seedComplexUpper (fun _ _ => 0) 0
  have s00 : seedComplexUpper 0 0 = ⟨1, 2⟩ := by simp [seedComplexUpper]
  have s11 : seedComplexUpper 1 1 = ⟨5, -1⟩ := by simp [seedComplexUpper]
  rw [s00] at hu0 hd0 hl0 hk0
  rw [s11] at hu1 hd1
  refine ⟨hu0, hu1, hd0, hd1, hl0, hk0, ?_, ?_⟩
  · rw [hd0]
    decide
  · rw [hk0]
    decide

/-- C25: for every source `S` and all `i < j < n`, the expansion of the
`Upper` self-adjoint view of `S` to a dense `n × n` matrix `D`, by the
dynamic-size assignment and by the unrolled assignment, gives `D(i,j) = S(i,j)`
and `D(j,i) = conj(S(i,j))`, and `D` is the same for every source that agrees
with `S` on and above the diagonal; symmetrically for `Lower`; and the upper
triangle `[[4,1,2],[_,5,3],[_,_,6]]`, whatever is stored below it, expands to a
matrix whose product with `[1,1,1]` is `[7,9,11]`. -/
theorem selfadjoint_expansion_mirrors {K : Type} [Star K] (real : K → K) (n : Nat)
    (src dst : Nat → Nat → K) (i j : Nat) (hij : i < j) (hj : j < n) :
    (triangular_assignment_selector_dynamic true src n dst i j = src i j ∧
      triangular_assignment_selector_dynamic true src n dst j i = star (src i j) ∧
      triangular_assignment_selector_unrolled real true n src (n * n) dst i j = src i j ∧
      triangular_assignment_selector_unrolled real true n src (n * n) dst j i =
        star (src i j)) ∧
    (∀ other : Nat → Nat → K, (∀ r c, r ≤ c → other r c = src r c) →
      triangular_assignment_selector_dynamic true other n dst =
        triangular_assignment_selector_dynamic true src n dst ∧
      triangular_assignment_selector_unrolled real true n other (n * n) dst =
        triangular_assignment_selector_unrolled real true n src (n * n) dst) ∧
    (triangular_assignment_selector_dynamic false src n dst j i = src j i ∧
      triangular_assignment_selector_dynamic false src n dst i j = star (src j i) ∧
      triangular_assignment_selector_unrolled real false n src (n * n) dst j i = src j i ∧
      triangular_assignment_selector_unrolled real false n src (n * n) dst i j =
        star (src j i)) ∧
    (∀ other : Nat → Nat → K, (∀ r c, c ≤ r → other r c = src r c) →
      triangular_assignment_selector_dynamic false other n dst =
        triangular_assignment_selector_dynamic false src n dst ∧
      triangular_assignment_selector_unrolled real false n other (n * n) dst =
        triangular_assignment_selector_unrolled real false n src (n * n) dst) ∧
    (∀ (below : ℤ) (dst0 : Nat → Nat → ℤ) (r : Nat), r < 3 →
      accumulate (fun c => triangular_assignment_selector_dynamic true
        (seedSymmetricUpper below) 3 dst0 r c * 1) 3 = [7, 9, 11].getD r 0 ∧
      accumulate (fun c => triangular_assignment_selector_unrolled (fun x => x) true 3
        (seedSymmetricUpper below) (3 * 3) dst0 r c * 1) 3 = [7, 9, 11].getD r 0) := by
  have hi : i < n := by omega
  have hne : ¬ i = j := by omega
  have hne2 : ¬ j = i := by omega
  have hle : i ≤ j := by omega
  have hnle : ¬ j ≤ i := by omega
  refine ⟨⟨?_, ?_, ?_, ?_⟩, ?_, ⟨?_, ?_, ?_, ?_⟩, ?_, ?_⟩
  · rw [dynamic_apply, if_pos ⟨hi, hj⟩]
    simp only [selfAdjointDense, if_true, if_pos hle]
  · rw [dynamic_apply, if_pos ⟨hj, hi⟩]
    simp only [selfAdjointDense, if_true, if_neg hnle]
  · rw [unrolled_complete, if_pos ⟨hi, hj⟩, if_neg hne]
    simp only [selfAdjointDense, if_true, if_pos hle]
  · rw [unrolled_complete, if_pos ⟨hj, hi⟩, if_neg hne2]
    simp only [selfAdjointDense, if_true, if_neg hnle]
  · intro other hagree
    constructor
    · funext r c
      rw [dynamic_apply, dynamic_apply]
      by_cases h : r < n ∧ c < n
      · rw [if_pos h, if_pos h]
        simp only [selfAdjointDense, if_true]
        by_cases hrc : r ≤ c
        · rw [if_pos hrc, if_pos hrc, hagree r c hrc]
        · rw [if_neg hrc, if_neg hrc, hagree c r (by omega)]
      · rw [if_neg h, if_neg h]
    · funext r c
      rw [unrolled_complete, unrolled_complete]
      by_cases h : r < n ∧ c < n
      · rw [if_pos h, if_pos h]
        by_cases hd : r = c
        · rw [if_pos hd, if_pos hd, hagree r r (Nat.le_refl r)]
        · rw [if_neg hd, if_neg hd]
          simp only [selfAdjointDense, if_true]
          by_cases hrc : r ≤ c
          · rw [if_pos hrc, if_pos hrc, hagree r c hrc]
          · rw [if_neg hrc, if_neg hrc, hagree c r (by omega)]
      · rw [if_neg h, if_neg h]
  · rw [dynamic_apply, if_pos ⟨hj, hi⟩]
    simp only [selfAdjointDense, Bool.false_eq_true, if_false, if_pos hle]
  · rw [dynamic_apply, if_pos ⟨hi, hj⟩]
    simp only [selfAdjointDense, Bool.false_eq_true, if_false, if_neg hnle]
  · rw [unrolled_complete, if_pos ⟨hj, hi⟩, if_neg hne2]
    simp only [selfAdjointDense, Bool.false_eq_true, if_false, if_pos hle]
  · rw [unrolled_complete, if_pos ⟨hi, hj⟩, if_neg hne]
    simp only [selfAdjointDense, Bool.false_eq_true, if_false, if_neg hnle]
  · intro other hagree
    constructor
    · funext r c
      rw [dynamic_apply, dynamic_apply]
      by_cases h : r < n ∧ c < n
      · rw [if_pos h, if_pos h]
        simp only [selfAdjointDense, Bool.false_eq_true, if_false]
        by_cases hrc : c ≤ r
        · rw [if_pos hrc, if_pos hrc, hagree r c hrc]
        · rw [if_neg hrc, if_neg hrc, hagree c r (by omega)]
      · rw [if_neg h, if_neg h]
    · funext r c
      rw [unrolled_complete, unrolled_complete]
      by_cases h : r < n ∧ c < n
      · rw [if_pos h, if_pos h]
        by_cases hd : r = c
        · rw [if_pos hd, if_pos hd, hagree r r (Nat.le_refl r)]
        · rw [if_neg hd, if_neg hd]
          simp only [selfAdjointDense, Bool.false_eq_true, if_false]
          by_cases hrc : c ≤ r
          · rw [if_pos hrc, if_pos hrc, hagree r c hrc]
          · rw [if_neg hrc, if_neg hrc, hagree c r (by omega)]
      · rw [if_neg h, if_neg h]
  · intro below dst0 r hr
    have hU : ∀ a b, triangular_assignment_selector_unrolled (fun x => x) true 3
        (seedSymmetricUpper below) 9 dst0 a b =
        if a < 3 ∧ b < 3 then
          (if a = b then seedSymmetricUpper below a a
            else selfAdjointDense true (seedSymmetricUpper below) a b)
        else dst0 a b :=
      fun a b => unrolled_complete (fun x => x) true 3 (seedSymmetricUpper below) dst0 a b
    interval_cases r <;>
      simp [accumulate, dynamic_apply, hU, selfAdjointDense, seedSymmetricUpper]

/-- C25 on the upper triangle `[[4,1,2],[_,5,3],[_,_,6]]` with `77` stored
below it, at `(i, j) = (0, 2)` of the `3 × 3` expansion into a matrix of
nines. -/
theorem selfadjoint_expansion_mirrors_witness :
    ((0 : Nat) < 2 ∧ (2 : Nat) < 3) ∧
    triangular_assignment_selector_dynamic true (seedSymmetricUpper 77) 3 (fun _ _ => 9) 0 2 =
      2 ∧
    triangular_assignment_selector_dynamic true (seedSymmetricUpper 77) 3 (fun _ _ => 9) 2 0 =
      2 ∧
    triangular_assignment_selector_unrolled (fun x => x) true 3 (seedSymmetricUpper 77) (3 * 3)
      (fun _ _ => 9) 2 0 = 2 :=
  have h := selfadjoint_expansion_mirrors (fun x => x) 3 (seedSymmetricUpper 77)
    (fun _ _ => 9) 0 2 (by decide) (by decide)
  have s02 : seedSymmetricUpper 77 0 2 = 2 := by decide
  ⟨⟨by decide, by decide⟩, by rw [h.1.1, s02], by rw [h.1.2.1, s02]; rfl,
    by rw [h.1.2.2.2, s02]; rfl⟩


/-! ## The history of the scratch matrix of the triangular drivers -/

/-- The scratch matrix that the panel body of the triangular lhs leaves is the
triangular copy of the diagonal micro block into the scratch matrix it
received. -/
theorem trmmLhsPanelBody_buffer {K : Type} [Zero K] [One K] [Add K] [Mul K] [Star K]
    (mode : TriangularMode) (lhsOrder : StorageOrder) (conjLhs conjRhs : Bool) (cols : Nat)
    (lhs : Nat → K) (lhsStride resStride smallPanelWidth actual_k2 actual_kc : Nat)
    (blockB : Nat → Nat → K) (k1 : Nat) (blockA triangularBuffer : Nat → Nat → K)
    (res : Nat → K) :
    (trmmLhsPanelBody mode lhsOrder conjLhs conjRhs cols lhs lhsStride resStride
        smallPanelWidth actual_k2 actual_kc blockB k1 blockA triangularBuffer res).2.1 =
      copyTriangularBlock mode (readMat lhsOrder lhsStride lhs) (actual_k2 + k1)
        (min (actual_kc - k1) smallPanelWidth) (min (actual_kc - k1) smallPanelWidth)
        triangularBuffer := by
  unfold trmmLhsPanelBody
  simp only
  split_ifs <;> rfl

/-- The scratch matrix that the pack body of the triangular rhs leaves is the
triangular copy of the diagonal micro block into the scratch matrix it
received. -/
theorem trmmRhsPackBody_buffer {K : Type} [Zero K] [One K] [Mul K] [Star K]
    (mode : TriangularMode) (rhsOrder : StorageOrder) (rhs : Nat → K) (rhsStride : Nat)
    (alpha : K) (smallPanelWidth actual_k2 actual_kc : Nat) (j2 : Nat)
    (blockB triangularBuffer : Nat → Nat → K) :
    (trmmRhsPackBody mode rhsOrder rhs rhsStride alpha smallPanelWidth actual_k2 actual_kc
        j2 blockB triangularBuffer).2 =
      copyTriangularBlock mode (readMat rhsOrder rhsStride rhs) (actual_k2 + j2)
        (min (actual_kc - j2) smallPanelWidth) (min (actual_kc - j2) smallPanelWidth)
        triangularBuffer := rfl

/-- A triangular copy into a scratch matrix that satisfies the invariant makes
a clean pack. -/
theorem copyTriangularBlock_clean {K : Type} [CommRing K] (mode : TriangularMode)
    (tri : Nat → Nat → K) (startBlock actualPanelWidth : Nat) (buf : Nat → Nat → K)
    (h : triangularBufferInvariant mode buf) :
    TriangularPack.clean mode tri
      (TriangularPack.mk startBlock actualPanelWidth
        (copyTriangularBlock mode tri startBlock actualPanelWidth actualPanelWidth buf)) :=
  ⟨copyTriangularBlock_invariant mode tri startBlock actualPanelWidth actualPanelWidth buf h,
    fun i k hi hk => copyTriangularBlock_view mode tri startBlock actualPanelWidth buf h i k hi hk⟩

/-- The history does not change what the panel loop of the triangular lhs
computes. -/
theorem trmmLhsPanelLoopPacks_erase {K : Type} [Zero K] [One K] [Add K] [Mul K] [Star K]
    (mode : TriangularMode) (lhsOrder : StorageOrder) (conjLhs conjRhs : Bool) (cols : Nat)
    (lhs : Nat → K) (lhsStride resStride smallPanelWidth actual_k2 actual_kc : Nat)
    (blockB : Nat → Nat → K) (fuel : Nat) :
    ∀ (k1 : Nat) (blockA buf : Nat → Nat → K) (res : Nat → K) (packs : List (TriangularPack K)),
      (trmmLhsPanelLoopPacks mode lhsOrder conjLhs conjRhs cols lhs lhsStride resStride
          smallPanelWidth actual_k2 actual_kc blockB fuel k1 blockA buf res packs).map
          (fun r => (r.1, r.2.1, r.2.2.1)) =
        trmmLhsPanelLoop mode lhsOrder conjLhs conjRhs cols lhs lhsStride resStride
          smallPanelWidth actual_k2 actual_kc blockB fuel k1 blockA buf res := by
  induction fuel with
  | zero =>
    intro k1 blockA buf res packs
    by_cases h : k1 < actual_kc
    · simp only [trmmLhsPanelLoopPacks, trmmLhsPanelLoop, if_pos h, Option.map_none']
    · simp only [trmmLhsPanelLoopPacks, trmmLhsPanelLoop, if_neg h, Option.map_some']
  | succ fuel ih =>
    intro k1 blockA buf res packs
    by_cases h : k1 < actual_kc
    · simp only [trmmLhsPanelLoopPacks, trmmLhsPanelLoop, if_pos h]
      exact ih _ _ _ _ _
    · simp only [trmmLhsPanelLoopPacks, trmmLhsPanelLoop, if_neg h, Option.map_some']

/-- The panel loop of the triangular lhs keeps the invariant of the scratch
matrix and adds only clean packs to the history. -/
theorem trmmLhsPanelLoopPacks_clean {K : Type} [CommRing K] [StarRing K]
    (mode : TriangularMode) (lhsOrder : StorageOrder) (conjLhs conjRhs : Bool) (cols : Nat)
    (lhs : Nat → K) (lhsStride resStride smallPanelWidth actual_k2 actual_kc : Nat)
    (blockB : Nat → Nat → K) (fuel : Nat) :
    ∀ (k1 : Nat) (blockA buf : Nat → Nat → K) (res : Nat → K) (packs : List (TriangularPack K))
      (r : (Nat → Nat → K) × (Nat → Nat → K) × (Nat → K) × List (TriangularPack K)),
      triangularBufferInvariant mode buf →
      (∀ p ∈ packs, TriangularPack.clean mode (readMat lhsOrder lhsStride lhs) p) →
      trmmLhsPanelLoopPacks mode lhsOrder conjLhs conjRhs cols lhs lhsStride resStride
          smallPanelWidth actual_k2 actual_kc blockB fuel k1 blockA buf res packs = some r →
      triangularBufferInvariant mode r.2.1 ∧
        ∀ p ∈ r.2.2.2, TriangularPack.clean mode (readMat lhsOrder lhsStride lhs) p := by
  induction fuel with
  | zero =>
    intro k1 blockA buf res packs r hinv hpacks hrun
    by_cases h : k1 < actual_kc
    · simp [trmmLhsPanelLoopPacks, h] at hrun
    · simp only [trmmLhsPanelLoopPacks, if_neg h, Option.some.injEq] at hrun
      subst hrun
      exact ⟨hinv, hpacks⟩
  | succ fuel ih =>
    intro k1 blockA buf res packs r hinv hpacks hrun
    by_cases h : k1 < actual_kc
    · simp only [trmmLhsPanelLoopPacks, if_pos h] at hrun
      refine ih _ _ _ _ _ r ?_ ?_ hrun
      · rw [trmmLhsPanelBody_buffer]
        exact copyTriangularBlock_invariant mode _ _ _ _ buf hinv
      · intro p hp
        rw [List.mem_append, List.mem_singleton] at hp
        rcases hp with hp | hp
        · exact hpacks p hp
        · subst hp
          rw [trmmLhsPanelBody_buffer]
          exact copyTriangularBlock_clean mode _ _ _ buf hinv
    · simp only [trmmLhsPanelLoopPacks, if_neg h, Option.some.injEq] at hrun
      subst hrun
      exact ⟨hinv, hpacks⟩

/-- The history does not change what the depth body of the triangular lhs
computes. -/
theorem trmmLhsDepthBodyPacks_erase {K : Type} [Zero K] [One K] [Add K] [Mul K] [Star K]
    (mode : TriangularMode) (lhsOrder : StorageOrder) (conjLhs : Bool)
    (rhsOrder : StorageOrder) (conjRhs : Bool) (rows cols depth : Nat)
    (lhs : Nat → K) (lhsStride : Nat) (rhs : Nat → K) (rhsStride resStride : Nat) (alpha : K)
    (kc mc smallPanelWidth : Nat) (k2 : Nat) (blockA blockB buf : Nat → Nat → K)
    (res : Nat → K) (packs : List (TriangularPack K)) :
    (trmmLhsDepthBodyPacks mode lhsOrder conjLhs rhsOrder conjRhs rows cols depth lhs lhsStride
        rhs rhsStride resStride alpha kc mc smallPanelWidth k2 blockA blockB buf res packs).map
        (fun r => (r.1, r.2.1, r.2.2.1, r.2.2.2.1, r.2.2.2.2.1)) =
      trmmLhsDepthBody mode lhsOrder conjLhs rhsOrder conjRhs rows cols depth lhs lhsStride
        rhs rhsStride resStride alpha kc mc smallPanelWidth k2 blockA blockB buf res := by
  unfold trmmLhsDepthBodyPacks trmmLhsDepthBody
  simp only
  by_cases hc : (mode.isLower || decide ((if mode.isLower = true then
      k2 - min (if mode.isLower = true then k2 else depth - k2) kc else k2) < rows)) = true
  · rw [if_pos hc, if_pos hc]
    rw [← trmmLhsPanelLoopPacks_erase mode lhsOrder conjLhs conjRhs cols lhs lhsStride
        resStride smallPanelWidth _ _ _ _ 0 blockA buf res packs]
    generalize trmmLhsPanelLoopPacks mode lhsOrder conjLhs conjRhs cols lhs lhsStride
        resStride smallPanelWidth _ _ _ _ 0 blockA buf res packs = X
    cases X with
    | none => rfl
    | some r =>
      obtain ⟨bA, b1, r1, p1⟩ := r
      simp only [Option.map_some']
      generalize trmmLhsGeppLoop lhsOrder conjLhs conjRhs cols lhs lhsStride resStride mc _ _ _
        _ rows _ bA r1 = G
      cases G <;> rfl
  · rw [if_neg hc, if_neg hc]
    simp only
    generalize trmmLhsGeppLoop lhsOrder conjLhs conjRhs cols lhs lhsStride resStride mc _ _ _
      _ rows _ blockA res = G
    cases G <;> rfl
/-- The depth body of the triangular lhs keeps the invariant of the scratch
matrix and adds only clean packs to the history. -/
theorem trmmLhsDepthBodyPacks_clean {K : Type} [CommRing K] [StarRing K]
    (mode : TriangularMode) (lhsOrder : StorageOrder) (conjLhs : Bool)
    (rhsOrder : StorageOrder) (conjRhs : Bool) (rows cols depth : Nat)
    (lhs : Nat → K) (lhsStride : Nat) (rhs : Nat → K) (rhsStride resStride : Nat) (alpha : K)
    (kc mc smallPanelWidth : Nat) (k2 : Nat) (blockA blockB buf : Nat → Nat → K)
    (res : Nat → K) (packs : List (TriangularPack K))
    (r : Nat × (Nat → Nat → K) × (Nat → Nat → K) × (Nat → Nat → K) × (Nat → K) ×
      List (TriangularPack K))
    (hinv : triangularBufferInvariant mode buf)
    (hpacks : ∀ p ∈ packs, TriangularPack.clean mode (readMat lhsOrder lhsStride lhs) p)
    (hrun : trmmLhsDepthBodyPacks mode lhsOrder conjLhs rhsOrder conjRhs rows cols depth lhs
        lhsStride rhs rhsStride resStride alpha kc mc smallPanelWidth k2 blockA blockB buf res
        packs = some r) :
    triangularBufferInvariant mode r.2.2.2.1 ∧
      ∀ p ∈ r.2.2.2.2.2, TriangularPack.clean mode (readMat lhsOrder lhsStride lhs) p := by
  unfold trmmLhsDepthBodyPacks at hrun
  simp only at hrun
  by_cases hc : (mode.isLower || decide ((if mode.isLower = true then
      k2 - min (if mode.isLower = true then k2 else depth - k2) kc else k2) < rows)) = true
  · rw [if_pos hc] at hrun
    generalize hX : trmmLhsPanelLoopPacks mode lhsOrder conjLhs conjRhs cols lhs lhsStride
        resStride smallPanelWidth _ _ _ _ 0 blockA buf res packs = X at hrun
    cases X with
    | none => cases hrun
    | some q =>
      obtain ⟨bA, b1, r1, p1⟩ := q
      have hq := trmmLhsPanelLoopPacks_clean mode lhsOrder conjLhs conjRhs cols lhs lhsStride
        resStride smallPanelWidth _ _ _ _ 0 blockA buf res packs _ hinv hpacks hX
      simp only at hrun
      generalize trmmLhsGeppLoop lhsOrder conjLhs conjRhs cols lhs lhsStride resStride mc _ _ _
        _ rows _ bA r1 = G at hrun
      cases G with
      | none => cases hrun
      | some g =>
        simp only [Option.some.injEq] at hrun
        subst hrun
        exact hq
  · rw [if_neg hc] at hrun
    simp only at hrun
    generalize trmmLhsGeppLoop lhsOrder conjLhs conjRhs cols lhs lhsStride resStride mc _ _ _
      _ rows _ blockA res = G at hrun
    cases G with
    | none => cases hrun
    | some g =>
      simp only [Option.some.injEq] at hrun
      subst hrun
      exact ⟨hinv, hpacks⟩

/-- The history does not change what the depth loop of the triangular lhs
computes. -/
theorem trmmLhsDepthLoopPacks_erase {K : Type} [Zero K] [One K] [Add K] [Mul K] [Star K]
    (mode : TriangularMode) (lhsOrder : StorageOrder) (conjLhs : Bool)
    (rhsOrder : StorageOrder) (conjRhs : Bool) (rows cols depth : Nat)
    (lhs : Nat → K) (lhsStride : Nat) (rhs : Nat → K) (rhsStride resStride : Nat) (alpha : K)
    (kc mc smallPanelWidth : Nat) (fuel : Nat) :
    ∀ (k2 : Nat) (blockA blockB buf : Nat → Nat → K) (res : Nat → K)
      (packs : List (TriangularPack K)),
      (trmmLhsDepthLoopPacks mode lhsOrder conjLhs rhsOrder conjRhs rows cols depth lhs
          lhsStride rhs rhsStride resStride alpha kc mc smallPanelWidth fuel k2 blockA blockB
          buf res packs).map (fun r => r.1) =
        trmmLhsDepthLoop mode lhsOrder conjLhs rhsOrder conjRhs rows cols depth lhs lhsStride
          rhs rhsStride resStride alpha kc mc smallPanelWidth fuel k2 blockA blockB buf res := by
  induction fuel with
  | zero =>
    intro k2 blockA blockB buf res packs
    by_cases h : (if mode.isLower then 0 < k2 else k2 < depth)
    · simp only [trmmLhsDepthLoopPacks, trmmLhsDepthLoop, if_pos h, Option.map_none']
    · simp only [trmmLhsDepthLoopPacks, trmmLhsDepthLoop, if_neg h, Option.map_some']
  | succ fuel ih =>
    intro k2 blockA blockB buf res packs
    by_cases h : (if mode.isLower then 0 < k2 else k2 < depth)
    · simp only [trmmLhsDepthLoopPacks, trmmLhsDepthLoop, if_pos h]
      rw [← trmmLhsDepthBodyPacks_erase mode lhsOrder conjLhs rhsOrder conjRhs rows cols depth
        lhs lhsStride rhs rhsStride resStride alpha kc mc smallPanelWidth k2 blockA blockB buf
        res packs]
      cases trmmLhsDepthBodyPacks mode lhsOrder conjLhs rhsOrder conjRhs rows cols depth lhs
        lhsStride rhs rhsStride resStride alpha kc mc smallPanelWidth k2 blockA blockB buf res
        packs with
      | none => rfl
      | some q =>
        obtain ⟨k2next, bA, bB, b1, r1, p1⟩ := q
        simp only [Option.map_some']
        exact ih _ _ _ _ _ _
    · simp only [trmmLhsDepthLoopPacks, trmmLhsDepthLoop, if_neg h, Option.map_some']

/-- The depth loop of the triangular lhs keeps the invariant of the scratch
matrix and adds only clean packs to the history. -/
theorem trmmLhsDepthLoopPacks_clean {K : Type} [CommRing K] [StarRing K]
    (mode : TriangularMode) (lhsOrder : StorageOrder) (conjLhs : Bool)
    (rhsOrder : StorageOrder) (conjRhs : Bool) (rows cols depth : Nat)
    (lhs : Nat → K) (lhsStride : Nat) (rhs : Nat → K) (rhsStride resStride : Nat) (alpha : K)
    (kc mc smallPanelWidth : Nat) (fuel : Nat) :
    ∀ (k2 : Nat) (blockA blockB buf : Nat → Nat → K) (res : Nat → K)
      (packs : List (TriangularPack K)) (r : (Nat → K) × List (TriangularPack K)),
      triangularBufferInvariant mode buf →
      (∀ p ∈ packs, TriangularPack.clean mode (readMat lhsOrder lhsStride lhs) p) →
      trmmLhsDepthLoopPacks mode lhsOrder conjLhs rhsOrder conjRhs rows cols depth lhs
          lhsStride rhs rhsStride resStride alpha kc mc smallPanelWidth fuel k2 blockA blockB
          buf res packs = some r →
      ∀ p ∈ r.2, TriangularPack.clean mode (readMat lhsOrder lhsStride lhs) p := by
  induction fuel with
  | zero =>
    intro k2 blockA blockB buf res packs r hinv hpacks hrun
    by_cases h : (if mode.isLower then 0 < k2 else k2 < depth)
    · simp [trmmLhsDepthLoopPacks, h] at hrun
    · simp only [trmmLhsDepthLoopPacks, if_neg h, Option.some.injEq] at hrun
      subst hrun
      exact hpacks
  | succ fuel ih =>
    intro k2 blockA blockB buf res packs r hinv hpacks hrun
    by_cases h : (if mode.isLower then 0 < k2 else k2 < depth)
    · simp only [trmmLhsDepthLoopPacks, if_pos h] at hrun
      cases hb : trmmLhsDepthBodyPacks mode lhsOrder conjLhs rhsOrder conjRhs rows cols depth
        lhs lhsStride rhs rhsStride resStride alpha kc mc smallPanelWidth k2 blockA blockB buf
        res packs with
      | none =>
        rw [hb] at hrun
        cases hrun
      | some q =>
        have hq := trmmLhsDepthBodyPacks_clean mode lhsOrder conjLhs rhsOrder conjRhs rows cols
          depth lhs lhsStride rhs rhsStride resStride alpha kc mc smallPanelWidth k2 blockA
          blockB buf res packs q hinv hpacks hb
        obtain ⟨k2next, bA, bB, b1, r1, p1⟩ := q
        rw [hb] at hrun
        exact ih _ _ _ _ _ _ r hq.1 hq.2 hrun
    · simp only [trmmLhsDepthLoopPacks, if_neg h, Option.some.injEq] at hrun
      subst hrun
      exact hpacks

/-- The history does not change what the pack loop of the triangular rhs
computes. -/
theorem trmmRhsPackLoopPacks_erase {K : Type} [Zero K] [One K] [Mul K] [Star K]
    (mode : TriangularMode) (rhsOrder : StorageOrder) (rhs : Nat → K) (rhsStride : Nat)
    (alpha : K) (smallPanelWidth actual_k2 actual_kc : Nat) (fuel : Nat) :
    ∀ (j2 : Nat) (blockB buf : Nat → Nat → K) (packs : List (TriangularPack K)),
      (trmmRhsPackLoopPacks mode rhsOrder rhs rhsStride alpha smallPanelWidth actual_k2
          actual_kc fuel j2 blockB buf packs).map (fun r => (r.1, r.2.1)) =
        trmmRhsPackLoop mode rhsOrder rhs rhsStride alpha smallPanelWidth actual_k2 actual_kc
          fuel j2 blockB buf := by
  induction fuel with
  | zero =>
    intro j2 blockB buf packs
    by_cases h : j2 < actual_kc
    · simp only [trmmRhsPackLoopPacks, trmmRhsPackLoop, if_pos h, Option.map_none']
    · simp only [trmmRhsPackLoopPacks, trmmRhsPackLoop, if_neg h, Option.map_some']
  | succ fuel ih =>
    intro j2 blockB buf packs
    by_cases h : j2 < actual_kc
    · simp only [trmmRhsPackLoopPacks, trmmRhsPackLoop, if_pos h]
      exact ih _ _ _ _
    · simp only [trmmRhsPackLoopPacks, trmmRhsPackLoop, if_neg h, Option.map_some']

/-- The pack loop of the triangular rhs keeps the invariant of the scratch
matrix and adds only clean packs to the history. -/
theorem trmmRhsPackLoopPacks_clean {K : Type} [CommRing K] [StarRing K]
    (mode : TriangularMode) (rhsOrder : StorageOrder) (rhs : Nat → K) (rhsStride : Nat)
    (alpha : K) (smallPanelWidth actual_k2 actual_kc : Nat) (fuel : Nat) :
    ∀ (j2 : Nat) (blockB buf : Nat → Nat → K) (packs : List (TriangularPack K))
      (r : (Nat → Nat → K) × (Nat → Nat → K) × List (TriangularPack K)),
      triangularBufferInvariant mode buf →
      (∀ p ∈ packs, TriangularPack.clean mode (readMat rhsOrder rhsStride rhs) p) →
      trmmRhsPackLoopPacks mode rhsOrder rhs rhsStride alpha smallPanelWidth actual_k2
          actual_kc fuel j2 blockB buf packs = some r →
      triangularBufferInvariant mode r.2.1 ∧
        ∀ p ∈ r.2.2, TriangularPack.clean mode (readMat rhsOrder rhsStride rhs) p := by
  induction fuel with
  | zero =>
    intro j2 blockB buf packs r hinv hpacks hrun
    by_cases h : j2 < actual_kc
    · simp [trmmRhsPackLoopPacks, h] at hrun
    · simp only [trmmRhsPackLoopPacks, if_neg h, Option.some.injEq] at hrun
      subst hrun
      exact ⟨hinv, hpacks⟩
  | succ fuel ih =>
    intro j2 blockB buf packs r hinv hpacks hrun
    by_cases h : j2 < actual_kc
    · simp only [trmmRhsPackLoopPacks, if_pos h] at hrun
      refine ih _ _ _ _ r ?_ ?_ hrun
      · rw [trmmRhsPackBody_buffer]
        exact copyTriangularBlock_invariant mode _ _ _ _ buf hinv
      · intro p hp
        rw [List.mem_append, List.mem_singleton] at hp
        rcases hp with hp | hp
        · exact hpacks p hp
        · subst hp
          rw [trmmRhsPackBody_buffer]
          exact copyTriangularBlock_clean mode _ _ _ buf hinv
    · simp only [trmmRhsPackLoopPacks, if_neg h, Option.some.injEq] at hrun
      subst hrun
      exact ⟨hinv, hpacks⟩

/-- The history does not change what the depth body of the triangular rhs
computes. -/
theorem trmmRhsDepthBodyPacks_erase {K : Type} [Zero K] [One K] [Add K] [Mul K] [Star K]
    (mode : TriangularMode) (lhsOrder : StorageOrder) (conjLhs : Bool)
    (rhsOrder : StorageOrder) (conjRhs : Bool) (rows cols depth : Nat)
    (lhs : Nat → K) (lhsStride : Nat) (rhs : Nat → K) (rhsStride resStride : Nat) (alpha : K)
    (kc mc smallPanelWidth : Nat) (k2 : Nat) (blockA blockB geb buf : Nat → Nat → K)
    (res : Nat → K) (packs : List (TriangularPack K)) :
    (trmmRhsDepthBodyPacks mode lhsOrder conjLhs rhsOrder conjRhs rows cols depth lhs lhsStride
        rhs rhsStride resStride alpha kc mc smallPanelWidth k2 blockA blockB geb buf res
        packs).map (fun r => (r.1, r.2.1, r.2.2.1, r.2.2.2.1, r.2.2.2.2.1, r.2.2.2.2.2.1)) =
      trmmRhsDepthBody mode lhsOrder conjLhs rhsOrder conjRhs rows cols depth lhs lhsStride
        rhs rhsStride resStride alpha kc mc smallPanelWidth k2 blockA blockB geb buf res := by
  unfold trmmRhsDepthBodyPacks trmmRhsDepthBody
  simp only
  generalize (if (mode.isLower && decide (cols ≤ _)) = true then 0 else _) = ts
  by_cases hts : 0 < ts
  · rw [if_pos hts, if_pos hts]
    rw [← trmmRhsPackLoopPacks_erase mode rhsOrder rhs rhsStride alpha smallPanelWidth _ _ _ 0
      blockB buf packs]
    generalize trmmRhsPackLoopPacks mode rhsOrder rhs rhsStride alpha smallPanelWidth _ _ _ 0
      blockB buf packs = X
    cases X with
    | none => rfl
    | some r =>
      obtain ⟨bB, b1, p1⟩ := r
      simp only [Option.map_some']
      generalize trmmRhsRowLoop mode lhsOrder conjLhs conjRhs rows lhs lhsStride resStride mc
        smallPanelWidth _ _ _ _ _ bB _ rows 0 blockA res = G
      cases G <;> rfl
  · rw [if_neg hts, if_neg hts]
    simp only
    generalize trmmRhsRowLoop mode lhsOrder conjLhs conjRhs rows lhs lhsStride resStride mc
      smallPanelWidth _ _ _ _ _ blockB _ rows 0 blockA res = G
    cases G <;> rfl

/-- The depth body of the triangular rhs keeps the invariant of the scratch
matrix and adds only clean packs to the history. -/
theorem trmmRhsDepthBodyPacks_clean {K : Type} [CommRing K] [StarRing K]
    (mode : TriangularMode) (lhsOrder : StorageOrder) (conjLhs : Bool)
    (rhsOrder : StorageOrder) (conjRhs : Bool) (rows cols depth : Nat)
    (lhs : Nat → K) (lhsStride : Nat) (rhs : Nat → K) (rhsStride resStride : Nat) (alpha : K)
    (kc mc smallPanelWidth : Nat) (k2 : Nat) (blockA blockB geb buf : Nat → Nat → K)
    (res : Nat → K) (packs : List (TriangularPack K))
    (r : Nat × (Nat → Nat → K) × (Nat → Nat → K) × (Nat → Nat → K) × (Nat → Nat → K) ×
      (Nat → K) × List (TriangularPack K))
    (hinv : triangularBufferInvariant mode buf)
    (hpacks : ∀ p ∈ packs, TriangularPack.clean mode (readMat rhsOrder rhsStride rhs) p)
    (hrun : trmmRhsDepthBodyPacks mode lhsOrder conjLhs rhsOrder conjRhs rows cols depth lhs
        lhsStride rhs rhsStride resStride alpha kc mc smallPanelWidth k2 blockA blockB geb buf
        res packs = some r) :
    triangularBufferInvariant mode r.2.2.2.2.1 ∧
      ∀ p ∈ r.2.2.2.2.2.2, TriangularPack.clean mode (readMat rhsOrder rhsStride rhs) p := by
  unfold trmmRhsDepthBodyPacks at hrun
  simp only at hrun
  generalize (if (mode.isLower && decide (cols ≤ _)) = true then 0 else _) = ts at hrun
  by_cases hts : 0 < ts
  · rw [if_pos hts] at hrun
    generalize hX : trmmRhsPackLoopPacks mode rhsOrder rhs rhsStride alpha smallPanelWidth _ _ _
      0 blockB buf packs = X at hrun
    cases X with
    | none => cases hrun
    | some q =>
      obtain ⟨bB, b1, p1⟩ := q
      have hq := trmmRhsPackLoopPacks_clean mode rhsOrder rhs rhsStride alpha smallPanelWidth _
        _ _ 0 blockB buf packs _ hinv hpacks hX
      simp only at hrun
      generalize trmmRhsRowLoop mode lhsOrder conjLhs conjRhs rows lhs lhsStride resStride mc
        smallPanelWidth _ _ _ _ _ bB _ rows 0 blockA res = G at hrun
      cases G with
      | none => cases hrun
      | some g =>
        simp only [Option.some.injEq] at hrun
        subst hrun
        exact hq
  · rw [if_neg hts] at hrun
    simp only at hrun
    generalize trmmRhsRowLoop mode lhsOrder conjLhs conjRhs rows lhs lhsStride resStride mc
      smallPanelWidth _ _ _ _ _ blockB _ rows 0 blockA res = G at hrun
    cases G with
    | none => cases hrun
    | some g =>
      simp only [Option.some.injEq] at hrun
      subst hrun
      exact ⟨hinv, hpacks⟩

/-- The history does not change what the depth loop of the triangular rhs
computes. -/
theorem trmmRhsDepthLoopPacks_erase {K : Type} [Zero K] [One K] [Add K] [Mul K] [Star K]
    (mode : TriangularMode) (lhsOrder : StorageOrder) (conjLhs : Bool)
    (rhsOrder : StorageOrder) (conjRhs : Bool) (rows cols depth : Nat)
    (lhs : Nat → K) (lhsStride : Nat) (rhs : Nat → K) (rhsStride resStride : Nat) (alpha : K)
    (kc mc smallPanelWidth : Nat) (fuel : Nat) :
    ∀ (k2 : Nat) (blockA blockB geb buf : Nat → Nat → K) (res : Nat → K)
      (packs : List (TriangularPack K)),
      (trmmRhsDepthLoopPacks mode lhsOrder conjLhs rhsOrder conjRhs rows cols depth lhs
          lhsStride rhs rhsStride resStride alpha kc mc smallPanelWidth fuel k2 blockA blockB
          geb buf res packs).map (fun r => r.1) =
        trmmRhsDepthLoop mode lhsOrder conjLhs rhsOrder conjRhs rows cols depth lhs lhsStride
          rhs rhsStride resStride alpha kc mc smallPanelWidth fuel k2 blockA blockB geb buf
          res := by
  induction fuel with
  | zero =>
    intro k2 blockA blockB geb buf res packs
    by_cases h : (if mode.isLower then k2 < depth else 0 < k2)
    · simp only [trmmRhsDepthLoopPacks, trmmRhsDepthLoop, if_pos h, Option.map_none']
    · simp only [trmmRhsDepthLoopPacks, trmmRhsDepthLoop, if_neg h, Option.map_some']
  | succ fuel ih =>
    intro k2 blockA blockB geb buf res packs
    by_cases h : (if mode.isLower then k2 < depth else 0 < k2)
    · simp only [trmmRhsDepthLoopPacks, trmmRhsDepthLoop, if_pos h]
      rw [← trmmRhsDepthBodyPacks_erase mode lhsOrder conjLhs rhsOrder conjRhs rows cols depth
        lhs lhsStride rhs rhsStride resStride alpha kc mc smallPanelWidth k2 blockA blockB geb
        buf res packs]
      cases trmmRhsDepthBodyPacks mode lhsOrder conjLhs rhsOrder conjRhs rows cols depth lhs
        lhsStride rhs rhsStride resStride alpha kc mc smallPanelWidth k2 blockA blockB geb buf
        res packs with
      | none => rfl
      | some q =>
        obtain ⟨k2next, bA, bB, g1, b1, r1, p1⟩ := q
        simp only [Option.map_some']
        exact ih _ _ _ _ _ _ _
    · simp only [trmmRhsDepthLoopPacks, trmmRhsDepthLoop, if_neg h, Option.map_some']

/-- The depth loop of the triangular rhs keeps the invariant of the scratch
matrix and adds only clean packs to the history. -/
theorem trmmRhsDepthLoopPacks_clean {K : Type} [CommRing K] [StarRing K]
    (mode : TriangularMode) (lhsOrder : StorageOrder) (conjLhs : Bool)
    (rhsOrder : StorageOrder) (conjRhs : Bool) (rows cols depth : Nat)
    (lhs : Nat → K) (lhsStride : Nat) (rhs : Nat → K) (rhsStride resStride : Nat) (alpha : K)
    (kc mc smallPanelWidth : Nat) (fuel : Nat) :
    ∀ (k2 : Nat) (blockA blockB geb buf : Nat → Nat → K) (res : Nat → K)
      (packs : List (TriangularPack K)) (r : (Nat → K) × List (TriangularPack K)),
      triangularBufferInvariant mode buf →
      (∀ p ∈ packs, TriangularPack.clean mode (readMat rhsOrder rhsStride rhs) p) →
      trmmRhsDepthLoopPacks mode lhsOrder conjLhs rhsOrder conjRhs rows cols depth lhs
          lhsStride rhs rhsStride resStride alpha kc mc smallPanelWidth fuel k2 blockA blockB
          geb buf res packs = some r →
      ∀ p ∈ r.2, TriangularPack.clean mode (readMat rhsOrder rhsStride rhs) p := by
  induction fuel with
  | zero =>
    intro k2 blockA blockB geb buf res packs r hinv hpacks hrun
    by_cases h : (if mode.isLower then k2 < depth else 0 < k2)
    · simp [trmmRhsDepthLoopPacks, h] at hrun
    · simp only [trmmRhsDepthLoopPacks, if_neg h, Option.some.injEq] at hrun
      subst hrun
      exact hpacks
  | succ fuel ih =>
    intro k2 blockA blockB geb buf res packs r hinv hpacks hrun
    by_cases h : (if mode.isLower then k2 < depth else 0 < k2)
    · simp only [trmmRhsDepthLoopPacks, if_pos h] at hrun
      cases hb : trmmRhsDepthBodyPacks mode lhsOrder conjLhs rhsOrder conjRhs rows cols depth
        lhs lhsStride rhs rhsStride resStride alpha kc mc smallPanelWidth k2 blockA blockB geb
        buf res packs with
      | none =>
        rw [hb] at hrun
        cases hrun
      | some q =>
        have hq := trmmRhsDepthBodyPacks_clean mode lhsOrder conjLhs rhsOrder conjRhs rows cols
          depth lhs lhsStride rhs rhsStride resStride alpha kc mc smallPanelWidth k2 blockA
          blockB geb buf res packs q hinv hpacks hb
        obtain ⟨k2next, bA, bB, g1, b1, r1, p1⟩ := q
        rw [hb] at hrun
        exact ih _ _ _ _ _ _ _ r hq.1 hq.2 hrun
    · simp only [trmmRhsDepthLoopPacks, if_neg h, Option.some.injEq] at hrun
      subst hrun
      exact hpacks


/-! ## Claim on the scratch matrix of the triangular drivers -/

/-- C29: in both triangular drivers, with a square triangular operand of size
`n` and positive block sizes, the driver returns, and at every pack of a
diagonal micro block, over all panels and all depth strips, the scratch matrix
`triangularBuffer` has its opposite triangle zero and, in unit-diagonal mode,
its diagonal one, and the `actualPanelWidth × actualPanelWidth` block that is
packed is the diagonal micro block of the dense matrix that the operand stands
for, so that no coefficient left by an earlier panel is in it; for operands of
any shape, every pack of a run that returns is clean in the same sense. -/
theorem triangularBuffer_clean_at_every_pack {K : Type} [CommRing K] [StarRing K]
    (mode : TriangularMode) (lhsOrder : StorageOrder) (conjLhs : Bool)
    (rhsOrder : StorageOrder) (conjRhs : Bool) (n m : Nat)
    (lhs : Nat → K) (lhsStride : Nat) (rhs : Nat → K) (rhsStride : Nat)
    (res : Nat → K) (resStride : Nat) (alpha : K) (kc mc smallPanelWidth : Nat)
    (blockA blockB geb : Nat → Nat → K)
    (hkc : 0 < kc) (hmc : 0 < mc) (hspw : 0 < smallPanelWidth)
    (hsl : n ≤ resStride) (hsr : m ≤ resStride) :
    (∃ out packs,
      trmmLhsRunPacks mode lhsOrder conjLhs rhsOrder conjRhs n m n lhs lhsStride rhs rhsStride
        res resStride alpha kc mc smallPanelWidth blockA blockB = some (out, packs) ∧
      trmmLhsRun mode lhsOrder conjLhs rhsOrder conjRhs n m n lhs lhsStride rhs rhsStride
        res resStride alpha kc mc smallPanelWidth blockA blockB = some out ∧
      ∀ p ∈ packs, TriangularPack.clean mode (readMat lhsOrder lhsStride lhs) p) ∧
    (∃ out packs,
      trmmRhsRunPacks mode lhsOrder conjLhs rhsOrder conjRhs m n n lhs lhsStride rhs rhsStride
        res resStride alpha kc mc smallPanelWidth blockA blockB geb = some (out, packs) ∧
      trmmRhsRun mode lhsOrder conjLhs rhsOrder conjRhs m n n lhs lhsStride rhs rhsStride
        res resStride alpha kc mc smallPanelWidth blockA blockB geb = some out ∧
      ∀ p ∈ packs, TriangularPack.clean mode (readMat rhsOrder rhsStride rhs) p) ∧
    (∀ rows cols depth out packs,
      trmmLhsRunPacks mode lhsOrder conjLhs rhsOrder conjRhs rows cols depth lhs lhsStride rhs
        rhsStride res resStride alpha kc mc smallPanelWidth blockA blockB =
        some (out, packs) →
      ∀ p ∈ packs, TriangularPack.clean mode (readMat lhsOrder lhsStride lhs) p) ∧
    (∀ rows cols depth out packs,
      trmmRhsRunPacks mode lhsOrder conjLhs rhsOrder conjRhs rows cols depth lhs lhsStride rhs
        rhsStride res resStride alpha kc mc smallPanelWidth blockA blockB geb =
        some (out, packs) →
      ∀ p ∈ packs, TriangularPack.clean mode (readMat rhsOrder rhsStride rhs) p) := by
  have hL : ∀ rows cols depth out packs,
      trmmLhsRunPacks mode lhsOrder conjLhs rhsOrder conjRhs rows cols depth lhs lhsStride rhs
        rhsStride res resStride alpha kc mc smallPanelWidth blockA blockB =
        some (out, packs) →
      ∀ p ∈ packs, TriangularPack.clean mode (readMat lhsOrder lhsStride lhs) p := by
    intro rows cols depth out packs hrun
    exact trmmLhsDepthLoopPacks_clean mode lhsOrder conjLhs rhsOrder conjRhs rows cols depth lhs
      lhsStride rhs rhsStride resStride _ kc mc smallPanelWidth depth _ blockA blockB
      triangularBufferInit res [] (out, packs) (triangularBufferInit_invariant mode)
      (by simp) hrun
  have hR : ∀ rows cols depth out packs,
      trmmRhsRunPacks mode lhsOrder conjLhs rhsOrder conjRhs rows cols depth lhs lhsStride rhs
        rhsStride res resStride alpha kc mc smallPanelWidth blockA blockB geb =
        some (out, packs) →
      ∀ p ∈ packs, TriangularPack.clean mode (readMat rhsOrder rhsStride rhs) p := by
    intro rows cols depth out packs hrun
    exact trmmRhsDepthLoopPacks_clean mode lhsOrder conjLhs rhsOrder conjRhs rows cols depth lhs
      lhsStride rhs rhsStride resStride _ kc mc smallPanelWidth depth _ blockA blockB geb
      triangularBufferInit res [] (out, packs) (triangularBufferInit_invariant mode)
      (by simp) hrun
  refine ⟨?_, ?_, hL, hR⟩
  · obtain ⟨out, hrun, _⟩ := trmmLhsRun_spec mode lhsOrder conjLhs rhsOrder conjRhs n m lhs
      lhsStride rhs rhsStride res resStride alpha kc mc smallPanelWidth blockA blockB hkc hmc
      hspw hsl
    have herase : (trmmLhsRunPacks mode lhsOrder conjLhs rhsOrder conjRhs n m n lhs lhsStride
        rhs rhsStride res resStride alpha kc mc smallPanelWidth blockA blockB).map
        (fun r => r.1) = some out := by
      rw [← hrun]
      exact trmmLhsDepthLoopPacks_erase mode lhsOrder conjLhs rhsOrder conjRhs n m n lhs
        lhsStride rhs rhsStride resStride _ kc mc smallPanelWidth n _ blockA blockB
        triangularBufferInit res []
    cases hp : trmmLhsRunPacks mode lhsOrder conjLhs rhsOrder conjRhs n m n lhs lhsStride
        rhs rhsStride res resStride alpha kc mc smallPanelWidth blockA blockB with
    | none =>
      rw [hp] at herase
      cases herase
    | some q =>
      obtain ⟨o, packs⟩ := q
      rw [hp] at herase
      simp only [Option.map_some', Option.some.injEq] at herase
      subst herase
      exact ⟨o, packs, rfl, hrun, hL n m n o packs hp⟩
  · obtain ⟨out, hrun, _⟩ := trmmRhsRun_spec mode lhsOrder conjLhs rhsOrder conjRhs m n lhs
      lhsStride rhs rhsStride res resStride alpha kc mc smallPanelWidth blockA blockB geb hkc
      hmc hspw hsr
    have herase : (trmmRhsRunPacks mode lhsOrder conjLhs rhsOrder conjRhs m n n lhs lhsStride
        rhs rhsStride res resStride alpha kc mc smallPanelWidth blockA blockB geb).map
        (fun r => r.1) = some out := by
      rw [← hrun]
      exact trmmRhsDepthLoopPacks_erase mode lhsOrder conjLhs rhsOrder conjRhs m n n lhs
        lhsStride rhs rhsStride resStride _ kc mc smallPanelWidth n _ blockA blockB geb
        triangularBufferInit res []
    cases hp : trmmRhsRunPacks mode lhsOrder conjLhs rhsOrder conjRhs m n n lhs lhsStride
        rhs rhsStride res resStride alpha kc mc smallPanelWidth blockA blockB geb with
    | none =>
      rw [hp] at herase
      cases herase
    | some q =>
      obtain ⟨o, packs⟩ := q
      rw [hp] at herase
      simp only [Option.map_some', Option.some.injEq] at herase
      subst herase
      exact ⟨o, packs, rfl, hrun, hR m n n o packs hp⟩

/-- C29 on the lower-triangular operand `[[2,0,0],[3,5,0],[7,1,4]]` with one
depth strip of three and panels of width two: the hypotheses hold; both
drivers pack first the block `[[2,0],[3,5]]` and then, with
`actualPanelWidth = 1`, the block `[4]`, the coefficients `3` and `5` that the
first panel left in the scratch matrix staying outside the packed block. -/
theorem triangularBuffer_clean_at_every_pack_witness :
    ((0 : Nat) < 3 ∧ (0 : Nat) < 1 ∧ (0 : Nat) < 2 ∧ (3 : Nat) ≤ 3 ∧ (2 : Nat) ≤ 3) ∧
    ((∃ out packs,
      trmmLhsRunPacks modeLower StorageOrder.ColMajor false StorageOrder.ColMajor false 3 2 3
        seedTriLower3 3 seedThreeByTwo 3 (fun _ => 0) 3 1 3 1 2 (fun _ _ => 7) (fun _ _ => 9) =
        some (out, packs) ∧
      trmmLhsRun modeLower StorageOrder.ColMajor false StorageOrder.ColMajor false 3 2 3
        seedTriLower3 3 seedThreeByTwo 3 (fun _ => 0) 3 1 3 1 2 (fun _ _ => 7) (fun _ _ => 9) =
        some out ∧
      ∀ p ∈ packs, TriangularPack.clean modeLower
        (readMat StorageOrder.ColMajor 3 seedTriLower3) p) ∧
    (∃ out packs,
      trmmRhsRunPacks modeLower StorageOrder.ColMajor false StorageOrder.ColMajor false 2 3 3
        seedTriLower3 3 seedThreeByTwo 3 (fun _ => 0) 3 1 3 1 2 (fun _ _ => 7) (fun _ _ => 9)
        (fun _ _ => 11) = some (out, packs) ∧
      trmmRhsRun modeLower StorageOrder.ColMajor false StorageOrder.ColMajor false 2 3 3
        seedTriLower3 3 seedThreeByTwo 3 (fun _ => 0) 3 1 3 1 2 (fun _ _ => 7) (fun _ _ => 9)
        (fun _ _ => 11) = some out ∧
      ∀ p ∈ packs, TriangularPack.clean modeLower
        (readMat StorageOrder.ColMajor 3 seedThreeByTwo) p) ∧
    (∀ rows cols depth out packs,
      trmmLhsRunPacks modeLower StorageOrder.ColMajor false StorageOrder.ColMajor false rows
        cols depth seedTriLower3 3 seedThreeByTwo 3 (fun _ => 0) 3 1 3 1 2 (fun _ _ => 7)
        (fun _ _ => 9) = some (out, packs) →
      ∀ p ∈ packs, TriangularPack.clean modeLower
        (readMat StorageOrder.ColMajor 3 seedTriLower3) p) ∧
    (∀ rows cols depth out packs,
      trmmRhsRunPacks modeLower StorageOrder.ColMajor false StorageOrder.ColMajor false rows
        cols depth seedTriLower3 3 seedThreeByTwo 3 (fun _ => 0) 3 1 3 1 2 (fun _ _ => 7)
        (fun _ _ => 9) (fun _ _ => 11) = some (out, packs) →
      ∀ p ∈ packs, TriangularPack.clean modeLower
        (readMat StorageOrder.ColMajor 3 seedThreeByTwo) p)) ∧
    (trmmLhsRunPacks modeLower StorageOrder.ColMajor false StorageOrder.ColMajor false 3 2 3
        seedTriLower3 3 seedThreeByTwo 3 (fun _ => 0) 3 1 3 1 2 (fun _ _ => 7)
        (fun _ _ => 9)).map (fun r => r.2.map TriangularPack.summary) =
      some [(0, 2, [[2, 0], [3, 5]]), (2, 1, [[4, 0], [3, 5]])] ∧
    (trmmRhsRunPacks modeLower StorageOrder.ColMajor false StorageOrder.ColMajor false 2 3 3
        seedThreeByTwo 2 seedTriLower3 3 (fun _ => 0) 3 1 3 1 2 (fun _ _ => 7) (fun _ _ => 9)
        (fun _ _ => 11)).map (fun r => r.2.map TriangularPack.summary) =
      some [(0, 2, [[2, 0], [3, 5]]), (2, 1, [[4, 0], [3, 5]])] :=
  ⟨by decide,
   triangularBuffer_clean_at_every_pack modeLower StorageOrder.ColMajor false
     StorageOrder.ColMajor false 3 2 seedTriLower3 3 seedThreeByTwo 3 (fun _ => 0) 3 1 3 1 2
     (fun _ _ => 7) (fun _ _ => 9) (fun _ _ => 11) (by decide) (by decide) (by decide)
     (by decide) (by decide),
   by decide, by decide⟩


/-! ## Product evaluators: the base implementation and the coefficient loops -/

/-- The loop of the dynamic evaluators, run from `i ≤ N` with enough fuel,
applies the body at `i, …, N - 1` in this order and reads these indices. -/
theorem etor_product_dynamic_loop_spec {P : Type} (step : Nat → P → P) (N : Nat) :
    ∀ (fuel i : Nat) (res : P) (reads : List Nat), i ≤ N → N - i ≤ fuel →
      etor_product_dynamic_loop step (N : Int) fuel i res reads =
        some ((List.range' i (N - i)).foldl (fun acc k => step k acc) res,
          reads ++ List.range' i (N - i)) := by
  intro fuel
  induction fuel with
  | zero =>
    intro i res reads hi hf
    have h0 : N - i = 0 := by omega
    have hlt : ¬ ((i : Int) < (N : Int)) := by omega
    unfold etor_product_dynamic_loop
    rw [if_neg hlt, h0]
    simp
  | succ fuel ih =>
    intro i res reads hi hf
    by_cases hlt : (i : Int) < (N : Int)
    · have hs : N - i = (N - (i + 1)) + 1 := by omega
      unfold etor_product_dynamic_loop
      rw [if_pos hlt, ih (i + 1) (step i res) (reads ++ [i]) (by omega) (by omega), hs,
        List.range'_succ]
      simp
    · have h0 : N - i = 0 := by omega
      unfold etor_product_dynamic_loop
      rw [if_neg hlt, h0]
      simp

/-- A dynamic evaluator with a positive inner dimension `N` returns: the first
term, then the body at `1, …, N - 1`; it reads the indices `0, …, N - 1`. -/
theorem etor_product_dynamic_run_spec {P : Type} (first : P) (step : Nat → P → P) (N : Nat)
    (hN : 1 ≤ N) :
    etor_product_dynamic_run first step (N : Int) =
      EvaluatorOutcome.returned
        ((List.range' 1 (N - 1)).foldl (fun acc k => step k acc) first) (List.range N) := by
  have hpos : (N : Int) > 0 := by omega
  have hr : List.range N = [0] ++ List.range' 1 (N - 1) := by
    obtain ⟨m, rfl⟩ : ∃ m, N = m + 1 := ⟨N - 1, by omega⟩
    rw [List.range_eq_range', List.range'_succ]
    simp
  unfold etor_product_dynamic_run
  rw [if_pos hpos, Int.toNat_ofNat,
    etor_product_dynamic_loop_spec step N N 1 first [0] hN (by omega), hr]

/-- A dynamic evaluator fails its assertion exactly when the inner dimension is
not positive. -/
theorem etor_product_dynamic_run_failed_iff {P : Type} (first : P) (step : Nat → P → P)
    (innerDim : Int) :
    etor_product_dynamic_run first step innerDim =
        EvaluatorOutcome.assertionFailed "you are using a non initialized matrix" ↔
      innerDim ≤ 0 := by
  constructor
  · intro h
    by_contra hc
    have hpos : innerDim > 0 := by omega
    obtain ⟨N, rfl⟩ : ∃ N : Nat, innerDim = (N : Int) := ⟨innerDim.toNat, by omega⟩
    rw [etor_product_dynamic_run_spec first step N (by omega)] at h
    exact EvaluatorOutcome.noConfusion h
  · intro h
    have hneg : ¬ innerDim > 0 := by omega
    unfold etor_product_dynamic_run
    rw [if_neg hneg]

/-- The unrolled evaluator for `UnrollingIndex = u` gives the sum of the
`u + 1` terms in increasing order, whatever `res` held. -/
theorem etor_product_coeff_impl_unrolled_spec {K : Type} [Add K] [Mul K]
    (lhs rhs : Nat → Nat → K) (row col : Nat) (res : K) :
    ∀ u : Nat, etor_product_coeff_impl_unrolled lhs rhs row col u res =
      sumInIncreasingOrder lhs rhs row col (u + 1) := by
  intro u
  induction u with
  | zero => simp [etor_product_coeff_impl_unrolled, sumInIncreasingOrder]
  | succ u ih =>
    have hs : u + 1 + 1 - 1 = u + 1 := by omega
    have hu : u + 1 - 1 = u := by omega
    unfold etor_product_coeff_impl_unrolled
    rw [ih]
    unfold sumInIncreasingOrder
    rw [hs, hu, List.range'_concat, List.foldl_append]
    simp [Nat.add_comm]

/-- C32: for every implementation derived from `generic_product_impl_base`
(`derived` is its `scaleAndAddTo`), `evalTo` gives a destination that does not
depend on what the destination held before and that is `addTo` applied to the
all-zero destination; and when `derived` adds `alpha` times the product to the
destination in exact arithmetic, `subTo` after `addTo` gives back the
destination as it was. -/
theorem evalTo_addTo_subTo {K L R : Type} [Ring K]
    (derived : (Nat → Nat → K) → L → R → K → (Nat → Nat → K))
    (dst dst' : Nat → Nat → K) (lhs : L) (rhs : R) :
    generic_product_impl_base.evalTo derived dst lhs rhs =
        generic_product_impl_base.evalTo derived dst' lhs rhs ∧
      generic_product_impl_base.evalTo derived dst lhs rhs =
        generic_product_impl_base.addTo derived (fun _ _ => 0) lhs rhs ∧
      ∀ product : L → R → Nat → Nat → K,
        (∀ (d : Nat → Nat → K) (l : L) (r : R) (alpha : K),
          derived d l r alpha = fun i j => d i j + alpha * product l r i j) →
        generic_product_impl_base.subTo derived
          (generic_product_impl_base.addTo derived dst lhs rhs) lhs rhs = dst := by
  refine ⟨rfl, rfl, ?_⟩
  intro product hderived
  unfold generic_product_impl_base.subTo generic_product_impl_base.addTo
    generic_product_impl_base.scaleAndAddTo
  rw [hderived, hderived]
  funext i j
  simp only []
  rw [one_mul, neg_one_mul, add_neg_cancel_right]

/-- C32 on the 2 × 3 by 3 × 2 integer product, with the implementation
`scaleAndAddToDense 3`: taking the product away after adding it gives back the
destination, and `evalTo` is `addTo` on the zero destination. -/
theorem evalTo_addTo_subTo_witness :
    (∀ (d l r : Nat → Nat → ℤ) (alpha : ℤ), scaleAndAddToDense 3 d l r alpha =
        fun i j => d i j + alpha * accumulate (fun k => l i k * r k j) 3) ∧
      generic_product_impl_base.subTo (scaleAndAddToDense 3)
        (generic_product_impl_base.addTo (scaleAndAddToDense 3) seedDestination
          seedTwoByThree seedThreeByTwoRhs) seedTwoByThree seedThreeByTwoRhs =
        seedDestination ∧
      generic_product_impl_base.evalTo (scaleAndAddToDense 3) seedDestination
          seedTwoByThree seedThreeByTwoRhs 0 0 = 58 :=
  ⟨fun _ _ _ _ => rfl,
    (evalTo_addTo_subTo (scaleAndAddToDense 3) seedDestination (fun _ _ => 0)
      seedTwoByThree seedThreeByTwoRhs).2.2
      (fun l r i j => accumulate (fun k => l i k * r k j) 3) (fun _ _ _ _ => rfl),
    by decide⟩

/-- C33: for every inner dimension `N ≥ 1` and every `row`, `col`, the
unrolled coefficient evaluator (`UnrollingIndex = N - 1`) and the dynamic loop
(`innerDim = N`) return the same value, the sum over `i = 0, …, N - 1`, in
increasing `i`, of `lhs(row,i) * rhs(i,col)`, whatever `res` held before; the
dynamic loop reads the inner indices `0, …, N - 1`. -/
theorem product_coeff_unrolled_eq_dynamic {K : Type} [Add K] [Mul K]
    (lhs rhs : Nat → Nat → K) (row col N : Nat) (hN : 1 ≤ N) (res res' : K) :
    etor_product_coeff_impl_unrolled lhs rhs row col (N - 1) res =
        sumInIncreasingOrder lhs rhs row col N ∧
      etor_product_coeff_impl_Dynamic lhs rhs row col (N : Int) res' =
        EvaluatorOutcome.returned (sumInIncreasingOrder lhs rhs row col N) (List.range N) := by
  constructor
  · have h := etor_product_coeff_impl_unrolled_spec lhs rhs row col res (N - 1)
    have hs : N - 1 + 1 = N := by omega
    rw [hs] at h
    exact h
  · unfold etor_product_coeff_impl_Dynamic
    rw [etor_product_dynamic_run_spec _ _ N hN]
    rfl

/-- C33 on the coefficient `(1, 0)` of `[[1,2,3],[4,5,6]] * [[7,8],[9,10],[11,12]]`,
inner dimension 3: both evaluators give `(4*7 + 5*9) + 6*11 = 139` from the
prior contents 1000 and -5 of `res`. -/
theorem product_coeff_unrolled_eq_dynamic_witness :
    1 ≤ 3 ∧ sumInIncreasingOrder seedTwoByThree seedThreeByTwoRhs 1 0 3 = 139 ∧
      etor_product_coeff_impl_unrolled seedTwoByThree seedThreeByTwoRhs 1 0 (3 - 1) 1000 =
        sumInIncreasingOrder seedTwoByThree seedThreeByTwoRhs 1 0 3 ∧
      etor_product_coeff_impl_Dynamic seedTwoByThree seedThreeByTwoRhs 1 0 ((3 : Nat) : Int)
          (-5) =
        EvaluatorOutcome.returned (sumInIncreasingOrder seedTwoByThree seedThreeByTwoRhs 1 0 3)
          (List.range 3) :=
  ⟨by decide, by decide,
    product_coeff_unrolled_eq_dynamic seedTwoByThree seedThreeByTwoRhs 1 0 3 (by decide)
      1000 (-5)⟩

/-- C34: each dynamic coefficient-based product evaluator (the scalar one and
the two packet ones) fails the assertion "you are using a non initialized
matrix" if and only if the inner dimension is `≤ 0` (so an inner dimension 0
is rejected and no zero is returned), and for every inner dimension `≥ 1` it
returns, having read the inner indices `0, …, innerDim - 1` and no other. -/
theorem dynamic_evaluators_assert_iff {K P : Type} [Add K] [Mul K] (pmul : P → P → P)
    (pmadd : P → P → P → P) (pset1 : K → P) (lhs rhs : Nat → Nat → K)
    (lhsPacket rhsPacket : Nat → Nat → P) (row col : Nat) (innerDim : Int) (res : K)
    (pres : P) :
    ((etor_product_coeff_impl_Dynamic lhs rhs row col innerDim res =
          EvaluatorOutcome.assertionFailed "you are using a non initialized matrix" ↔
        innerDim ≤ 0) ∧
      (etor_product_packet_impl_RowMajor_Dynamic pmul pmadd pset1 lhs rhsPacket row col
          innerDim pres =
          EvaluatorOutcome.assertionFailed "you are using a non initialized matrix" ↔
        innerDim ≤ 0) ∧
      (etor_product_packet_impl_ColMajor_Dynamic pmul pmadd pset1 lhsPacket rhs row col
          innerDim pres =
          EvaluatorOutcome.assertionFailed "you are using a non initialized matrix" ↔
        innerDim ≤ 0)) ∧
    (1 ≤ innerDim → ∃ (r : K) (p q : P),
      etor_product_coeff_impl_Dynamic lhs rhs row col innerDim res =
          EvaluatorOutcome.returned r (List.range innerDim.toNat) ∧
        etor_product_packet_impl_RowMajor_Dynamic pmul pmadd pset1 lhs rhsPacket row col
          innerDim pres = EvaluatorOutcome.returned p (List.range innerDim.toNat) ∧
        etor_product_packet_impl_ColMajor_Dynamic pmul pmadd pset1 lhsPacket rhs row col
          innerDim pres = EvaluatorOutcome.returned q (List.range innerDim.toNat) ∧
        ∀ i ∈ List.range innerDim.toNat, (i : Int) < innerDim) := by
  refine ⟨⟨etor_product_dynamic_run_failed_iff _ _ innerDim,
    etor_product_dynamic_run_failed_iff _ _ innerDim,
    etor_product_dynamic_run_failed_iff _ _ innerDim⟩, ?_⟩
  intro h1
  obtain ⟨N, rfl⟩ : ∃ N : Nat, innerDim = (N : Int) := ⟨innerDim.toNat, by omega⟩
  have hN : 1 ≤ N := by omega
  rw [Int.toNat_ofNat]
  exact ⟨_, _, _, etor_product_dynamic_run_spec _ _ N hN,
    etor_product_dynamic_run_spec _ _ N hN, etor_product_dynamic_run_spec _ _ N hN,
    fun i hi => by rw [List.mem_range] at hi; omega⟩


/-! ## The fixed-size blocking handle -/

/-- The history of events does not change what the row loop computes. -/
theorem gemmRowLoopEvents_erase {K : Type} [Zero K] [Add K] [Mul K] [Star K]
    (lhsOrder : StorageOrder) (conjLhs : Bool) (rows cols mc k2 actual_kc : Nat)
    (lhs : Nat → K) (lhsStride resStride : Nat) (lhsAlpha : K) (blockB : Nat → Nat → K)
    (fuel : Nat) :
    ∀ (i2 : Nat) (blockA : Nat → Nat → K) (res : Nat → K) (events : List DriverEvent),
      (gemmRowLoopEvents lhsOrder conjLhs rows cols mc k2 actual_kc lhs lhsStride resStride
          lhsAlpha blockB fuel i2 blockA res events).map (fun r => (r.1, r.2.1)) =
        gemmRowLoop lhsOrder conjLhs rows cols mc k2 actual_kc lhs lhsStride resStride
          lhsAlpha blockB fuel i2 blockA res := by
  induction fuel with
  | zero =>
    intro i2 blockA res events
    by_cases h : i2 < rows
    · simp only [gemmRowLoopEvents, gemmRowLoop, if_pos h, Option.map_none']
    · simp only [gemmRowLoopEvents, gemmRowLoop, if_neg h, Option.map_some']
  | succ fuel ih =>
    intro i2 blockA res events
    by_cases h : i2 < rows
    · simp only [gemmRowLoopEvents, gemmRowLoop, if_pos h]
      exact ih _ _ _ _
    · simp only [gemmRowLoopEvents, gemmRowLoop, if_neg h, Option.map_some']

/-- The history of events does not change what the depth loop computes. -/
theorem gemmDepthLoopEvents_erase {K : Type} [Zero K] [Add K] [Mul K] [Star K]
    (lhsOrder : StorageOrder) (conjLhs : Bool) (rhsOrder : StorageOrder) (conjRhs : Bool)
    (rows cols depth kc mc : Nat) (lhs : Nat → K) (lhsStride : Nat) (rhs : Nat → K)
    (rhsStride resStride : Nat) (lhsAlpha rhsAlpha : K) (fuel : Nat) :
    ∀ (k2 : Nat) (blockA blockB : Nat → Nat → K) (res : Nat → K) (events : List DriverEvent),
      (gemmDepthLoopEvents lhsOrder conjLhs rhsOrder conjRhs rows cols depth kc mc lhs
          lhsStride rhs rhsStride resStride lhsAlpha rhsAlpha fuel k2 blockA blockB res
          events).map (fun r => r.1) =
        gemmDepthLoop lhsOrder conjLhs rhsOrder conjRhs rows cols depth kc mc lhs lhsStride
          rhs rhsStride resStride lhsAlpha rhsAlpha fuel k2 blockA blockB res := by
  induction fuel with
  | zero =>
    intro k2 blockA blockB res events
    by_cases h : k2 < depth
    · simp only [gemmDepthLoopEvents, gemmDepthLoop, if_pos h, Option.map_none']
    · simp only [gemmDepthLoopEvents, gemmDepthLoop, if_neg h, Option.map_some']
  | succ fuel ih =>
    intro k2 blockA blockB res events
    by_cases h : k2 < depth
    · simp only [gemmDepthLoopEvents, gemmDepthLoop, if_pos h]
      rw [← gemmRowLoopEvents_erase lhsOrder conjLhs rows cols mc k2 (min (k2 + kc) depth - k2)
        lhs lhsStride resStride lhsAlpha _ rows 0 blockA res
        (events ++ [DriverEvent.pack_rhs k2 (min (k2 + kc) depth - k2) cols])]
      cases gemmRowLoopEvents lhsOrder conjLhs rows cols mc k2 (min (k2 + kc) depth - k2) lhs
          lhsStride resStride lhsAlpha
          (ei_gemm_pack_rhs rhsOrder conjRhs blockB
            (ptrAdd rhs (blasIndex rhsOrder rhsStride k2 0)) rhsStride rhsAlpha
            (min (k2 + kc) depth - k2) cols 0) rows 0 blockA res
          (events ++ [DriverEvent.pack_rhs k2 (min (k2 + kc) depth - k2) cols]) with
      | none => rfl
      | some r =>
        obtain ⟨bA, out, events1⟩ := r
        exact ih _ _ _ _ _
    · simp only [gemmDepthLoopEvents, gemmDepthLoop, if_neg h, Option.map_some']

/-- The sequential driver on a blocking handle computes what `runColMajor`
computes from the values of the handle. -/
theorem runColMajorEvents_erase {K : Type} [Zero K] [One K] [Add K] [Mul K] [Star K]
    (lhsOrder : StorageOrder) (conjLhs : Bool) (rhsOrder : StorageOrder) (conjRhs : Bool)
    (alphaOnLhs : Bool) (rows cols depth : Nat) (lhs : Nat → K) (lhsStride : Nat)
    (rhs : Nat → K) (rhsStride : Nat) (res : Nat → K) (resStride : Nat) (alpha : K)
    (blocking : ei_gemm_blocking_space) (wUnit : Nat) (blockA blockB : Nat → Nat → K) :
    (runColMajorEvents lhsOrder conjLhs rhsOrder conjRhs alphaOnLhs rows cols depth lhs
        lhsStride rhs rhsStride res resStride alpha blocking wUnit blockA blockB).map
        (fun r => r.1) =
      runColMajor lhsOrder conjLhs rhsOrder conjRhs alphaOnLhs rows cols depth lhs lhsStride
        rhs rhsStride res resStride alpha (blocking.toBlocking blockA blockB) := by
  unfold runColMajorEvents runColMajor ei_gemm_blocking_space.toBlocking
  exact gemmDepthLoopEvents_erase _ _ _ _ _ _ _ _ _ _ _ _ _ _ _ _ _ _ _ _ _ _

/-- Past the last row the row loop returns at once, whatever fuel it has. -/
theorem gemmRowLoopEvents_done {K : Type} [Zero K] [Add K] [Mul K] [Star K]
    (lhsOrder : StorageOrder) (conjLhs : Bool) (rows cols mc k2 actual_kc : Nat)
    (lhs : Nat → K) (lhsStride resStride : Nat) (lhsAlpha : K) (blockB : Nat → Nat → K)
    (fuel i2 : Nat) (blockA : Nat → Nat → K) (res : Nat → K) (events : List DriverEvent)
    (h : ¬ i2 < rows) :
    gemmRowLoopEvents lhsOrder conjLhs rows cols mc k2 actual_kc lhs lhsStride resStride
      lhsAlpha blockB fuel i2 blockA res events = some (blockA, res, events) := by
  cases fuel with
  | zero => simp only [gemmRowLoopEvents, if_neg h]
  | succ fuel => simp only [gemmRowLoopEvents, if_neg h]

/-- Past the last depth index the depth loop returns at once, whatever fuel
it has. -/
theorem gemmDepthLoopEvents_done {K : Type} [Zero K] [Add K] [Mul K] [Star K]
    (lhsOrder : StorageOrder) (conjLhs : Bool) (rhsOrder : StorageOrder) (conjRhs : Bool)
    (rows cols depth kc mc : Nat) (lhs : Nat → K) (lhsStride : Nat) (rhs : Nat → K)
    (rhsStride resStride : Nat) (lhsAlpha rhsAlpha : K) (fuel k2 : Nat)
    (blockA blockB : Nat → Nat → K) (res : Nat → K) (events : List DriverEvent)
    (h : ¬ k2 < depth) :
    gemmDepthLoopEvents lhsOrder conjLhs rhsOrder conjRhs rows cols depth kc mc lhs lhsStride
      rhs rhsStride resStride lhsAlpha rhsAlpha fuel k2 blockA blockB res events =
        some (res, events) := by
  cases fuel with
  | zero => simp only [gemmDepthLoopEvents, if_neg h]
  | succ fuel => simp only [gemmDepthLoopEvents, if_neg h]

/-- When the whole product fits one tile (`0 < rows = mc`, `0 < depth ≤ kc`)
the loops of the driver make one `pack_rhs`, one `pack_lhs` and one `gebp`
call, on the whole operands. -/
theorem gemmDepthLoopEvents_single_tile {K : Type} [Zero K] [Add K] [Mul K] [Star K]
    (lhsOrder : StorageOrder) (conjLhs : Bool) (rhsOrder : StorageOrder) (conjRhs : Bool)
    (rows cols depth kc : Nat) (lhs : Nat → K) (lhsStride : Nat) (rhs : Nat → K)
    (rhsStride resStride : Nat) (lhsAlpha rhsAlpha : K) (blockA blockB : Nat → Nat → K)
    (res : Nat → K) (events : List DriverEvent) (hrows : 0 < rows) (hdepth : 0 < depth)
    (hkc : depth ≤ kc) :
    gemmDepthLoopEvents lhsOrder conjLhs rhsOrder conjRhs rows cols depth kc rows lhs lhsStride
      rhs rhsStride resStride lhsAlpha rhsAlpha depth 0 blockA blockB res events =
        some (ei_gebp_kernel false false 0 resStride
            (ei_gemm_pack_lhs lhsOrder conjLhs blockA
              (ptrAdd lhs (blasIndex lhsOrder lhsStride 0 0)) lhsStride depth rows lhsAlpha)
            (ei_gemm_pack_rhs rhsOrder conjRhs blockB
              (ptrAdd rhs (blasIndex rhsOrder rhsStride 0 0)) rhsStride rhsAlpha depth cols 0)
            rows depth 0 0 cols res,
          events ++ [DriverEvent.pack_rhs 0 depth cols, DriverEvent.pack_lhs 0 0 depth rows,
            DriverEvent.gebp 0 rows depth cols]) := by
  obtain ⟨d, rfl⟩ : ∃ d, depth = d + 1 := ⟨depth - 1, by omega⟩
  obtain ⟨r, rfl⟩ : ∃ r, rows = r + 1 := ⟨rows - 1, by omega⟩
  have hkc1 : min (0 + kc) (d + 1) - 0 = d + 1 := by omega
  have hmc1 : min (0 + (r + 1)) (r + 1) - 0 = r + 1 := by omega
  have hr : ¬ 0 + (r + 1) < r + 1 := by omega
  have hd : ¬ 0 + kc < d + 1 := by omega
  unfold gemmDepthLoopEvents
  rw [if_pos hdepth]
  simp only [hkc1]
  unfold gemmRowLoopEvents
  rw [if_pos hrows]
  simp only [hmc1]
  rw [gemmRowLoopEvents_done _ _ _ _ _ _ _ _ _ _ _ _ _ _ _ _ _ hr]
  simp only []
  rw [gemmDepthLoopEvents_done _ _ _ _ _ _ _ _ _ _ _ _ _ _ _ _ _ _ _ _ _ _ hd]
  simp

/-- C31: the fixed-size blocking handle has `kc = MaxDepth` and
`(mc, nc) = (MaxRows, MaxCols)`, swapped for a row-major destination, and its
three buffers are its own static arrays; and for `0 < rows ≤ mc` and
`0 < depth ≤ kc` the sequential driver, run on this handle, takes no buffer
itself and makes exactly one `pack_rhs`, one `pack_lhs` and one `gebp` call,
each on the whole operand; its result is that of `runColMajor`. -/
theorem fixed_size_blocking_single_tile {K : Type} [Zero K] [One K] [Add K] [Mul K] [Star K]
    (storageOrder : StorageOrder) (maxRows maxCols maxDepth rows0 cols0 depth0 : Nat)
    (lhsOrder : StorageOrder) (conjLhs : Bool) (rhsOrder : StorageOrder) (conjRhs : Bool)
    (alphaOnLhs : Bool) (rows cols depth : Nat) (lhs : Nat → K) (lhsStride : Nat)
    (rhs : Nat → K) (rhsStride : Nat) (res : Nat → K) (resStride : Nat) (alpha : K)
    (wUnit : Nat) (blockA blockB : Nat → Nat → K)
    (hrows : 0 < rows)
    (hmc : rows ≤ (ei_gemm_blocking_space.fixedSize storageOrder maxRows maxCols maxDepth
      rows0 cols0 depth0).m_mc)
    (hdepth : 0 < depth)
    (hkc : depth ≤ (ei_gemm_blocking_space.fixedSize storageOrder maxRows maxCols maxDepth
      rows0 cols0 depth0).m_kc) :
    ei_gemm_blocking_space.fixedSize storageOrder maxRows maxCols maxDepth rows0 cols0 depth0 =
        ei_gemm_blocking_space.mk BlockPointer.m_staticA BlockPointer.m_staticB
          BlockPointer.m_staticW
          (if storageOrder = StorageOrder.RowMajor then maxCols else maxRows)
          (if storageOrder = StorageOrder.RowMajor then maxRows else maxCols) maxDepth ∧
      runColMajorEvents lhsOrder conjLhs rhsOrder conjRhs alphaOnLhs rows cols depth lhs
          lhsStride rhs rhsStride res resStride alpha
          (ei_gemm_blocking_space.fixedSize storageOrder maxRows maxCols maxDepth rows0 cols0
            depth0) wUnit blockA blockB =
        some (ei_gebp_kernel false false 0 resStride
            (ei_gemm_pack_lhs lhsOrder conjLhs blockA
              (ptrAdd lhs (blasIndex lhsOrder lhsStride 0 0)) lhsStride depth rows
              (if alphaOnLhs then alpha else 1))
            (ei_gemm_pack_rhs rhsOrder conjRhs blockB
              (ptrAdd rhs (blasIndex rhsOrder rhsStride 0 0)) rhsStride
              (if alphaOnLhs then 1 else alpha) depth cols 0)
            rows depth 0 0 cols res,
          [DriverEvent.pack_rhs 0 depth cols, DriverEvent.pack_lhs 0 0 depth rows,
            DriverEvent.gebp 0 rows depth cols]) ∧
      runColMajor lhsOrder conjLhs rhsOrder conjRhs alphaOnLhs rows cols depth lhs lhsStride
          rhs rhsStride res resStride alpha
          ((ei_gemm_blocking_space.fixedSize storageOrder maxRows maxCols maxDepth rows0 cols0
            depth0).toBlocking blockA blockB) =
        (runColMajorEvents lhsOrder conjLhs rhsOrder conjRhs alphaOnLhs rows cols depth lhs
          lhsStride rhs rhsStride res resStride alpha
          (ei_gemm_blocking_space.fixedSize storageOrder maxRows maxCols maxDepth rows0 cols0
            depth0) wUnit blockA blockB).map (fun r => r.1) := by
  have hfix : ei_gemm_blocking_space.fixedSize storageOrder maxRows maxCols maxDepth rows0
      cols0 depth0 =
        ei_gemm_blocking_space.mk BlockPointer.m_staticA BlockPointer.m_staticB
          BlockPointer.m_staticW
          (if storageOrder = StorageOrder.RowMajor then maxCols else maxRows)
          (if storageOrder = StorageOrder.RowMajor then maxRows else maxCols) maxDepth := by
    cases storageOrder <;> rfl
  refine ⟨hfix, ?_, (runColMajorEvents_erase _ _ _ _ _ _ _ _ _ _ _ _ _ _ _ _ _ _ _).symm⟩
  rw [hfix] at hmc hkc ⊢
  simp only at hmc hkc
  have hmin : min rows (if storageOrder = StorageOrder.RowMajor then maxCols else maxRows) =
      rows := Nat.min_eq_left hmc
  unfold runColMajorEvents
  simp only [hmin, driverBuffer]
  have hA : ¬ BlockPointer.m_staticA = BlockPointer.null := by decide
  have hB : ¬ BlockPointer.m_staticB = BlockPointer.null := by decide
  have hW : ¬ BlockPointer.m_staticW = BlockPointer.null := by decide
  rw [if_neg hA, if_neg hB, if_neg hW]
  exact gemmDepthLoopEvents_single_tile _ _ _ _ _ _ _ _ _ _ _ _ _ _ _ _ _ _ _ hrows hdepth hkc

/-- C31 on the 2 × 2 integer product with `MaxRows = MaxCols = MaxDepth = 2`
and a column-major destination: the driver takes no buffer and makes the three
calls once each. -/
theorem fixed_size_blocking_single_tile_witness :
    (0 < 2 ∧
      2 ≤ (ei_gemm_blocking_space.fixedSize StorageOrder.ColMajor 2 2 2 2 2 2).m_mc ∧
      0 < 2 ∧
      2 ≤ (ei_gemm_blocking_space.fixedSize StorageOrder.ColMajor 2 2 2 2 2 2).m_kc) ∧
    (runColMajorEvents StorageOrder.ColMajor false StorageOrder.ColMajor false false 2 2 2
        seedA 2 seedB 2 (fun _ => 0) 2 1
        (ei_gemm_blocking_space.fixedSize StorageOrder.ColMajor 2 2 2 2 2 2) 4
        (fun _ _ => 0) (fun _ _ => 0)).map (fun r => r.2) =
      some [DriverEvent.pack_rhs 0 2 2, DriverEvent.pack_lhs 0 0 2 2,
        DriverEvent.gebp 0 2 2 2] :=
  ⟨by decide,
    by
      rw [(fixed_size_blocking_single_tile StorageOrder.ColMajor 2 2 2 2 2 2
        StorageOrder.ColMajor false StorageOrder.ColMajor false false 2 2 2
        seedA 2 seedB 2 (fun _ => 0) 2 1 4 (fun _ _ => 0) (fun _ _ => 0)
        (by decide) (by decide) (by decide) (by decide)).2.1]
      rfl⟩


/-! ## The inner iterator of a sparse view -/

/-- The method `incrementToNonZero()` from the inner index `a ≤ e`, with enough
fuel, stops at the first index `b ≥ a` that is `e` or whose coefficient is not
much smaller than the reference. -/
theorem incrementToNonZero_spec {K E : Type} (isMuchSmallerThan : K → K → E → Bool)
    (reference : K) (epsilon : E) (isRowMajor : Bool) (m_argImpl : Nat → Nat → K)
    (outer e : Nat) :
    ∀ (fuel a : Nat), a ≤ e → e - a ≤ fuel →
      ∃ b, SparseView.InnerIterator.incrementToNonZero isMuchSmallerThan reference epsilon
          isRowMajor m_argImpl fuel (SparseView.InnerIterator.mk a outer e) =
            some (SparseView.InnerIterator.mk b outer e) ∧
        a ≤ b ∧ b ≤ e ∧
        (∀ j, a ≤ j → j < b →
          isMuchSmallerThan (SparseView.innerCoeff isRowMajor m_argImpl outer j) reference
            epsilon = true) ∧
        (b < e →
          isMuchSmallerThan (SparseView.innerCoeff isRowMajor m_argImpl outer b) reference
            epsilon = false) := by
  intro fuel
  induction fuel with
  | zero =>
    intro a ha hf
    have hae : a = e := by omega
    subst hae
    refine ⟨a, ?_, le_refl _, le_refl _, fun j h1 h2 => by omega, fun h => by omega⟩
    simp [SparseView.InnerIterator.incrementToNonZero, SparseView.InnerIterator.toBool]
  | succ fuel ih =>
    intro a ha hf
    by_cases hc : (decide (a < e) &&
        isMuchSmallerThan (SparseView.innerCoeff isRowMajor m_argImpl outer a) reference
          epsilon) = true
    · have hlt : a < e := by
        rw [Bool.and_eq_true] at hc
        exact of_decide_eq_true hc.1
      have hsm : isMuchSmallerThan (SparseView.innerCoeff isRowMajor m_argImpl outer a)
          reference epsilon = true := by
        rw [Bool.and_eq_true] at hc
        exact hc.2
      obtain ⟨b, hrun, hab, hbe, hsmall, hstop⟩ := ih (a + 1) (by omega) (by omega)
      refine ⟨b, ?_, by omega, hbe, ?_, hstop⟩
      · unfold SparseView.InnerIterator.incrementToNonZero
        have hc' : ((SparseView.InnerIterator.mk a outer e).toBool &&
            isMuchSmallerThan ((SparseView.InnerIterator.mk a outer e).value isRowMajor
              m_argImpl) reference epsilon) = true := hc
        rw [if_pos hc']
        exact hrun
      · intro j h1 h2
        by_cases hj : j = a
        · rw [hj]
          exact hsm
        · exact hsmall j (by omega) h2
    · refine ⟨a, ?_, le_refl _, ha, fun j h1 h2 => by omega, ?_⟩
      · unfold SparseView.InnerIterator.incrementToNonZero
        have hc' : ¬ ((SparseView.InnerIterator.mk a outer e).toBool &&
            isMuchSmallerThan ((SparseView.InnerIterator.mk a outer e).value isRowMajor
              m_argImpl) reference epsilon) = true := hc
        rw [if_neg hc']
      · intro hlt
        rw [Bool.and_eq_true, not_and] at hc
        have := hc (decide_eq_true hlt)
        simpa using this

/-- Leaving out a run of indices that the filter rejects does not change the
filtered range. -/
theorem filter_range_skip (keep : Nat → Bool) (a b e : Nat) (hab : a ≤ b) (hbe : b ≤ e)
    (hskip : ∀ j, a ≤ j → j < b → keep j = false) :
    (List.range' a (e - a)).filter keep = (List.range' b (e - b)).filter keep := by
  have hsplit : List.range' a (e - a) = List.range' a (b - a) ++ List.range' b (e - b) := by
    obtain ⟨m, rfl⟩ : ∃ m, b = a + m := ⟨b - a, by omega⟩
    obtain ⟨n, rfl⟩ : ∃ n, e = a + m + n := ⟨e - (a + m), by omega⟩
    have h1 : a + m + n - a = n + m := by omega
    have h2 : a + m - a = m := by omega
    have h3 : a + m + n - (a + m) = n := by omega
    rw [h1, h2, h3, List.range'_append_1]
  rw [hsplit, List.filter_append]
  have hnil : (List.range' a (b - a)).filter keep = [] := by
    rw [List.filter_eq_nil_iff]
    intro j hj
    rw [List.mem_range'_1] at hj
    rw [hskip j hj.1 (by omega)]
    simp
  rw [hnil, List.nil_append]


/-- The iteration from a state at the inner index `b ≤ e` that is exhausted or
stands on a coefficient that is not much smaller than the reference: it ends;
every later state has the same `m_outer` and `m_end`, a larger inner index, and
is again exhausted or on such a coefficient; the inner indices grow strictly;
the indices seen are those from `b` on whose coefficient is not much smaller
than the reference; and at most `e - b` calls of `operator++` are made. -/
theorem iterateFrom_spec {K E : Type} (isMuchSmallerThan : K → K → E → Bool)
    (reference : K) (epsilon : E) (isRowMajor : Bool) (m_argImpl : Nat → Nat → K)
    (outer e : Nat) :
    ∀ (fuel b : Nat) (states : List SparseView.InnerIterator), b ≤ e → e - b ≤ fuel →
      (b < e → isMuchSmallerThan (SparseView.innerCoeff isRowMajor m_argImpl outer b)
        reference epsilon = false) →
      ∃ more, SparseView.InnerIterator.iterateFrom isMuchSmallerThan reference epsilon
          isRowMajor m_argImpl fuel (SparseView.InnerIterator.mk b outer e) states =
            some (states ++ more) ∧
        (∀ it ∈ more, it.m_outer = outer ∧ it.m_end = e ∧ b < it.m_inner ∧ it.m_inner ≤ e ∧
          (it.m_inner < e →
            isMuchSmallerThan (SparseView.innerCoeff isRowMajor m_argImpl outer it.m_inner)
              reference epsilon = false)) ∧
        more.Pairwise (fun x y => x.m_inner < y.m_inner) ∧
        SparseView.visitedIndices (SparseView.InnerIterator.mk b outer e :: more) =
          (List.range' b (e - b)).filter (fun i =>
            !isMuchSmallerThan (SparseView.innerCoeff isRowMajor m_argImpl outer i) reference
              epsilon) ∧
        more.length ≤ e - b := by
  intro fuel
  induction fuel with
  | zero =>
    intro b states hb hf _
    have hbe : b = e := by omega
    subst hbe
    refine ⟨[], ?_, by simp, by simp, ?_, by simp⟩
    · simp [SparseView.InnerIterator.iterateFrom, SparseView.InnerIterator.toBool]
    · simp [SparseView.visitedIndices, SparseView.InnerIterator.toBool]
  | succ fuel ih =>
    intro b states hb hf hinv
    by_cases hlt : b < e
    · have htb : (SparseView.InnerIterator.mk b outer e).toBool = true := by
        simp [SparseView.InnerIterator.toBool, hlt]
      obtain ⟨b1, hrun, hab, hbe, hsmall, hstop⟩ :=
        incrementToNonZero_spec isMuchSmallerThan reference epsilon isRowMajor m_argImpl outer e
          (e - b) (b + 1) (by omega) (by omega)
      obtain ⟨more, hiter, hall, hord, hvis, hlen⟩ :=
        ih b1 (states ++ [SparseView.InnerIterator.mk b1 outer e]) hbe (by omega) hstop
      refine ⟨SparseView.InnerIterator.mk b1 outer e :: more, ?_, ?_, ?_, ?_, ?_⟩
      · unfold SparseView.InnerIterator.iterateFrom
        rw [if_pos htb]
        unfold SparseView.InnerIterator.increment
        simp only []
        rw [hrun]
        simp only []
        rw [hiter, List.append_assoc, List.singleton_append]
      · intro it hit
        rw [List.mem_cons] at hit
        rcases hit with hit | hit
        · subst hit
          exact ⟨rfl, rfl, by simp only []; omega, hbe, hstop⟩
        · obtain ⟨h1, h2, h3, h4, h5⟩ := hall it hit
          exact ⟨h1, h2, by omega, h4, h5⟩
      · rw [List.pairwise_cons]
        exact ⟨fun it hit => (hall it hit).2.2.1, hord⟩
      · have hs : e - b = (e - (b + 1)) + 1 := by omega
        have hcons : SparseView.visitedIndices (SparseView.InnerIterator.mk b outer e ::
            SparseView.InnerIterator.mk b1 outer e :: more) =
              b :: SparseView.visitedIndices (SparseView.InnerIterator.mk b1 outer e :: more) := by
          unfold SparseView.visitedIndices
          rw [List.filter_cons_of_pos htb, List.map_cons]
          rfl
        rw [hcons, hvis, hs, List.range'_succ]
        generalize hk : (fun i => !isMuchSmallerThan
          (SparseView.innerCoeff isRowMajor m_argImpl outer i) reference epsilon) = keep
        have hkeep : keep b = true := by
          rw [← hk]
          simp only [hinv hlt, Bool.not_false]
        have hskip : ∀ j, b + 1 ≤ j → j < b1 → keep j = false := by
          intro j h1 h2
          rw [← hk]
          simp only [hsmall j h1 h2, Bool.not_true]
        rw [List.filter_cons_of_pos hkeep, filter_range_skip keep (b + 1) b1 e hab hbe hskip]
      · simp only [List.length_cons]
        omega
    · have hbe : b = e := by omega
      subst hbe
      refine ⟨[], ?_, by simp, by simp, ?_, by simp⟩
      · simp [SparseView.InnerIterator.iterateFrom, SparseView.InnerIterator.toBool]
      · simp [SparseView.visitedIndices, SparseView.InnerIterator.toBool]

/-- C39: for the index-based inner iterator of a sparse view, the iteration
`for (InnerIterator it(sve, outer); it; ++it)` over an inner vector of size
`innerSize` ends; after the construction and after every `operator++` the
iterator is exhausted (`m_inner = innerSize`) or `m_inner < innerSize` and the
current value is not much smaller than the reference at the epsilon of the
view; the inner indices of successive states grow strictly; the indices seen
are exactly the indices of the inner vector whose value is not much smaller
than the reference; and at most `innerSize` calls of `operator++` are made. -/
theorem sparseView_iterator_invariant {K E : Type} (isMuchSmallerThan : K → K → E → Bool)
    (reference : K) (epsilon : E) (isRowMajor : Bool) (m_argImpl : Nat → Nat → K)
    (innerSize outer : Nat) :
    ∃ states, SparseView.InnerIterator.iterate isMuchSmallerThan reference epsilon isRowMajor
        m_argImpl innerSize outer = some states ∧
      (∀ it ∈ states, it.m_outer = outer ∧ it.m_end = innerSize ∧
        (it.m_inner = innerSize ∨
          (it.m_inner < innerSize ∧
            isMuchSmallerThan (it.value isRowMajor m_argImpl) reference epsilon = false))) ∧
      states.Pairwise (fun x y => x.m_inner < y.m_inner) ∧
      SparseView.visitedIndices states =
        (List.range innerSize).filter (fun i =>
          !isMuchSmallerThan (SparseView.innerCoeff isRowMajor m_argImpl outer i) reference
            epsilon) ∧
      (SparseView.visitedIndices states).Pairwise (fun i j => i < j) ∧
      states.length ≤ innerSize + 1 := by
  obtain ⟨b, hrun, _, hbe, hsmall, hstop⟩ :=
    incrementToNonZero_spec isMuchSmallerThan reference epsilon isRowMajor m_argImpl outer
      innerSize innerSize 0 (Nat.zero_le _) (by omega)
  obtain ⟨more, hiter, hall, hord, hvis, hlen⟩ :=
    iterateFrom_spec isMuchSmallerThan reference epsilon isRowMajor m_argImpl outer innerSize
      innerSize b [SparseView.InnerIterator.mk b outer innerSize] hbe (by omega) hstop
  have hfilter : SparseView.visitedIndices (SparseView.InnerIterator.mk b outer innerSize ::
      more) = (List.range innerSize).filter (fun i =>
        !isMuchSmallerThan (SparseView.innerCoeff isRowMajor m_argImpl outer i) reference
          epsilon) := by
    rw [hvis, List.range_eq_range']
    have h := filter_range_skip (fun i =>
        !isMuchSmallerThan (SparseView.innerCoeff isRowMajor m_argImpl outer i) reference
          epsilon) 0 b innerSize (Nat.zero_le _) hbe
      (fun j h1 h2 => by simp only [hsmall j h1 h2, Bool.not_true])
    rw [Nat.sub_zero] at h
    exact h.symm
  refine ⟨SparseView.InnerIterator.mk b outer innerSize :: more, ?_, ?_, ?_, hfilter, ?_, ?_⟩
  · unfold SparseView.InnerIterator.iterate SparseView.InnerIterator.construct
    rw [hrun]
    simp only []
    rw [hiter, List.singleton_append]
  · intro it hit
    rw [List.mem_cons] at hit
    rcases hit with hit | hit
    · subst hit
      refine ⟨rfl, rfl, ?_⟩
      by_cases hb : b = innerSize
      · exact Or.inl hb
      · have hlt : b < innerSize := by omega
        exact Or.inr ⟨hlt, hstop hlt⟩
    · obtain ⟨h1, h2, _, h4, h5⟩ := hall it hit
      refine ⟨h1, h2, ?_⟩
      by_cases hb : it.m_inner = innerSize
      · exact Or.inl hb
      · refine Or.inr ⟨by omega, ?_⟩
        have h6 := h5 (by omega)
        unfold SparseView.InnerIterator.value
        unfold SparseView.innerCoeff at h6
        rw [h1]
        exact h6
  · rw [List.pairwise_cons]
    exact ⟨fun it hit => (hall it hit).2.2.1, hord⟩
  · rw [hfilter]
    exact List.Pairwise.sublist (List.filter_sublist _) (List.pairwise_lt_range innerSize)
  · simp only [List.length_cons]
    omega

/-- The iteration over the column `[0, 7, 1, -9, 0]` with the reference 2 and
the epsilon 1 (a value is much smaller when its modulus is at most 2): the
states have the inner indices 1, 3 and 5, and the indices 1 and 3 are seen. -/
theorem sparseView_iterator_example :
    (SparseView.InnerIterator.iterate isMuchSmallerThanInt 2 1 false seedSparseColumn 5 0).map
        (fun states => (states.map (fun it => it.m_inner), SparseView.visitedIndices states)) =
      some ([1, 3, 5], [1, 3]) := by
  decide


/-! ## The divisor of `makeHouseholder` -/

/-- The zero vector has the squared norm zero. -/
theorem squaredNorm_zero_vector {K : Type} [LinearOrderedField K] (n : Nat) :
    squaredNorm n (fun _ => (0 : K)) = 0 := by
  unfold squaredNorm
  induction n with
  | zero => rfl
  | succ n ih =>
    simp only [accumulate, ei_abs2, mul_zero, add_zero] at ih ⊢
    exact ih

/-- C35: for every vector `x` with at least one non-zero entry (the square
root being exact at `‖x‖²`), the divisor `c0` that `makeHouseholder` computes
is not zero, in the branch `c0 = sqrt(‖x‖²)` and in the branch
`c0 = x0 + sign * sqrt(‖x‖²)` alike, so `essential * c0` is the tail of `x`,
the denominator of `beta` is positive and `beta` times it is `2 |c0|²`;
whereas for `x = 0` the divisor is 0. -/
theorem makeHouseholder_divisor {K : Type} [LinearOrderedField K] (precision : K)
    (sqrt : K → K) (n : Nat) (x : Nat → K)
    (hsqrt : 0 ≤ sqrt (squaredNorm n x) ∧
      sqrt (squaredNorm n x) * sqrt (squaredNorm n x) = squaredNorm n x)
    (hzero : sqrt 0 = 0)
    (hx : ∃ i, i < n ∧ x i ≠ 0) :
    makeHouseholder_c0 precision sqrt n x ≠ 0 ∧
      (ei_abs2 (x 0) ≤ ei_abs2 precision * squaredNorm n x →
        makeHouseholder_c0 precision sqrt n x = sqrt (squaredNorm n x)) ∧
      (¬ ei_abs2 (x 0) ≤ ei_abs2 precision * squaredNorm n x →
        makeHouseholder_c0 precision sqrt n x = x 0 + x 0 / |x 0| * sqrt (squaredNorm n x)) ∧
      (∀ i, (makeHouseholder precision sqrt n x).1 i * makeHouseholder_c0 precision sqrt n x =
        x (1 + i)) ∧
      0 < ei_abs2 (makeHouseholder_c0 precision sqrt n x) + squaredNorm n x - ei_abs2 (x 0) ∧
      (makeHouseholder precision sqrt n x).2 *
          (ei_abs2 (makeHouseholder_c0 precision sqrt n x) + squaredNorm n x - ei_abs2 (x 0)) =
        2 * ei_abs2 (makeHouseholder_c0 precision sqrt n x) ∧
      makeHouseholder_c0 precision sqrt n (fun _ => 0) = 0 := by
  have hn : 1 ≤ n := by
    obtain ⟨i, hi, _⟩ := hx
    omega
  have hc0 := makeHouseholder_c0_ne_zero precision sqrt n x hsqrt (squaredNorm_ne_zero n x hx)
  have hden : 0 < ei_abs2 (makeHouseholder_c0 precision sqrt n x) + squaredNorm n x -
      ei_abs2 (x 0) := by
    rw [squaredNorm_split n x hn]
    have h1 : 0 < ei_abs2 (makeHouseholder_c0 precision sqrt n x) := mul_self_pos.mpr hc0
    have h2 := tailSquaredNorm_nonneg n x
    linarith
  refine ⟨hc0, ?_, ?_, ?_, hden, ?_, ?_⟩
  · intro hbr
    simp only [makeHouseholder_c0, if_pos hbr]
  · intro hbr
    simp only [makeHouseholder_c0, if_neg hbr]
  · intro i
    simp only [makeHouseholder]
    exact div_mul_cancel₀ _ hc0
  · simp only [makeHouseholder]
    exact div_mul_cancel₀ _ (ne_of_gt hden)
  · have hbr : ei_abs2 ((fun _ => (0 : K)) 0) ≤
        ei_abs2 precision * squaredNorm n (fun _ => (0 : K)) := by
      rw [squaredNorm_zero_vector]
      simp [ei_abs2]
    simp only [makeHouseholder_c0, if_pos hbr]
    rw [squaredNorm_zero_vector, hzero]

/-- C35 at `x = [3, 4]`, where the square root taken is that of `25`: the
divisor is `3 + 5 = 8`, and at `x = 0` it is 0. -/
theorem makeHouseholder_divisor_witness :
    ((0 ≤ Rat.sqrt (squaredNorm 2 vec34) ∧
        Rat.sqrt (squaredNorm 2 vec34) * Rat.sqrt (squaredNorm 2 vec34) = squaredNorm 2 vec34) ∧
      Rat.sqrt 0 = 0 ∧ (∃ i, i < 2 ∧ vec34 i ≠ 0)) ∧
    makeHouseholder_c0 precisionFloat Rat.sqrt 2 vec34 ≠ 0 ∧
    makeHouseholder_c0 precisionFloat Rat.sqrt 2 (fun _ => 0) = 0 :=
  have h1 : 0 ≤ Rat.sqrt (squaredNorm 2 vec34) ∧
      Rat.sqrt (squaredNorm 2 vec34) * Rat.sqrt (squaredNorm 2 vec34) = squaredNorm 2 vec34 := by
    rw [sqrt_squaredNorm_vec34, squaredNorm_vec34]; norm_num
  have h2 : Rat.sqrt 0 = 0 := by
    have h : (0 : ℚ) = 0 * 0 := by norm_num
    rw [h, Rat.sqrt_eq]
    norm_num
  have h3 : ∃ i, i < 2 ∧ vec34 i ≠ 0 := ⟨0, by decide, by simp [vec34]⟩
  ⟨⟨h1, h2, h3⟩,
    (makeHouseholder_divisor precisionFloat Rat.sqrt 2 vec34 h1 h2 h3).1,
    (makeHouseholder_divisor precisionFloat Rat.sqrt 2 vec34 h1 h2 h3).2.2.2.2.2.2⟩


/-! ## `decomposeInPlace` without the extraction of `Q` -/

/-- C38: for every square matrix `mat` of size `n ≥ 2`,
`decomposeInPlace(mat, diag, subdiag, extractQ = false)` returns, leaves every
entry of `mat` as it was, and writes the `diag` and `subdiag` that the call
with `extractQ = true` writes; this holds on the general path and on the
closed-form path for `n = 3`, where the call is `_decomposeInPlace3x3`. -/
theorem decomposeInPlace_without_Q {K : Type} [LinearOrderedField K]
    (isMuchSmallerThan : K → K → Bool) (sqrt : K → K) (n : Nat) (mat : Nat → Nat → K)
    (diag subdiag hCoeffs : Nat → K) (hn : 2 ≤ n) :
    (∃ Q d e,
      Tridiagonalization.decomposeInPlace isMuchSmallerThan sqrt n mat diag subdiag hCoeffs
          false = some (mat, d, e) ∧
        Tridiagonalization.decomposeInPlace isMuchSmallerThan sqrt n mat diag subdiag hCoeffs
          true = some (Q, d, e)) ∧
      (Tridiagonalization._decomposeInPlace3x3 isMuchSmallerThan sqrt mat diag subdiag false).1 =
        mat ∧
      (Tridiagonalization._decomposeInPlace3x3 isMuchSmallerThan sqrt mat diag subdiag false).2 =
        (Tridiagonalization._decomposeInPlace3x3 isMuchSmallerThan sqrt mat diag subdiag
          true).2 ∧
      (n = 3 →
        Tridiagonalization.decomposeInPlace isMuchSmallerThan sqrt n mat diag subdiag hCoeffs
            false =
          some (Tridiagonalization._decomposeInPlace3x3 isMuchSmallerThan sqrt mat diag subdiag
            false)) := by
  have h3a : (Tridiagonalization._decomposeInPlace3x3 isMuchSmallerThan sqrt mat diag subdiag
      false).1 = mat := by
    unfold Tridiagonalization._decomposeInPlace3x3
    by_cases hs : isMuchSmallerThan (ei_abs2 (mat 0 2)) 1 = true
    · simp only [if_pos hs, Bool.false_eq_true, if_false]
    · simp only [if_neg hs, Bool.false_eq_true, if_false]
  have h3b : (Tridiagonalization._decomposeInPlace3x3 isMuchSmallerThan sqrt mat diag subdiag
      false).2 =
        (Tridiagonalization._decomposeInPlace3x3 isMuchSmallerThan sqrt mat diag subdiag
          true).2 := by
    unfold Tridiagonalization._decomposeInPlace3x3
    by_cases hs : isMuchSmallerThan (ei_abs2 (mat 0 2)) 1 = true
    · simp only [if_pos hs]
    · simp only [if_neg hs]
  refine ⟨?_, h3a, h3b, ?_⟩
  · by_cases h3 : n = 3
    · refine ⟨(Tridiagonalization._decomposeInPlace3x3 isMuchSmallerThan sqrt mat diag subdiag
          true).1,
        (Tridiagonalization._decomposeInPlace3x3 isMuchSmallerThan sqrt mat diag subdiag
          true).2.1,
        (Tridiagonalization._decomposeInPlace3x3 isMuchSmallerThan sqrt mat diag subdiag
          true).2.2, ?_, ?_⟩
      · unfold Tridiagonalization.decomposeInPlace
        rw [if_pos h3, ← h3b]
        nth_rewrite 2 [← h3a]
        rfl
      · unfold Tridiagonalization.decomposeInPlace
        rw [if_pos h3]
    · unfold Tridiagonalization.decomposeInPlace Tridiagonalization._compute
      rw [if_neg h3, if_neg h3, if_pos hn]
      exact ⟨_, _, _, rfl, rfl⟩
  · intro h3
    unfold Tridiagonalization.decomposeInPlace
    rw [if_pos h3]

/-- C38 on the 3 × 3 matrix `[[1,3,4],[3,2,1],[4,1,0]]` (closed-form path)
and on the 4 × 4 example (general path). -/
theorem decomposeInPlace_without_Q_witness :
    (2 ≤ 3 ∧ ∃ Q d e,
      Tridiagonalization.decomposeInPlace (isMuchSmallerThanAt precisionFloat) Rat.sqrt 3
          seedSymmetric3 (fun _ => 0) (fun _ => 0) (fun _ => 0) false =
            some (seedSymmetric3, d, e) ∧
        Tridiagonalization.decomposeInPlace (isMuchSmallerThanAt precisionFloat) Rat.sqrt 3
          seedSymmetric3 (fun _ => 0) (fun _ => 0) (fun _ => 0) true = some (Q, d, e)) ∧
    (2 ≤ 4 ∧ ∃ Q d e,
      Tridiagonalization.decomposeInPlace (isMuchSmallerThanAt precisionFloat) Rat.sqrt 4
          seedTridiagA (fun _ => 0) (fun _ => 0) (fun _ => 0) false =
            some (seedTridiagA, d, e) ∧
        Tridiagonalization.decomposeInPlace (isMuchSmallerThanAt precisionFloat) Rat.sqrt 4
          seedTridiagA (fun _ => 0) (fun _ => 0) (fun _ => 0) true = some (Q, d, e)) :=
  ⟨⟨by decide,
      (decomposeInPlace_without_Q (isMuchSmallerThanAt precisionFloat) Rat.sqrt 3
        seedSymmetric3 (fun _ => 0) (fun _ => 0) (fun _ => 0) (by decide)).1⟩,
    ⟨by decide,
      (decomposeInPlace_without_Q (isMuchSmallerThanAt precisionFloat) Rat.sqrt 4
        seedTridiagA (fun _ => 0) (fun _ => 0) (fun _ => 0) (by decide)).1⟩⟩


/-! ## The accesses of `_compute` are in range from size 2 on -/

/-- Every access of an iteration `i < n - 2` of the loop of `_compute` is in
range. -/
theorem stepAccesses_inside (n : Nat) (i : Nat) (skip : Bool) (hi : i + 2 < n) :
    ∀ a ∈ Tridiagonalization.stepAccesses (n : Int) (i : Int) skip,
      a.inside (n : Int) (Tridiagonalization.hCoeffsSize n) = true := by
  intro a ha
  cases skip
  · simp only [Tridiagonalization.stepAccesses, Bool.false_eq_true, if_false,
      List.mem_append, List.mem_cons, List.mem_singleton, List.not_mem_nil, or_false] at ha
    rcases ha with rfl | rfl | rfl | rfl | rfl | rfl | rfl | rfl | rfl | rfl | rfl | rfl | rfl
    all_goals
      simp only [TridiagonalizationAccess.inside, Tridiagonalization.hCoeffsSize,
        decide_eq_true_eq]
      omega
  · simp only [Tridiagonalization.stepAccesses, if_true,
      List.mem_append, List.mem_cons, List.mem_singleton, List.not_mem_nil, or_false] at ha
    rcases ha with rfl | rfl
    all_goals
      simp only [TridiagonalizationAccess.inside, Tridiagonalization.hCoeffsSize,
        decide_eq_true_eq]
      omega

/-- Every access of the first `count ≤ n - 2` iterations of the loop of
`_compute` is in range. -/
theorem loopAccesses_inside (n : Nat) (skip : Nat → Bool) :
    ∀ count, count + 2 ≤ n →
      ∀ a ∈ Tridiagonalization.loopAccesses (n : Int) skip count,
        a.inside (n : Int) (Tridiagonalization.hCoeffsSize n) = true := by
  intro count
  induction count with
  | zero =>
    intro _ a ha
    simp [Tridiagonalization.loopAccesses] at ha
  | succ i ih =>
    intro hc a ha
    simp only [Tridiagonalization.loopAccesses, List.mem_append] at ha
    rcases ha with ha | ha
    · exact ih (by omega) a ha
    · exact stepAccesses_inside n i (skip i) (by omega) a ha

/-- The access `hCoeffs.coeffRef(n-2)` is made whatever the scalar type is. -/
theorem trailing_hCoeff_mem (isComplex : Bool) (skip : Nat → Bool) (n : Nat) :
    TridiagonalizationAccess.hCoeff ((n : Int) - 2) ∈
      Tridiagonalization.computeAccesses isComplex skip n := by
  unfold Tridiagonalization.computeAccesses Tridiagonalization.trailingAccesses
  cases isComplex <;> simp

/-- C36: for every square input of size `n`, all the column, corner and
`hCoeffs` accesses of `Tridiagonalization::_compute` are in range if and only
if `n ≥ 2`: the trailing write `hCoeffs[n-2]` (made for a real and for a
complex scalar) and, for a complex scalar, the read of `matA(n-1, n-2)` are in
range exactly when `n ≥ 2`; for `n = 1` the real case makes the single access
`hCoeffs[-1]`, to a vector of 0 coefficients; and the model `_compute` of the
real case has a result exactly when `n ≥ 2`. -/
theorem compute_accesses_inside_iff {K : Type} [LinearOrderedField K]
    (isMuchSmallerThan : K → K → Bool) (sqrt : K → K) (matA : Nat → Nat → K)
    (hCoeffs : Nat → K) (isComplex : Bool) (skip : Nat → Bool) (n : Nat) :
    ((∀ a ∈ Tridiagonalization.computeAccesses isComplex skip n,
        a.inside (n : Int) (Tridiagonalization.hCoeffsSize n) = true) ↔ 2 ≤ n) ∧
      (TridiagonalizationAccess.hCoeff ((n : Int) - 2) ∈
          Tridiagonalization.computeAccesses isComplex skip n ∧
        ((TridiagonalizationAccess.hCoeff ((n : Int) - 2)).inside (n : Int)
          (Tridiagonalization.hCoeffsSize n) = true ↔ 2 ≤ n)) ∧
      (isComplex = true →
        TridiagonalizationAccess.colCoeff ((n : Int) - 2) ((n : Int) - 2 + 1) ∈
            Tridiagonalization.computeAccesses isComplex skip n ∧
          ((TridiagonalizationAccess.colCoeff ((n : Int) - 2) ((n : Int) - 2 + 1)).inside
            (n : Int) (Tridiagonalization.hCoeffsSize n) = true ↔ 2 ≤ n)) ∧
      (Tridiagonalization.computeAccesses false skip 1 = [TridiagonalizationAccess.hCoeff (-1)] ∧
        Tridiagonalization.hCoeffsSize 1 = 0) ∧
      ((Tridiagonalization._compute isMuchSmallerThan sqrt n matA hCoeffs).isSome = true ↔
        2 ≤ n) := by
  have hh : (TridiagonalizationAccess.hCoeff ((n : Int) - 2)).inside (n : Int)
      (Tridiagonalization.hCoeffsSize n) = true ↔ 2 ≤ n := by
    simp only [TridiagonalizationAccess.inside, Tridiagonalization.hCoeffsSize,
      decide_eq_true_eq]
    omega
  refine ⟨⟨?_, ?_⟩, ⟨trailing_hCoeff_mem isComplex skip n, hh⟩, ?_, ⟨rfl, rfl⟩, ?_⟩
  · intro hall
    exact hh.mp (hall _ (trailing_hCoeff_mem isComplex skip n))
  · intro hn a ha
    simp only [Tridiagonalization.computeAccesses, List.mem_append] at ha
    rcases ha with ha | ha
    · exact loopAccesses_inside n skip (n - 2) (by omega) a ha
    · cases isComplex
      · simp only [Tridiagonalization.trailingAccesses, Bool.false_eq_true, if_false,
          List.mem_singleton] at ha
        rw [ha]
        exact hh.mpr hn
      · simp only [Tridiagonalization.trailingAccesses, if_true, List.mem_cons,
          List.mem_singleton, List.not_mem_nil, or_false] at ha
        rcases ha with rfl | rfl | rfl
        all_goals
          simp only [TridiagonalizationAccess.inside, Tridiagonalization.hCoeffsSize,
            decide_eq_true_eq]
          omega
  · intro hc
    subst hc
    constructor
    · unfold Tridiagonalization.computeAccesses Tridiagonalization.trailingAccesses
      simp
    · simp only [TridiagonalizationAccess.inside, Tridiagonalization.hCoeffsSize,
        decide_eq_true_eq]
      omega
  · unfold Tridiagonalization._compute
    by_cases hn : 2 ≤ n
    · simp [hn]
    · simp [hn]


/-! ## The closed form and the general path on 3 × 3 matrices -/

/-- With `u = c / (a - β)` and `β² = a² + c²` the ratios `a / β`, `c / β` and
the Householder coefficient `(β - a) / β` are rational functions of `u`. -/
theorem tridiag3_parametrisation {K : Type} [LinearOrderedField K] (a c β : K)
    (hβ : β ≠ 0) (ht : a - β ≠ 0) (hs : β * β = a * a + c * c) (u : K)
    (hu : u = c * (1 / (a - β))) :
    a / β = (u * u - 1) / (u * u + 1) ∧ c / β = -(2 * u) / (u * u + 1) ∧
      (β - a) / β = 2 / (u * u + 1) := by
  have hpos : u * u + 1 ≠ 0 := ne_of_gt (by nlinarith [mul_self_nonneg u])
  have hc : c = u * (a - β) := by
    rw [hu]; field_simp
  have h1 : a * (u * u + 1) = β * (u * u - 1) := by
    have h2 : (a - β) * (a * (u * u + 1) - β * (u * u - 1)) = 0 := by
      rw [hc] at hs
      linear_combination (-1) * hs
    rcases mul_eq_zero.mp h2 with h3 | h3
    · exact absurd h3 ht
    · linear_combination h3
  refine ⟨?_, ?_, ?_⟩
  · rw [div_eq_div_iff hβ hpos]
    linear_combination h1
  · rw [hc, div_eq_div_iff hβ hpos]
    linear_combination u * h1
  · rw [div_eq_div_iff hβ hpos]
    linear_combination (-1) * h1

/-- The similarity transformation of the 2 × 2 corner `[[d1, e], [e, d2]]` by
the reflector with the vector `(1, u)` and the coefficient `h`, as the general
path computes it, gives the entries of the closed form. -/
theorem tridiag3_algebra {K : Type} [LinearOrderedField K] (a c e d1 d2 β : K)
    (hβ : β ≠ 0) (ht : a - β ≠ 0) (hs : β * β = a * a + c * c)
    (u h p0 p1 k : K) (hu : u = c * (1 / (a - β))) (hh : h = (β - a) / β)
    (hp0 : p0 = d1 + e * u) (hp1 : p1 = e + d2 * u) (hk : k = h * p0 + u * (h * p1)) :
    d1 - 2 * (h * p0 - h / 2 * k) = d1 + c / β * (2 * (a / β) * e + c / β * (d2 - d1)) ∧
      d2 - 2 * u * (h * p1 - h / 2 * k * u) =
        d2 - c / β * (2 * (a / β) * e + c / β * (d2 - d1)) ∧
      e - (u * (h * p0 - h / 2 * k) + (h * p1 - h / 2 * k * u)) =
        e - a / β * (2 * (a / β) * e + c / β * (d2 - d1)) := by
  obtain ⟨ha, hc, hh2⟩ := tridiag3_parametrisation a c β hβ ht hs u hu
  have hpos : u * u + 1 ≠ 0 := ne_of_gt (by nlinarith [mul_self_nonneg u])
  rw [ha, hc, hk, hp0, hp1, hh, hh2]
  refine ⟨?_, ?_, ?_⟩
  · field_simp
    ring
  · field_simp
    ring
  · field_simp
    ring

/-- The products of the closed form do not change when the square root is
replaced by its opposite. -/
theorem closedForm_even {K : Type} [LinearOrderedField K] (a c e d1 d2 β b : K) (hβ : β ≠ 0)
    (hb : b = β ∨ b = -β) :
    c * (1 / b) * (2 * (a * (1 / b)) * e + c * (1 / b) * (d2 - d1)) =
        c / β * (2 * (a / β) * e + c / β * (d2 - d1)) ∧
      a * (1 / b) * (2 * (a * (1 / b)) * e + c * (1 / b) * (d2 - d1)) =
        a / β * (2 * (a / β) * e + c / β * (d2 - d1)) := by
  rcases hb with hb | hb
  · subst hb
    constructor <;> (field_simp)
  · subst hb
    constructor <;> (field_simp)

/-- The temporary vector of the only iteration of the loop of `_compute` on a
3 × 3 matrix. -/
theorem stepCorrection_three {K : Type} [LinearOrderedField K] (sqrt : K → K)
    (A : Nat → Nat → K) :
    Tridiagonalization.stepCorrection sqrt 3 0 A 0 =
        Tridiagonalization.stepH sqrt 3 0 A *
            (A 1 1 + A 2 1 * (A 2 0 * (1 / (A 1 0 - Tridiagonalization.stepBeta sqrt 3 0 A)))) -
          Tridiagonalization.stepH sqrt 3 0 A / 2 *
            (Tridiagonalization.stepH sqrt 3 0 A *
                (A 1 1 +
                  A 2 1 * (A 2 0 * (1 / (A 1 0 - Tridiagonalization.stepBeta sqrt 3 0 A)))) +
              A 2 0 * (1 / (A 1 0 - Tridiagonalization.stepBeta sqrt 3 0 A)) *
                (Tridiagonalization.stepH sqrt 3 0 A *
                  (A 2 1 +
                    A 2 2 *
                      (A 2 0 * (1 / (A 1 0 - Tridiagonalization.stepBeta sqrt 3 0 A)))))) ∧
      Tridiagonalization.stepCorrection sqrt 3 0 A 1 =
        Tridiagonalization.stepH sqrt 3 0 A *
            (A 2 1 + A 2 2 * (A 2 0 * (1 / (A 1 0 - Tridiagonalization.stepBeta sqrt 3 0 A)))) -
          Tridiagonalization.stepH sqrt 3 0 A / 2 *
            (Tridiagonalization.stepH sqrt 3 0 A *
                (A 1 1 +
                  A 2 1 * (A 2 0 * (1 / (A 1 0 - Tridiagonalization.stepBeta sqrt 3 0 A)))) +
              A 2 0 * (1 / (A 1 0 - Tridiagonalization.stepBeta sqrt 3 0 A)) *
                (Tridiagonalization.stepH sqrt 3 0 A *
                  (A 2 1 +
                    A 2 2 *
                      (A 2 0 * (1 / (A 1 0 - Tridiagonalization.stepBeta sqrt 3 0 A)))))) *
            (A 2 0 * (1 / (A 1 0 - Tridiagonalization.stepBeta sqrt 3 0 A))) := by
  generalize hβ : Tridiagonalization.stepBeta sqrt 3 0 A = β
  generalize hh : Tridiagonalization.stepH sqrt 3 0 A = h
  constructor
  · simp [Tridiagonalization.stepCorrection, Tridiagonalization.stepProduct,
      Tridiagonalization.stepScaled, accumulate, selfAdjointLower, setCoeff, hβ, hh]
    ring
  · simp [Tridiagonalization.stepCorrection, Tridiagonalization.stepProduct,
      Tridiagonalization.stepScaled, accumulate, selfAdjointLower, setCoeff, hβ, hh]
    ring

/-- On a 3 × 3 matrix whose entry `(2, 0)` is not negligible `_compute` makes
one Householder step. -/
theorem compute_three {K : Type} [LinearOrderedField K] (isMuchSmallerThan : K → K → Bool)
    (sqrt : K → K) (A : Nat → Nat → K) (hCoeffs : Nat → K)
    (hns : isMuchSmallerThan (ei_abs2 (A 2 0)) 1 = false) :
    ∃ h, Tridiagonalization._compute isMuchSmallerThan sqrt 3 A hCoeffs =
      some ((Tridiagonalization.householderStep sqrt 3 0 (A, hCoeffs)).1, h) := by
  have hv : Tridiagonalization.v1norm2 3 0 A = ei_abs2 (A 2 0) := by
    simp [Tridiagonalization.v1norm2, accumulate]
  have hstep : Tridiagonalization.computeLoop isMuchSmallerThan sqrt 3 (3 - 2) (A, hCoeffs) =
      Tridiagonalization.householderStep sqrt 3 0 (A, hCoeffs) := by
    have h1 : 3 - 2 = 0 + 1 := rfl
    rw [h1]
    simp only [Tridiagonalization.computeLoop, Tridiagonalization.computeStep]
    rw [hv, hns]
    simp
  rw [compute_eq_some isMuchSmallerThan sqrt 3 (by decide) A hCoeffs, hstep]
  exact ⟨_, rfl⟩

/-- The entries that the Householder step on a 3 × 3 matrix leaves on the
diagonal and the sub-diagonal. -/
theorem householderStep_three {K : Type} [LinearOrderedField K] (sqrt : K → K)
    (A : Nat → Nat → K) (hCoeffs : Nat → K) :
    (Tridiagonalization.householderStep sqrt 3 0 (A, hCoeffs)).1 0 0 = A 0 0 ∧
      (Tridiagonalization.householderStep sqrt 3 0 (A, hCoeffs)).1 1 0 =
        Tridiagonalization.stepBeta sqrt 3 0 A ∧
      (Tridiagonalization.householderStep sqrt 3 0 (A, hCoeffs)).1 1 1 =
        A 1 1 - 2 * Tridiagonalization.stepCorrection sqrt 3 0 A 0 ∧
      (Tridiagonalization.householderStep sqrt 3 0 (A, hCoeffs)).1 2 2 =
        A 2 2 - 2 * (A 2 0 * (1 / (A 1 0 - Tridiagonalization.stepBeta sqrt 3 0 A))) *
          Tridiagonalization.stepCorrection sqrt 3 0 A 1 ∧
      (Tridiagonalization.householderStep sqrt 3 0 (A, hCoeffs)).1 2 1 =
        A 2 1 - (A 2 0 * (1 / (A 1 0 - Tridiagonalization.stepBeta sqrt 3 0 A)) *
            Tridiagonalization.stepCorrection sqrt 3 0 A 0 +
          Tridiagonalization.stepCorrection sqrt 3 0 A 1) := by
  have hhead : Tridiagonalization.stepScaled sqrt 3 0 A 1 0 = 1 :=
    stepScaled_col_head sqrt 3 0 A
  have htail : Tridiagonalization.stepScaled sqrt 3 0 A 2 0 =
      A 2 0 * (1 / (A 1 0 - Tridiagonalization.stepBeta sqrt 3 0 A)) :=
    stepScaled_col_tail sqrt 3 0 A 2 (by omega) (by omega)
  refine ⟨householderStep_fst_diag sqrt 3 0 (A, hCoeffs) 0 (le_refl _),
    householderStep_fst_sub sqrt 3 0 (A, hCoeffs), ?_, ?_, ?_⟩
  · rw [householderStep_fst_corner sqrt 3 0 (A, hCoeffs) 1 1 (by omega) (le_refl _) (by omega)]
    simp only [hhead]
    have h0 : 1 - (0 + 1) = 0 := rfl
    rw [h0]
    ring
  · rw [householderStep_fst_corner sqrt 3 0 (A, hCoeffs) 2 2 (by omega) (le_refl _) (by omega)]
    simp only [htail]
    have h0 : 2 - (0 + 1) = 1 := rfl
    rw [h0]
    ring
  · rw [householderStep_fst_corner sqrt 3 0 (A, hCoeffs) 2 1 (by omega) (by omega) (by omega)]
    simp only [htail, hhead]
    have h0 : 1 - (0 + 1) = 0 := rfl
    have h1 : 2 - (0 + 1) = 1 := rfl
    rw [h0, h1]
    ring

/-- What the closed form writes when the entry `(0, 2)` is not negligible. -/
theorem decomposeInPlace3x3_values {K : Type} [LinearOrderedField K]
    (isMuchSmallerThan : K → K → Bool) (sqrt : K → K) (A : Nat → Nat → K)
    (diag subdiag : Nat → K) (extractQ : Bool)
    (hns : isMuchSmallerThan (ei_abs2 (A 0 2)) 1 = false) :
    (Tridiagonalization._decomposeInPlace3x3 isMuchSmallerThan sqrt A diag subdiag
        extractQ).2.1 0 = A 0 0 ∧
      (Tridiagonalization._decomposeInPlace3x3 isMuchSmallerThan sqrt A diag subdiag
        extractQ).2.1 1 =
        A 1 1 + A 0 2 * (1 / sqrt (ei_abs2 (A 0 1) + ei_abs2 (A 0 2))) *
          (2 * (A 0 1 * (1 / sqrt (ei_abs2 (A 0 1) + ei_abs2 (A 0 2)))) * A 1 2 +
            A 0 2 * (1 / sqrt (ei_abs2 (A 0 1) + ei_abs2 (A 0 2))) * (A 2 2 - A 1 1)) ∧
      (Tridiagonalization._decomposeInPlace3x3 isMuchSmallerThan sqrt A diag subdiag
        extractQ).2.1 2 =
        A 2 2 - A 0 2 * (1 / sqrt (ei_abs2 (A 0 1) + ei_abs2 (A 0 2))) *
          (2 * (A 0 1 * (1 / sqrt (ei_abs2 (A 0 1) + ei_abs2 (A 0 2)))) * A 1 2 +
            A 0 2 * (1 / sqrt (ei_abs2 (A 0 1) + ei_abs2 (A 0 2))) * (A 2 2 - A 1 1)) ∧
      (Tridiagonalization._decomposeInPlace3x3 isMuchSmallerThan sqrt A diag subdiag
        extractQ).2.2 0 = sqrt (ei_abs2 (A 0 1) + ei_abs2 (A 0 2)) ∧
      (Tridiagonalization._decomposeInPlace3x3 isMuchSmallerThan sqrt A diag subdiag
        extractQ).2.2 1 =
        A 1 2 - A 0 1 * (1 / sqrt (ei_abs2 (A 0 1) + ei_abs2 (A 0 2))) *
          (2 * (A 0 1 * (1 / sqrt (ei_abs2 (A 0 1) + ei_abs2 (A 0 2)))) * A 1 2 +
            A 0 2 * (1 / sqrt (ei_abs2 (A 0 1) + ei_abs2 (A 0 2))) * (A 2 2 - A 1 1)) := by
  unfold Tridiagonalization._decomposeInPlace3x3
  simp only [hns, Bool.false_eq_true, if_false]
  simp [Function.update]

/-- C37: for every real symmetric 3 × 3 matrix `A` whose entry `A(0,2)` is not
negligible (the square root being exact at `A(0,1)² + A(0,2)²`), the general
path (`_compute`, then `diagonal()` and `subDiagonal()`) returns, and returns
the diagonal of the closed-form path `_decomposeInPlace3x3` and sub-diagonals
of the same absolute value (the second one is the same); the closed-form path
returns `subdiag[0] > 0`, whereas the first sub-diagonal entry of the general
path is the opposite of it when `A(1,0) ≥ 0` and is it when `A(1,0) < 0`: its
sign is opposite to that of `A(1,0)`. -/
theorem closedForm_agrees_with_general {K : Type} [LinearOrderedField K]
    (isMuchSmallerThan : K → K → Bool) (sqrt : K → K) (A : Nat → Nat → K)
    (diag subdiag hCoeffs : Nat → K) (hA : ∀ r c, r < 3 → c < 3 → A r c = A c r)
    (hzero : isMuchSmallerThan 0 1 = true)
    (hns : isMuchSmallerThan (ei_abs2 (A 0 2)) 1 = false)
    (hsq : 0 ≤ sqrt (ei_abs2 (A 0 1) + ei_abs2 (A 0 2)) ∧
      sqrt (ei_abs2 (A 0 1) + ei_abs2 (A 0 2)) * sqrt (ei_abs2 (A 0 1) + ei_abs2 (A 0 2)) =
        ei_abs2 (A 0 1) + ei_abs2 (A 0 2)) :
    ∃ M h, Tridiagonalization._compute isMuchSmallerThan sqrt 3 A hCoeffs = some (M, h) ∧
      (∀ k, k < 3 → Tridiagonalization.diagonal M k =
        (Tridiagonalization._decomposeInPlace3x3 isMuchSmallerThan sqrt A diag subdiag
          false).2.1 k) ∧
      (∀ k, k < 2 → |Tridiagonalization.subDiagonal M k| =
        |(Tridiagonalization._decomposeInPlace3x3 isMuchSmallerThan sqrt A diag subdiag
          false).2.2 k|) ∧
      Tridiagonalization.subDiagonal M 1 =
        (Tridiagonalization._decomposeInPlace3x3 isMuchSmallerThan sqrt A diag subdiag
          false).2.2 1 ∧
      0 < (Tridiagonalization._decomposeInPlace3x3 isMuchSmallerThan sqrt A diag subdiag
        false).2.2 0 ∧
      (0 ≤ A 1 0 → Tridiagonalization.subDiagonal M 0 < 0 ∧
        Tridiagonalization.subDiagonal M 0 =
          -(Tridiagonalization._decomposeInPlace3x3 isMuchSmallerThan sqrt A diag subdiag
            false).2.2 0) ∧
      (A 1 0 < 0 → 0 < Tridiagonalization.subDiagonal M 0 ∧
        Tridiagonalization.subDiagonal M 0 =
          (Tridiagonalization._decomposeInPlace3x3 isMuchSmallerThan sqrt A diag subdiag
            false).2.2 0) := by
  have h01 : A 0 1 = A 1 0 := hA 0 1 (by omega) (by omega)
  have h02 : A 0 2 = A 2 0 := hA 0 2 (by omega) (by omega)
  have h12 : A 1 2 = A 2 1 := hA 1 2 (by omega) (by omega)
  obtain ⟨c0, c1, c2, s0, s1⟩ :=
    decomposeInPlace3x3_values isMuchSmallerThan sqrt A diag subdiag false hns
  rw [h01, h02] at hsq
  rw [h01, h02, h12] at c1 c2 s1
  rw [h01, h02] at s0
  rw [h02] at hns
  generalize hb : sqrt (ei_abs2 (A 1 0) + ei_abs2 (A 2 0)) = b at hsq c1 c2 s0 s1
  have hne : ei_abs2 (A 2 0) ≠ 0 := by
    intro h0
    rw [h0, hzero] at hns
    exact Bool.noConfusion hns
  have hpos : 0 < ei_abs2 (A 1 0) + ei_abs2 (A 2 0) :=
    add_pos_of_nonneg_of_pos (mul_self_nonneg _)
      (lt_of_le_of_ne (mul_self_nonneg _) (Ne.symm hne))
  have hb0 : b ≠ 0 := by
    intro h0
    rw [h0, mul_zero] at hsq
    exact (ne_of_gt hpos) hsq.2.symm
  have hbpos : 0 < b := lt_of_le_of_ne hsq.1 (Ne.symm hb0)
  have hv : Tridiagonalization.v1norm2 3 0 A = ei_abs2 (A 2 0) := by
    simp [Tridiagonalization.v1norm2, accumulate]
  have hβ : Tridiagonalization.stepBeta sqrt 3 0 A = if 0 ≤ A 1 0 then -b else b := by
    unfold Tridiagonalization.stepBeta
    simp only []
    rw [hv]
    have h1 : (0 : Nat) + 1 = 1 := rfl
    rw [h1, hb]
  obtain ⟨h, hrun⟩ := compute_three isMuchSmallerThan sqrt A hCoeffs hns
  obtain ⟨g00, g10, g11, g22, g21⟩ := householderStep_three sqrt A hCoeffs
  obtain ⟨k0, k1⟩ := stepCorrection_three sqrt A
  have hH : Tridiagonalization.stepH sqrt 3 0 A =
      (Tridiagonalization.stepBeta sqrt 3 0 A - A 1 0) / Tridiagonalization.stepBeta sqrt 3 0 A := rfl
  generalize Tridiagonalization.stepBeta sqrt 3 0 A = β at hβ g10 g11 g22 g21 k0 k1 hH
  have hβfacts : β ≠ 0 ∧ A 1 0 - β ≠ 0 ∧ β * β = A 1 0 * A 1 0 + A 2 0 * A 2 0 ∧
      (b = β ∨ b = -β) := by
    have hs2 : b * b = A 1 0 * A 1 0 + A 2 0 * A 2 0 := hsq.2
    by_cases hv0 : 0 ≤ A 1 0
    · rw [if_pos hv0] at hβ
      subst hβ
      refine ⟨neg_ne_zero.mpr hb0, ?_, by rw [neg_mul_neg]; exact hs2, Or.inr (neg_neg b).symm⟩
      rw [sub_neg_eq_add]
      exact ne_of_gt (add_pos_of_nonneg_of_pos hv0 hbpos)
    · rw [if_neg hv0] at hβ
      subst hβ
      refine ⟨hb0, ?_, hs2, Or.inl rfl⟩
      have : A 1 0 < 0 := not_le.mp hv0
      exact ne_of_lt (by linarith)
  obtain ⟨hβ0, ht, hs, hbβ⟩ := hβfacts
  obtain ⟨a1, a2, a3⟩ := tridiag3_algebra (A 1 0) (A 2 0) (A 2 1) (A 1 1) (A 2 2) β hβ0 ht hs
    (A 2 0 * (1 / (A 1 0 - β))) (Tridiagonalization.stepH sqrt 3 0 A)
    (A 1 1 + A 2 1 * (A 2 0 * (1 / (A 1 0 - β)))) (A 2 1 + A 2 2 * (A 2 0 * (1 / (A 1 0 - β))))
    _ rfl hH rfl rfl rfl
  obtain ⟨e1, e2⟩ := closedForm_even (A 1 0) (A 2 0) (A 2 1) (A 1 1) (A 2 2) β b hβ0 hbβ
  have d1 : (Tridiagonalization.householderStep sqrt 3 0 (A, hCoeffs)).1 1 1 =
      (Tridiagonalization._decomposeInPlace3x3 isMuchSmallerThan sqrt A diag subdiag false).2.1 1 := by
    rw [g11, c1, k0, e1, ← a1]
  have d2 : (Tridiagonalization.householderStep sqrt 3 0 (A, hCoeffs)).1 2 2 =
      (Tridiagonalization._decomposeInPlace3x3 isMuchSmallerThan sqrt A diag subdiag false).2.1 2 := by
    rw [g22, c2, k1, e1, ← a2]
  have d3 : (Tridiagonalization.householderStep sqrt 3 0 (A, hCoeffs)).1 2 1 =
      (Tridiagonalization._decomposeInPlace3x3 isMuchSmallerThan sqrt A diag subdiag false).2.2 1 := by
    rw [g21, s1, k0, k1, e2, ← a3]
  refine ⟨_, h, hrun, ?_, ?_, ?_, ?_, ?_, ?_⟩
  · intro k hk
    unfold Tridiagonalization.diagonal
    interval_cases k
    · rw [g00, c0]
    · exact d1
    · exact d2
  · intro k hk
    unfold Tridiagonalization.subDiagonal
    interval_cases k
    · rw [g10, s0]
      rcases hbβ with h1 | h1
      · rw [h1]
      · rw [h1, abs_neg]
    · rw [d3]
  · exact d3
  · rw [s0]; exact hbpos
  · intro hv0
    unfold Tridiagonalization.subDiagonal
    rw [g10, s0, hβ, if_pos hv0]
    exact ⟨neg_lt_zero.mpr hbpos, rfl⟩
  · intro hv0
    unfold Tridiagonalization.subDiagonal
    rw [g10, s0, hβ, if_neg (not_le.mpr hv0)]
    exact ⟨hbpos, rfl⟩

/-- C37 on `A = [[1,3,4],[3,2,1],[4,1,0]]`, where the square root taken is that
of `25` and `A(1,0) = 3 ≥ 0`: both paths give the diagonal `[1, 42/25, 8/25]`;
the closed form gives the sub-diagonal `[5, 31/25]`, the general path
`[-5, 31/25]`. -/
theorem closedForm_agrees_with_general_witness :
    ((∀ r c, r < 3 → c < 3 → seedSymmetric3 r c = seedSymmetric3 c r) ∧
      isMuchSmallerThanAt precisionFloat 0 1 = true ∧
      isMuchSmallerThanAt precisionFloat (ei_abs2 (seedSymmetric3 0 2)) 1 = false ∧
      (0 ≤ Rat.sqrt (ei_abs2 (seedSymmetric3 0 1) + ei_abs2 (seedSymmetric3 0 2)) ∧
        Rat.sqrt (ei_abs2 (seedSymmetric3 0 1) + ei_abs2 (seedSymmetric3 0 2)) *
            Rat.sqrt (ei_abs2 (seedSymmetric3 0 1) + ei_abs2 (seedSymmetric3 0 2)) =
          ei_abs2 (seedSymmetric3 0 1) + ei_abs2 (seedSymmetric3 0 2))) ∧
    ∃ M h, Tridiagonalization._compute (isMuchSmallerThanAt precisionFloat) Rat.sqrt 3
        seedSymmetric3 (fun _ => 0) = some (M, h) ∧
      (∀ k, k < 3 → Tridiagonalization.diagonal M k =
        (Tridiagonalization._decomposeInPlace3x3 (isMuchSmallerThanAt precisionFloat) Rat.sqrt
          seedSymmetric3 (fun _ => 0) (fun _ => 0) false).2.1 k) ∧
      (∀ k, k < 2 → |Tridiagonalization.subDiagonal M k| =
        |(Tridiagonalization._decomposeInPlace3x3 (isMuchSmallerThanAt precisionFloat) Rat.sqrt
          seedSymmetric3 (fun _ => 0) (fun _ => 0) false).2.2 k|) ∧
      Tridiagonalization.subDiagonal M 1 =
        (Tridiagonalization._decomposeInPlace3x3 (isMuchSmallerThanAt precisionFloat) Rat.sqrt
          seedSymmetric3 (fun _ => 0) (fun _ => 0) false).2.2 1 ∧
      0 < (Tridiagonalization._decomposeInPlace3x3 (isMuchSmallerThanAt precisionFloat) Rat.sqrt
        seedSymmetric3 (fun _ => 0) (fun _ => 0) false).2.2 0 ∧
      (0 ≤ seedSymmetric3 1 0 → Tridiagonalization.subDiagonal M 0 < 0 ∧
        Tridiagonalization.subDiagonal M 0 =
          -(Tridiagonalization._decomposeInPlace3x3 (isMuchSmallerThanAt precisionFloat)
            Rat.sqrt seedSymmetric3 (fun _ => 0) (fun _ => 0) false).2.2 0) ∧
      (seedSymmetric3 1 0 < 0 → 0 < Tridiagonalization.subDiagonal M 0 ∧
        Tridiagonalization.subDiagonal M 0 =
          (Tridiagonalization._decomposeInPlace3x3 (isMuchSmallerThanAt precisionFloat)
            Rat.sqrt seedSymmetric3 (fun _ => 0) (fun _ => 0) false).2.2 0) :=
  have hsym : ∀ r c, r < 3 → c < 3 → seedSymmetric3 r c = seedSymmetric3 c r := by
    intro r c hr hc
    interval_cases r <;> interval_cases c <;> rfl
  have hns : isMuchSmallerThanAt precisionFloat (ei_abs2 (seedSymmetric3 0 2)) 1 = false := by
    have h : ei_abs2 (seedSymmetric3 0 2) = 16 := by norm_num [ei_abs2, seedSymmetric3]
    rw [h]
    simp only [isMuchSmallerThanAt, precisionFloat, decide_eq_false_iff_not]
    rw [abs_of_pos (by norm_num : (0 : ℚ) < 16)]
    norm_num
  have hsq : 0 ≤ Rat.sqrt (ei_abs2 (seedSymmetric3 0 1) + ei_abs2 (seedSymmetric3 0 2)) ∧
      Rat.sqrt (ei_abs2 (seedSymmetric3 0 1) + ei_abs2 (seedSymmetric3 0 2)) *
          Rat.sqrt (ei_abs2 (seedSymmetric3 0 1) + ei_abs2 (seedSymmetric3 0 2)) =
        ei_abs2 (seedSymmetric3 0 1) + ei_abs2 (seedSymmetric3 0 2) := by
    have h : ei_abs2 (seedSymmetric3 0 1) + ei_abs2 (seedSymmetric3 0 2) = 5 * 5 := by
      norm_num [ei_abs2, seedSymmetric3]
    rw [h, Rat.sqrt_eq]
    norm_num
  ⟨⟨hsym, isMuchSmallerThanAt_zero, hns, hsq⟩,
    closedForm_agrees_with_general (isMuchSmallerThanAt precisionFloat) Rat.sqrt seedSymmetric3
      (fun _ => 0) (fun _ => 0) (fun _ => 0) hsym isMuchSmallerThanAt_zero hns hsq⟩


/-! ## The trailing coefficient of `_compute` for a complex scalar -/

/-- The model `_compute` is the loop followed by the trailing statements for
a real scalar (`NumTraits<Scalar>::IsComplex` false). -/
theorem compute_eq_trailing {K : Type} [LinearOrderedField K]
    (isMuchSmallerThan : K → K → Bool) (sqrt : K → K) (n : Nat) (hn : 2 ≤ n)
    (A : Nat → Nat → K) (h0 : Nat → K) (ei_real ei_abs ofReal : K → K) :
    Tridiagonalization._compute isMuchSmallerThan sqrt n A h0 =
      some (Tridiagonalization._compute_trailing false ei_real ei_abs ofReal n
        (Tridiagonalization.computeLoop isMuchSmallerThan sqrt n (n - 2) (A, h0))) := by
  rw [compute_eq_some isMuchSmallerThan sqrt n hn A h0]
  rfl

end Eigen
